import Mathlib

/-!
# Scheduler of Masrkai/OS_Project: shallow embedding and verified properties

Embedding of `src/scheduler.c` (ready queue, dispatch policies, process
lifecycle, main loop, startup and performance summary), of the worker loop of
`src/process.c` and of the configuration checks of `src/process_generator.c`.

Modelling conventions
* C `int` fields are unbounded `Int`: no property below depends on wrap-around,
  and signed overflow is undefined in C.
* A `PCB*` is the slot index of the PCB in the arena `processes`; `NULL` is
  `none`.  A `QueueNode*` is an address in an explicit node heap.
* `malloc` always succeeds and returns an address that is not in use (a bump
  allocator: the next address after all addresses handed out so far).
* A C function that dereferences an invalid pointer, writes past the arena, or
  whose `while` loop does not terminate has no result: the embedding returns
  `none`.  List traversals are bounded by the number of addresses ever
  allocated plus one, which every terminating traversal of allocated nodes
  respects.
* The environment of one loop iteration (clock reads, pending messages, the
  result of `fork`) is an explicit input, `TickInput`.  Output to the terminal
  and the control signals sent to workers are not part of the state; the lines
  of scheduler.log are.
* `SIGUSR1` is delivered between two loop iterations (the scheduler spends its
  time in `usleep`); `step` makes it an event of its own.
* A `double` is an IEEE 754 binary64 value (`Dbl`): results are rounded to 53
  significant bits, to nearest, ties to even, each operation on its own (no
  fused multiply-add, no wider intermediate format), and a division by zero
  gives an infinity or NaN.  The exponent range is not bounded: the operands
  come from `int` values and at most `MAX_PROCESSES` finish events, which
  keeps every result of the program far inside the range of binary64.
  `sqrt` of math.h is a parameter of `writePerformanceMetrics`, and the
  formatting of numbers by `fprintf` is not part of the embedding.
-/

namespace OSProject

/-! ## Data model (scheduler.c lines 8-54) -/

/-- Process states, `ProcessState` of scheduler.c. -/
inductive ProcessState where
  | READY
  | RUNNING
  | BLOCKED
  | FINISHED
deriving DecidableEq

/-- Process control block, `PCB` of scheduler.c. -/
structure PCB where
  id : Int
  arrivalTime : Int
  runtime : Int
  priority : Int
  remainingTime : Int
  waitingTime : Int
  executionTime : Int
  startTime : Int
  finishTime : Int
  lastStopTime : Int
  state : ProcessState
  pid : Int
  started : Bool
deriving DecidableEq

/-- Queue node: the PCB pointer (arena slot) and the next-node pointer. -/
structure QueueNode where
  pcb : Nat
  next : Option Nat
deriving DecidableEq

/-- Ready queue header, `Queue` of scheduler.c. -/
structure Queue where
  head : Option Nat
  tail : Option Nat
  size : Int
deriving DecidableEq

/-- Node heap: cell `a` holds the node stored at address `a`, or `none` when
the address is free.  Addresses at or beyond the length were never allocated. -/
structure Heap where
  cells : List (Option QueueNode)
deriving DecidableEq

/-- Dereference a node pointer; `none` when the address holds no live node. -/
def Heap.read (h : Heap) (a : Nat) : Option QueueNode :=
  (h.cells[a]?).join

/-- Store a node at an address. -/
def Heap.write (h : Heap) (a : Nat) (n : QueueNode) : Heap :=
  ⟨h.cells.set a (some n)⟩

/-- Result of `malloc(sizeof(QueueNode))` followed by initialising the node:
the new heap and the fresh address. -/
def Heap.malloc (h : Heap) (n : QueueNode) : Heap × Nat :=
  (⟨h.cells ++ [some n]⟩, h.cells.length)

/-- Release the node at an address, `free`. -/
def Heap.free (h : Heap) (a : Nat) : Heap :=
  ⟨h.cells.set a none⟩

/-- Bound on the number of iterations of a terminating traversal of live
nodes: one per address ever allocated, plus the final `NULL` test. -/
def Heap.bound (h : Heap) : Nat := h.cells.length + 1

/-! ## Ready queue (scheduler.c lines 193-262) -/

/-- The `initQueue` of scheduler.c. -/
def initQueue : Queue := { head := none, tail := none, size := 0 }

/-- The `enqueue` of scheduler.c: allocate a node and link it behind the tail. -/
def enqueue (h : Heap) (q : Queue) (pcb : Nat) : Option (Heap × Queue) :=
  let m := h.malloc { pcb := pcb, next := none }
  match q.tail with
  | none => some (m.1, { head := some m.2, tail := some m.2, size := q.size + 1 })
  | some t =>
    match m.1.read t with
    | none => none
    | some tn =>
      some (m.1.write t { tn with next := some m.2 },
            { q with tail := some m.2, size := q.size + 1 })

/-- The `dequeue` of scheduler.c: unlink and free the head node, returning its
PCB pointer (`NULL` on an empty queue). -/
def dequeue (h : Heap) (q : Queue) : Option (Heap × Queue × Option Nat) :=
  match q.head with
  | none => some (h, q, none)
  | some a =>
    match h.read a with
    | none => none
    | some node =>
      let q1 : Queue := { q with head := node.next }
      let q2 : Queue := if q1.head = none then { q1 with tail := none } else q1
      some (h.free a, { q2 with size := q2.size - 1 }, some node.pcb)

/-- The `peek` of scheduler.c. -/
def peek (h : Heap) (q : Queue) : Option (Option Nat) :=
  match q.head with
  | none => some none
  | some a =>
    match h.read a with
    | none => none
    | some node => some (some node.pcb)

/-- The `isEmpty` of scheduler.c: tests the size field. -/
def isEmpty (q : Queue) : Bool := q.size == 0

/-- The `while (curr != NULL)` loop of `removeFromQueue`. -/
def removeLoop (pcb : Nat) :
    Nat → Heap → Queue → Nat → Option Nat → Option (Heap × Queue)
  | 0, _, _, _, _ => none
  | _ + 1, h, q, _, none => some (h, q)
  | fuel + 1, h, q, prev, some c =>
    match h.read c with
    | none => none
    | some cn =>
      if cn.pcb = pcb then
        match h.read prev with
        | none => none
        | some pn =>
          let h1 := h.write prev { pn with next := cn.next }
          let q1 : Queue := if some c = q.tail then { q with tail := some prev } else q
          some (h1.free c, { q1 with size := q1.size - 1 })
      else removeLoop pcb fuel h q c cn.next

/-- The `removeFromQueue` of scheduler.c. -/
def removeFromQueue (h : Heap) (q : Queue) (pcb : Nat) : Option (Heap × Queue) :=
  match q.head with
  | none => some (h, q)
  | some a =>
    match h.read a with
    | none => none
    | some hn =>
      if hn.pcb = pcb then
        match dequeue h q with
        | none => none
        | some r => some (r.1, r.2.1)
      else removeLoop pcb h.bound h q a hn.next

/-! ## Abstraction of the linked queue -/

/-- The nodes linked from pointer `p` up to `NULL` are exactly `l`, given as
(address, PCB pointer) pairs in link order. -/
def Chain (h : Heap) : Option Nat → List (Nat × Nat) → Prop
  | p, [] => p = none
  | p, n :: rest =>
    p = some n.1 ∧ (h.read n.1).map QueueNode.pcb = some n.2 ∧
      Chain h ((h.read n.1).bind QueueNode.next) rest

instance Chain.decide (h : Heap) : (p : Option Nat) → (l : List (Nat × Nat)) →
    Decidable (Chain h p l)
  | p, [] => inferInstanceAs (Decidable (p = none))
  | p, n :: rest =>
    have := Chain.decide h ((h.read n.1).bind QueueNode.next) rest
    inferInstanceAs (Decidable (p = some n.1 ∧ (h.read n.1).map QueueNode.pcb = some n.2 ∧
      Chain h ((h.read n.1).bind QueueNode.next) rest))

/-- Well-formed linked queue with node list `l`: the nodes reachable from
`head` are `l`, `tail` is the last of them (`NULL` when there is none) and
`size` is their number. -/
def WF (h : Heap) (q : Queue) (l : List (Nat × Nat)) : Prop :=
  Chain h q.head l ∧ q.tail = l.getLast?.map Prod.fst ∧ q.size = l.length

instance WF.decide (h : Heap) (q : Queue) (l : List (Nat × Nat)) : Decidable (WF h q l) :=
  inferInstanceAs (Decidable (_ ∧ _ ∧ _))

/-- The queue `q` in heap `h` is well formed and its entries, from head to
tail, are the PCB pointers `s`. -/
def IsQueue (h : Heap) (q : Queue) (s : List Nat) : Prop :=
  ∃ l : List (Nat × Nat), WF h q l ∧ l.map Prod.snd = s

/-- Enqueue the PCB pointers of a list, in order. -/
def enqueueAll : Heap → Queue → List Nat → Option (Heap × Queue)
  | h, q, [] => some (h, q)
  | h, q, p :: ps =>
    match enqueue h q p with
    | none => none
    | some r => enqueueAll r.1 r.2 ps

/-- Call `dequeue` `n` times, collecting the returned pointers in call order. -/
def dequeueN : Nat → Heap → Queue → Option (Heap × Queue × List (Option Nat))
  | 0, h, q => some (h, q, [])
  | n + 1, h, q =>
    match dequeue h q with
    | none => none
    | some r =>
      match dequeueN n r.1 r.2.1 with
      | none => none
      | some r2 => some (r2.1, r2.2.1, r.2.2 :: r2.2.2)

/-- The nodes linked from pointer `p` up to (not including) pointer `r` are
exactly `l`; `Chain h p l` is the case `r = NULL`. -/
def Seg (h : Heap) : Option Nat → List (Nat × Nat) → Option Nat → Prop
  | p, [], r => p = r
  | p, n :: rest, r =>
    p = some n.1 ∧ (h.read n.1).map QueueNode.pcb = some n.2 ∧
      Seg h ((h.read n.1).bind QueueNode.next) rest r

/-- Node list with the first node carrying PCB pointer `pcb` removed. -/
def eraseNode (pcb : Nat) : List (Nat × Nat) → List (Nat × Nat)
  | [] => []
  | n :: rest => if n.2 = pcb then rest else n :: eraseNode pcb rest

/-- A three-node example heap: nodes at addresses 0, 1, 2 carrying PCB pointers
7, 8, 9 and linked in that order. -/
def exHeap : Heap :=
  ⟨[some ⟨7, some 1⟩, some ⟨8, some 2⟩, some ⟨9, none⟩]⟩

/-- The queue header over `exHeap`. -/
def exQueue : Queue := { head := some 0, tail := some 2, size := 3 }

/-! ## Scheduler state (scheduler.c lines 46-72) -/

/-- Capacity of the PCB arena, `MAX_PROCESSES`. -/
def MAX_PROCESSES : Nat := 100

/-- Payload of an arrival message (`Message.process`). -/
structure Msg where
  id : Int
  arrivalTime : Int
  runtime : Int
  priority : Int
deriving DecidableEq

/-! ## The type `double`

IEEE 754 binary64 arithmetic, as performed by the compiled scheduler on its
`double` variables: every operation returns the exact result rounded to 53
significant bits, to the nearest value and on a tie to the one with an even
significand; signed zeros, infinities and NaN behave as in the standard. -/

/-- Position of the leading binary digit of `n`, by at most `fuel` halvings. -/
def log2Fuel : Nat → Nat → Nat
  | 0, _ => 0
  | fuel + 1, n => if n < 2 then 0 else log2Fuel fuel (n / 2) + 1

/-- The largest `k` with `2 ^ k ≤ n`, for `n > 0`. -/
def log2 (n : Nat) : Nat := log2Fuel n n

/-- The quotient `p / q` of two positive numbers rounded to 53 significant
bits.  `c` is chosen so that `2 ^ 52 ≤ a / b < 2 ^ 53`; the significand `m` is
`a / b` rounded to the nearest integer, to the even one on a tie; the result
is `m` scaled back. -/
def roundPos (p q : Nat) : Rat :=
  let c : Nat := if q * 2 ^ log2 p ≤ p * 2 ^ log2 q then 0 else 1
  let a : Nat := p * 2 ^ (log2 q + 52 + c)
  let b : Nat := q * 2 ^ log2 p
  let n : Nat := a / b
  let m : Nat :=
    if 2 * (a % b) < b then n
    else if b < 2 * (a % b) then n + 1
    else if n % 2 = 0 then n else n + 1
  mkRat ((m * 2 ^ log2 p : Nat) : Int) (2 ^ (log2 q + 52 + c))

/-- A value of type `double`: a finite number, given by its sign bit and its
magnitude (magnitude 0 is the zero of that sign), an infinity, or NaN. -/
inductive Dbl where
  | fin (neg : Bool) (mag : Rat)
  | inf (neg : Bool)
  | nan
deriving DecidableEq

/-- The finite double with sign bit `neg` whose magnitude is nearest to
`x ≥ 0`. -/
def Dbl.round (neg : Bool) (x : Rat) : Dbl :=
  Dbl.fin neg (if x.num = 0 then 0 else roundPos x.num.natAbs x.den)

/-- Conversion of an `int` to `double`. -/
def Dbl.ofInt (i : Int) : Dbl := Dbl.round (decide (i < 0)) (i.natAbs : Rat)

/-- Multiplication of doubles. -/
def Dbl.mul : Dbl → Dbl → Dbl
  | Dbl.nan, _ => Dbl.nan
  | _, Dbl.nan => Dbl.nan
  | Dbl.inf s, Dbl.inf t => Dbl.inf (s != t)
  | Dbl.inf s, Dbl.fin t b => if b = 0 then Dbl.nan else Dbl.inf (s != t)
  | Dbl.fin s a, Dbl.inf t => if a = 0 then Dbl.nan else Dbl.inf (s != t)
  | Dbl.fin s a, Dbl.fin t b => Dbl.round (s != t) (a * b)

/-- Division of doubles: a finite non-zero number over zero is an infinity,
zero over zero is NaN. -/
def Dbl.div : Dbl → Dbl → Dbl
  | Dbl.nan, _ => Dbl.nan
  | _, Dbl.nan => Dbl.nan
  | Dbl.inf _, Dbl.inf _ => Dbl.nan
  | Dbl.inf s, Dbl.fin t _ => Dbl.inf (s != t)
  | Dbl.fin s _, Dbl.inf t => Dbl.fin (s != t) 0
  | Dbl.fin s a, Dbl.fin t b =>
    if b = 0 then (if a = 0 then Dbl.nan else Dbl.inf (s != t))
    else Dbl.round (s != t) (a / b)

/-- Addition of doubles: an exact sum 0 is the positive zero unless both
operands are negative zeros. -/
def Dbl.add : Dbl → Dbl → Dbl
  | Dbl.nan, _ => Dbl.nan
  | _, Dbl.nan => Dbl.nan
  | Dbl.inf s, Dbl.inf t => if s = t then Dbl.inf s else Dbl.nan
  | Dbl.inf s, Dbl.fin _ _ => Dbl.inf s
  | Dbl.fin _ _, Dbl.inf t => Dbl.inf t
  | Dbl.fin s a, Dbl.fin t b =>
    let z : Rat := (if s then -a else a) + (if t then -b else b)
    if z.num = 0 then Dbl.fin (s && t) 0
    else Dbl.round (decide (z.num < 0)) (if z.num < 0 then -z else z)

/-- Sign change of a double. -/
def Dbl.neg : Dbl → Dbl
  | Dbl.nan => Dbl.nan
  | Dbl.inf s => Dbl.inf (!s)
  | Dbl.fin s a => Dbl.fin (!s) a

/-- Subtraction of doubles. -/
def Dbl.sub (x y : Dbl) : Dbl := Dbl.add x (Dbl.neg y)

instance : Add Dbl := ⟨Dbl.add⟩

instance : Sub Dbl := ⟨Dbl.sub⟩

instance : Mul Dbl := ⟨Dbl.mul⟩

instance : Div Dbl := ⟨Dbl.div⟩

instance : IntCast Dbl := ⟨Dbl.ofInt⟩

instance (n : Nat) : OfNat Dbl n := ⟨Dbl.ofInt (n : Int)⟩

/-- The number a finite double stands for. -/
def Dbl.toRat : Dbl → Option Rat
  | Dbl.fin s a => some (if s then -a else a)
  | _ => none

/-- Event label of a log line. -/
inductive LogEvent where
  | started
  | stopped
  | resumed
  | finished
deriving DecidableEq

/-- One line of scheduler.log as written by `writeLog`: the clock value, the
PCB fields printed, and for a finish line the turnaround and the weighted
turnaround. -/
structure LogRecord where
  time : Int
  id : Int
  event : LogEvent
  arr : Int
  total : Int
  remain : Int
  wait : Int
  ta : Option (Int × Dbl)
deriving DecidableEq

/-- The global variables of scheduler.c, the local flag `allProcessesArrived`
of `main`, the node heap, and the lines written to scheduler.log.  The arena
`processes` lists slots `0 .. processCount - 1` (the remaining slots of the C
array are untouched), so `processCount` is its length. -/
structure Sched where
  algorithm : Int
  quantum : Int
  processes : List PCB
  heap : Heap
  readyQueue : Queue
  runningProcess : Option Nat
  currentTime : Int
  totalWaitingTime : Int
  totalRuntime : Int
  totalWTA : Dbl
  totalWTASquared : Dbl
  finishedCount : Int
  quantumCounter : Int
  allProcessesArrived : Bool
  log : List LogRecord
deriving DecidableEq

/-- The counter `processCount`: number of arena slots in use. -/
def Sched.processCount (σ : Sched) : Nat := σ.processes.length

/-- Scheduler state when `main` reaches the loop: empty arena, `initQueue`,
no running process, all counters zero. -/
def initSched (algorithm quantum : Int) : Sched :=
  { algorithm := algorithm, quantum := quantum, processes := [], heap := ⟨[]⟩,
    readyQueue := initQueue, runningProcess := none, currentTime := 0,
    totalWaitingTime := 0, totalRuntime := 0, totalWTA := 0, totalWTASquared := 0,
    finishedCount := 0, quantumCounter := 0, allProcessesArrived := false, log := [] }

/-- What one iteration of the main loop observes of its environment: the value
of each `getClk()` call it can make, the arrival messages `msgrcv` hands over
before it first fails, the value returned by `fork()` if a worker is spawned,
and whether the end-of-stream message is received. -/
structure TickInput where
  clk : Int
  arrivals : List Msg
  clkFinish : Int
  clkFinishLog : Int
  clkStop : Int
  clkStopLog : Int
  clkDispatch : Int
  clkDispatchLog : Int
  forkPid : Int
  endMsg : Bool
deriving DecidableEq

/-! ## Logging and lifecycle (scheduler.c lines 366-475) -/

/-- The line `writeLog` prints for PCB `p` at clock value `now`; the turnaround
fields are present only on a finish line. -/
def logRecord (now : Int) (event : LogEvent) (p : PCB) : LogRecord :=
  { time := now, id := p.id, event := event, arr := p.arrivalTime,
    total := p.runtime, remain := p.remainingTime, wait := p.waitingTime,
    ta := if event = LogEvent.finished then
        some (p.finishTime - p.arrivalTime,
          ((p.finishTime - p.arrivalTime : Int) : Dbl) / (p.runtime : Dbl))
      else none }

/-- The `writeLog` of scheduler.c: re-read the clock and append one line. -/
def writeLog (σ : Sched) (now : Int) (event : LogEvent) (pcb : Nat) : Option Sched :=
  match σ.processes[pcb]? with
  | none => none
  | some p => some { σ with currentTime := now, log := σ.log ++ [logRecord now event p] }

/-- The `startProcess` of scheduler.c, as seen by the scheduler: `forkPid` is
the value `fork()` returns.  The branch `pid == 0` is the child, which becomes
the worker and is not a continuation of the scheduler. -/
def startProcess (σ : Sched) (pcb : Nat) (now nowLog forkPid : Int) : Option Sched :=
  let σ1 := { σ with currentTime := now }
  if forkPid = 0 then none
  else if forkPid > 0 then
    match σ1.processes[pcb]? with
    | none => none
    | some p =>
      let p1 : PCB := { p with
        pid := forkPid
        started := true
        state := ProcessState.RUNNING
        startTime := σ1.currentTime
        executionTime := 0 }
      writeLog { σ1 with processes := σ1.processes.set pcb p1 } nowLog LogEvent.started pcb
  else some σ1

/-- The `stopProcess` of scheduler.c. -/
def stopProcess (σ : Sched) (pcb : Nat) (now nowLog : Int) : Option Sched :=
  let σ1 := { σ with currentTime := now }
  match σ1.processes[pcb]? with
  | none => none
  | some p =>
    let p1 : PCB := { p with state := ProcessState.READY, lastStopTime := σ1.currentTime }
    writeLog { σ1 with processes := σ1.processes.set pcb p1 } nowLog LogEvent.stopped pcb

/-- The `resumeProcess` of scheduler.c. -/
def resumeProcess (σ : Sched) (pcb : Nat) (now nowLog : Int) : Option Sched :=
  let σ1 := { σ with currentTime := now }
  match σ1.processes[pcb]? with
  | none => none
  | some p =>
    let p1 : PCB := { p with state := ProcessState.RUNNING }
    let p2 : PCB := if p1.lastStopTime ≠ -1 then
        { p1 with waitingTime := p1.waitingTime + (σ1.currentTime - p1.lastStopTime) }
      else p1
    writeLog { σ1 with processes := σ1.processes.set pcb p2 } nowLog LogEvent.resumed pcb

/-- The `finishProcess` of scheduler.c. -/
def finishProcess (σ : Sched) (pcb : Nat) (now nowLog : Int) : Option Sched :=
  let σ1 := { σ with currentTime := now }
  match σ1.processes[pcb]? with
  | none => none
  | some p =>
    let p1 : PCB := { p with state := ProcessState.FINISHED, finishTime := σ1.currentTime }
    let turnaroundTime : Int := p1.finishTime - p1.arrivalTime
    let wta : Dbl := (turnaroundTime : Dbl) / (p1.runtime : Dbl)
    writeLog { σ1 with
        processes := σ1.processes.set pcb p1
        totalWaitingTime := σ1.totalWaitingTime + p1.waitingTime
        totalWTA := σ1.totalWTA + wta
        totalWTASquared := σ1.totalWTASquared + wta * wta
        finishedCount := σ1.finishedCount + 1 }
      nowLog LogEvent.finished pcb

/-- The signal handler `handleProcessFinish` of scheduler.c. -/
def handleProcessFinish (σ : Sched) : Option Sched :=
  match σ.runningProcess with
  | none => some σ
  | some r =>
    match σ.processes[r]? with
    | none => none
    | some p => some { σ with processes := σ.processes.set r { p with remainingTime := 0 } }

/-! ## Arrival ingestion (scheduler.c lines 264-291) -/

/-- The PCB that `receiveProcesses` builds from a message; `finishTime` keeps
the zero of the statically allocated arena. -/
def newPCB (m : Msg) : PCB :=
  { id := m.id, arrivalTime := m.arrivalTime, runtime := m.runtime, priority := m.priority,
    remainingTime := m.runtime, waitingTime := 0, executionTime := 0, startTime := -1,
    finishTime := 0, lastStopTime := -1, state := ProcessState.READY, pid := -1,
    started := false }

/-- The `receiveProcesses` of scheduler.c over the messages `msgrcv` returns
before it first fails.  Writing slot `MAX_PROCESSES` or beyond is out of
bounds. -/
def receiveProcesses : Sched → List Msg → Option Sched
  | σ, [] => some σ
  | σ, m :: ms =>
    if σ.processCount < MAX_PROCESSES then
      let pcb := σ.processCount
      let σ1 := { σ with
        processes := σ.processes ++ [newPCB m]
        totalRuntime := σ.totalRuntime + (newPCB m).runtime }
      match enqueue σ1.heap σ1.readyQueue pcb with
      | none => none
      | some r => receiveProcesses { σ1 with heap := r.1, readyQueue := r.2 } ms
    else none

/-! ## Dispatch policies (scheduler.c lines 293-364) -/

/-- The `while (node != NULL)` loop of `selectHPF`; `highest` is the candidate
so far. -/
def selectHPFLoop (h : Heap) (procs : List PCB) :
    Nat → Option Nat → Option Nat → Option (Option Nat)
  | 0, _, _ => none
  | _ + 1, none, highest => some highest
  | fuel + 1, some a, highest =>
    match h.read a with
    | none => none
    | some node =>
      match highest with
      | none => selectHPFLoop h procs fuel node.next (some node.pcb)
      | some hi =>
        match procs[node.pcb]?, procs[hi]? with
        | some p, some ph =>
          if p.priority < ph.priority then
            selectHPFLoop h procs fuel node.next (some node.pcb)
          else if p.priority = ph.priority then
            if p.arrivalTime < ph.arrivalTime then
              selectHPFLoop h procs fuel node.next (some node.pcb)
            else selectHPFLoop h procs fuel node.next (some hi)
          else selectHPFLoop h procs fuel node.next (some hi)
        | _, _ => none

/-- The `selectHPF` of scheduler.c.  It reads the ready queue and the arena
and returns a PCB pointer; it performs no store. -/
def selectHPF (σ : Sched) : Option (Option Nat) :=
  selectHPFLoop σ.heap σ.processes σ.heap.bound σ.readyQueue.head none

/-- The `while (node != NULL)` loop of `selectSJN`. -/
def selectSJNLoop (h : Heap) (procs : List PCB) :
    Nat → Option Nat → Option Nat → Option (Option Nat)
  | 0, _, _ => none
  | _ + 1, none, shortest => some shortest
  | fuel + 1, some a, shortest =>
    match h.read a with
    | none => none
    | some node =>
      match shortest with
      | none => selectSJNLoop h procs fuel node.next (some node.pcb)
      | some sh =>
        match procs[node.pcb]?, procs[sh]? with
        | some p, some ps =>
          if p.remainingTime < ps.remainingTime then
            selectSJNLoop h procs fuel node.next (some node.pcb)
          else if p.remainingTime = ps.remainingTime then
            if p.arrivalTime < ps.arrivalTime then
              selectSJNLoop h procs fuel node.next (some node.pcb)
            else selectSJNLoop h procs fuel node.next (some sh)
          else selectSJNLoop h procs fuel node.next (some sh)
        | _, _ => none

/-- The `selectSJN` of scheduler.c; like `selectHPF` it performs no store. -/
def selectSJN (σ : Sched) : Option (Option Nat) :=
  selectSJNLoop σ.heap σ.processes σ.heap.bound σ.readyQueue.head none

/-- The `selectRR` of scheduler.c. -/
def selectRR (σ : Sched) : Option (Option Nat) :=
  peek σ.heap σ.readyQueue

/-- The `switch (algorithm)` of `selectNextProcess`: the selected pointer
(initially `NULL`) and the state after the switch. -/
def selectSwitch (σ : Sched) : Option (Option Nat × Sched) :=
  if σ.algorithm = 1 then (selectHPF σ).map (fun r => (r, σ))
  else if σ.algorithm = 2 then (selectSJN σ).map (fun r => (r, σ))
  else if σ.algorithm = 3 then (selectRR σ).map (fun r => (r, { σ with quantumCounter := 0 }))
  else some (none, σ)

/-- Lines 310-317 of `selectNextProcess`: the body of `if (selected != NULL)`. -/
def dispatchSelected (σ : Sched) (selected : Nat) (now nowLog forkPid : Int) : Option Sched :=
  let σ2 := { σ with runningProcess := some selected }
  match removeFromQueue σ2.heap σ2.readyQueue selected with
  | none => none
  | some r =>
    let σ3 := { σ2 with heap := r.1, readyQueue := r.2 }
    match σ3.processes[selected]? with
    | none => none
    | some p =>
      if p.started = false then startProcess σ3 selected now nowLog forkPid
      else resumeProcess σ3 selected now nowLog

/-- The `selectNextProcess` of scheduler.c. -/
def selectNextProcess (σ : Sched) (now nowLog forkPid : Int) : Option Sched :=
  match selectSwitch σ with
  | none => none
  | some (none, σ1) => some σ1
  | some (some selected, σ1) => dispatchSelected σ1 selected now nowLog forkPid

/-! ## Main loop (scheduler.c lines 128-176) -/

/-- Condition of the main `while` loop. -/
def loopCond (σ : Sched) : Bool :=
  !σ.allProcessesArrived || !isEmpty σ.readyQueue || σ.runningProcess != none

/-- Lines 136-140: finalise the running process when its remaining time is
exhausted. -/
def finishPhase (σ : Sched) (inp : TickInput) : Option Sched :=
  match σ.runningProcess with
  | none => some σ
  | some r =>
    match σ.processes[r]? with
    | none => none
    | some p =>
      if p.remainingTime ≤ 0 then
        match finishProcess σ r inp.clkFinish inp.clkFinishLog with
        | none => none
        | some σ1 => some { σ1 with runningProcess := none }
      else some σ

/-- Lines 142-151: round-robin quantum accounting and preemption. -/
def rrPhase (σ : Sched) (inp : TickInput) : Option Sched :=
  if σ.algorithm = 3 then
    match σ.runningProcess with
    | none => some σ
    | some r =>
      match σ.processes[r]? with
      | none => none
      | some p =>
        if p.state = ProcessState.RUNNING then
          let σ1 := { σ with quantumCounter := σ.quantumCounter + 1 }
          if σ1.quantumCounter ≥ σ1.quantum ∧ p.remainingTime > 0 then
            match stopProcess σ1 r inp.clkStop inp.clkStopLog with
            | none => none
            | some σ2 =>
              match enqueue σ2.heap σ2.readyQueue r with
              | none => none
              | some e =>
                some { σ2 with heap := e.1, readyQueue := e.2, runningProcess := none,
                               quantumCounter := 0 }
          else some σ1
        else some σ
  else some σ

/-- Lines 153-156: dispatch when the CPU is idle and the queue is not empty. -/
def dispatchPhase (σ : Sched) (inp : TickInput) : Option Sched :=
  if σ.runningProcess = none ∧ isEmpty σ.readyQueue = false then
    selectNextProcess σ inp.clkDispatch inp.clkDispatchLog inp.forkPid
  else some σ

/-- Lines 158-163: poll for the end-of-stream message. -/
def endPhase (σ : Sched) (inp : TickInput) : Sched :=
  if inp.endMsg then { σ with allProcessesArrived := true } else σ

/-- The loop of lines 166-172 over the nodes of the ready queue. -/
def accrueLoop (h : Heap) : Nat → Option Nat → List PCB → Option (List PCB)
  | 0, _, _ => none
  | _ + 1, none, procs => some procs
  | fuel + 1, some a, procs =>
    match h.read a with
    | none => none
    | some node =>
      match procs[node.pcb]? with
      | none => none
      | some p =>
        accrueLoop h fuel node.next
          (if p.state = ProcessState.READY then
            procs.set node.pcb { p with waitingTime := p.waitingTime + 1 }
          else procs)

/-- Lines 165-172: waiting-time accrual for the ready queue. -/
def accruePhase (σ : Sched) : Option Sched :=
  match accrueLoop σ.heap σ.heap.bound σ.readyQueue.head σ.processes with
  | none => none
  | some procs => some { σ with processes := procs }

/-- One iteration of the main loop body, lines 131-175. -/
def tick (σ : Sched) (inp : TickInput) : Option Sched :=
  match receiveProcesses { σ with currentTime := inp.clk } inp.arrivals with
  | none => none
  | some σ1 =>
    match finishPhase σ1 inp with
    | none => none
    | some σ2 =>
      match rrPhase σ2 inp with
      | none => none
      | some σ3 =>
        match dispatchPhase σ3 inp with
        | none => none
        | some σ4 => accruePhase (endPhase σ4 inp)

/-- An event of the scheduler process: one iteration of the main loop, or the
delivery of `SIGUSR1` (between two iterations). -/
inductive Event where
  | tick (inp : TickInput)
  | notify
deriving DecidableEq

/-- Effect of an event; a loop iteration is only taken while the loop
condition holds. -/
def step (σ : Sched) : Event → Option Sched
  | Event.tick inp => if loopCond σ then tick σ inp else none
  | Event.notify => handleProcessFinish σ

/-- Run a sequence of events. -/
def run : Sched → List Event → Option Sched
  | σ, [] => some σ
  | σ, e :: es =>
    match step σ e with
    | none => none
    | some σ1 => run σ1 es

/-- States the scheduler can reach from its initial state for the given launch
arguments. -/
def Reachable (algorithm quantum : Int) (σ : Sched) : Prop :=
  ∃ es : List Event, run (initSched algorithm quantum) es = some σ

/-- Iteration input in which every clock read returns `c`. -/
def TickInput.uniform (c : Int) (arrivals : List Msg) (forkPid : Int) (endMsg : Bool) :
    TickInput :=
  { clk := c, arrivals := arrivals, clkFinish := c, clkFinishLog := c, clkStop := c,
    clkStopLog := c, clkDispatch := c, clkDispatchLog := c, forkPid := forkPid,
    endMsg := endMsg }

/-- A slot of the statically allocated (zero-initialised) arena that was never
written. -/
def zeroPCB : PCB :=
  { id := 0, arrivalTime := 0, runtime := 0, priority := 0, remainingTime := 0,
    waitingTime := 0, executionTime := 0, startTime := 0, finishTime := 0,
    lastStopTime := 0, state := ProcessState.READY, pid := 0, started := false }

/-- The PCB in arena slot `i`. -/
def pcbAt (procs : List PCB) (i : Nat) : PCB := procs.getD i zeroPCB

/-- The PCB a pointer of state `σ` refers to. -/
def Sched.pcb (σ : Sched) (i : Nat) : PCB := pcbAt σ.processes i

/-- List-level description of the selection loops: scan the entries in order,
replacing the candidate whenever an entry is strictly better under `f`. -/
def pickMin {K : Type} [LinearOrder K] (f : Nat → K) : List Nat → Option Nat → Option Nat
  | [], best => best
  | x :: xs, none => pickMin f xs (some x)
  | x :: xs, some b => if f x < f b then pickMin f xs (some x) else pickMin f xs (some b)

/-- Priority, then arrival time, compared lexicographically. -/
def hpfKey (procs : List PCB) (i : Nat) : Lex (Int × Int) :=
  toLex ((pcbAt procs i).priority, (pcbAt procs i).arrivalTime)

/-- Remaining time, then arrival time, compared lexicographically. -/
def sjnKey (procs : List PCB) (i : Nat) : Lex (Int × Int) :=
  toLex ((pcbAt procs i).remainingTime, (pcbAt procs i).arrivalTime)

/-- The ready set of the priority tie-break example, in arrival order. -/
def hpfExample : List Msg :=
  [⟨1, 0, 5, 3⟩, ⟨2, 1, 5, 1⟩, ⟨3, 0, 5, 1⟩]

/-- The ready set of the shortest-remaining tie-break example, in id order
(remaining time equals the runtime of a freshly ingested PCB). -/
def sjnExample : List Msg :=
  [⟨1, 0, 5, 1⟩, ⟨2, 2, 3, 1⟩, ⟨3, 1, 3, 1⟩]

/-! ## List-level view of the scheduler

The same machine with the linked ready queue replaced by the sequence of its
entries.  It is related to the embedding above by `Sim`; the theorems below
are stated on the embedding and proved through this view. -/

/-- Scheduler state with the ready queue given as its entry sequence. -/
structure View where
  algorithm : Int
  quantum : Int
  processes : List PCB
  queue : List Nat
  runningProcess : Option Nat
  currentTime : Int
  totalWaitingTime : Int
  totalRuntime : Int
  totalWTA : Dbl
  totalWTASquared : Dbl
  finishedCount : Int
  quantumCounter : Int
  allProcessesArrived : Bool
  log : List LogRecord
deriving DecidableEq

/-- The view of a scheduler state whose queue has entries `s`. -/
def Sched.view (σ : Sched) (s : List Nat) : View :=
  { algorithm := σ.algorithm, quantum := σ.quantum, processes := σ.processes, queue := s,
    runningProcess := σ.runningProcess, currentTime := σ.currentTime,
    totalWaitingTime := σ.totalWaitingTime, totalRuntime := σ.totalRuntime,
    totalWTA := σ.totalWTA, totalWTASquared := σ.totalWTASquared,
    finishedCount := σ.finishedCount, quantumCounter := σ.quantumCounter,
    allProcessesArrived := σ.allProcessesArrived, log := σ.log }

/-- Simulation relation: the queue of `σ` is well formed with the entries of
`v`, and all other components agree. -/
def Sim (σ : Sched) (v : View) : Prop :=
  IsQueue σ.heap σ.readyQueue v.queue ∧ σ.view v.queue = v

/-- The PCB a pointer of view `v` refers to. -/
def View.pcb (v : View) (i : Nat) : PCB := pcbAt v.processes i

/-- View of `writeLog`. -/
def vWriteLog (v : View) (now : Int) (event : LogEvent) (pcb : Nat) : View :=
  { v with currentTime := now, log := v.log ++ [logRecord now event (v.pcb pcb)] }

/-- The PCB after a successful `startProcess` at clock value `now`. -/
def startedPCB (p : PCB) (pid now : Int) : PCB :=
  { p with pid := pid, started := true, state := ProcessState.RUNNING, startTime := now,
           executionTime := 0 }

/-- The PCB after `stopProcess` at clock value `now`. -/
def stoppedPCB (p : PCB) (now : Int) : PCB :=
  { p with state := ProcessState.READY, lastStopTime := now }

/-- The PCB after `resumeProcess` at clock value `now`. -/
def resumedPCB (p : PCB) (now : Int) : PCB :=
  if p.lastStopTime ≠ -1 then
    { p with state := ProcessState.RUNNING,
             waitingTime := p.waitingTime + (now - p.lastStopTime) }
  else { p with state := ProcessState.RUNNING }

/-- The PCB after `finishProcess` at clock value `now`. -/
def finishedPCB (p : PCB) (now : Int) : PCB :=
  { p with state := ProcessState.FINISHED, finishTime := now }

/-- The PCB after a completion notification. -/
def exhaustedPCB (p : PCB) : PCB := { p with remainingTime := 0 }

/-- The PCB after one step of waiting-time accrual. -/
def waitedPCB (p : PCB) : PCB := { p with waitingTime := p.waitingTime + 1 }

/-- The weighted turnaround `finishProcess` computes at clock value `now`. -/
def wtaOf (p : PCB) (now : Int) : Dbl :=
  ((now - p.arrivalTime : Int) : Dbl) / (p.runtime : Dbl)

/-- View of `startProcess`. -/
def vStartProcess (v : View) (pcb : Nat) (now nowLog forkPid : Int) : Option View :=
  if forkPid = 0 then none
  else if forkPid > 0 then
    some (vWriteLog { v with
      currentTime := now
      processes := v.processes.set pcb (startedPCB (v.pcb pcb) forkPid now) }
      nowLog LogEvent.started pcb)
  else some { v with currentTime := now }

/-- View of `stopProcess`. -/
def vStopProcess (v : View) (pcb : Nat) (now nowLog : Int) : View :=
  vWriteLog { v with
    currentTime := now
    processes := v.processes.set pcb (stoppedPCB (v.pcb pcb) now) } nowLog LogEvent.stopped pcb

/-- View of `resumeProcess`. -/
def vResumeProcess (v : View) (pcb : Nat) (now nowLog : Int) : View :=
  vWriteLog { v with
    currentTime := now
    processes := v.processes.set pcb (resumedPCB (v.pcb pcb) now) } nowLog LogEvent.resumed pcb

/-- View of `finishProcess`. -/
def vFinishProcess (v : View) (pcb : Nat) (now nowLog : Int) : View :=
  vWriteLog { v with
    currentTime := now
    processes := v.processes.set pcb (finishedPCB (v.pcb pcb) now)
    totalWaitingTime := v.totalWaitingTime + (v.pcb pcb).waitingTime
    totalWTA := v.totalWTA + wtaOf (v.pcb pcb) now
    totalWTASquared := v.totalWTASquared + wtaOf (v.pcb pcb) now * wtaOf (v.pcb pcb) now
    finishedCount := v.finishedCount + 1 } nowLog LogEvent.finished pcb

/-- View of `handleProcessFinish`. -/
def vNotify (v : View) : View :=
  match v.runningProcess with
  | none => v
  | some r => { v with processes := v.processes.set r (exhaustedPCB (v.pcb r)) }

/-- View of `receiveProcesses`. -/
def vReceive : View → List Msg → Option View
  | v, [] => some v
  | v, m :: ms =>
    if v.processes.length < MAX_PROCESSES then
      vReceive { v with
        processes := v.processes ++ [newPCB m]
        totalRuntime := v.totalRuntime + m.runtime
        queue := v.queue ++ [v.processes.length] } ms
    else none

/-- View of the selection made by `selectNextProcess`. -/
def vSelect (v : View) : Option Nat :=
  if v.algorithm = 1 then pickMin (hpfKey v.processes) v.queue none
  else if v.algorithm = 2 then pickMin (sjnKey v.processes) v.queue none
  else if v.algorithm = 3 then v.queue.head?
  else none

/-- View of the state after the `switch`: round robin resets the quantum
counter. -/
def vAfterSwitch (v : View) : View :=
  if v.algorithm = 3 then { v with quantumCounter := 0 } else v

/-- View of `dispatchSelected`. -/
def vDispatchSelected (v : View) (sel : Nat) (now nowLog forkPid : Int) : Option View :=
  if (v.pcb sel).started = false then
    vStartProcess { v with runningProcess := some sel, queue := v.queue.erase sel }
      sel now nowLog forkPid
  else
    some (vResumeProcess { v with runningProcess := some sel, queue := v.queue.erase sel }
      sel now nowLog)

/-- View of `selectNextProcess`. -/
def vSelectNextProcess (v : View) (now nowLog forkPid : Int) : Option View :=
  match vSelect v with
  | none => some (vAfterSwitch v)
  | some sel => vDispatchSelected (vAfterSwitch v) sel now nowLog forkPid

/-- View of the completion check. -/
def vFinishPhase (v : View) (inp : TickInput) : View :=
  match v.runningProcess with
  | none => v
  | some r =>
    if (v.pcb r).remainingTime ≤ 0 then
      { vFinishProcess v r inp.clkFinish inp.clkFinishLog with runningProcess := none }
    else v

/-- View of the round-robin block. -/
def vRRPhase (v : View) (inp : TickInput) : View :=
  if v.algorithm = 3 then
    match v.runningProcess with
    | none => v
    | some r =>
      if (v.pcb r).state = ProcessState.RUNNING then
        if v.quantumCounter + 1 ≥ v.quantum ∧ (v.pcb r).remainingTime > 0 then
          { vStopProcess { v with quantumCounter := v.quantumCounter + 1 } r
              inp.clkStop inp.clkStopLog with
            queue := v.queue ++ [r]
            runningProcess := none
            quantumCounter := 0 }
        else { v with quantumCounter := v.quantumCounter + 1 }
      else v
  else v

/-- View of the dispatch block. -/
def vDispatchPhase (v : View) (inp : TickInput) : Option View :=
  if v.runningProcess = none ∧ v.queue ≠ [] then
    vSelectNextProcess v inp.clkDispatch inp.clkDispatchLog inp.forkPid
  else some v

/-- View of the end-of-stream poll. -/
def vEndPhase (v : View) (inp : TickInput) : View :=
  if inp.endMsg then { v with allProcessesArrived := true } else v

/-- View of the accrual loop: visit the entries in order. -/
def accrueList : List Nat → List PCB → List PCB
  | [], procs => procs
  | x :: xs, procs =>
    accrueList xs
      (if (pcbAt procs x).state = ProcessState.READY then procs.set x (waitedPCB (pcbAt procs x))
      else procs)

/-- View of the accrual block. -/
def vAccruePhase (v : View) : View :=
  { v with processes := accrueList v.queue v.processes }

/-- View of one loop iteration. -/
def vTick (v : View) (inp : TickInput) : Option View :=
  match vReceive { v with currentTime := inp.clk } inp.arrivals with
  | none => none
  | some v1 =>
    match vDispatchPhase (vRRPhase (vFinishPhase v1 inp) inp) inp with
    | none => none
    | some v4 => some (vAccruePhase (vEndPhase v4 inp))

/-- View of the loop condition. -/
def vLoopCond (v : View) : Bool :=
  !v.allProcessesArrived || !v.queue.isEmpty || v.runningProcess != none

/-- View of `step`. -/
def vStep (v : View) : Event → Option View
  | Event.tick inp => if vLoopCond v then vTick v inp else none
  | Event.notify => some (vNotify v)

/-- View of `run`. -/
def vRun : View → List Event → Option View
  | v, [] => some v
  | v, e :: es =>
    match vStep v e with
    | none => none
    | some v1 => vRun v1 es

/-- View of the initial state. -/
def initView (algorithm quantum : Int) : View :=
  (initSched algorithm quantum).view []

/-- Pointer validity and queue discipline of a view: queue entries are
distinct, point to created PCBs in state READY; the tracked running process
points to a created PCB and is not queued; a PCB in state RUNNING is the
tracked running process; the arena is within its capacity. -/
structure VInv (v : View) : Prop where
  nodup : v.queue.Nodup
  queue_lt : ∀ p ∈ v.queue, p < v.processes.length
  queue_ready : ∀ p ∈ v.queue, (v.pcb p).state = ProcessState.READY
  running_lt : ∀ r, v.runningProcess = some r → r < v.processes.length
  running_not_queued : ∀ r, v.runningProcess = some r → r ∉ v.queue
  running_unique : ∀ i, i < v.processes.length →
    (v.pcb i).state = ProcessState.RUNNING → v.runningProcess = some i
  capacity : v.processes.length ≤ MAX_PROCESSES

/-- Simulation lifted to results: both sides have a result and these are
related, or neither has. -/
def OptSim : Option Sched → Option View → Prop
  | some σ, some v => Sim σ v
  | none, none => True
  | _, _ => False

/-- A loop iteration at clock value `c` in which every clock read returns `c`
and a spawned worker gets pid 100. -/
def tickAt (c : Int) (arrivals : List Msg) (endMsg : Bool) : Event :=
  Event.tick (TickInput.uniform c arrivals 100 endMsg)

/-- Round-robin example: two processes of runtime 5 arrive at tick 0; three
iterations at clock values 0, 1, 2. -/
def rrExample : List Event :=
  [tickAt 0 [⟨1, 0, 5, 1⟩, ⟨2, 0, 5, 1⟩] false, tickAt 1 [] false, tickAt 2 [] false]

/-- Number of PCBs of the arena in state RUNNING. -/
def runningCount (σ : Sched) : Nat :=
  σ.processes.countP (fun p => decide (p.state = ProcessState.RUNNING))

/-- Round robin with quantum 1: two processes arrive at clock 0 and a second
iteration runs before the clock advances; the first process is started,
preempted and queued behind the second. -/
def waitExample : List Event :=
  [tickAt 0 [⟨1, 0, 5, 1⟩, ⟨2, 0, 5, 1⟩] false, tickAt 0 [] false]

/-- The arrival messages an event delivers. -/
def Event.arrivals : Event → List Msg
  | Event.tick inp => inp.arrivals
  | Event.notify => []

/-- The event involves no failed worker spawn: a loop iteration whose `fork()`
result is a process id. -/
def Event.spawnOk : Event → Prop
  | Event.tick inp => inp.forkPid > 0
  | Event.notify => True

instance Event.spawnOk.decide (e : Event) : Decidable e.spawnOk := by
  cases e <;> unfold Event.spawnOk <;> infer_instance

/-! ## Worker (process.c) and an idealised run of scheduler and workers -/

/-- The variables `remainingtime` and `lastTime` of process.c. -/
structure Worker where
  remainingtime : Int
  lastTime : Int
deriving DecidableEq

/-- Lines 20-31 of process.c for argument `arg` and first clock read `clk`: a
worker asked for a non-positive time exits at once, without notifying. -/
def workerInit (arg clk : Int) : Option Worker :=
  if arg ≤ 0 then none else some { remainingtime := arg, lastTime := clk }

/-- Body of the `while` loop of process.c (lines 35-45) for the clock value
`clk` it reads. -/
def workerPoll (w : Worker) (clk : Int) : Worker :=
  if clk > w.lastTime then
    { remainingtime := w.remainingtime - (clk - w.lastTime), lastTime := clk }
  else w

/-- The `while (remainingtime > 0)` loop of process.c over the clock values the
worker reads (a stopped worker reads nothing): the number of reads after which
the loop exits and `SIGUSR1` is sent, counted from `n`, or `none` while the
loop is still running when the reads are used up. -/
def workerLoop : Worker → List Int → Nat → Option Nat
  | w, [], n => if w.remainingtime > 0 then none else some n
  | w, c :: cs, n =>
    if w.remainingtime > 0 then workerLoop (workerPoll w c) cs (n + 1) else some n

/-- Scheduler together with the live workers, keyed by arena slot. -/
structure System where
  sched : Sched
  workers : List (Nat × Worker)
deriving DecidableEq

/-- First half of an idealised clock tick `c`: the worker of the process that
is RUNNING (the only worker not stopped) reads the clock; when its loop ends
it sends `SIGUSR1`, which runs `handleProcessFinish`, and exits. -/
def pollRunning (sys : System) (c : Int) : Option System :=
  match sys.sched.runningProcess with
  | none => some sys
  | some r =>
    if (sys.sched.pcb r).state = ProcessState.RUNNING then
      match sys.workers.lookup r with
      | none => some sys
      | some w =>
        if (workerPoll w c).remainingtime > 0 then
          some { sys with workers := (r, workerPoll w c) :: sys.workers.filter (fun x => x.1 ≠ r) }
        else
          match handleProcessFinish sys.sched with
          | none => none
          | some σ => some { sched := σ, workers := sys.workers.filter (fun x => x.1 ≠ r) }
    else some sys

/-- One idealised clock tick `c`: the running worker polls, then the scheduler
performs one loop iteration in which every clock read returns `c`; a worker
spawned by that iteration starts with the remaining time passed to it. -/
def systemTick (sys : System) (c : Int) (arrivals : List Msg) (endMsg : Bool) :
    Option System :=
  match pollRunning sys c with
  | none => none
  | some s1 =>
    match step s1.sched (tickAt c arrivals endMsg) with
    | none => none
    | some σ2 =>
      some { sched := σ2
             workers :=
               (match σ2.runningProcess with
                | none => []
                | some p =>
                  if (s1.sched.pcb p).started = false ∧ (σ2.pcb p).started = true then
                    match workerInit (σ2.pcb p).remainingTime c with
                    | none => []
                    | some w => [(p, w)]
                  else []) ++ s1.workers }

/-- Run idealised clock ticks. -/
def systemRun : System → List (Int × List Msg × Bool) → Option System
  | sys, [] => some sys
  | sys, t :: ts =>
    match systemTick sys t.1 t.2.1 t.2.2 with
    | none => none
    | some s1 => systemRun s1 ts

/-- The round-robin scenario of the specification: quantum 2, two processes of
runtime 5 arriving at tick 0 (end of stream seen at tick 1), clock ticks
0 .. `n`. -/
def rrScenario (n : Nat) : List (Int × List Msg × Bool) :=
  (0, [⟨1, 0, 5, 1⟩, ⟨2, 0, 5, 1⟩], false) ::
    (List.range n).map (fun k => ((k : Int) + 1, [], decide (k = 0)))


/-! ## Performance summary (scheduler.c lines 477-511) -/

/-- The four values `writePerformanceMetrics` prints. -/
structure Summary where
  cpuUtilization : Dbl
  avgWTA : Dbl
  avgWaiting : Dbl
  stdWTA : Dbl
deriving DecidableEq

/-- Line 486: `cpuUtilization`, with `totalTime = currentTime`. -/
def cpuUtilization (σ : Sched) : Dbl :=
  if σ.currentTime > 0 then ((σ.totalRuntime : Dbl) / (σ.currentTime : Dbl)) * 100 else 0

/-- Line 489: `avgWTA`. -/
def avgWTA (σ : Sched) : Dbl :=
  if σ.finishedCount > 0 then σ.totalWTA / (σ.finishedCount : Dbl) else 0

/-- Line 492: `avgWaiting`. -/
def avgWaiting (σ : Sched) : Dbl :=
  if σ.finishedCount > 0 then (σ.totalWaitingTime : Dbl) / (σ.finishedCount : Dbl) else 0

/-- Lines 495-496: `variance`, the argument handed to `sqrt`. -/
def variance (σ : Sched) : Dbl :=
  if σ.finishedCount > 0 then
    σ.totalWTASquared / (σ.finishedCount : Dbl) - avgWTA σ * avgWTA σ
  else 0

/-- The `writePerformanceMetrics` of scheduler.c: the values it writes, or
nothing when scheduler.perf cannot be opened.  `sqrt` is the function of
math.h of that name, a parameter of the embedding. -/
def writePerformanceMetrics (sqrt : Dbl → Dbl) (perfOpens : Bool) (σ : Sched) :
    Option Summary :=
  if perfOpens then
    some { cpuUtilization := cpuUtilization σ, avgWTA := avgWTA σ,
           avgWaiting := avgWaiting σ, stdWTA := sqrt (variance σ) }
  else none

/-- A square root for the examples.  Zeros, infinities and NaN are treated as
by `sqrt` of math.h, a negative number gives NaN, and a positive number with
magnitude `n / d` gives the integer square root of `n * d` over `d`, rounded:
the square root itself when `n / d` is the square of a rational. -/
def sqrtQ : Dbl → Dbl
  | Dbl.nan => Dbl.nan
  | Dbl.inf s => if s then Dbl.nan else Dbl.inf false
  | Dbl.fin s x =>
    if x.num = 0 then Dbl.fin s 0
    else if s then Dbl.nan
    else Dbl.round false (((Nat.sqrt (x.num.natAbs * x.den) : Nat) : Rat) / (x.den : Rat))

/-- One process with arrival 0 and runtime 5 under the priority policy, one
loop iteration per clock tick: it is started at tick 0, its completion
notification comes after the iteration of tick 4, and the iteration of tick 5
finishes it. -/
def singleExample : List Event :=
  [tickAt 0 [⟨1, 0, 5, 1⟩] true, tickAt 1 [] false, tickAt 2 [] false, tickAt 3 [] false,
    tickAt 4 [] false, Event.notify, tickAt 5 [] false]

/-! ## Startup (scheduler.c lines 96-128, process_generator.c lines 41-71) -/

/-- How `main` of scheduler.c leaves its startup code: it returns an exit
status, or it reaches the main loop in some scheduler state. -/
inductive Startup where
  | exit (status : Int)
  | loop (σ : Sched)
deriving DecidableEq

/-- Lines 98-128 of `main` of scheduler.c.  `args` are the values `atoi` gives
for `argv[1]`, `argv[2]`, ... (so `argc` is their number plus one) and
`logOpens` tells whether scheduler.log can be opened. -/
def schedulerStartup (args : List Int) (logOpens : Bool) : Startup :=
  match args with
  | algorithm :: quantum :: _ :: _ =>
    if logOpens then Startup.loop (initSched algorithm quantum) else Startup.exit (-1)
  | _ => Startup.exit (-1)

/-- Lines 41-71 of `main` of process_generator.c for the number of processes
read from the file, the algorithm number typed by the user and the quantum
typed when asked for (only under algorithm 3; `quantum` is 0 otherwise):
`none` when `main` returns -1 there, before the message queue, the clock and
the scheduler are created, else the algorithm and quantum it goes on to pass
to the scheduler. -/
def generatorConfig (processCount algorithm quantumInput : Int) : Option (Int × Int) :=
  if processCount = 0 then none
  else if algorithm < 1 ∨ algorithm > 3 then none
  else if algorithm = 3 then
    if quantumInput ≤ 0 then none else some (algorithm, quantumInput)
  else some (algorithm, 0)

/-! ## Accounting -/

/-- Number of PCBs in state FINISHED whose id satisfies `P`. -/
def finishedWith (P : Int → Bool) (procs : List PCB) : Nat :=
  procs.countP (fun p => decide (p.state = ProcessState.FINISHED) && P p.id)

/-- Number of finish lines of the log whose id satisfies `P`. -/
def finishLinesWith (P : Int → Bool) (log : List LogRecord) : Nat :=
  log.countP (fun r => decide (r.event = LogEvent.finished) && P r.id)

/-- Number of PCBs of the arena in state FINISHED. -/
def finishedPCBs (σ : Sched) : Nat := finishedWith (fun _ => true) σ.processes

/-- Number of finish lines written to scheduler.log. -/
def finishLines (σ : Sched) : Nat := finishLinesWith (fun _ => true) σ.log

/-- Accounting discipline of a view: every created PCB is queued, is the
tracked running process, or is FINISHED; the tracked running process is not
FINISHED; `finishedCount` counts the FINISHED PCBs; the finish lines of the
log match the FINISHED PCBs, whatever property of the id is used to select
them; `totalRuntime` is the sum of the runtimes of the created PCBs. -/
structure VAcc (v : View) : Prop where
  covered : ∀ i, i < v.processes.length →
    i ∈ v.queue ∨ v.runningProcess = some i ∨ (v.pcb i).state = ProcessState.FINISHED
  running_live : ∀ r, v.runningProcess = some r → (v.pcb r).state ≠ ProcessState.FINISHED
  count : v.finishedCount = (finishedWith (fun _ => true) v.processes : Nat)
  lines : ∀ P, finishLinesWith P v.log = finishedWith P v.processes
  runtime : v.totalRuntime = (v.processes.map PCB.runtime).sum

/-- The metrics accumulator: the totals declared in lines 65-69 of scheduler.c,
in that order. -/
def Sched.accumulator (σ : Sched) : Int × Int × Dbl × Dbl × Int :=
  (σ.totalWaitingTime, σ.totalRuntime, σ.totalWTA, σ.totalWTASquared, σ.finishedCount)

/-- Two processes under the priority policy, arriving at tick 0 with runtimes
1 and 3: the first is started at tick 0 and notifies; the iteration of tick 1
finishes it and starts the second. -/
def pairExample : List Event :=
  [tickAt 0 [⟨1, 0, 1, 1⟩, ⟨2, 0, 3, 2⟩] true, Event.notify, tickAt 1 [] false]

/-- Two processes under the priority policy, both arriving at tick 0, with
runtimes 7 and 10, one loop iteration per clock tick: the first runs from
tick 0 and is finished at tick 7; the second waits 7 ticks, runs from tick 7
and is finished at tick 17 (turnaround 17, runtime 10). -/
def contendedExample : List Event :=
  tickAt 0 [⟨1, 0, 7, 1⟩, ⟨2, 0, 10, 2⟩] true ::
    ((List.range 6).map (fun k => tickAt ((k : Int) + 1) [] false) ++
      [Event.notify, tickAt 7 [] false] ++
      (List.range 9).map (fun k => tickAt ((k : Int) + 8) [] false) ++
      [Event.notify, tickAt 17 [] false])

/-- Two processes of runtime 2 under the priority policy, both arriving at
tick 0, one loop iteration per clock tick: they are finished at ticks 2 and 4
(turnarounds 2 and 4). -/
def twoExample : List Event :=
  [tickAt 0 [⟨1, 0, 2, 1⟩, ⟨2, 0, 2, 2⟩] true, tickAt 1 [] false, Event.notify,
    tickAt 2 [] false, tickAt 3 [] false, Event.notify, tickAt 4 [] false]

/-- Three finish events with turnaround 17 and runtime 10: PCBs created from
messages with arrival times 0, 10 and 20 and runtime 10, on which
`finishProcess` is called at clock values 17, 27 and 37. -/
def equalRatios : Option Sched :=
  (receiveProcesses (initSched 1 0) [⟨1, 0, 10, 1⟩, ⟨2, 10, 10, 1⟩, ⟨3, 20, 10, 1⟩]).bind
    (fun σ0 => (finishProcess σ0 0 17 17).bind
      (fun σ1 => (finishProcess σ1 1 27 27).bind (fun σ2 => finishProcess σ2 2 37 37)))

/-- A loop iteration without arrivals: every clock read returns the first
component, `fork()` would return the second, the third tells whether the
end-of-stream message is received. -/
def quietTick (c : Int × Int × Bool) : Event :=
  Event.tick (TickInput.uniform c.1 [] c.2.1 c.2.2)

/-! ## Sequences of queue calls -/

/-- A call of one of the three functions of scheduler.c that modify a queue. -/
inductive QueueOp where
  | enqueue (pcb : Nat)
  | dequeue
  | removeFromQueue (pcb : Nat)
deriving DecidableEq

/-- Effect of one call on the heap and the queue header (the pointer `dequeue`
returns is dropped). -/
def applyOp (h : Heap) (q : Queue) : QueueOp → Option (Heap × Queue)
  | QueueOp.enqueue pcb => enqueue h q pcb
  | QueueOp.dequeue => (dequeue h q).map (fun r => (r.1, r.2.1))
  | QueueOp.removeFromQueue pcb => removeFromQueue h q pcb

/-- Effect of a sequence of calls, first to last. -/
def applyOps : Heap → Queue → List QueueOp → Option (Heap × Queue)
  | h, q, [] => some (h, q)
  | h, q, op :: ops =>
    match applyOp h q op with
    | none => none
    | some r => applyOps r.1 r.2 ops

/-- Entry sequence of a queue after one call, for entry sequence `s` before. -/
def opEntries (s : List Nat) : QueueOp → List Nat
  | QueueOp.enqueue pcb => s ++ [pcb]
  | QueueOp.dequeue => s.tail
  | QueueOp.removeFromQueue pcb => s.erase pcb
/-! ## Theorems -/

/-! ### Heap cells -/

theorem Heap.read_lt {h : Heap} {a : Nat} {n : QueueNode} (hr : h.read a = some n) :
    a < h.cells.length := by
  unfold Heap.read at hr
  by_contra hlt
  rw [List.getElem?_eq_none (by omega)] at hr
  simp at hr

theorem Heap.read_write_same {h : Heap} {a : Nat} (n : QueueNode)
    (ha : a < h.cells.length) : (h.write a n).read a = some n := by
  simp [Heap.read, Heap.write, List.getElem?_set, ha]

theorem Heap.read_write_ne {h : Heap} {a b : Nat} (n : QueueNode) (hab : a ≠ b) :
    (h.write a n).read b = h.read b := by
  simp [Heap.read, Heap.write, List.getElem?_set, hab]

theorem Heap.read_free_same (h : Heap) (a : Nat) : (h.free a).read a = none := by
  by_cases ha : a < h.cells.length <;> simp [Heap.read, Heap.free, List.getElem?_set, ha]

theorem Heap.read_free_ne {h : Heap} {a b : Nat} (hab : a ≠ b) :
    (h.free a).read b = h.read b := by
  simp [Heap.read, Heap.free, List.getElem?_set, hab]

theorem Heap.read_malloc_new (h : Heap) (n : QueueNode) :
    (h.malloc n).1.read (h.malloc n).2 = some n := by
  simp [Heap.read, Heap.malloc]

theorem Heap.read_malloc_old {h : Heap} (n : QueueNode) {a : Nat}
    (ha : a < h.cells.length) : (h.malloc n).1.read a = h.read a := by
  simp [Heap.read, Heap.malloc, List.getElem?_append, ha]

theorem Heap.length_write (h : Heap) (a : Nat) (n : QueueNode) :
    (h.write a n).cells.length = h.cells.length := by
  simp [Heap.write]

theorem Heap.length_free (h : Heap) (a : Nat) :
    (h.free a).cells.length = h.cells.length := by
  simp [Heap.free]

theorem Heap.length_malloc (h : Heap) (n : QueueNode) :
    (h.malloc n).1.cells.length = h.cells.length + 1 := by
  simp [Heap.malloc]




/-! ### Linked segments -/

theorem chain_iff_seg (h : Heap) (l : List (Nat × Nat)) (p : Option Nat) :
    Chain h p l ↔ Seg h p l none := by
  induction l generalizing p with
  | nil => simp [Chain, Seg]
  | cons n rest ih => simp [Chain, Seg, ih]

theorem seg_append (h : Heap) (l1 l2 : List (Nat × Nat)) (p r : Option Nat) :
    Seg h p (l1 ++ l2) r ↔ ∃ m, Seg h p l1 m ∧ Seg h m l2 r := by
  induction l1 generalizing p with
  | nil => simp [Seg]
  | cons n rest ih =>
    show (p = some n.1 ∧ (h.read n.1).map QueueNode.pcb = some n.2 ∧
        Seg h ((h.read n.1).bind QueueNode.next) (rest ++ l2) r) ↔
      ∃ m, (p = some n.1 ∧ (h.read n.1).map QueueNode.pcb = some n.2 ∧
        Seg h ((h.read n.1).bind QueueNode.next) rest m) ∧ Seg h m l2 r
    rw [ih]
    constructor
    · rintro ⟨hp, hx, m, h1, h2⟩
      exact ⟨m, ⟨hp, hx, h1⟩, h2⟩
    · rintro ⟨m, ⟨hp, hx, h1⟩, h2⟩
      exact ⟨hp, hx, m, h1, h2⟩

theorem seg_frame {h h' : Heap} {l : List (Nat × Nat)} {p r : Option Nat}
    (hfr : ∀ n ∈ l, h'.read n.1 = h.read n.1) (hs : Seg h p l r) : Seg h' p l r := by
  induction l generalizing p with
  | nil => simpa [Seg] using hs
  | cons n rest ih =>
    obtain ⟨hp, hx, hrest⟩ := hs
    have hn := hfr n (List.mem_cons_self _ _)
    refine ⟨hp, by rw [hn]; exact hx, ?_⟩
    rw [hn]
    exact ih (fun k hk => hfr k (List.mem_cons_of_mem _ hk)) hrest

theorem seg_read {h : Heap} {l : List (Nat × Nat)} {p r : Option Nat}
    (hs : Seg h p l r) {n : Nat × Nat} (hn : n ∈ l) :
    ∃ node, h.read n.1 = some node ∧ node.pcb = n.2 := by
  induction l generalizing p with
  | nil => cases hn
  | cons k rest ih =>
    obtain ⟨_, hx, hrest⟩ := hs
    rcases List.mem_cons.1 hn with rfl | hmem
    · cases hr : h.read n.1 with
      | none => simp [hr] at hx
      | some node => exact ⟨node, rfl, by simpa [hr] using hx⟩
    · exact ih hrest hmem

theorem chain_unique {h : Heap} {l1 l2 : List (Nat × Nat)} {p : Option Nat}
    (h1 : Chain h p l1) (h2 : Chain h p l2) : l1 = l2 := by
  induction l1 generalizing p l2 with
  | nil =>
    cases l2 with
    | nil => rfl
    | cons n rest =>
      simp only [Chain] at h1 h2
      rw [h1] at h2
      exact absurd h2.1 (by simp)
  | cons n rest ih =>
    cases l2 with
    | nil =>
      simp only [Chain] at h1 h2
      rw [h2] at h1
      exact absurd h1.1 (by simp)
    | cons m rest2 =>
      obtain ⟨hp1, hx1, hr1⟩ := h1
      obtain ⟨hp2, hx2, hr2⟩ := h2
      have hfst : n.1 = m.1 := by
        rw [hp1] at hp2
        exact Option.some.inj hp2
      rw [← hfst] at hx2 hr2
      have hsnd : n.2 = m.2 := by
        rw [hx1] at hx2
        exact Option.some.inj hx2
      rw [ih hr1 hr2]
      congr 1
      exact Prod.ext hfst hsnd

theorem chain_suffix {h : Heap} {l1 : List (Nat × Nat)} {n : Nat × Nat}
    {l2 : List (Nat × Nat)} {p : Option Nat} (hc : Chain h p (l1 ++ n :: l2)) :
    Chain h (some n.1) (n :: l2) := by
  rw [chain_iff_seg, seg_append] at hc
  obtain ⟨m, _, hm⟩ := hc
  rw [chain_iff_seg]
  obtain ⟨hp, hx, hr⟩ := hm
  exact ⟨rfl, hx, hr⟩

theorem chain_head_not_mem {h : Heap} {n : Nat × Nat} {rest : List (Nat × Nat)}
    {p : Option Nat} (hc : Chain h p (n :: rest)) : n.1 ∉ rest.map Prod.fst := by
  intro hmem
  obtain ⟨m, hm, hfst⟩ := List.mem_map.1 hmem
  obtain ⟨l1, l2, rfl⟩ := List.append_of_mem hm
  have h1 : Chain h (some n.1) (n :: (l1 ++ m :: l2)) := ⟨rfl, hc.2.1, hc.2.2⟩
  have h2 : Chain h (some m.1) (m :: l2) := @chain_suffix h (n :: l1) m l2 _ (by simpa using hc)
  rw [hfst] at h2
  have := congrArg List.length (chain_unique h1 h2)
  simp at this
  omega

theorem chain_nodup {h : Heap} {l : List (Nat × Nat)} {p : Option Nat}
    (hc : Chain h p l) : (l.map Prod.fst).Nodup := by
  induction l generalizing p with
  | nil => simp
  | cons n rest ih =>
    rw [List.map_cons, List.nodup_cons]
    exact ⟨chain_head_not_mem hc, ih hc.2.2⟩

/-! ### Queue operations on well-formed queues -/

theorem wf_nil_iff {h : Heap} {q : Queue} : WF h q [] ↔ q = initQueue := by
  cases q
  simp [WF, Chain, initQueue]

theorem wf_isEmpty {h : Heap} {q : Queue} {l : List (Nat × Nat)} (hw : WF h q l) :
    isEmpty q = true ↔ l = [] := by
  have hs := hw.2.2
  simp only [isEmpty, beq_iff_eq, hs]
  constructor
  · intro h0
    exact List.length_eq_zero.1 (by exact_mod_cast h0)
  · intro h0
    simp [h0]

theorem enqueue_wf {h : Heap} {q : Queue} {l : List (Nat × Nat)} (hw : WF h q l)
    (p : Nat) :
    ∃ h' q', enqueue h q p = some (h', q') ∧ WF h' q' (l ++ [(h.cells.length, p)]) ∧
      h.cells.length ≤ h'.cells.length := by
  obtain ⟨hc, ht, hs⟩ := hw
  have hm2 : (h.malloc ⟨p, none⟩).2 = h.cells.length := rfl
  rcases List.eq_nil_or_concat l with rfl | ⟨l0, n, rfl⟩
  · simp only [List.getLast?_nil, Option.map_none'] at ht
    have he : enqueue h q p = some ((h.malloc ⟨p, none⟩).1,
        { head := some h.cells.length, tail := some h.cells.length, size := q.size + 1 }) := by
      simp [enqueue, ht, hm2]
    refine ⟨_, _, he, ⟨?_, by simp, by simp [hs]⟩, by simp [Heap.malloc]⟩
    have hr := Heap.read_malloc_new h ⟨p, none⟩
    rw [hm2] at hr
    simp [Chain, hr]
  · obtain ⟨t, x⟩ := n
    rw [List.concat_eq_append] at hc ht hs ⊢
    simp only [List.getLast?_append, List.getLast?_singleton, Option.or_some,
      Option.map_some'] at ht
    have hnd := chain_nodup hc
    rw [chain_iff_seg, seg_append] at hc
    obtain ⟨m, hseg0, hm, hx, hnx⟩ := hc
    simp only at hm hx hnx
    obtain ⟨tn, hrt, htn⟩ := seg_read (l := [(t, x)]) (n := (t, x)) (p := some t)
      (r := none) ⟨rfl, hx, hnx⟩ (by simp)
    simp only at hrt htn
    have htlt := Heap.read_lt hrt
    have hrt' : (h.malloc ⟨p, none⟩).1.read t = some tn := by
      rw [Heap.read_malloc_old _ htlt, hrt]
    have he : enqueue h q p = some ((h.malloc ⟨p, none⟩).1.write t
          { tn with next := some h.cells.length },
        { q with tail := some h.cells.length, size := q.size + 1 }) := by
      simp [enqueue, ht, hrt', hm2]
    have hlen : (h.malloc ⟨p, none⟩).1.cells.length = h.cells.length + 1 :=
      Heap.length_malloc _ _
    refine ⟨_, _, he, ⟨?_, by simp, by simp [hs]; ring⟩, ?_⟩
    · rw [chain_iff_seg, List.append_assoc, seg_append]
      refine ⟨some t, seg_frame ?_ (hm ▸ hseg0), ?_⟩
      · intro k hk
        obtain ⟨kn, hkr, _⟩ := seg_read hseg0 hk
        have hklt := Heap.read_lt hkr
        have hkt : t ≠ k.1 := by
          intro heq
          rw [List.map_append, List.nodup_append] at hnd
          exact hnd.2.2 (List.mem_map_of_mem Prod.fst hk) (by simp [heq])
        rw [Heap.read_write_ne _ hkt, Heap.read_malloc_old _ hklt]
      · have h1 : ((h.malloc ⟨p, none⟩).1.write t { tn with next := some h.cells.length }).read t
            = some { tn with next := some h.cells.length } :=
          Heap.read_write_same _ (by omega)
        have hne : t ≠ h.cells.length := by omega
        have h2 : ((h.malloc ⟨p, none⟩).1.write t { tn with next := some h.cells.length }).read
            h.cells.length = some ⟨p, none⟩ := by
          rw [Heap.read_write_ne _ hne]
          exact Heap.read_malloc_new h _
        show _ ∧ _ ∧ _ ∧ _ ∧ _
        rw [h1]
        simp only [Option.map_some', Option.bind_some]
        rw [h2]
        simp [htn, Seg]
    · rw [Heap.length_write, hlen]
      omega

theorem dequeue_wf_nil {h : Heap} {q : Queue} (hw : WF h q []) :
    dequeue h q = some (h, q, none) := by
  have hq := hw.1
  simp only [Chain] at hq
  simp [dequeue, hq]

theorem dequeue_wf_cons {h : Heap} {q : Queue} {a x : Nat} {rest : List (Nat × Nat)}
    (hw : WF h q ((a, x) :: rest)) :
    ∃ q', dequeue h q = some (h.free a, q', some x) ∧ WF (h.free a) q' rest ∧
      q'.size = q.size - 1 := by
  obtain ⟨hc, ht, hs⟩ := hw
  have hnm := chain_head_not_mem hc
  obtain ⟨hp, hx, hrest⟩ := hc
  simp only at hp hx hrest hnm
  cases hr : h.read a with
  | none => simp [hr] at hx
  | some node =>
    rw [hr] at hx hrest
    simp only [Option.map_some', Option.some.injEq, Option.some_bind] at hx hrest
    have hd : dequeue h q = some (h.free a,
        { head := node.next, tail := if node.next = none then none else q.tail,
          size := q.size - 1 }, some x) := by
      simp only [dequeue, hp, hr, hx]
      split <;> rfl
    refine ⟨_, hd, ⟨?_, ?_, ?_⟩, by simp⟩
    · rw [chain_iff_seg] at hrest ⊢
      refine seg_frame ?_ (by simpa using hrest)
      intro k hk
      have : a ≠ k.1 := fun heq => hnm (heq ▸ List.mem_map_of_mem Prod.fst hk)
      exact Heap.read_free_ne this
    · cases rest with
      | nil =>
        simp only [Chain] at hrest
        simp [hrest]
      | cons m rest2 =>
        have := hrest.1
        simp [this, ht]
    · simp [hs]

theorem peek_wf {h : Heap} {q : Queue} {l : List (Nat × Nat)} (hw : WF h q l) :
    peek h q = some (l.head?.map Prod.snd) := by
  obtain ⟨hc, _, _⟩ := hw
  cases l with
  | nil =>
    simp only [Chain] at hc
    simp [peek, hc]
  | cons n rest =>
    obtain ⟨hp, hx, _⟩ := hc
    cases hr : h.read n.1 with
    | none => simp [hr] at hx
    | some node =>
      simp only [hr, Option.map_some', Option.some.injEq] at hx
      simp [peek, hp, hr, hx]

theorem eraseNode_map (pcb : Nat) (l : List (Nat × Nat)) :
    (eraseNode pcb l).map Prod.snd = (l.map Prod.snd).erase pcb := by
  induction l with
  | nil => rfl
  | cons n rest ih =>
    by_cases hn : n.2 = pcb
    · simp [eraseNode, hn]
    · have : (n.2 == pcb) = false := by simpa using hn
      simp [eraseNode, hn, List.erase_cons, this, ih]

theorem eraseNode_of_not_mem {pcb : Nat} {l : List (Nat × Nat)}
    (hn : pcb ∉ l.map Prod.snd) : eraseNode pcb l = l := by
  induction l with
  | nil => rfl
  | cons n rest ih =>
    simp only [List.map_cons, List.mem_cons, not_or] at hn
    simp [eraseNode, Ne.symm hn.1, ih hn.2]

theorem removeLoop_wf {h : Heap} {q : Queue} {pcb : Nat} :
    ∀ (rest pre : List (Nat × Nat)) (prev xp fuel : Nat), rest.length < fuel →
      WF h q (pre ++ (prev, xp) :: rest) →
      ∃ h' q', removeLoop pcb fuel h q prev ((h.read prev).bind QueueNode.next) = some (h', q') ∧
        WF h' q' (pre ++ (prev, xp) :: eraseNode pcb rest) ∧
        (pcb ∈ rest.map Prod.snd → q'.size = q.size - 1) ∧
        (pcb ∉ rest.map Prod.snd → h' = h ∧ q' = q) ∧
        h'.cells.length = h.cells.length := by
  intro rest
  induction rest with
  | nil =>
    intro pre prev xp fuel hf hw
    obtain ⟨f, rfl⟩ : ∃ f, fuel = f + 1 := ⟨fuel - 1, by simp at hf; omega⟩
    have hc := hw.1
    rw [chain_iff_seg, seg_append] at hc
    obtain ⟨m, _, _, _, hnx⟩ := hc
    simp only [Seg] at hnx
    rw [hnx]
    exact ⟨h, q, rfl, hw, by simp, by simp, rfl⟩
  | cons n rest ih =>
    intro pre prev xp fuel hf hw
    obtain ⟨c, x⟩ := n
    obtain ⟨f, rfl⟩ : ∃ f, fuel = f + 1 := ⟨fuel - 1, by simp at hf; omega⟩
    obtain ⟨hc, ht, hs⟩ := hw
    have hnd := chain_nodup hc
    have hc0 := hc
    rw [chain_iff_seg, seg_append] at hc
    obtain ⟨m, hpre, hm, hxp, hnx, hx, hrest⟩ := hc
    simp only at hm hxp hnx hx hrest
    cases hrc : h.read c with
    | none => simp [hrc] at hx
    | some cn =>
      rw [hrc] at hx hrest
      simp only [Option.map_some', Option.some.injEq, Option.some_bind] at hx hrest
      rw [hnx]
      by_cases hfound : x = pcb
      · cases hrp : h.read prev with
        | none => simp [hrp] at hxp
        | some pn =>
          rw [hrp] at hxp
          simp only [Option.map_some', Option.some.injEq] at hxp
          have hrun : removeLoop pcb (f + 1) h q prev (some c) =
              some ((h.write prev { pn with next := cn.next }).free c,
                { head := q.head, tail := if some c = q.tail then some prev else q.tail,
                  size := q.size - 1 }) := by
            simp only [removeLoop, hrc, hx, hfound, if_true, hrp]
            split <;> rfl
          simp only [List.map_append, List.map_cons, List.nodup_append, List.nodup_cons,
            List.mem_cons, List.mem_append, not_or] at hnd
          obtain ⟨hnd1, ⟨hprev_nc, hc_nr, hnd_r⟩, hdisj⟩ := hnd
          have hprev_c : prev ≠ c := fun e => hprev_nc.1 e
          have hprev_lt := Heap.read_lt hrp
          refine ⟨_, _, hrun, ⟨?_, ?_, ?_⟩, by intro _; rfl, ?_, ?_⟩
          · simp only [eraseNode, hfound, if_true]
            rw [chain_iff_seg, seg_append]
            refine ⟨some prev, seg_frame ?_ (hm ▸ hpre), ?_⟩
            · intro k hk
              have hk1 : k.1 ∈ pre.map Prod.fst := List.mem_map_of_mem Prod.fst hk
              have hkp : prev ≠ k.1 := fun e => hdisj hk1 (by simp [e])
              have hkc : c ≠ k.1 := fun e => hdisj hk1 (by simp [e])
              rw [Heap.read_free_ne hkc, Heap.read_write_ne _ hkp]
            · have h1 : ((h.write prev { pn with next := cn.next }).free c).read prev =
                  some { pn with next := cn.next } := by
                rw [Heap.read_free_ne (Ne.symm hprev_c)]
                exact Heap.read_write_same _ hprev_lt
              show _ ∧ _ ∧ _
              rw [h1]
              refine ⟨rfl, by simp [hxp], ?_⟩
              simp only [Option.some_bind]
              refine seg_frame ?_ hrest
              intro k hk
              have hk1 : k.1 ∈ rest.map Prod.fst := List.mem_map_of_mem Prod.fst hk
              have hkp : prev ≠ k.1 := fun e => hprev_nc.2 (e ▸ hk1)
              have hkc : c ≠ k.1 := fun e => hc_nr (e ▸ hk1)
              rw [Heap.read_free_ne hkc, Heap.read_write_ne _ hkp]
          · simp only [eraseNode, hfound, if_true]
            rcases List.eq_nil_or_concat rest with rfl | ⟨r0, z, rfl⟩
            · simp at ht
              simp [ht]
            · rw [List.concat_eq_append] at ht hc_nr ⊢
              have e1 : pre ++ (prev, xp) :: (c, x) :: (r0 ++ [z]) =
                  (pre ++ (prev, xp) :: (c, x) :: r0) ++ [z] := by simp
              have e2 : pre ++ (prev, xp) :: (r0 ++ [z]) = (pre ++ (prev, xp) :: r0) ++ [z] := by
                simp
              rw [e1] at ht
              rw [e2]
              simp only [List.getLast?_append, List.getLast?_singleton, Option.or_some,
                Option.map_some'] at ht ⊢
              have hcz : c ≠ z.1 := fun e => hc_nr (by simp [e])
              simp [ht, hcz]
          · simp only [eraseNode, hfound, if_true]
            simp [hs]
            ring
          · intro hnot
            exact absurd (by simp [hfound]) hnot
          · simp [Heap.free, Heap.write]
      · have hrun : removeLoop pcb (f + 1) h q prev (some c) =
            removeLoop pcb f h q c cn.next := by
          simp [removeLoop, hrc, hx, hfound]
        have hw' : WF h q ((pre ++ [(prev, xp)]) ++ (c, x) :: rest) := by
          have e : (pre ++ [(prev, xp)]) ++ (c, x) :: rest = pre ++ (prev, xp) :: (c, x) :: rest := by
            simp
          rw [e]
          exact ⟨hc0, ht, hs⟩
        obtain ⟨h', q', hrun', hwf, hin, hnot, hlen⟩ :=
          ih (pre ++ [(prev, xp)]) c x f (by simp at hf; omega) hw'
        rw [hrc] at hrun'
        simp only [Option.some_bind] at hrun'
        refine ⟨h', q', hrun.trans hrun', ?_, ?_, ?_, hlen⟩
        · have e : (pre ++ [(prev, xp)]) ++ (c, x) :: eraseNode pcb rest =
              pre ++ (prev, xp) :: (c, x) :: eraseNode pcb rest := by simp
          rw [e] at hwf
          simpa [eraseNode, hfound] using hwf
        · intro hmem
          apply hin
          simpa [Ne.symm hfound] using hmem
        · intro hmem
          apply hnot
          simpa [Ne.symm hfound] using hmem

theorem removeFromQueue_wf {h : Heap} {q : Queue} {l : List (Nat × Nat)} (hw : WF h q l)
    (pcb : Nat) :
    ∃ h' q', removeFromQueue h q pcb = some (h', q') ∧ WF h' q' (eraseNode pcb l) ∧
      (pcb ∈ l.map Prod.snd → q'.size = q.size - 1) ∧
      (pcb ∉ l.map Prod.snd → h' = h ∧ q' = q) ∧
      h'.cells.length = h.cells.length := by
  cases l with
  | nil =>
    have hq := hw.1
    simp only [Chain] at hq
    exact ⟨h, q, by simp [removeFromQueue, hq], hw, by simp, by simp, rfl⟩
  | cons n rest =>
    obtain ⟨a, x⟩ := n
    have hc := hw.1
    obtain ⟨hp, hx, hrest⟩ := hc
    simp only at hp hx hrest
    cases hr : h.read a with
    | none => simp [hr] at hx
    | some hn =>
      rw [hr] at hx
      simp only [Option.map_some', Option.some.injEq] at hx
      by_cases hfound : x = pcb
      · obtain ⟨q', hd, hwf, hsz⟩ := dequeue_wf_cons hw
        refine ⟨h.free a, q', by simp [removeFromQueue, hp, hr, hx, hfound, hd], ?_,
          fun _ => hsz, ?_, by simp [Heap.free]⟩
        · simpa [eraseNode, hfound] using hwf
        · intro hnot
          exact absurd (by simp [hfound]) hnot
      · have hlen : rest.length < h.bound := by
          have hnd := chain_nodup hw.1
          have hsub : ∀ k ∈ ((a, x) :: rest).map Prod.fst, k ∈ List.range h.cells.length := by
            intro k hk
            obtain ⟨kk, hkk, rfl⟩ := List.mem_map.1 hk
            obtain ⟨node, hnode, _⟩ := seg_read ((chain_iff_seg _ _ _).1 hw.1) hkk
            exact List.mem_range.2 (Heap.read_lt hnode)
          have := (List.subperm_of_subset hnd hsub).length_le
          simp at this
          simp [Heap.bound]
          omega
        obtain ⟨h', q', hrun, hwf, hin, hnot, hl⟩ :=
          @removeLoop_wf h q pcb rest [] a x h.bound hlen (by simpa using hw)
        rw [hr] at hrun
        simp only [Option.some_bind] at hrun
        refine ⟨h', q', by simp [removeFromQueue, hp, hr, hx, hfound, hrun], ?_, ?_, ?_, hl⟩
        · simpa [eraseNode, hfound] using hwf
        · intro hmem
          apply hin
          simpa [Ne.symm hfound] using hmem
        · intro hmem
          apply hnot
          simpa [Ne.symm hfound] using hmem

/-! ### The queue seen as a sequence of PCB pointers -/

theorem wf_length_lt_bound {h : Heap} {q : Queue} {l : List (Nat × Nat)} (hw : WF h q l) :
    l.length < h.bound := by
  have hnd := chain_nodup hw.1
  have hsub : ∀ k ∈ l.map Prod.fst, k ∈ List.range h.cells.length := by
    intro k hk
    obtain ⟨kk, hkk, rfl⟩ := List.mem_map.1 hk
    obtain ⟨node, hnode, _⟩ := seg_read ((chain_iff_seg _ _ _).1 hw.1) hkk
    exact List.mem_range.2 (Heap.read_lt hnode)
  have := (List.subperm_of_subset hnd hsub).length_le
  simp at this
  simp [Heap.bound]
  omega

theorem isQueue_init (h : Heap) : IsQueue h initQueue [] :=
  ⟨[], wf_nil_iff.2 rfl, rfl⟩

theorem isQueue_nil_iff {h : Heap} {q : Queue} : IsQueue h q [] ↔ q = initQueue := by
  constructor
  · rintro ⟨l, hw, hl⟩
    rw [List.map_eq_nil_iff] at hl
    subst hl
    exact wf_nil_iff.1 hw
  · rintro rfl
    exact isQueue_init h

theorem isQueue_size {h : Heap} {q : Queue} {s : List Nat} (hq : IsQueue h q s) :
    q.size = s.length := by
  obtain ⟨l, hw, rfl⟩ := hq
  simpa using hw.2.2

theorem isQueue_isEmpty {h : Heap} {q : Queue} {s : List Nat} (hq : IsQueue h q s) :
    isEmpty q = true ↔ s = [] := by
  obtain ⟨l, hw, rfl⟩ := hq
  rw [wf_isEmpty hw, List.map_eq_nil_iff]

theorem isQueue_enqueue {h : Heap} {q : Queue} {s : List Nat} (hq : IsQueue h q s)
    (p : Nat) : ∃ h' q', enqueue h q p = some (h', q') ∧ IsQueue h' q' (s ++ [p]) := by
  obtain ⟨l, hw, rfl⟩ := hq
  obtain ⟨h', q', he, hw', _⟩ := enqueue_wf hw p
  exact ⟨h', q', he, _, hw', by simp⟩

theorem isQueue_dequeue_nil {h : Heap} {q : Queue} (hq : IsQueue h q []) :
    dequeue h q = some (h, q, none) := by
  obtain ⟨l, hw, hl⟩ := hq
  rw [List.map_eq_nil_iff] at hl
  subst hl
  exact dequeue_wf_nil hw

theorem isQueue_dequeue_cons {h : Heap} {q : Queue} {x : Nat} {rest : List Nat}
    (hq : IsQueue h q (x :: rest)) :
    ∃ h' q', dequeue h q = some (h', q', some x) ∧ IsQueue h' q' rest ∧
      q'.size = q.size - 1 := by
  obtain ⟨l, hw, hl⟩ := hq
  cases l with
  | nil => simp at hl
  | cons n l' =>
    obtain ⟨a, y⟩ := n
    simp only [List.map_cons, List.cons.injEq] at hl
    obtain ⟨rfl, rfl⟩ := hl
    obtain ⟨q', hd, hw', hs⟩ := dequeue_wf_cons hw
    exact ⟨_, q', hd, ⟨l', hw', rfl⟩, hs⟩

theorem isQueue_peek {h : Heap} {q : Queue} {s : List Nat} (hq : IsQueue h q s) :
    peek h q = some s.head? := by
  obtain ⟨l, hw, rfl⟩ := hq
  rw [peek_wf hw]
  cases l <;> rfl

theorem isQueue_remove {h : Heap} {q : Queue} {s : List Nat} (hq : IsQueue h q s)
    (p : Nat) :
    ∃ h' q', removeFromQueue h q p = some (h', q') ∧ IsQueue h' q' (s.erase p) ∧
      (p ∈ s → q'.size = q.size - 1) ∧ (p ∉ s → h' = h ∧ q' = q) := by
  obtain ⟨l, hw, rfl⟩ := hq
  obtain ⟨h', q', hr, hw', hin, hnot, _⟩ := removeFromQueue_wf hw p
  exact ⟨h', q', hr, ⟨_, hw', eraseNode_map p l⟩, hin, hnot⟩

theorem isQueue_enqueueAll {h : Heap} {q : Queue} {s : List Nat} (hq : IsQueue h q s)
    (ps : List Nat) :
    ∃ h' q', enqueueAll h q ps = some (h', q') ∧ IsQueue h' q' (s ++ ps) := by
  induction ps generalizing h q s with
  | nil => exact ⟨h, q, rfl, by simpa using hq⟩
  | cons p ps ih =>
    obtain ⟨h1, q1, he, hq1⟩ := isQueue_enqueue hq p
    obtain ⟨h2, q2, he2, hq2⟩ := ih hq1
    exact ⟨h2, q2, by simp [enqueueAll, he, he2], by simpa using hq2⟩

theorem isQueue_dequeueN {h : Heap} {q : Queue} {s : List Nat} (hq : IsQueue h q s)
    (n : Nat) :
    ∃ h' q', dequeueN n h q =
        some (h', q', (s.take n).map some ++ List.replicate (n - s.length) none) ∧
      IsQueue h' q' (s.drop n) := by
  induction n generalizing h q s with
  | zero => exact ⟨h, q, by simp [dequeueN], by simpa using hq⟩
  | succ n ih =>
    cases s with
    | nil =>
      have hd := isQueue_dequeue_nil hq
      obtain ⟨h2, q2, hd2, hq2⟩ := ih hq
      refine ⟨h2, q2, ?_, by simpa using hq2⟩
      simp only [dequeueN, hd, hd2]
      simp [List.replicate_succ]
    | cons x rest =>
      obtain ⟨h1, q1, hd, hq1, _⟩ := isQueue_dequeue_cons hq
      obtain ⟨h2, q2, hd2, hq2⟩ := ih hq1
      refine ⟨h2, q2, ?_, by simpa using hq2⟩
      simp only [dequeueN, hd, hd2]
      simp

/-! ### C3, C4 -/

/-- C3. The ready queue is a FIFO container.  For a well-formed queue whose
entries from head to tail are `s`: `enqueue p` yields `s ++ [p]`; `dequeue` on
an empty queue returns `NULL` and changes nothing, and on `x :: rest` returns
`x` and leaves `rest`; `peek` returns the first entry (`NULL` when empty) and,
being a read of `head`, changes nothing; `isEmpty` holds iff `s` is empty; and
enqueueing `ps` and then dequeueing as many times as there are entries returns
`s ++ ps` in order and leaves the queue empty. -/
theorem queue_fifo (h : Heap) (q : Queue) (s : List Nat) (hq : IsQueue h q s) :
    (∀ p, ∃ h' q', enqueue h q p = some (h', q') ∧ IsQueue h' q' (s ++ [p])) ∧
    (s = [] → dequeue h q = some (h, q, none)) ∧
    (∀ x rest, s = x :: rest →
      ∃ h' q', dequeue h q = some (h', q', some x) ∧ IsQueue h' q' rest) ∧
    peek h q = some s.head? ∧
    (isEmpty q = true ↔ s = []) ∧
    (∀ ps, ∃ h1 q1, enqueueAll h q ps = some (h1, q1) ∧
      ∃ h2 q2, dequeueN (s ++ ps).length h1 q1 = some (h2, q2, (s ++ ps).map some) ∧
        IsQueue h2 q2 []) := by
  refine ⟨fun p => isQueue_enqueue hq p, ?_, ?_, isQueue_peek hq, isQueue_isEmpty hq, ?_⟩
  · rintro rfl
    exact isQueue_dequeue_nil hq
  · rintro x rest rfl
    obtain ⟨h', q', hd, hq', _⟩ := isQueue_dequeue_cons hq
    exact ⟨h', q', hd, hq'⟩
  · intro ps
    obtain ⟨h1, q1, he, hq1⟩ := isQueue_enqueueAll hq ps
    obtain ⟨h2, q2, hd, hq2⟩ := isQueue_dequeueN hq1 (s ++ ps).length
    rw [List.take_length, List.drop_length, Nat.sub_self, List.replicate_zero,
      List.append_nil] at *
    exact ⟨h1, q1, he, h2, q2, hd, hq2⟩

/-- Witness for C3 on the three-entry example queue `[7, 8, 9]`. -/
theorem queue_fifo_witness :
    IsQueue exHeap exQueue [7, 8, 9] ∧
    (∃ h' q', enqueue exHeap exQueue 5 = some (h', q') ∧ IsQueue h' q' [7, 8, 9, 5]) ∧
    (∃ h' q', dequeue exHeap exQueue = some (h', q', some 7) ∧ IsQueue h' q' [8, 9]) ∧
    peek exHeap exQueue = some (some 7) :=
  have hq : IsQueue exHeap exQueue [7, 8, 9] := ⟨[(0, 7), (1, 8), (2, 9)], by decide, rfl⟩
  have hf := queue_fifo exHeap exQueue [7, 8, 9] hq
  ⟨hq, hf.1 5, hf.2.2.1 7 [8, 9] rfl, hf.2.2.2.1⟩

/-- C4. For a well-formed queue with entries `s` and any PCB pointer `p`,
`removeFromQueue` yields the well-formed queue whose entries are `s` with the
first occurrence of `p` deleted (so for `s = s1 ++ p :: s2` with `p` not in
`s1` the entries become `s1 ++ s2`, all others kept in order) and `size`
decreased by exactly 1 when `p` occurs in `s`; when `p` does not occur, heap
and queue are unchanged. -/
theorem removeFromQueue_spec (h : Heap) (q : Queue) (s : List Nat) (p : Nat)
    (hq : IsQueue h q s) :
    ∃ h' q', removeFromQueue h q p = some (h', q') ∧ IsQueue h' q' (s.erase p) ∧
      (∀ s1 s2, s = s1 ++ p :: s2 → p ∉ s1 → IsQueue h' q' (s1 ++ s2)) ∧
      (p ∈ s → q'.size = q.size - 1 ∧ (s.erase p).length + 1 = s.length) ∧
      (p ∉ s → h' = h ∧ q' = q) := by
  obtain ⟨h', q', hr, hq', hin, hnot⟩ := isQueue_remove hq p
  refine ⟨h', q', hr, hq', ?_, ?_, hnot⟩
  · rintro s1 s2 rfl hp
    rw [List.erase_append_right _ hp, List.erase_cons_head] at hq'
    exact hq'
  · intro hp
    refine ⟨hin hp, ?_⟩
    rw [List.length_erase_of_mem hp]
    have := List.length_pos_of_mem hp
    omega

/-- Witness for C4: removing the middle entry 8 of the example queue. -/
theorem removeFromQueue_spec_witness :
    IsQueue exHeap exQueue [7, 8, 9] ∧
    ∃ h' q', removeFromQueue exHeap exQueue 8 = some (h', q') ∧ IsQueue h' q' [7, 9] ∧
      q'.size = 2 :=
  have hq : IsQueue exHeap exQueue [7, 8, 9] := ⟨[(0, 7), (1, 8), (2, 9)], by decide, rfl⟩
  have hr := removeFromQueue_spec exHeap exQueue [7, 8, 9] 8 hq
  ⟨hq, hr.choose, hr.choose_spec.choose, hr.choose_spec.choose_spec.1,
    hr.choose_spec.choose_spec.2.2.1 [7] [9] rfl (by decide),
    (hr.choose_spec.choose_spec.2.2.2.1 (by decide)).1⟩

/-! ### Selection loops -/

theorem pcbAt_of_getElem? {procs : List PCB} {i : Nat} {p : PCB}
    (hp : procs[i]? = some p) : pcbAt procs i = p := by
  simp [pcbAt, List.getD, hp]

theorem getElem?_pcbAt {procs : List PCB} {i : Nat} (hi : i < procs.length) :
    procs[i]? = some (pcbAt procs i) := by
  simp [pcbAt, List.getD, List.getElem?_eq_getElem hi]

theorem pickMin_some {K : Type} [LinearOrder K] (f : Nat → K) (xs : List Nat) (b : Nat) :
    ∃ r, pickMin f xs (some b) = some r ∧
      ((r = b ∧ ∀ x ∈ xs, f b ≤ f x) ∨
        ∃ s1 s2, xs = s1 ++ r :: s2 ∧ f r < f b ∧ (∀ x ∈ s1, f r < f x) ∧
          ∀ x ∈ s2, f r ≤ f x) := by
  induction xs generalizing b with
  | nil => exact ⟨b, rfl, Or.inl ⟨rfl, by simp⟩⟩
  | cons x xs ih =>
    by_cases hlt : f x < f b
    · obtain ⟨r, hr, hcase⟩ := ih x
      refine ⟨r, by simp [pickMin, hlt, hr], Or.inr ?_⟩
      rcases hcase with ⟨rfl, hall⟩ | ⟨s1, s2, rfl, hrx, h1, h2⟩
      · exact ⟨[], xs, rfl, hlt, by simp, hall⟩
      · refine ⟨x :: s1, s2, rfl, lt_trans hrx hlt, ?_, h2⟩
        intro y hy
        rcases List.mem_cons.1 hy with rfl | hy
        · exact hrx
        · exact h1 y hy
    · obtain ⟨r, hr, hcase⟩ := ih b
      refine ⟨r, by simp [pickMin, hlt, hr], ?_⟩
      rcases hcase with ⟨rfl, hall⟩ | ⟨s1, s2, rfl, hrb, h1, h2⟩
      · refine Or.inl ⟨rfl, ?_⟩
        intro y hy
        rcases List.mem_cons.1 hy with rfl | hy
        · exact not_lt.1 hlt
        · exact hall y hy
      · refine Or.inr ⟨x :: s1, s2, rfl, hrb, ?_, h2⟩
        intro y hy
        rcases List.mem_cons.1 hy with rfl | hy
        · exact lt_of_lt_of_le hrb (not_lt.1 hlt)
        · exact h1 y hy

theorem pickMin_none {K : Type} [LinearOrder K] (f : Nat → K) (s : List Nat) :
    ∃ r, pickMin f s none = r ∧ (r = none ↔ s = []) ∧
      ∀ p, r = some p → ∃ s1 s2, s = s1 ++ p :: s2 ∧ (∀ x ∈ s1, f p < f x) ∧
        ∀ x ∈ s2, f p ≤ f x := by
  cases s with
  | nil => exact ⟨none, rfl, by simp, by simp⟩
  | cons x xs =>
    obtain ⟨r, hr, hcase⟩ := pickMin_some f xs x
    refine ⟨some r, by simp [pickMin, hr], by simp, ?_⟩
    intro p hp
    obtain rfl := Option.some.inj hp
    rcases hcase with ⟨rfl, hall⟩ | ⟨s1, s2, rfl, hrx, h1, h2⟩
    · exact ⟨[], xs, rfl, by simp, hall⟩
    · refine ⟨x :: s1, s2, rfl, ?_, h2⟩
      intro y hy
      rcases List.mem_cons.1 hy with rfl | hy
      · exact hrx
      · exact h1 y hy

theorem selectHPFLoop_eq {h : Heap} {procs : List PCB} (l : List (Nat × Nat)) :
    ∀ (p best : Option Nat) (fuel : Nat), Chain h p l → l.length < fuel →
      (∀ n ∈ l, n.2 < procs.length) → (∀ b, best = some b → b < procs.length) →
      selectHPFLoop h procs fuel p best =
        some (pickMin (hpfKey procs) (l.map Prod.snd) best) := by
  induction l with
  | nil =>
    intro p best fuel hc hf _ _
    obtain ⟨f, rfl⟩ : ∃ f, fuel = f + 1 := ⟨fuel - 1, by simp at hf; omega⟩
    simp only [Chain] at hc
    subst hc
    rfl
  | cons n rest ih =>
    intro p best fuel hc hf hv hb
    obtain ⟨f, rfl⟩ : ∃ f, fuel = f + 1 := ⟨fuel - 1, by simp at hf; omega⟩
    obtain ⟨hp, hx, hrest⟩ := hc
    cases hr : h.read n.1 with
    | none => simp [hr] at hx
    | some node =>
      rw [hr] at hx hrest
      simp only [Option.map_some', Option.some.injEq, Option.some_bind] at hx hrest
      have hf' : rest.length < f := by simp at hf; omega
      have hv' : ∀ k ∈ rest, k.2 < procs.length := fun k hk => hv k (List.mem_cons_of_mem _ hk)
      have hn : n.2 < procs.length := hv n (List.mem_cons_self _ _)
      subst hp
      cases best with
      | none =>
        simp only [selectHPFLoop, hr, List.map_cons, pickMin]
        rw [hx]
        exact ih _ _ _ hrest hf' hv' (by intro b hb'; cases hb'; exact hn)
      | some b =>
        have hbl := hb b rfl
        simp only [selectHPFLoop, hr, List.map_cons, pickMin, hx, getElem?_pcbAt hn,
          getElem?_pcbAt hbl]
        have hkey : hpfKey procs n.2 < hpfKey procs b ↔
            (pcbAt procs n.2).priority < (pcbAt procs b).priority ∨
              (pcbAt procs n.2).priority = (pcbAt procs b).priority ∧
                (pcbAt procs n.2).arrivalTime < (pcbAt procs b).arrivalTime :=
          Prod.Lex.lt_iff _ _
        have hnew := ih node.next (some n.2) f hrest hf' hv'
          (by intro b' hb'; cases hb'; exact hn)
        have hold := ih node.next (some b) f hrest hf' hv'
          (by intro b' hb'; cases hb'; exact hbl)
        by_cases h1 : (pcbAt procs n.2).priority < (pcbAt procs b).priority
        · rw [if_pos h1, if_pos (hkey.2 (Or.inl h1))]
          exact hnew
        · rw [if_neg h1]
          by_cases h2 : (pcbAt procs n.2).priority = (pcbAt procs b).priority
          · rw [if_pos h2]
            by_cases h3 : (pcbAt procs n.2).arrivalTime < (pcbAt procs b).arrivalTime
            · rw [if_pos h3, if_pos (hkey.2 (Or.inr ⟨h2, h3⟩))]
              exact hnew
            · rw [if_neg h3, if_neg (by rw [hkey]; tauto)]
              exact hold
          · rw [if_neg h2, if_neg (by rw [hkey]; tauto)]
            exact hold

theorem selectSJNLoop_eq {h : Heap} {procs : List PCB} (l : List (Nat × Nat)) :
    ∀ (p best : Option Nat) (fuel : Nat), Chain h p l → l.length < fuel →
      (∀ n ∈ l, n.2 < procs.length) → (∀ b, best = some b → b < procs.length) →
      selectSJNLoop h procs fuel p best =
        some (pickMin (sjnKey procs) (l.map Prod.snd) best) := by
  induction l with
  | nil =>
    intro p best fuel hc hf _ _
    obtain ⟨f, rfl⟩ : ∃ f, fuel = f + 1 := ⟨fuel - 1, by simp at hf; omega⟩
    simp only [Chain] at hc
    subst hc
    rfl
  | cons n rest ih =>
    intro p best fuel hc hf hv hb
    obtain ⟨f, rfl⟩ : ∃ f, fuel = f + 1 := ⟨fuel - 1, by simp at hf; omega⟩
    obtain ⟨hp, hx, hrest⟩ := hc
    cases hr : h.read n.1 with
    | none => simp [hr] at hx
    | some node =>
      rw [hr] at hx hrest
      simp only [Option.map_some', Option.some.injEq, Option.some_bind] at hx hrest
      have hf' : rest.length < f := by simp at hf; omega
      have hv' : ∀ k ∈ rest, k.2 < procs.length := fun k hk => hv k (List.mem_cons_of_mem _ hk)
      have hn : n.2 < procs.length := hv n (List.mem_cons_self _ _)
      subst hp
      cases best with
      | none =>
        simp only [selectSJNLoop, hr, List.map_cons, pickMin]
        rw [hx]
        exact ih _ _ _ hrest hf' hv' (by intro b hb'; cases hb'; exact hn)
      | some b =>
        have hbl := hb b rfl
        simp only [selectSJNLoop, hr, List.map_cons, pickMin, hx, getElem?_pcbAt hn,
          getElem?_pcbAt hbl]
        have hkey : sjnKey procs n.2 < sjnKey procs b ↔
            (pcbAt procs n.2).remainingTime < (pcbAt procs b).remainingTime ∨
              (pcbAt procs n.2).remainingTime = (pcbAt procs b).remainingTime ∧
                (pcbAt procs n.2).arrivalTime < (pcbAt procs b).arrivalTime :=
          Prod.Lex.lt_iff _ _
        have hnew := ih node.next (some n.2) f hrest hf' hv'
          (by intro b' hb'; cases hb'; exact hn)
        have hold := ih node.next (some b) f hrest hf' hv'
          (by intro b' hb'; cases hb'; exact hbl)
        by_cases h1 : (pcbAt procs n.2).remainingTime < (pcbAt procs b).remainingTime
        · rw [if_pos h1, if_pos (hkey.2 (Or.inl h1))]
          exact hnew
        · rw [if_neg h1]
          by_cases h2 : (pcbAt procs n.2).remainingTime = (pcbAt procs b).remainingTime
          · rw [if_pos h2]
            by_cases h3 : (pcbAt procs n.2).arrivalTime < (pcbAt procs b).arrivalTime
            · rw [if_pos h3, if_pos (hkey.2 (Or.inr ⟨h2, h3⟩))]
              exact hnew
            · rw [if_neg h3, if_neg (by rw [hkey]; tauto)]
              exact hold
          · rw [if_neg h2, if_neg (by rw [hkey]; tauto)]
            exact hold

/-! ### C1, C2 -/

/-- C1. For every well-formed ready queue with entries `s` (pointers to
created PCBs), `selectHPF` returns `NULL` iff the queue is empty; otherwise it
returns a queued PCB `p`, at a position `s = s1 ++ p :: s2`, whose priority
value is the minimum over the queue, whose arrival time is the minimum among
the entries with that priority, and before which (in `s1`) no entry ties on
both.  The function only returns a pointer: it has no effect on the state.
On the ready set (id 1, prio 3, arr 0), (id 2, prio 1, arr 1),
(id 3, prio 1, arr 0) it returns the PCB with id 3. -/
theorem selectHPF_spec :
    (∀ (σ : Sched) (s : List Nat), IsQueue σ.heap σ.readyQueue s →
      (∀ p ∈ s, p < σ.processCount) →
      ∃ r, selectHPF σ = some r ∧ (r = none ↔ s = []) ∧
        ∀ p, r = some p → ∃ s1 s2, s = s1 ++ p :: s2 ∧
          (∀ x ∈ s, (σ.pcb p).priority ≤ (σ.pcb x).priority) ∧
          (∀ x ∈ s, (σ.pcb x).priority = (σ.pcb p).priority →
            (σ.pcb p).arrivalTime ≤ (σ.pcb x).arrivalTime) ∧
          (∀ x ∈ s1, ¬ ((σ.pcb x).priority = (σ.pcb p).priority ∧
            (σ.pcb x).arrivalTime = (σ.pcb p).arrivalTime))) ∧
    ((receiveProcesses (initSched 1 0) hpfExample).bind
      (fun σ => (selectHPF σ).map (Option.map (fun p => (σ.pcb p).id)))) = some (some 3) := by
  refine ⟨?_, by decide⟩
  intro σ s hq hv
  obtain ⟨l, hw, rfl⟩ := hq
  have hloop := @selectHPFLoop_eq σ.heap σ.processes l σ.readyQueue.head none σ.heap.bound
    hw.1 (wf_length_lt_bound hw)
    (fun n hn => hv n.2 (List.mem_map_of_mem Prod.snd hn)) (by simp)
  obtain ⟨r, hr, hnone, hsome⟩ := pickMin_none (hpfKey σ.processes) (l.map Prod.snd)
  rw [hr] at hloop
  refine ⟨r, hloop, hnone, ?_⟩
  intro p hp
  obtain ⟨s1, s2, hs, h1, h2⟩ := hsome p hp
  have hlt : ∀ x, hpfKey σ.processes p < hpfKey σ.processes x ↔
      (σ.pcb p).priority < (σ.pcb x).priority ∨ (σ.pcb p).priority = (σ.pcb x).priority ∧
        (σ.pcb p).arrivalTime < (σ.pcb x).arrivalTime := fun x => Prod.Lex.lt_iff _ _
  have hle : ∀ x, hpfKey σ.processes p ≤ hpfKey σ.processes x ↔
      (σ.pcb p).priority < (σ.pcb x).priority ∨ (σ.pcb p).priority = (σ.pcb x).priority ∧
        (σ.pcb p).arrivalTime ≤ (σ.pcb x).arrivalTime := fun x => Prod.Lex.le_iff _ _
  have hall : ∀ x ∈ l.map Prod.snd, hpfKey σ.processes p ≤ hpfKey σ.processes x := by
    intro x hx
    rw [hs] at hx
    rcases List.mem_append.1 hx with hx | hx
    · exact le_of_lt (h1 x hx)
    · rcases List.mem_cons.1 hx with rfl | hx
      · exact le_refl _
      · exact h2 x hx
  refine ⟨s1, s2, hs, ?_, ?_, ?_⟩
  · intro x hx
    rcases (hle x).1 (hall x hx) with h | h
    · exact le_of_lt h
    · exact le_of_eq h.1
  · intro x hx heq
    rcases (hle x).1 (hall x hx) with h | h
    · omega
    · exact h.2
  · intro x hx ⟨hp1, hp2⟩
    rcases (hlt x).1 (h1 x hx) with h | h
    · omega
    · omega

/-- Witness for C1: the state reached by ingesting the example ready set. -/
theorem selectHPF_spec_witness :
    ∃ σ, receiveProcesses (initSched 1 0) hpfExample = some σ ∧
      IsQueue σ.heap σ.readyQueue [0, 1, 2] ∧ (∀ p ∈ [0, 1, 2], p < σ.processCount) ∧
      ∃ r, selectHPF σ = some r ∧ (r = none ↔ [0, 1, 2] = []) :=
  have hq : IsQueue
      ((receiveProcesses (initSched 1 0) hpfExample).getD (initSched 1 0)).heap
      ((receiveProcesses (initSched 1 0) hpfExample).getD (initSched 1 0)).readyQueue
      [0, 1, 2] := ⟨[(0, 0), (1, 1), (2, 2)], by decide, rfl⟩
  have hs := selectHPF_spec.1 _ [0, 1, 2] hq (by decide)
  ⟨_, by decide, hq, by decide, hs.choose, hs.choose_spec.1, hs.choose_spec.2.1⟩

/-- C2. For every well-formed ready queue with entries `s` (pointers to
created PCBs), `selectSJN` returns `NULL` iff the queue is empty; otherwise it
returns a queued PCB `p`, at a position `s = s1 ++ p :: s2`, whose remaining
time is the minimum over the queue, whose arrival time is the minimum among
the entries with that remaining time, and before which (in `s1`) no entry
ties on both.  The function only returns a pointer: it has no effect on the
state.  On the ready set (id 1, remain 5), (id 2, remain 3, arr 2),
(id 3, remain 3, arr 1) it returns the PCB with id 3. -/
theorem selectSJN_spec :
    (∀ (σ : Sched) (s : List Nat), IsQueue σ.heap σ.readyQueue s →
      (∀ p ∈ s, p < σ.processCount) →
      ∃ r, selectSJN σ = some r ∧ (r = none ↔ s = []) ∧
        ∀ p, r = some p → ∃ s1 s2, s = s1 ++ p :: s2 ∧
          (∀ x ∈ s, (σ.pcb p).remainingTime ≤ (σ.pcb x).remainingTime) ∧
          (∀ x ∈ s, (σ.pcb x).remainingTime = (σ.pcb p).remainingTime →
            (σ.pcb p).arrivalTime ≤ (σ.pcb x).arrivalTime) ∧
          (∀ x ∈ s1, ¬ ((σ.pcb x).remainingTime = (σ.pcb p).remainingTime ∧
            (σ.pcb x).arrivalTime = (σ.pcb p).arrivalTime))) ∧
    ((receiveProcesses (initSched 2 0) sjnExample).bind
      (fun σ => (selectSJN σ).map (Option.map (fun p => (σ.pcb p).id)))) = some (some 3) := by
  refine ⟨?_, by decide⟩
  intro σ s hq hv
  obtain ⟨l, hw, rfl⟩ := hq
  have hloop := @selectSJNLoop_eq σ.heap σ.processes l σ.readyQueue.head none σ.heap.bound
    hw.1 (wf_length_lt_bound hw)
    (fun n hn => hv n.2 (List.mem_map_of_mem Prod.snd hn)) (by simp)
  obtain ⟨r, hr, hnone, hsome⟩ := pickMin_none (sjnKey σ.processes) (l.map Prod.snd)
  rw [hr] at hloop
  refine ⟨r, hloop, hnone, ?_⟩
  intro p hp
  obtain ⟨s1, s2, hs, h1, h2⟩ := hsome p hp
  have hlt : ∀ x, sjnKey σ.processes p < sjnKey σ.processes x ↔
      (σ.pcb p).remainingTime < (σ.pcb x).remainingTime ∨ (σ.pcb p).remainingTime = (σ.pcb x).remainingTime ∧
        (σ.pcb p).arrivalTime < (σ.pcb x).arrivalTime := fun x => Prod.Lex.lt_iff _ _
  have hle : ∀ x, sjnKey σ.processes p ≤ sjnKey σ.processes x ↔
      (σ.pcb p).remainingTime < (σ.pcb x).remainingTime ∨ (σ.pcb p).remainingTime = (σ.pcb x).remainingTime ∧
        (σ.pcb p).arrivalTime ≤ (σ.pcb x).arrivalTime := fun x => Prod.Lex.le_iff _ _
  have hall : ∀ x ∈ l.map Prod.snd, sjnKey σ.processes p ≤ sjnKey σ.processes x := by
    intro x hx
    rw [hs] at hx
    rcases List.mem_append.1 hx with hx | hx
    · exact le_of_lt (h1 x hx)
    · rcases List.mem_cons.1 hx with rfl | hx
      · exact le_refl _
      · exact h2 x hx
  refine ⟨s1, s2, hs, ?_, ?_, ?_⟩
  · intro x hx
    rcases (hle x).1 (hall x hx) with h | h
    · exact le_of_lt h
    · exact le_of_eq h.1
  · intro x hx heq
    rcases (hle x).1 (hall x hx) with h | h
    · omega
    · exact h.2
  · intro x hx ⟨hp1, hp2⟩
    rcases (hlt x).1 (h1 x hx) with h | h
    · omega
    · omega

/-- Witness for C2: the state reached by ingesting the example ready set. -/
theorem selectSJN_spec_witness :
    ∃ σ, receiveProcesses (initSched 2 0) sjnExample = some σ ∧
      IsQueue σ.heap σ.readyQueue [0, 1, 2] ∧ (∀ p ∈ [0, 1, 2], p < σ.processCount) ∧
      ∃ r, selectSJN σ = some r ∧ (r = none ↔ [0, 1, 2] = []) :=
  have hq : IsQueue
      ((receiveProcesses (initSched 2 0) sjnExample).getD (initSched 2 0)).heap
      ((receiveProcesses (initSched 2 0) sjnExample).getD (initSched 2 0)).readyQueue
      [0, 1, 2] := ⟨[(0, 0), (1, 1), (2, 2)], by decide, rfl⟩
  have hs := selectSJN_spec.1 _ [0, 1, 2] hq (by decide)
  ⟨_, by decide, hq, by decide, hs.choose, hs.choose_spec.1, hs.choose_spec.2.1⟩

/-! ### Arena slots -/

theorem pcbAt_set_eq {procs : List PCB} {i : Nat} (p : PCB) (hi : i < procs.length) :
    pcbAt (procs.set i p) i = p := by
  simp [pcbAt, List.getD, List.getElem?_set, hi]

theorem pcbAt_set_ne {procs : List PCB} {i j : Nat} (p : PCB) (hij : i ≠ j) :
    pcbAt (procs.set i p) j = pcbAt procs j := by
  simp [pcbAt, List.getD, List.getElem?_set, hij]

theorem pcbAt_append_lt {procs : List PCB} {i : Nat} (more : List PCB)
    (hi : i < procs.length) : pcbAt (procs ++ more) i = pcbAt procs i := by
  simp [pcbAt, List.getD, List.getElem?_append, hi]

theorem pcbAt_append_length (procs : List PCB) (p : PCB) :
    pcbAt (procs ++ [p]) procs.length = p := by
  simp [pcbAt, List.getD]

theorem pcbAt_ge {procs : List PCB} {i : Nat} (hi : procs.length ≤ i) :
    pcbAt procs i = zeroPCB := by
  simp [pcbAt, List.getD, List.getElem?_eq_none hi]

theorem pcbAt_set_self (procs : List PCB) (i : Nat) :
    procs.set i (pcbAt procs i) = procs := by
  by_cases hi : i < procs.length
  · apply List.ext_getElem?
    intro j
    by_cases hij : i = j
    · subst hij
      simp [List.getElem?_set, hi, getElem?_pcbAt hi]
    · simp [List.getElem?_set, hij]
  · rw [List.set_eq_of_length_le (by omega)]

/-! ### The selection of the view -/

theorem pickMin_mem {K : Type} [LinearOrder K] (f : Nat → K) {s : List Nat} {r : Nat}
    (h : pickMin f s none = some r) : r ∈ s := by
  obtain ⟨r', hr, _, hsome⟩ := pickMin_none f s
  rw [h] at hr
  obtain ⟨s1, s2, hs, _⟩ := hsome r hr.symm
  rw [hs]
  simp

theorem pickMin_isSome {K : Type} [LinearOrder K] (f : Nat → K) {s : List Nat}
    (hs : s ≠ []) : ∃ r, pickMin f s none = some r := by
  obtain ⟨r', hr, hnone, _⟩ := pickMin_none f s
  cases r' with
  | none => exact absurd (hnone.1 rfl) hs
  | some r => exact ⟨r, hr⟩

theorem vSelect_mem {v : View} {r : Nat} (h : vSelect v = some r) : r ∈ v.queue := by
  unfold vSelect at h
  split at h
  · exact pickMin_mem _ h
  · split at h
    · exact pickMin_mem _ h
    · split at h
      · exact List.mem_of_mem_head? h
      · cases h

/-! ### Preservation of the queue discipline by the view -/

theorem VInv.congr {v v' : View} (hv : VInv v) (hq : v'.queue = v.queue)
    (hr : v'.runningProcess = v.runningProcess)
    (hl : v'.processes.length = v.processes.length)
    (hs : ∀ i, (v'.pcb i).state = (v.pcb i).state) : VInv v' where
  nodup := hq ▸ hv.nodup
  queue_lt := by rw [hq, hl]; exact hv.queue_lt
  queue_ready := by
    intro p hp
    rw [hs]
    exact hv.queue_ready p (hq ▸ hp)
  running_lt := by rw [hr, hl]; exact hv.running_lt
  running_not_queued := by rw [hr, hq]; exact hv.running_not_queued
  running_unique := by
    intro i hi hrun
    rw [hr]
    exact hv.running_unique i (hl ▸ hi) (hs i ▸ hrun)
  capacity := hl ▸ hv.capacity

theorem vInv_init (a q : Int) : VInv (initView a q) where
  nodup := by simp [initView, Sched.view]
  queue_lt := by simp [initView, Sched.view]
  queue_ready := by simp [initView, Sched.view]
  running_lt := by simp [initView, Sched.view, initSched]
  running_not_queued := by simp [initView, Sched.view]
  running_unique := by simp [initView, Sched.view, initSched]
  capacity := by simp [initView, Sched.view, initSched]

theorem vInv_receive {v v' : View} {ms : List Msg} (hv : VInv v)
    (h : vReceive v ms = some v') : VInv v' := by
  induction ms generalizing v with
  | nil =>
    simp only [vReceive, Option.some.injEq] at h
    exact h ▸ hv
  | cons m ms ih =>
    simp only [vReceive] at h
    split at h
    · rename_i hcap
      refine ih ?_ h
      constructor
      · simp only
        rw [List.nodup_append]
        refine ⟨hv.nodup, by simp, ?_⟩
        intro a ha hb
        simp only [List.mem_singleton] at hb
        have := hv.queue_lt a ha
        omega
      · intro p hp
        simp only [List.mem_append, List.mem_singleton] at hp
        simp only [List.length_append, List.length_singleton]
        rcases hp with hp | rfl
        · have := hv.queue_lt p hp
          omega
        · omega
      · intro p hp
        simp only [List.mem_append, List.mem_singleton] at hp
        simp only [View.pcb]
        rcases hp with hp | rfl
        · rw [pcbAt_append_lt _ (hv.queue_lt p hp)]
          exact hv.queue_ready p hp
        · rw [pcbAt_append_length]
          rfl
      · intro r hr
        simp only [List.length_append, List.length_singleton]
        have := hv.running_lt r hr
        omega
      · intro r hr
        simp only [List.mem_append, List.mem_singleton, not_or]
        refine ⟨hv.running_not_queued r hr, ?_⟩
        have := hv.running_lt r hr
        omega
      · intro i hi hrun
        simp only [List.length_append, List.length_singleton] at hi
        simp only [View.pcb] at hrun
        by_cases hlt : i < v.processes.length
        · rw [pcbAt_append_lt _ hlt] at hrun
          exact hv.running_unique i hlt hrun
        · have : i = v.processes.length := by omega
          subst this
          rw [pcbAt_append_length] at hrun
          cases hrun
      · simp only [List.length_append, List.length_singleton]
        omega
    · cases h

theorem vInv_finishPhase {v : View} (inp : TickInput) (hv : VInv v) :
    VInv (vFinishPhase v inp) := by
  unfold vFinishPhase
  split
  · exact hv
  · rename_i r hr
    split
    · have hrl := hv.running_lt r hr
      constructor
      · exact hv.nodup
      · simpa [vFinishProcess, vWriteLog] using hv.queue_lt
      · intro p hp
        have hpr : p ≠ r := fun e => hv.running_not_queued r hr (e ▸ hp)
        simp only [vFinishProcess, vWriteLog, View.pcb]
        rw [pcbAt_set_ne _ (Ne.symm hpr)]
        exact hv.queue_ready p hp
      · intro r' hr'
        cases hr'
      · intro r' hr'
        cases hr'
      · intro i hi hrun
        simp only [vFinishProcess, vWriteLog, View.pcb, List.length_set] at hi hrun
        exfalso
        by_cases hir : i = r
        · subst hir
          rw [pcbAt_set_eq _ hrl] at hrun
          cases hrun
        · rw [pcbAt_set_ne _ (Ne.symm hir)] at hrun
          have := hv.running_unique i hi hrun
          rw [hr] at this
          exact hir (Option.some.inj this).symm
      · simpa [vFinishProcess, vWriteLog] using hv.capacity
    · exact hv

theorem vInv_rrPhase {v : View} (inp : TickInput) (hv : VInv v) :
    VInv (vRRPhase v inp) := by
  unfold vRRPhase
  split
  · split
    · exact hv
    · rename_i r hr
      split
      · split
        · have hrl := hv.running_lt r hr
          have hrq := hv.running_not_queued r hr
          constructor
          · simp only
            rw [List.nodup_append]
            refine ⟨hv.nodup, by simp, ?_⟩
            intro a ha hb
            simp only [List.mem_singleton] at hb
            exact hrq (hb ▸ ha)
          · intro p hp
            simp only [List.mem_append, List.mem_singleton] at hp
            simp only [vStopProcess, vWriteLog, List.length_set]
            rcases hp with hp | rfl
            · exact hv.queue_lt p hp
            · exact hrl
          · intro p hp
            simp only [List.mem_append, List.mem_singleton] at hp
            simp only [vStopProcess, vWriteLog, View.pcb]
            by_cases hpr : p = r
            · subst hpr
              rw [pcbAt_set_eq _ hrl]
              rfl
            · rw [pcbAt_set_ne _ (Ne.symm hpr)]
              rcases hp with hp | hp
              · exact hv.queue_ready p hp
              · exact absurd hp hpr
          · intro r' hr'
            cases hr'
          · intro r' hr'
            cases hr'
          · intro i hi hrun
            simp only [vStopProcess, vWriteLog, View.pcb, List.length_set] at hi hrun
            exfalso
            by_cases hir : i = r
            · subst hir
              rw [pcbAt_set_eq _ hrl] at hrun
              cases hrun
            · rw [pcbAt_set_ne _ (Ne.symm hir)] at hrun
              have := hv.running_unique i hi hrun
              rw [hr] at this
              exact hir (Option.some.inj this).symm
          · simpa [vStopProcess, vWriteLog] using hv.capacity
        · exact hv.congr rfl rfl rfl (fun _ => rfl)
      · exact hv
  · exact hv

theorem pcbAt_set (procs : List PCB) (i j : Nat) (p : PCB) :
    pcbAt (procs.set i p) j = if i = j ∧ i < procs.length then p else pcbAt procs j := by
  by_cases hij : i = j
  · subst hij
    by_cases hi : i < procs.length
    · simp [hi, pcbAt_set_eq]
    · simp [hi, List.set_eq_of_length_le (Nat.le_of_not_lt hi)]
  · simp [hij, pcbAt_set_ne]

theorem length_accrueList (q : List Nat) (procs : List PCB) :
    (accrueList q procs).length = procs.length := by
  induction q generalizing procs with
  | nil => rfl
  | cons x xs ih =>
    simp only [accrueList]
    rw [ih]
    split <;> simp

theorem accrueList_other (q : List Nat) (procs : List PCB) (i : Nat) :
    ({ pcbAt (accrueList q procs) i with waitingTime := 0 } : PCB) =
      { pcbAt procs i with waitingTime := 0 } := by
  induction q generalizing procs with
  | nil => rfl
  | cons x xs ih =>
    simp only [accrueList]
    rw [ih]
    split
    · rw [pcbAt_set]
      split
      · rename_i h
        rw [h.1]
        rfl
      · rfl
    · rfl

theorem accrueList_state (q : List Nat) (procs : List PCB) (i : Nat) :
    (pcbAt (accrueList q procs) i).state = (pcbAt procs i).state := by
  have h := congrArg PCB.state (accrueList_other q procs i)
  exact h

theorem vInv_endPhase {v : View} (inp : TickInput) (hv : VInv v) : VInv (vEndPhase v inp) := by
  unfold vEndPhase
  split
  · exact hv.congr rfl rfl rfl (fun _ => rfl)
  · exact hv

theorem vInv_accruePhase {v : View} (hv : VInv v) : VInv (vAccruePhase v) :=
  hv.congr rfl rfl (length_accrueList _ _) (fun i => accrueList_state _ _ i)

theorem vInv_notify {v : View} (hv : VInv v) : VInv (vNotify v) := by
  unfold vNotify
  split
  · exact hv
  · refine hv.congr rfl rfl (by simp) ?_
    intro i
    simp only [View.pcb]
    rw [pcbAt_set]
    split
    · rename_i h
      rw [h.1]
      rfl
    · rfl

theorem vInv_dispatch_shape {v v' : View} {sel : Nat} (hv : VInv v)
    (hnone : v.runningProcess = none) (hsel : sel ∈ v.queue)
    (hq : v'.queue = v.queue.erase sel) (hr : v'.runningProcess = some sel)
    (hl : v'.processes.length = v.processes.length)
    (hs : ∀ i, i ≠ sel → (v'.pcb i).state = (v.pcb i).state) : VInv v' where
  nodup := hq ▸ hv.nodup.erase sel
  queue_lt := by
    intro p hp
    rw [hq] at hp
    rw [hl]
    exact hv.queue_lt p (List.mem_of_mem_erase hp)
  queue_ready := by
    intro p hp
    rw [hq] at hp
    have hne : p ≠ sel := fun e => (hv.nodup.mem_erase_iff.1 hp).1 e
    rw [hs p hne]
    exact hv.queue_ready p (List.mem_of_mem_erase hp)
  running_lt := by
    intro r hr'
    rw [hr] at hr'
    cases hr'
    rw [hl]
    exact hv.queue_lt _ hsel
  running_not_queued := by
    intro r hr'
    rw [hr] at hr'
    cases hr'
    rw [hq]
    exact fun hmem => (hv.nodup.mem_erase_iff.1 hmem).1 rfl
  running_unique := by
    intro i hi hrun
    by_cases hne : i = sel
    · rw [hr, hne]
    · rw [hs i hne] at hrun
      have := hv.running_unique i (hl ▸ hi) hrun
      rw [hnone] at this
      cases this
  capacity := hl ▸ hv.capacity

theorem vInv_afterSwitch {v : View} (hv : VInv v) : VInv (vAfterSwitch v) := by
  unfold vAfterSwitch
  split
  · exact hv.congr rfl rfl rfl (fun _ => rfl)
  · exact hv

theorem vAfterSwitch_running (v : View) : (vAfterSwitch v).runningProcess = v.runningProcess := by
  unfold vAfterSwitch
  split <;> rfl

theorem vAfterSwitch_queue (v : View) : (vAfterSwitch v).queue = v.queue := by
  unfold vAfterSwitch
  split <;> rfl

theorem vAfterSwitch_processes (v : View) : (vAfterSwitch v).processes = v.processes := by
  unfold vAfterSwitch
  split <;> rfl

theorem vInv_dispatchSelected {v v' : View} {sel : Nat} {now nowLog forkPid : Int}
    (hv : VInv v) (hnone : v.runningProcess = none) (hmem : sel ∈ v.queue)
    (h : vDispatchSelected v sel now nowLog forkPid = some v') : VInv v' := by
  unfold vDispatchSelected at h
  split at h
  · unfold vStartProcess at h
    split at h
    · cases h
    · split at h
      · simp only [Option.some.injEq] at h
        subst h
        refine vInv_dispatch_shape hv hnone hmem rfl rfl (by simp [vWriteLog]) ?_
        intro i hi
        simp only [vWriteLog, View.pcb]
        rw [pcbAt_set_ne _ (Ne.symm hi)]
      · simp only [Option.some.injEq] at h
        subst h
        exact vInv_dispatch_shape hv hnone hmem rfl rfl rfl (fun _ _ => rfl)
  · simp only [Option.some.injEq] at h
    subst h
    refine vInv_dispatch_shape hv hnone hmem rfl rfl (by simp [vResumeProcess, vWriteLog]) ?_
    intro i hi
    simp only [vResumeProcess, vWriteLog, View.pcb]
    rw [pcbAt_set_ne _ (Ne.symm hi)]

theorem vInv_selectNextProcess {v v' : View} {now nowLog forkPid : Int} (hv : VInv v)
    (hnone : v.runningProcess = none)
    (h : vSelectNextProcess v now nowLog forkPid = some v') : VInv v' := by
  unfold vSelectNextProcess at h
  split at h
  · simp only [Option.some.injEq] at h
    exact h ▸ vInv_afterSwitch hv
  · rename_i sel hsel
    exact vInv_dispatchSelected (vInv_afterSwitch hv)
      ((vAfterSwitch_running v).trans hnone)
      ((vAfterSwitch_queue v).symm ▸ vSelect_mem hsel) h

theorem vInv_dispatchPhase {v v' : View} {inp : TickInput} (hv : VInv v)
    (h : vDispatchPhase v inp = some v') : VInv v' := by
  unfold vDispatchPhase at h
  split at h
  · rename_i hc
    exact vInv_selectNextProcess hv hc.1 h
  · simp only [Option.some.injEq] at h
    exact h ▸ hv

theorem vInv_tick {v v' : View} {inp : TickInput} (hv : VInv v)
    (h : vTick v inp = some v') : VInv v' := by
  unfold vTick at h
  split at h
  · cases h
  · rename_i v1 h1
    split at h
    · cases h
    · rename_i v4 h4
      simp only [Option.some.injEq] at h
      subst h
      have hv0 : VInv { v with currentTime := inp.clk } := hv.congr rfl rfl rfl (fun _ => rfl)
      exact vInv_accruePhase (vInv_endPhase inp (vInv_dispatchPhase
        (vInv_rrPhase inp (vInv_finishPhase inp (vInv_receive hv0 h1))) h4))

theorem vInv_step {v v' : View} {e : Event} (hv : VInv v) (h : vStep v e = some v') :
    VInv v' := by
  cases e with
  | tick inp =>
    simp only [vStep] at h
    split at h
    · exact vInv_tick hv h
    · cases h
  | notify =>
    simp only [vStep, Option.some.injEq] at h
    exact h ▸ vInv_notify hv

theorem vInv_run {v v' : View} {es : List Event} (hv : VInv v) (h : vRun v es = some v') :
    VInv v' := by
  induction es generalizing v with
  | nil =>
    simp only [vRun, Option.some.injEq] at h
    exact h ▸ hv
  | cons e es ih =>
    simp only [vRun] at h
    split at h
    · cases h
    · rename_i v1 h1
      exact ih (vInv_step hv h1) h

/-! ### Simulation of the embedding by the view -/

theorem Sim.intro {σ : Sched} {s : List Nat} {v : View}
    (hq : IsQueue σ.heap σ.readyQueue s) (hv : σ.view s = v) : Sim σ v := by
  subst hv
  exact ⟨hq, rfl⟩

theorem Sim.elim {σ : Sched} {v : View} (h : Sim σ v) :
    ∃ s, IsQueue σ.heap σ.readyQueue s ∧ v = σ.view s :=
  ⟨v.queue, h.1, h.2.symm⟩

theorem optSim_some {σ : Sched} {v : View} : OptSim (some σ) (some v) ↔ Sim σ v := Iff.rfl

theorem OptSim.of_some {o : Option Sched} {w : Option View} {σ : Sched} (h : OptSim o w)
    (ho : o = some σ) : ∃ v, w = some v ∧ Sim σ v := by
  subst ho
  cases w with
  | none => exact absurd h (by simp [OptSim])
  | some v => exact ⟨v, rfl, h⟩

theorem OptSim.of_view_some {o : Option Sched} {w : Option View} {v : View} (h : OptSim o w)
    (hw : w = some v) : ∃ σ, o = some σ ∧ Sim σ v := by
  subst hw
  cases o with
  | none => exact absurd h (by simp [OptSim])
  | some σ => exact ⟨σ, rfl, h⟩

theorem writeLog_eq {σ : Sched} {pcb : Nat} (now : Int) (event : LogEvent)
    (hp : pcb < σ.processes.length) :
    writeLog σ now event pcb = some { σ with
      currentTime := now
      log := σ.log ++ [logRecord now event (pcbAt σ.processes pcb)] } := by
  simp [writeLog, getElem?_pcbAt hp]

theorem sim_startProcess {σ : Sched} {s : List Nat} {pcb : Nat} (now nowLog forkPid : Int)
    (hq : IsQueue σ.heap σ.readyQueue s) (hp : pcb < σ.processes.length) :
    OptSim (startProcess σ pcb now nowLog forkPid)
      (vStartProcess (σ.view s) pcb now nowLog forkPid) := by
  unfold startProcess vStartProcess
  by_cases h0 : forkPid = 0
  · simp [h0, OptSim]
  · by_cases h1 : forkPid > 0
    · simp only [h0, h1, if_false, if_true, getElem?_pcbAt hp]
      rw [writeLog_eq _ _ (by simpa using hp)]
      exact Sim.intro hq rfl
    · simp only [h0, h1, if_false]
      exact Sim.intro hq rfl

theorem sim_stopProcess {σ : Sched} {s : List Nat} {pcb : Nat} (now nowLog : Int)
    (_hq : IsQueue σ.heap σ.readyQueue s) (hp : pcb < σ.processes.length) :
    ∃ σ', stopProcess σ pcb now nowLog = some σ' ∧ σ'.heap = σ.heap ∧
      σ'.readyQueue = σ.readyQueue ∧ σ'.view s = vStopProcess (σ.view s) pcb now nowLog := by
  unfold stopProcess
  simp only [getElem?_pcbAt hp]
  rw [writeLog_eq _ _ (by simpa using hp)]
  exact ⟨_, rfl, rfl, rfl, rfl⟩

theorem sim_resumeProcess {σ : Sched} {s : List Nat} {pcb : Nat} (now nowLog : Int)
    (_hq : IsQueue σ.heap σ.readyQueue s) (hp : pcb < σ.processes.length) :
    ∃ σ', resumeProcess σ pcb now nowLog = some σ' ∧ σ'.heap = σ.heap ∧
      σ'.readyQueue = σ.readyQueue ∧
      σ'.view s = vResumeProcess (σ.view s) pcb now nowLog := by
  unfold resumeProcess
  simp only [getElem?_pcbAt hp]
  rw [writeLog_eq _ _ (by simpa using hp)]
  refine ⟨_, rfl, rfl, rfl, ?_⟩
  simp only [vResumeProcess, vWriteLog, Sched.view, View.pcb, resumedPCB]

theorem sim_finishProcess {σ : Sched} {s : List Nat} {pcb : Nat} (now nowLog : Int)
    (_hq : IsQueue σ.heap σ.readyQueue s) (hp : pcb < σ.processes.length) :
    ∃ σ', finishProcess σ pcb now nowLog = some σ' ∧ σ'.heap = σ.heap ∧
      σ'.readyQueue = σ.readyQueue ∧
      σ'.view s = vFinishProcess (σ.view s) pcb now nowLog := by
  unfold finishProcess
  simp only [getElem?_pcbAt hp]
  rw [writeLog_eq _ _ (by simpa using hp)]
  exact ⟨_, rfl, rfl, rfl, rfl⟩

theorem sim_notify {σ : Sched} {v : View} (h : Sim σ v)
    (hrl : ∀ r, v.runningProcess = some r → r < v.processes.length) :
    ∃ σ', handleProcessFinish σ = some σ' ∧ Sim σ' (vNotify v) := by
  obtain ⟨s, hq, rfl⟩ := h.elim
  unfold handleProcessFinish vNotify
  cases hr : σ.runningProcess with
  | none =>
    simp only [Sched.view, hr]
    exact ⟨σ, rfl, Sim.intro hq (by simp [Sched.view, hr])⟩
  | some r =>
    have hlt : r < σ.processes.length := hrl r hr
    simp only [Sched.view, hr, getElem?_pcbAt hlt]
    exact ⟨_, rfl, Sim.intro hq rfl⟩

theorem sim_receive {σ : Sched} {v : View} (ms : List Msg) (h : Sim σ v) :
    OptSim (receiveProcesses σ ms) (vReceive v ms) := by
  induction ms generalizing σ v with
  | nil => exact h
  | cons m ms ih =>
    obtain ⟨s, hq, rfl⟩ := h.elim
    unfold receiveProcesses vReceive
    by_cases hcap : σ.processes.length < MAX_PROCESSES
    · have hcap' : σ.processCount < MAX_PROCESSES := hcap
      have hcap2 : (σ.view s).processes.length < MAX_PROCESSES := hcap
      simp only [hcap', hcap2, if_true]
      obtain ⟨h', q', he, hq'⟩ := isQueue_enqueue hq σ.processCount
      simp only [he]
      exact ih (Sim.intro hq' rfl)
    · have hcap' : ¬ σ.processCount < MAX_PROCESSES := hcap
      have hcap2 : ¬ (σ.view s).processes.length < MAX_PROCESSES := hcap
      simp only [hcap', hcap2, if_false]
      trivial

theorem sim_finishPhase {σ : Sched} {v : View} (inp : TickInput) (h : Sim σ v)
    (hrl : ∀ r, v.runningProcess = some r → r < v.processes.length) :
    ∃ σ', finishPhase σ inp = some σ' ∧ Sim σ' (vFinishPhase v inp) := by
  obtain ⟨s, hq, rfl⟩ := h.elim
  unfold finishPhase vFinishPhase
  cases hr : σ.runningProcess with
  | none =>
    simp only [Sched.view, hr]
    exact ⟨σ, rfl, Sim.intro hq (by simp [Sched.view, hr])⟩
  | some r =>
    have hlt : r < σ.processes.length := hrl r hr
    simp only [Sched.view, hr, getElem?_pcbAt hlt, View.pcb]
    by_cases hrem : (pcbAt σ.processes r).remainingTime ≤ 0
    · simp only [hrem, if_true]
      obtain ⟨σ', hf, hh, hrq, hview⟩ := sim_finishProcess inp.clkFinish inp.clkFinishLog hq hlt
      simp only [hf]
      refine ⟨_, rfl, Sim.intro (s := s) (by simpa [hh, hrq] using hq) ?_⟩
      have := congrArg (fun w : View => { w with runningProcess := none }) hview
      simpa [Sched.view] using this
    · simp only [hrem, if_false]
      exact ⟨σ, rfl, Sim.intro hq (by simp [Sched.view, hr])⟩

theorem sim_rrPhase {σ : Sched} {v : View} (inp : TickInput) (h : Sim σ v)
    (hrl : ∀ r, v.runningProcess = some r → r < v.processes.length) :
    ∃ σ', rrPhase σ inp = some σ' ∧ Sim σ' (vRRPhase v inp) := by
  obtain ⟨s, hq, rfl⟩ := h.elim
  rcases σ with ⟨alg, qu, procs, hp, rq, rp, ct, twt, trt, twta, twtas, fc, qc, apa, lg⟩
  unfold rrPhase vRRPhase
  simp only [Sched.view] at hrl ⊢
  by_cases halg : alg = 3
  · simp only [halg, if_true]
    cases rp with
    | none => exact ⟨_, rfl, Sim.intro hq rfl⟩
    | some r =>
      have hlt : r < procs.length := hrl r rfl
      simp only [getElem?_pcbAt hlt, View.pcb]
      by_cases hst : (pcbAt procs r).state = ProcessState.RUNNING
      · simp only [hst, if_true]
        by_cases hexp : qc + 1 ≥ qu ∧ (pcbAt procs r).remainingTime > 0
        · simp only [hexp, and_self, if_true]
          obtain ⟨σ2, hstop, hh, hrq, hview⟩ :=
            sim_stopProcess (σ := ⟨3, qu, procs, hp, rq, some r, ct, twt, trt, twta, twtas, fc,
              qc + 1, apa, lg⟩) inp.clkStop inp.clkStopLog hq hlt
          simp only [hstop]
          have hq2 : IsQueue σ2.heap σ2.readyQueue s := by
            rw [hh, hrq]
            exact hq
          obtain ⟨h', q', he, hq'⟩ := isQueue_enqueue hq2 r
          simp only [he]
          refine ⟨_, rfl, Sim.intro hq' ?_⟩
          have := congrArg (fun w : View => { w with
            queue := s ++ [r], runningProcess := none, quantumCounter := 0 }) hview
          simpa [Sched.view] using this
        · simp only [hexp, if_false]
          exact ⟨_, rfl, Sim.intro hq rfl⟩
      · simp only [hst, if_false]
        exact ⟨_, rfl, Sim.intro hq rfl⟩
  · simp only [halg, if_false]
    exact ⟨_, rfl, Sim.intro hq rfl⟩

theorem selectHPF_eq {σ : Sched} {s : List Nat} (hq : IsQueue σ.heap σ.readyQueue s)
    (hv : ∀ p ∈ s, p < σ.processes.length) :
    selectHPF σ = some (pickMin (hpfKey σ.processes) s none) := by
  obtain ⟨l, hw, rfl⟩ := hq
  exact selectHPFLoop_eq l σ.readyQueue.head none σ.heap.bound hw.1 (wf_length_lt_bound hw)
    (fun n hn => hv n.2 (List.mem_map_of_mem Prod.snd hn)) (by simp)

theorem selectSJN_eq {σ : Sched} {s : List Nat} (hq : IsQueue σ.heap σ.readyQueue s)
    (hv : ∀ p ∈ s, p < σ.processes.length) :
    selectSJN σ = some (pickMin (sjnKey σ.processes) s none) := by
  obtain ⟨l, hw, rfl⟩ := hq
  exact selectSJNLoop_eq l σ.readyQueue.head none σ.heap.bound hw.1 (wf_length_lt_bound hw)
    (fun n hn => hv n.2 (List.mem_map_of_mem Prod.snd hn)) (by simp)

theorem sim_afterSwitch {σ : Sched} {v : View} (h : Sim σ v) :
    Sim (if σ.algorithm = 3 then { σ with quantumCounter := 0 } else σ) (vAfterSwitch v) := by
  obtain ⟨s, hq, rfl⟩ := h.elim
  unfold vAfterSwitch
  by_cases h3 : σ.algorithm = 3
  · have h3' : (σ.view s).algorithm = 3 := h3
    rw [if_pos h3, if_pos h3']
    exact Sim.intro hq rfl
  · have h3' : ¬ (σ.view s).algorithm = 3 := h3
    rw [if_neg h3, if_neg h3']
    exact Sim.intro hq rfl

theorem selectSwitch_eq {σ : Sched} {s : List Nat} (hq : IsQueue σ.heap σ.readyQueue s)
    (hv : ∀ p ∈ s, p < σ.processes.length) :
    selectSwitch σ = some (vSelect (σ.view s),
      if σ.algorithm = 3 then { σ with quantumCounter := 0 } else σ) := by
  unfold selectSwitch vSelect
  by_cases h1 : σ.algorithm = 1
  · have h3 : σ.algorithm ≠ 3 := by omega
    simp [h1, Sched.view, selectHPF_eq hq hv]
  · by_cases h2 : σ.algorithm = 2
    · simp [h2, Sched.view, selectSJN_eq hq hv]
    · by_cases h3 : σ.algorithm = 3
      · simp [h3, Sched.view, selectRR, isQueue_peek hq]
      · simp [h1, h2, h3, Sched.view]

theorem sim_dispatchSelected {σ : Sched} {v : View} {sel : Nat} (now nowLog forkPid : Int)
    (h : Sim σ v) (hmem : sel ∈ v.queue) (hlt : sel < v.processes.length) :
    OptSim (dispatchSelected σ sel now nowLog forkPid)
      (vDispatchSelected v sel now nowLog forkPid) := by
  obtain ⟨s, hq, rfl⟩ := h.elim
  rcases σ with ⟨alg, qu, procs, hp, rq, rp, ct, twt, trt, twta, twtas, fc, qc, apa, lg⟩
  simp only [Sched.view] at hmem hlt hq
  obtain ⟨h', q', hrem, hq', _, _⟩ := isQueue_remove hq sel
  unfold dispatchSelected vDispatchSelected
  simp only [hrem, getElem?_pcbAt hlt, Sched.view, View.pcb]
  by_cases hst : (pcbAt procs sel).started = false
  · simp only [hst, if_true]
    exact sim_startProcess (σ := ⟨alg, qu, procs, h', q', some sel, ct, twt, trt, twta, twtas,
      fc, qc, apa, lg⟩) (s := s.erase sel) now nowLog forkPid hq' hlt
  · simp only [hst, if_false]
    obtain ⟨σ', hres, hh, hrq', hvw⟩ := @sim_resumeProcess
      ⟨alg, qu, procs, h', q', some sel, ct, twt, trt, twta, twtas, fc, qc, apa, lg⟩
      (s.erase sel) sel now nowLog hq' hlt
    simp only [hres]
    refine Sim.intro (s := s.erase sel) ?_ hvw
    rw [hh, hrq']
    exact hq'

theorem sim_selectNextProcess {σ : Sched} {v : View} (now nowLog forkPid : Int)
    (h : Sim σ v) (hv : ∀ p ∈ v.queue, p < v.processes.length) :
    OptSim (selectNextProcess σ now nowLog forkPid)
      (vSelectNextProcess v now nowLog forkPid) := by
  have hafter := sim_afterSwitch h
  obtain ⟨s, hq, hveq⟩ := h.elim
  have hqs : v.queue = s := by rw [hveq]; rfl
  have hps : v.processes = σ.processes := by rw [hveq]; rfl
  have hv' : ∀ p ∈ s, p < σ.processes.length := by
    intro p hp
    rw [← hps]
    exact hv p (hqs ▸ hp)
  unfold selectNextProcess vSelectNextProcess
  rw [selectSwitch_eq hq hv', ← hveq]
  cases hsel : vSelect v with
  | none => exact hafter
  | some sel =>
    have hmem : sel ∈ v.queue := vSelect_mem hsel
    simp only
    exact sim_dispatchSelected now nowLog forkPid hafter
      ((vAfterSwitch_queue v).symm ▸ hmem)
      ((vAfterSwitch_processes v).symm ▸ hv sel hmem)

theorem sim_dispatchPhase {σ : Sched} {v : View} (inp : TickInput)
    (h : Sim σ v) (hv : ∀ p ∈ v.queue, p < v.processes.length) :
    OptSim (dispatchPhase σ inp) (vDispatchPhase v inp) := by
  obtain ⟨s, hq, hveq⟩ := h.elim
  have hrun : v.runningProcess = σ.runningProcess := by rw [hveq]; rfl
  have hqueue : v.queue = s := by rw [hveq]; rfl
  have hemp : isEmpty σ.readyQueue = false ↔ v.queue ≠ [] := by
    rw [hqueue, Ne, ← isQueue_isEmpty hq]
    simp
  unfold dispatchPhase vDispatchPhase
  by_cases hc : σ.runningProcess = none ∧ isEmpty σ.readyQueue = false
  · have hc' : v.runningProcess = none ∧ v.queue ≠ [] := ⟨hrun ▸ hc.1, hemp.1 hc.2⟩
    rw [if_pos hc, if_pos hc']
    exact sim_selectNextProcess _ _ _ h hv
  · have hc' : ¬ (v.runningProcess = none ∧ v.queue ≠ []) := by
      rintro ⟨h1, h2⟩
      exact hc ⟨hrun ▸ h1, hemp.2 h2⟩
    rw [if_neg hc, if_neg hc']
    exact h

theorem accrueLoop_eq {h : Heap} (l : List (Nat × Nat)) :
    ∀ (p : Option Nat) (procs : List PCB) (fuel : Nat), Chain h p l → l.length < fuel →
      (∀ n ∈ l, n.2 < procs.length) →
      accrueLoop h fuel p procs = some (accrueList (l.map Prod.snd) procs) := by
  induction l with
  | nil =>
    intro p procs fuel hc hf _
    obtain ⟨f, rfl⟩ : ∃ f, fuel = f + 1 := ⟨fuel - 1, by simp at hf; omega⟩
    simp only [Chain] at hc
    subst hc
    rfl
  | cons n rest ih =>
    intro p procs fuel hc hf hv
    obtain ⟨f, rfl⟩ : ∃ f, fuel = f + 1 := ⟨fuel - 1, by simp at hf; omega⟩
    obtain ⟨hp, hx, hrest⟩ := hc
    cases hr : h.read n.1 with
    | none => simp [hr] at hx
    | some node =>
      rw [hr] at hx hrest
      simp only [Option.map_some', Option.some.injEq, Option.some_bind] at hx hrest
      have hn : n.2 < procs.length := hv n (List.mem_cons_self _ _)
      subst hp
      simp only [accrueLoop, hr, hx, getElem?_pcbAt hn, List.map_cons, accrueList]
      apply ih _ _ _ hrest (by simp at hf; omega)
      intro k hk
      have := hv k (List.mem_cons_of_mem _ hk)
      split <;> simpa using this

theorem sim_accruePhase {σ : Sched} {v : View} (h : Sim σ v)
    (hv : ∀ p ∈ v.queue, p < v.processes.length) :
    ∃ σ', accruePhase σ = some σ' ∧ Sim σ' (vAccruePhase v) := by
  obtain ⟨s, hq, rfl⟩ := h.elim
  obtain ⟨l, hw, rfl⟩ := hq
  have hloop := accrueLoop_eq l σ.readyQueue.head σ.processes σ.heap.bound hw.1
    (wf_length_lt_bound hw) (fun n hn => hv n.2 (List.mem_map_of_mem Prod.snd hn))
  unfold accruePhase
  rw [hloop]
  exact ⟨_, rfl, Sim.intro ⟨l, hw, rfl⟩ rfl⟩

theorem sim_endPhase {σ : Sched} {v : View} (inp : TickInput) (h : Sim σ v) :
    Sim (endPhase σ inp) (vEndPhase v inp) := by
  obtain ⟨s, hq, rfl⟩ := h.elim
  unfold endPhase vEndPhase
  split
  · exact Sim.intro hq rfl
  · exact Sim.intro hq rfl

theorem sim_tick {σ : Sched} {v : View} (inp : TickInput) (h : Sim σ v) (hv : VInv v) :
    OptSim (tick σ inp) (vTick v inp) := by
  have h0 : Sim { σ with currentTime := inp.clk } { v with currentTime := inp.clk } := by
    obtain ⟨s, hq, rfl⟩ := h.elim
    exact Sim.intro hq rfl
  have hv0 : VInv { v with currentTime := inp.clk } := hv.congr rfl rfl rfl (fun _ => rfl)
  have hrec := sim_receive inp.arrivals h0
  unfold tick vTick
  cases hr : receiveProcesses { σ with currentTime := inp.clk } inp.arrivals with
  | none =>
    rw [hr] at hrec
    cases hvr : vReceive { v with currentTime := inp.clk } inp.arrivals with
    | none => trivial
    | some v1 => rw [hvr] at hrec; exact absurd hrec (by simp [OptSim])
  | some σ1 =>
    obtain ⟨v1, hvr, hs1⟩ := hrec.of_some hr
    rw [hvr]
    have hv1 := vInv_receive hv0 hvr
    obtain ⟨σ2, hf, hs2⟩ := sim_finishPhase inp hs1 hv1.running_lt
    have hv2 := vInv_finishPhase inp hv1
    obtain ⟨σ3, hrr, hs3⟩ := sim_rrPhase inp hs2 hv2.running_lt
    have hv3 := vInv_rrPhase inp hv2
    have hd := sim_dispatchPhase inp hs3 hv3.queue_lt
    simp only [hf, hrr]
    cases hd4 : dispatchPhase σ3 inp with
    | none =>
      rw [hd4] at hd
      cases hvd : vDispatchPhase (vRRPhase (vFinishPhase v1 inp) inp) inp with
      | none => trivial
      | some v4 => rw [hvd] at hd; exact absurd hd (by simp [OptSim])
    | some σ4 =>
      obtain ⟨v4, hvd, hs4⟩ := hd.of_some hd4
      rw [hvd]
      have hv4 := vInv_dispatchPhase hv3 hvd
      obtain ⟨σ5, ha, hs5⟩ := sim_accruePhase (sim_endPhase inp hs4) (vInv_endPhase inp hv4).queue_lt
      simp only [ha]
      exact hs5

theorem sim_loopCond {σ : Sched} {v : View} (h : Sim σ v) : loopCond σ = vLoopCond v := by
  obtain ⟨s, hq, rfl⟩ := h.elim
  have hemp := isQueue_isEmpty hq
  unfold loopCond vLoopCond
  simp only [Sched.view]
  cases hs : s with
  | nil =>
    have : isEmpty σ.readyQueue = true := hemp.2 hs
    simp [this]
  | cons x xs =>
    have : isEmpty σ.readyQueue = false := by
      cases hb : isEmpty σ.readyQueue with
      | false => rfl
      | true => exact absurd (hemp.1 hb) (by simp [hs])
    simp [this]

theorem sim_step {σ : Sched} {v : View} (e : Event) (h : Sim σ v) (hv : VInv v) :
    OptSim (step σ e) (vStep v e) := by
  cases e with
  | tick inp =>
    simp only [step, vStep, sim_loopCond h]
    split
    · exact sim_tick inp h hv
    · trivial
  | notify =>
    obtain ⟨σ', hn, hs⟩ := sim_notify h hv.running_lt
    simp only [step, vStep, hn]
    exact hs

theorem sim_run {σ : Sched} {v : View} (es : List Event) (h : Sim σ v) (hv : VInv v) :
    OptSim (run σ es) (vRun v es) := by
  induction es generalizing σ v with
  | nil => exact h
  | cons e es ih =>
    have hstep := sim_step e h hv
    simp only [run, vRun]
    cases hs : step σ e with
    | none =>
      rw [hs] at hstep
      cases hvs : vStep v e with
      | none => trivial
      | some v1 => rw [hvs] at hstep; exact absurd hstep (by simp [OptSim])
    | some σ1 =>
      obtain ⟨v1, hvs, hs1⟩ := hstep.of_some hs
      rw [hvs]
      exact ih hs1 (vInv_step hv hvs)

theorem sim_init (a q : Int) : Sim (initSched a q) (initView a q) :=
  Sim.intro (isQueue_init _) rfl

theorem run_view {a q : Int} {es : List Event} {σ : Sched}
    (h : run (initSched a q) es = some σ) :
    ∃ v, vRun (initView a q) es = some v ∧ Sim σ v ∧ VInv v := by
  obtain ⟨v, hv, hs⟩ := (sim_run es (sim_init a q) (vInv_init a q)).of_some h
  exact ⟨v, hv, hs, vInv_run (vInv_init a q) hv⟩

theorem view_run {a q : Int} {es : List Event} {v : View}
    (h : vRun (initView a q) es = some v) :
    ∃ σ, run (initSched a q) es = some σ ∧ Sim σ v :=
  (sim_run es (sim_init a q) (vInv_init a q)).of_view_some h

/-! ### C5 -/

theorem pcbAt_cons_succ (x : PCB) (xs : List PCB) (i : Nat) :
    pcbAt (x :: xs) (i + 1) = pcbAt xs i := by
  simp [pcbAt, List.getD]

theorem pcbAt_of_mem {l : List PCB} {y : PCB} (hy : y ∈ l) :
    ∃ j, j < l.length ∧ pcbAt l j = y := by
  obtain ⟨j, hj, rfl⟩ := List.getElem_of_mem hy
  exact ⟨j, hj, pcbAt_of_getElem? (List.getElem?_eq_getElem hj)⟩

theorem countP_running_le_one (l : List PCB)
    (h : ∀ i j, i < l.length → j < l.length → (pcbAt l i).state = ProcessState.RUNNING →
      (pcbAt l j).state = ProcessState.RUNNING → i = j) :
    l.countP (fun p => decide (p.state = ProcessState.RUNNING)) ≤ 1 := by
  induction l with
  | nil => simp
  | cons x xs ih =>
    have hxs : ∀ i j, i < xs.length → j < xs.length →
        (pcbAt xs i).state = ProcessState.RUNNING →
        (pcbAt xs j).state = ProcessState.RUNNING → i = j := by
      intro i j hi hj h1 h2
      have := h (i + 1) (j + 1) (by simpa using hi) (by simpa using hj)
        (by rwa [pcbAt_cons_succ]) (by rwa [pcbAt_cons_succ])
      omega
    by_cases hx : x.state = ProcessState.RUNNING
    · have hzero : xs.countP (fun p => decide (p.state = ProcessState.RUNNING)) = 0 := by
        rw [List.countP_eq_zero]
        intro y hy hrun
        obtain ⟨j, hj, rfl⟩ := pcbAt_of_mem hy
        have := h 0 (j + 1) (by simp) (by simpa using hj) (by simpa [pcbAt, List.getD] using hx)
          (by rw [pcbAt_cons_succ]; simpa using hrun)
        omega
      rw [List.countP_cons, hzero]
      simp [hx]
    · rw [List.countP_cons]
      simp only [hx, decide_False, Bool.false_eq_true, if_false, Nat.add_zero]
      exact ih hxs

theorem vInv_runningCount {σ : Sched} {v : View} (hs : Sim σ v) (hv : VInv v) :
    runningCount σ ≤ 1 ∧
    ∀ i, i < σ.processCount → (σ.pcb i).state = ProcessState.RUNNING →
      σ.runningProcess = some i := by
  obtain ⟨s, hq, rfl⟩ := hs.elim
  have huniq : ∀ i, i < σ.processes.length → (pcbAt σ.processes i).state = ProcessState.RUNNING →
      σ.runningProcess = some i := hv.running_unique
  refine ⟨countP_running_le_one _ ?_, huniq⟩
  intro i j hi hj h1 h2
  have e1 := huniq i hi h1
  have e2 := huniq j hj h2
  rw [e1] at e2
  exact Option.some.inj e2

/-- C5. Single-CPU mutual exclusion: in every state reachable from the initial
scheduler state by loop iterations and completion notifications, for any
algorithm, quantum and inputs, at most one PCB of the arena is in state
RUNNING, and a PCB in state RUNNING is the tracked `runningProcess`. -/
theorem single_cpu (algorithm quantum : Int) (σ : Sched)
    (h : Reachable algorithm quantum σ) :
    runningCount σ ≤ 1 ∧
    ∀ i, i < σ.processCount → (σ.pcb i).state = ProcessState.RUNNING →
      σ.runningProcess = some i := by
  obtain ⟨es, hes⟩ := h
  obtain ⟨v, _, hs, hv⟩ := run_view hes
  exact vInv_runningCount hs hv

/-- Witness for C5: the state after three iterations of the round-robin
example (the second process was just dispatched). -/
theorem single_cpu_witness :
    ∃ σ, run (initSched 3 2) rrExample = some σ ∧ σ.runningProcess = some 1 ∧
      runningCount σ ≤ 1 :=
  have hr : run (initSched 3 2) rrExample =
      some ((run (initSched 3 2) rrExample).getD (initSched 3 2)) := by decide
  ⟨_, hr, by decide, (single_cpu 3 2 _ ⟨rrExample, hr⟩).1⟩

/-! ### Effect of each phase on the PCBs (view) -/

theorem vReceive_eq {v v' : View} {ms : List Msg} (h : vReceive v ms = some v') :
    v' = { v with
      processes := v.processes ++ ms.map newPCB
      totalRuntime := v.totalRuntime + (ms.map Msg.runtime).sum
      queue := v.queue ++ List.range' v.processes.length ms.length } := by
  induction ms generalizing v with
  | nil =>
    simp only [vReceive, Option.some.injEq] at h
    subst h
    simp
  | cons m ms ih =>
    simp only [vReceive] at h
    split at h
    · rw [ih h]
      simp [List.range'_succ, add_assoc]
    · cases h

theorem vReceive_isSome {v : View} {ms : List Msg}
    (h : v.processes.length + ms.length ≤ MAX_PROCESSES) : ∃ v', vReceive v ms = some v' := by
  induction ms generalizing v with
  | nil => exact ⟨v, rfl⟩
  | cons m ms ih =>
    simp only [List.length_cons] at h
    have hlt : v.processes.length < MAX_PROCESSES := by omega
    simp only [vReceive, hlt, if_true]
    apply ih
    simp only [List.length_append, List.length_singleton]
    omega

theorem vReceive_pcb {v v' : View} {ms : List Msg} (h : vReceive v ms = some v') {i : Nat}
    (hi : i < v.processes.length) : v'.pcb i = v.pcb i := by
  rw [vReceive_eq h]
  exact pcbAt_append_lt _ hi

theorem vFinishPhase_pcb (v : View) (inp : TickInput) (i : Nat) :
    (vFinishPhase v inp).pcb i = v.pcb i ∨
      (v.runningProcess = some i ∧ (v.pcb i).remainingTime ≤ 0 ∧
        (vFinishPhase v inp).runningProcess = none ∧
        (vFinishPhase v inp).pcb i = finishedPCB (v.pcb i) inp.clkFinish) := by
  unfold vFinishPhase
  split
  · exact Or.inl rfl
  · rename_i r hr
    split
    · rename_i hrem
      simp only [vFinishProcess, vWriteLog, View.pcb]
      rw [pcbAt_set]
      split
      · rename_i hc
        obtain ⟨rfl, _⟩ := hc
        exact Or.inr ⟨hr, hrem, by trivial, by trivial⟩
      · exact Or.inl rfl
    · exact Or.inl rfl

theorem vRRPhase_pcb (v : View) (inp : TickInput) (i : Nat) :
    (vRRPhase v inp).pcb i = v.pcb i ∨
      (v.algorithm = 3 ∧ v.runningProcess = some i ∧ (v.pcb i).state = ProcessState.RUNNING ∧
        v.quantumCounter + 1 ≥ v.quantum ∧ (v.pcb i).remainingTime > 0 ∧
        (vRRPhase v inp).runningProcess = none ∧ (vRRPhase v inp).queue = v.queue ++ [i] ∧
        (vRRPhase v inp).quantumCounter = 0 ∧
        (vRRPhase v inp).pcb i = stoppedPCB (v.pcb i) inp.clkStop) := by
  unfold vRRPhase
  split
  · rename_i halg
    split
    · exact Or.inl rfl
    · rename_i r hr
      split
      · rename_i hst
        split
        · rename_i hexp
          simp only [vStopProcess, vWriteLog, View.pcb]
          rw [pcbAt_set]
          split
          · rename_i hc
            obtain ⟨rfl, _⟩ := hc
            exact Or.inr ⟨halg, hr, hst, hexp.1, hexp.2, by trivial,
              by trivial, by trivial, by trivial⟩
          · exact Or.inl rfl
        · exact Or.inl rfl
      · exact Or.inl rfl
  · exact Or.inl rfl

theorem vNotify_pcb (v : View) (i : Nat) :
    (vNotify v).pcb i = v.pcb i ∨
      (v.runningProcess = some i ∧ (vNotify v).pcb i = exhaustedPCB (v.pcb i)) := by
  unfold vNotify
  split
  · exact Or.inl rfl
  · rename_i r hr
    simp only [View.pcb]
    rw [pcbAt_set]
    split
    · rename_i hc
      obtain ⟨rfl, _⟩ := hc
      exact Or.inr ⟨hr, rfl⟩
    · exact Or.inl rfl

theorem vAfterSwitch_pcb (v : View) (i : Nat) : (vAfterSwitch v).pcb i = v.pcb i := by
  simp only [View.pcb, vAfterSwitch_processes]

theorem vDispatchSelected_pcb {v v' : View} {sel : Nat} {now nowLog forkPid : Int}
    (h : vDispatchSelected v sel now nowLog forkPid = some v') (i : Nat) :
    v'.runningProcess = some sel ∧ v'.queue = v.queue.erase sel ∧
    (v'.pcb i = v.pcb i ∨
      (i = sel ∧ ((v.pcb i).started = false ∧ v'.pcb i = startedPCB (v.pcb i) forkPid now ∨
        (v.pcb i).started = true ∧ v'.pcb i = resumedPCB (v.pcb i) now))) := by
  unfold vDispatchSelected at h
  split at h
  · rename_i hst
    unfold vStartProcess at h
    split at h
    · cases h
    · split at h
      · simp only [Option.some.injEq] at h
        subst h
        refine ⟨rfl, rfl, ?_⟩
        simp only [vWriteLog, View.pcb]
        rw [pcbAt_set]
        split
        · rename_i hc
          obtain ⟨rfl, _⟩ := hc
          exact Or.inr ⟨rfl, Or.inl ⟨hst, rfl⟩⟩
        · exact Or.inl rfl
      · simp only [Option.some.injEq] at h
        subst h
        exact ⟨rfl, rfl, Or.inl rfl⟩
  · rename_i hst
    simp only [Option.some.injEq] at h
    subst h
    refine ⟨rfl, rfl, ?_⟩
    simp only [vResumeProcess, vWriteLog, View.pcb]
    rw [pcbAt_set]
    split
    · rename_i hc
      obtain ⟨rfl, _⟩ := hc
      refine Or.inr ⟨rfl, Or.inr ⟨?_, rfl⟩⟩
      simpa using hst
    · exact Or.inl rfl

theorem vDispatchPhase_pcb {v v' : View} {inp : TickInput}
    (h : vDispatchPhase v inp = some v') (i : Nat) :
    (v'.pcb i = v.pcb i ∧ (v'.runningProcess = some i → v.runningProcess = some i ∨
        (v.runningProcess = none ∧ i ∈ v.queue))) ∨
      (v.runningProcess = none ∧ i ∈ v.queue ∧ v'.runningProcess = some i ∧
        ((v.pcb i).started = false ∧
            v'.pcb i = startedPCB (v.pcb i) inp.forkPid inp.clkDispatch ∨
          (v.pcb i).started = true ∧ v'.pcb i = resumedPCB (v.pcb i) inp.clkDispatch)) := by
  unfold vDispatchPhase at h
  split at h
  · rename_i hc
    unfold vSelectNextProcess at h
    split at h
    · simp only [Option.some.injEq] at h
      subst h
      refine Or.inl ⟨vAfterSwitch_pcb v i, ?_⟩
      rw [vAfterSwitch_running]
      exact fun hr => Or.inl hr
    · rename_i sel hsel
      have hmem := vSelect_mem hsel
      obtain ⟨hrun, _, hcase⟩ := vDispatchSelected_pcb h i
      rw [vAfterSwitch_pcb] at hcase
      rcases hcase with heq | ⟨rfl, hrest⟩
      · refine Or.inl ⟨heq, ?_⟩
        intro hr
        rw [hrun] at hr
        cases hr
        exact Or.inr ⟨hc.1, hmem⟩
      · exact Or.inr ⟨hc.1, hmem, hrun, hrest⟩
  · simp only [Option.some.injEq] at h
    subst h
    exact Or.inl ⟨rfl, fun hr => Or.inl hr⟩

theorem vDispatchPhase_queue {v v' : View} {inp : TickInput}
    (h : vDispatchPhase v inp = some v') :
    (v'.queue = v.queue ∧ v'.runningProcess = v.runningProcess) ∨
      ∃ sel, sel ∈ v.queue ∧ v.runningProcess = none ∧ v'.queue = v.queue.erase sel ∧
        v'.runningProcess = some sel := by
  unfold vDispatchPhase at h
  split at h
  · rename_i hc
    unfold vSelectNextProcess at h
    split at h
    · simp only [Option.some.injEq] at h
      subst h
      exact Or.inl ⟨vAfterSwitch_queue v, vAfterSwitch_running v⟩
    · rename_i sel hsel
      obtain ⟨hrun, hq, _⟩ := vDispatchSelected_pcb h 0
      rw [vAfterSwitch_queue] at hq
      exact Or.inr ⟨sel, vSelect_mem hsel, hc.1, hq, hrun⟩
  · simp only [Option.some.injEq] at h
    subst h
    exact Or.inl ⟨rfl, rfl⟩

theorem accrueList_pcb (q : List Nat) (procs : List PCB) (i : Nat) (hnd : q.Nodup) :
    pcbAt (accrueList q procs) i =
      if i ∈ q ∧ i < procs.length ∧ (pcbAt procs i).state = ProcessState.READY then
        waitedPCB (pcbAt procs i)
      else pcbAt procs i := by
  induction q generalizing procs with
  | nil => simp [accrueList]
  | cons x xs ih =>
    rw [List.nodup_cons] at hnd
    simp only [accrueList]
    rw [ih _ hnd.2]
    by_cases hxi : x = i
    · subst hxi
      simp only [hnd.1, false_and, if_false, List.mem_cons, true_or, true_and]
      by_cases hst : (pcbAt procs x).state = ProcessState.READY
      · simp only [hst, if_true, and_true]
        rw [pcbAt_set]
        simp
      · simp only [hst, if_false, and_false]
    · have hmem : i ∈ x :: xs ↔ i ∈ xs := by simp [Ne.symm hxi]
      have hsame : pcbAt (if (pcbAt procs x).state = ProcessState.READY then
          procs.set x (waitedPCB (pcbAt procs x)) else procs) i = pcbAt procs i := by
        split
        · exact pcbAt_set_ne _ hxi
        · rfl
      have hlen : (if (pcbAt procs x).state = ProcessState.READY then
          procs.set x (waitedPCB (pcbAt procs x)) else procs).length = procs.length := by
        split <;> simp
      simp only [hsame, hlen, hmem]

/-! ### Waiting time across an iteration (view) -/

theorem resumedPCB_waitingTime (p : PCB) (now : Int) :
    (resumedPCB p now).waitingTime =
      if p.lastStopTime ≠ -1 then p.waitingTime + (now - p.lastStopTime) else p.waitingTime := by
  unfold resumedPCB
  split <;> rfl

theorem resumedPCB_lastStopTime (p : PCB) (now : Int) :
    (resumedPCB p now).lastStopTime = p.lastStopTime := by
  unfold resumedPCB
  split <;> rfl

theorem resumedPCB_state (p : PCB) (now : Int) :
    (resumedPCB p now).state = ProcessState.RUNNING := by
  unfold resumedPCB
  split <;> rfl

theorem resumedPCB_remainingTime (p : PCB) (now : Int) :
    (resumedPCB p now).remainingTime = p.remainingTime := by
  unfold resumedPCB
  split <;> rfl

theorem vTick_phases {v v' : View} {inp : TickInput} (hv : VInv v)
    (h : vTick v inp = some v') :
    ∃ v1 v4, vReceive { v with currentTime := inp.clk } inp.arrivals = some v1 ∧
      vDispatchPhase (vRRPhase (vFinishPhase v1 inp) inp) inp = some v4 ∧
      v' = vAccruePhase (vEndPhase v4 inp) ∧
      VInv v1 ∧ VInv (vFinishPhase v1 inp) ∧ VInv (vRRPhase (vFinishPhase v1 inp) inp) ∧
      VInv v4 ∧ VInv v' := by
  unfold vTick at h
  split at h
  · cases h
  · rename_i v1 h1
    split at h
    · cases h
    · rename_i v4 h4
      simp only [Option.some.injEq] at h
      have hv0 : VInv { v with currentTime := inp.clk } := hv.congr rfl rfl rfl (fun _ => rfl)
      have hv1 := vInv_receive hv0 h1
      have hv2 := vInv_finishPhase inp hv1
      have hv3 := vInv_rrPhase inp hv2
      have hv4 := vInv_dispatchPhase hv3 h4
      exact ⟨v1, v4, h1, h4, h.symm, hv1, hv2, hv3, hv4,
        h ▸ vInv_accruePhase (vInv_endPhase inp hv4)⟩

theorem vEndPhase_pcb (v : View) (inp : TickInput) (i : Nat) :
    (vEndPhase v inp).pcb i = v.pcb i := by
  unfold vEndPhase
  split <;> rfl

theorem vEndPhase_queue (v : View) (inp : TickInput) : (vEndPhase v inp).queue = v.queue := by
  unfold vEndPhase
  split <;> rfl

theorem vEndPhase_running (v : View) (inp : TickInput) :
    (vEndPhase v inp).runningProcess = v.runningProcess := by
  unfold vEndPhase
  split <;> rfl

theorem vEndPhase_processes (v : View) (inp : TickInput) :
    (vEndPhase v inp).processes = v.processes := by
  unfold vEndPhase
  split <;> rfl

theorem vAccrue_end_pcb {v : View} (inp : TickInput) (hv : VInv v) (i : Nat) :
    (vAccruePhase (vEndPhase v inp)).pcb i =
      if i ∈ v.queue then waitedPCB (v.pcb i) else v.pcb i := by
  simp only [vAccruePhase, View.pcb, vEndPhase_queue, vEndPhase_processes]
  rw [accrueList_pcb _ _ _ hv.nodup]
  by_cases hi : i ∈ v.queue
  · have h1 := hv.queue_lt i hi
    have h2 : (pcbAt v.processes i).state = ProcessState.READY := hv.queue_ready i hi
    simp [hi, h1, h2]
  · simp [hi]

theorem vTick_waiting {v v' : View} {inp : TickInput} (hv : VInv v)
    (h : vTick v inp = some v') {i : Nat} (hi : i < v.processes.length) :
    (i ∈ v'.queue → (v'.pcb i).waitingTime = (v.pcb i).waitingTime + 1 ∧
      (v'.pcb i).state = ProcessState.READY) ∧
    (i ∉ v'.queue → v'.runningProcess ≠ some i →
      (v'.pcb i).waitingTime = (v.pcb i).waitingTime) ∧
    (v'.runningProcess = some i →
      (v'.pcb i).waitingTime = (v.pcb i).waitingTime ∨
        ((v.pcb i).started = true ∧ (v'.pcb i).lastStopTime ≠ -1 ∧
          (v'.pcb i).waitingTime =
            (v.pcb i).waitingTime + (inp.clkDispatch - (v'.pcb i).lastStopTime))) := by
  obtain ⟨v1, v4, h1, h4, rfl, hv1, hv2, hv3, hv4, hv'⟩ := vTick_phases hv h
  have hq' : (vAccruePhase (vEndPhase v4 inp)).queue = v4.queue := vEndPhase_queue v4 inp
  have hr' : (vAccruePhase (vEndPhase v4 inp)).runningProcess = v4.runningProcess :=
    vEndPhase_running v4 inp
  have hp1 : v1.pcb i = v.pcb i := vReceive_pcb h1 hi
  -- waiting time and started flag up to the dispatch step
  have h2 : ((vFinishPhase v1 inp).pcb i).waitingTime = (v.pcb i).waitingTime ∧
      ((vFinishPhase v1 inp).pcb i).started = (v.pcb i).started := by
    rcases vFinishPhase_pcb v1 inp i with e | ⟨_, _, _, e⟩
    · rw [e, hp1]
      exact ⟨rfl, rfl⟩
    · rw [e, hp1]
      exact ⟨rfl, rfl⟩
  have h3 : ((vRRPhase (vFinishPhase v1 inp) inp).pcb i).waitingTime = (v.pcb i).waitingTime ∧
      ((vRRPhase (vFinishPhase v1 inp) inp).pcb i).started = (v.pcb i).started := by
    rcases vRRPhase_pcb (vFinishPhase v1 inp) inp i with e | ⟨_, _, _, _, _, _, _, _, e⟩
    · rw [e]
      exact h2
    · rw [e]
      exact h2
  have hD : ((v4.pcb i).waitingTime = (v.pcb i).waitingTime) ∨
      (v4.runningProcess = some i ∧ (v.pcb i).started = true ∧ (v4.pcb i).lastStopTime ≠ -1 ∧
        (v4.pcb i).waitingTime =
          (v.pcb i).waitingTime + (inp.clkDispatch - (v4.pcb i).lastStopTime)) := by
    rcases vDispatchPhase_pcb h4 i with ⟨e, _⟩ | ⟨_, _, hrun, hst | hres⟩
    · rw [e]
      exact Or.inl h3.1
    · rw [hst.2]
      exact Or.inl h3.1
    · by_cases hL : ((vRRPhase (vFinishPhase v1 inp) inp).pcb i).lastStopTime = -1
      · left
        rw [hres.2, resumedPCB_waitingTime]
        simp [hL, h3.1]
      · right
        refine ⟨hrun, h3.2 ▸ hres.1, ?_, ?_⟩
        · rw [hres.2, resumedPCB_lastStopTime]
          exact hL
        · rw [hres.2, resumedPCB_waitingTime, resumedPCB_lastStopTime, if_pos hL, h3.1]
  have hfinal := vAccrue_end_pcb inp hv4 i
  refine ⟨?_, ?_, ?_⟩
  · intro hmem
    rw [hq'] at hmem
    refine ⟨?_, hv'.queue_ready i (hq'.symm ▸ hmem)⟩
    rw [hfinal, if_pos hmem]
    have hnr : v4.runningProcess ≠ some i := fun e => hv4.running_not_queued i e hmem
    rcases hD with e | ⟨e, _⟩
    · show (v4.pcb i).waitingTime + 1 = _
      rw [e]
    · exact absurd e hnr
  · intro hmem hnr
    rw [hq'] at hmem
    rw [hr'] at hnr
    rw [hfinal, if_neg hmem]
    rcases hD with e | ⟨e, _⟩
    · exact e
    · exact absurd e hnr
  · intro hrun
    rw [hr'] at hrun
    have hmem : i ∉ v4.queue := hv4.running_not_queued i hrun
    rw [hfinal, if_neg hmem]
    rcases hD with e | ⟨_, e⟩
    · exact Or.inl e
    · exact Or.inr e

/-! ### C6 -/

theorem Sim.processes {σ : Sched} {v : View} (h : Sim σ v) : v.processes = σ.processes := by
  rw [← h.2]
  rfl

theorem Sim.running {σ : Sched} {v : View} (h : Sim σ v) :
    v.runningProcess = σ.runningProcess := by
  rw [← h.2]
  rfl

theorem Sim.pcb {σ : Sched} {v : View} (h : Sim σ v) (i : Nat) : v.pcb i = σ.pcb i := by
  simp only [View.pcb, Sched.pcb, h.processes]

theorem reachable_view {a q : Int} {σ : Sched} (h : Reachable a q σ) :
    ∃ v, Sim σ v ∧ VInv v := by
  obtain ⟨es, hes⟩ := h
  obtain ⟨v, _, hs, hv⟩ := run_view hes
  exact ⟨v, hs, hv⟩

theorem tick_view {σ σ' : Sched} {v : View} {inp : TickInput} (hs : Sim σ v) (hv : VInv v)
    (h : tick σ inp = some σ') : ∃ v', vTick v inp = some v' ∧ Sim σ' v' ∧ VInv v' := by
  obtain ⟨v', hv', hs'⟩ := (sim_tick inp hs hv).of_some h
  exact ⟨v', hv', hs', vInv_tick hv hv'⟩

theorem writeLog_processes {σ σ' : Sched} {now : Int} {e : LogEvent} {pcb : Nat}
    (h : writeLog σ now e pcb = some σ') : σ'.processes = σ.processes := by
  unfold writeLog at h
  split at h
  · cases h
  · simp only [Option.some.injEq] at h
    subst h
    rfl

theorem startProcess_pcb {σ σ' : Sched} {pcb : Nat} {now nowLog forkPid : Int}
    (h : startProcess σ pcb now nowLog forkPid = some σ') (i : Nat) :
    σ'.pcb i = σ.pcb i ∨ (i = pcb ∧ σ'.pcb i = startedPCB (σ.pcb i) forkPid now) := by
  unfold startProcess at h
  by_cases h0 : forkPid = 0
  · simp [h0] at h
  · by_cases h1 : forkPid > 0
    · cases hp : σ.processes[pcb]? with
      | none => simp [h0, h1, hp] at h
      | some p =>
        simp only [h0, h1, hp, if_false, if_true] at h
        simp only [Sched.pcb, writeLog_processes h]
        rw [pcbAt_set]
        split
        · rename_i hc
          obtain ⟨rfl, _⟩ := hc
          right
          rw [pcbAt_of_getElem? hp]
          exact ⟨rfl, rfl⟩
        · exact Or.inl rfl
    · simp only [h0, h1, if_false, Option.some.injEq] at h
      subst h
      exact Or.inl rfl

theorem stopProcess_pcb {σ σ' : Sched} {pcb : Nat} {now nowLog : Int}
    (h : stopProcess σ pcb now nowLog = some σ') (i : Nat) :
    σ'.pcb i = σ.pcb i ∨ (i = pcb ∧ σ'.pcb i = stoppedPCB (σ.pcb i) now) := by
  unfold stopProcess at h
  cases hp : σ.processes[pcb]? with
  | none => simp [hp] at h
  | some p =>
    simp only [hp] at h
    simp only [Sched.pcb, writeLog_processes h]
    rw [pcbAt_set]
    split
    · rename_i hc
      obtain ⟨rfl, _⟩ := hc
      right
      rw [pcbAt_of_getElem? hp]
      exact ⟨rfl, rfl⟩
    · exact Or.inl rfl

theorem finishProcess_pcb {σ σ' : Sched} {pcb : Nat} {now nowLog : Int}
    (h : finishProcess σ pcb now nowLog = some σ') (i : Nat) :
    σ'.pcb i = σ.pcb i ∨ (i = pcb ∧ σ'.pcb i = finishedPCB (σ.pcb i) now) := by
  unfold finishProcess at h
  cases hp : σ.processes[pcb]? with
  | none => simp [hp] at h
  | some p =>
    simp only [hp] at h
    simp only [Sched.pcb, writeLog_processes h]
    rw [pcbAt_set]
    split
    · rename_i hc
      obtain ⟨rfl, _⟩ := hc
      right
      rw [pcbAt_of_getElem? hp]
      exact ⟨rfl, rfl⟩
    · exact Or.inl rfl

theorem resumeProcess_pcb {σ σ' : Sched} {pcb : Nat} {now nowLog : Int}
    (h : resumeProcess σ pcb now nowLog = some σ') (i : Nat) :
    (i ≠ pcb → σ'.pcb i = σ.pcb i) ∧ (i = pcb → σ'.pcb i = resumedPCB (σ.pcb i) now) := by
  unfold resumeProcess at h
  cases hp : σ.processes[pcb]? with
  | none => simp [hp] at h
  | some p =>
    have hlt : pcb < σ.processes.length := by
      by_contra hcon
      rw [List.getElem?_eq_none (by simpa using hcon)] at hp
      cases hp
    simp only [hp] at h
    simp only [Sched.pcb, writeLog_processes h]
    constructor
    · intro hne
      exact pcbAt_set_ne _ (Ne.symm hne)
    · rintro rfl
      rw [pcbAt_set_eq _ hlt, pcbAt_of_getElem? hp]
      unfold resumedPCB
      split <;> rfl

/-- C6 fails on the code: the waiting time of a preempted process is counted
twice.  Round robin with quantum 2, two processes of runtime 5 arriving at
tick 0, one loop iteration per clock tick.  The second PCB is READY during
ticks 0 and 1 and the accrual loop takes its waitingTime to 2; the iteration
at clock 2 starts it, and `startProcess` adds nothing: it runs with
waitingTime 2.  The first PCB is stopped in the iteration at clock 2
(`lastStopTime` 2) and is READY during ticks 2 and 3, in which the accrual
loop takes its waitingTime from 0 to 2; the iteration at clock 4 resumes it,
and `resumeProcess` adds 4 − `lastStopTime` = 2 for the same two ticks: it
runs with waitingTime 4 after 2 ticks spent READY. -/
theorem waiting_time_counted_twice :
    ∃ σa σb σc σd, run (initSched 3 2) (rrExample.take 2) = some σa ∧
      step σa (tickAt 2 [] false) = some σb ∧ run (initSched 3 2) rrExample = some σb ∧
      step σb (tickAt 3 [] false) = some σc ∧ step σc (tickAt 4 [] false) = some σd ∧
      (σa.pcb 1).state = ProcessState.READY ∧ (σa.pcb 1).started = false ∧
      (σa.pcb 1).waitingTime = 2 ∧
      (σb.pcb 1).state = ProcessState.RUNNING ∧ (σb.pcb 1).started = true ∧
      (σb.pcb 1).startTime = 2 ∧ (σb.pcb 1).waitingTime = 2 ∧
      (σa.pcb 0).state = ProcessState.RUNNING ∧ (σa.pcb 0).waitingTime = 0 ∧
      (σb.pcb 0).state = ProcessState.READY ∧ (σb.pcb 0).lastStopTime = 2 ∧
      (σb.pcb 0).waitingTime = 1 ∧
      (σc.pcb 0).state = ProcessState.READY ∧ (σc.pcb 0).lastStopTime = 2 ∧
      (σc.pcb 0).waitingTime = 2 ∧
      (σd.pcb 0).state = ProcessState.RUNNING ∧ (σd.pcb 0).waitingTime = 4 ∧
      (∃ σr, resumeProcess σc 0 4 4 = some σr ∧
        (σr.pcb 0).waitingTime = (σc.pcb 0).waitingTime + 2) ∧
      (∃ σs, startProcess σa 1 2 2 100 = some σs ∧
        (σs.pcb 1).state = ProcessState.RUNNING ∧
        (σs.pcb 1).waitingTime = (σa.pcb 1).waitingTime) := by
  refine ⟨(run (initSched 3 2) (rrExample.take 2)).getD (initSched 3 2),
    (run (initSched 3 2) rrExample).getD (initSched 3 2),
    (run (initSched 3 2) (rrExample ++ [tickAt 3 [] false])).getD (initSched 3 2),
    (run (initSched 3 2) (rrExample ++ [tickAt 3 [] false, tickAt 4 [] false])).getD
      (initSched 3 2), by decide, by decide, by decide, by decide, by decide, ?_⟩
  refine ⟨by decide, by decide, by decide, ?_⟩
  refine ⟨by decide, by decide, by decide, by decide, ?_⟩
  refine ⟨by decide, by decide, ?_⟩
  refine ⟨by decide, by decide, by decide, ?_⟩
  refine ⟨by decide, by decide, by decide, ?_⟩
  refine ⟨by decide, by decide, ?_, ?_⟩
  · exact ⟨(resumeProcess ((run (initSched 3 2) (rrExample ++ [tickAt 3 [] false])).getD
      (initSched 3 2)) 0 4 4).getD (initSched 3 2), by decide, by decide⟩
  · exact ⟨(startProcess ((run (initSched 3 2) (rrExample.take 2)).getD (initSched 3 2))
      1 2 2 100).getD (initSched 3 2), by decide, by decide, by decide⟩

/-! ### C7 -/

theorem vAccrue_end_remaining {v : View} (inp : TickInput) (hv : VInv v) (i : Nat) :
    ((vAccruePhase (vEndPhase v inp)).pcb i).remainingTime = (v.pcb i).remainingTime := by
  rw [vAccrue_end_pcb inp hv]
  split <;> rfl

theorem vTick_remaining_from {v v' : View} {inp : TickInput} (hv : VInv v)
    (h : vTick v inp = some v') :
    ∃ v1, vReceive { v with currentTime := inp.clk } inp.arrivals = some v1 ∧
      ∀ i, (v'.pcb i).remainingTime = (v1.pcb i).remainingTime := by
  obtain ⟨v1, v4, h1, h4, rfl, hv1, hv2, hv3, hv4, hv'⟩ := vTick_phases hv h
  refine ⟨v1, h1, ?_⟩
  intro i
  have h2 : ((vFinishPhase v1 inp).pcb i).remainingTime = (v1.pcb i).remainingTime := by
    rcases vFinishPhase_pcb v1 inp i with e | ⟨_, _, _, e⟩ <;> (rw [e]; try rfl)
  have h3 : ((vRRPhase (vFinishPhase v1 inp) inp).pcb i).remainingTime =
      (v1.pcb i).remainingTime := by
    rcases vRRPhase_pcb (vFinishPhase v1 inp) inp i with e | ⟨_, _, _, _, _, _, _, _, e⟩
    · rw [e, h2]
    · rw [e]
      exact h2
  have h4' : (v4.pcb i).remainingTime = (v1.pcb i).remainingTime := by
    rcases vDispatchPhase_pcb h4 i with ⟨e, _⟩ | ⟨_, _, _, hst | hres⟩
    · rw [e, h3]
    · rw [hst.2]
      exact h3
    · rw [hres.2, resumedPCB_remainingTime, h3]
  rw [vAccrue_end_remaining inp hv4, h4']

theorem vTick_remaining {v v' : View} {inp : TickInput} (hv : VInv v)
    (h : vTick v inp = some v') {i : Nat} (hi : i < v.processes.length) :
    (v'.pcb i).remainingTime = (v.pcb i).remainingTime := by
  obtain ⟨v1, h1, hall⟩ := vTick_remaining_from hv h
  rw [hall i, vReceive_pcb h1 hi]
  rfl

theorem newPCB_remaining_nonneg {ms : List Msg} (hms : ∀ m ∈ ms, 0 ≤ m.runtime)
    (procs : List PCB) (hp : ∀ i, 0 ≤ (pcbAt procs i).remainingTime) (i : Nat) :
    0 ≤ (pcbAt (procs ++ ms.map newPCB) i).remainingTime := by
  by_cases h1 : i < procs.length
  · rw [pcbAt_append_lt _ h1]
    exact hp i
  · by_cases h2 : i < (procs ++ ms.map newPCB).length
    · have hmem : pcbAt (procs ++ ms.map newPCB) i ∈ ms.map newPCB := by
        have hget := getElem?_pcbAt h2
        rw [List.getElem?_append_right (by omega)] at hget
        exact List.mem_iff_getElem?.2 ⟨_, hget⟩
      obtain ⟨m, hm, hmeq⟩ := List.mem_map.1 hmem
      rw [← hmeq]
      exact hms m hm
    · rw [pcbAt_ge (by omega)]
      exact le_refl _

theorem vStep_remaining_nonneg {v v' : View} {e : Event} (hv : VInv v)
    (hp : ∀ i, 0 ≤ (v.pcb i).remainingTime)
    (he : ∀ m ∈ e.arrivals, 0 ≤ m.runtime)
    (h : vStep v e = some v') : ∀ i, 0 ≤ (v'.pcb i).remainingTime := by
  intro i
  cases e with
  | tick inp =>
    simp only [vStep] at h
    split at h
    · obtain ⟨v1, h1, hall⟩ := vTick_remaining_from hv h
      rw [hall i, vReceive_eq h1]
      exact newPCB_remaining_nonneg he _ hp i
    · cases h
  | notify =>
    simp only [vStep, Option.some.injEq] at h
    subst h
    rcases vNotify_pcb v i with e | ⟨_, e⟩
    · rw [e]
      exact hp i
    · rw [e]
      exact le_refl _

theorem vRun_remaining_nonneg {v v' : View} {es : List Event} (hv : VInv v)
    (hp : ∀ i, 0 ≤ (v.pcb i).remainingTime)
    (he : ∀ e ∈ es, ∀ m ∈ e.arrivals, 0 ≤ m.runtime)
    (h : vRun v es = some v') : ∀ i, 0 ≤ (v'.pcb i).remainingTime := by
  induction es generalizing v with
  | nil =>
    simp only [vRun, Option.some.injEq] at h
    exact h ▸ hp
  | cons e es ih =>
    simp only [vRun] at h
    split at h
    · cases h
    · rename_i v1 h1
      refine ih (vInv_step hv h1) ?_ (fun e' hin => he e' (List.mem_cons_of_mem _ hin)) h
      exact vStep_remaining_nonneg hv hp (he e (List.mem_cons_self _ _)) h1

theorem initView_pcb (a q : Int) (i : Nat) : (initView a q).pcb i = zeroPCB := by
  simp [View.pcb, initView, Sched.view, initSched, pcbAt]

/-- C7 as stated fails.  An arrival with runtime -5 (a well-formed `int`)
gives a reachable PCB with remainingTime -5, and a completion notification
then raises the remainingTime of that RUNNING PCB to 0.  After a failed spawn
the tracked running process is a READY PCB, and a notification changes its
remainingTime from 5 to 0 although it is not RUNNING. -/
theorem remaining_time_counterexample :
    (∃ σ σ', run (initSched 1 0) [tickAt 0 [⟨1, 0, -5, 3⟩] false] = some σ ∧
      (σ.pcb 0).state = ProcessState.RUNNING ∧ (σ.pcb 0).remainingTime = -5 ∧
      step σ Event.notify = some σ' ∧ (σ'.pcb 0).remainingTime = 0) ∧
    (∃ σ σ', run (initSched 1 0)
        [Event.tick (TickInput.uniform 0 [⟨1, 0, 5, 3⟩] (-1) false)] = some σ ∧
      (σ.pcb 0).state = ProcessState.READY ∧ (σ.pcb 0).remainingTime = 5 ∧
      step σ Event.notify = some σ' ∧ (σ'.pcb 0).remainingTime = 0) := by
  refine ⟨⟨(run (initSched 1 0) [tickAt 0 [⟨1, 0, -5, 3⟩] false]).getD (initSched 1 0),
    (run (initSched 1 0) [tickAt 0 [⟨1, 0, -5, 3⟩] false, Event.notify]).getD (initSched 1 0),
    by decide, by decide, by decide, by decide, by decide⟩, ?_⟩
  exact ⟨(run (initSched 1 0)
      [Event.tick (TickInput.uniform 0 [⟨1, 0, 5, 3⟩] (-1) false)]).getD (initSched 1 0),
    (run (initSched 1 0)
      [Event.tick (TickInput.uniform 0 [⟨1, 0, 5, 3⟩] (-1) false), Event.notify]).getD
      (initSched 1 0),
    by decide, by decide, by decide, by decide, by decide⟩

/-- C7, amended.  If every arrival message ingested so far carries a runtime
that is not negative, then in the state reached every PCB has
remainingTime ≥ 0, and across any further loop iteration or completion
notification the remainingTime of every existing PCB other than the tracked
running process is unchanged while that of the tracked running process does
not increase: an iteration changes no existing PCB's remainingTime, and a
notification sets that of the tracked running process to 0. -/
theorem remaining_time_monotone (a q : Int) (es : List Event) (σ : Sched)
    (hrun : run (initSched a q) es = some σ)
    (hms : ∀ e ∈ es, ∀ m ∈ e.arrivals, 0 ≤ m.runtime) :
    (∀ i, 0 ≤ (σ.pcb i).remainingTime) ∧
    (∀ (e : Event) (σ' : Sched), step σ e = some σ' → ∀ i, i < σ.processCount →
      (σ'.pcb i).remainingTime ≤ (σ.pcb i).remainingTime ∧
      (σ.runningProcess ≠ some i → (σ'.pcb i).remainingTime = (σ.pcb i).remainingTime) ∧
      ((∃ inp, e = Event.tick inp) → (σ'.pcb i).remainingTime = (σ.pcb i).remainingTime) ∧
      (e = Event.notify → σ.runningProcess = some i → (σ'.pcb i).remainingTime = 0)) := by
  obtain ⟨v, hvrun, hs, hv⟩ := run_view hrun
  have hnn : ∀ i, 0 ≤ (σ.pcb i).remainingTime := by
    intro i
    rw [← hs.pcb]
    refine vRun_remaining_nonneg (vInv_init a q) ?_ hms hvrun i
    intro j
    rw [initView_pcb]
    exact le_refl _
  refine ⟨hnn, ?_⟩
  intro e σ' hstep i hi
  obtain ⟨v', hv', hs'⟩ := (sim_step e hs hv).of_some hstep
  rw [← hs.pcb, ← hs'.pcb, ← hs.running]
  cases e with
  | tick inp =>
    simp only [vStep] at hv'
    split at hv'
    · have heq := vTick_remaining hv hv' (i := i) (by rw [hs.processes]; exact hi)
      exact ⟨le_of_eq heq, fun _ => heq, fun _ => heq, fun hc => (by cases hc)⟩
    · cases hv'
  | notify =>
    simp only [vStep, Option.some.injEq] at hv'
    subst hv'
    rcases vNotify_pcb v i with e | ⟨hr, e⟩
    · refine ⟨by rw [e], fun _ => by rw [e], fun _ => by rw [e], ?_⟩
      intro _ hr
      have hlt : i < v.processes.length := hv.running_lt i hr
      have : (vNotify v).pcb i = exhaustedPCB (v.pcb i) := by
        simp only [vNotify, hr, View.pcb]
        exact pcbAt_set_eq _ hlt
      rw [this]
      rfl
    · rw [e]
      refine ⟨?_, fun hne => absurd hr hne, fun hx => (by obtain ⟨inp, hc⟩ := hx; cases hc),
        fun _ _ => rfl⟩
      show (0 : Int) ≤ _
      rw [hs.pcb]
      exact hnn i

/-- Witness for the amended C7: the round-robin example followed by a
completion notification. -/
theorem remaining_time_monotone_witness :
    ∃ σ σ', run (initSched 3 2) rrExample = some σ ∧ step σ Event.notify = some σ' ∧
      (∀ i, 0 ≤ (σ.pcb i).remainingTime) ∧
      (σ'.pcb 1).remainingTime ≤ (σ.pcb 1).remainingTime :=
  have hr : run (initSched 3 2) rrExample =
      some ((run (initSched 3 2) rrExample).getD (initSched 3 2)) := by decide
  have hn : step ((run (initSched 3 2) rrExample).getD (initSched 3 2)) Event.notify =
      some ((step ((run (initSched 3 2) rrExample).getD (initSched 3 2)) Event.notify).getD
        (initSched 3 2)) := by decide
  have hm := remaining_time_monotone 3 2 rrExample _ hr (by decide)
  ⟨_, _, hr, hn, hm.1, (hm.2 Event.notify _ hn 1 (by decide)).1⟩

/-! ### Round-robin quantum (view) -/

theorem vReceive_fields {v v' : View} {ms : List Msg} (h : vReceive v ms = some v') :
    v'.algorithm = v.algorithm ∧ v'.quantum = v.quantum ∧
    v'.quantumCounter = v.quantumCounter ∧ v'.runningProcess = v.runningProcess ∧
    v'.processes.length = v.processes.length + ms.length := by
  rw [vReceive_eq h]
  simp

theorem vFinishPhase_fields (v : View) (inp : TickInput) :
    (vFinishPhase v inp).algorithm = v.algorithm ∧ (vFinishPhase v inp).quantum = v.quantum ∧
    (vFinishPhase v inp).quantumCounter = v.quantumCounter ∧
    (vFinishPhase v inp).queue = v.queue ∧
    ((vFinishPhase v inp).runningProcess = v.runningProcess ∨
      (vFinishPhase v inp).runningProcess = none) := by
  unfold vFinishPhase
  split
  · exact ⟨rfl, rfl, rfl, rfl, Or.inl rfl⟩
  · split
    · exact ⟨rfl, rfl, rfl, rfl, Or.inr rfl⟩
    · exact ⟨rfl, rfl, rfl, rfl, Or.inl rfl⟩

theorem vRRPhase_fields (v : View) (inp : TickInput) :
    (vRRPhase v inp).algorithm = v.algorithm ∧ (vRRPhase v inp).quantum = v.quantum ∧
    ((vRRPhase v inp).runningProcess = v.runningProcess ∨
      (vRRPhase v inp).runningProcess = none) := by
  unfold vRRPhase
  split
  · split
    · exact ⟨rfl, rfl, Or.inl rfl⟩
    · split
      · split
        · exact ⟨rfl, rfl, Or.inr rfl⟩
        · exact ⟨rfl, rfl, Or.inl rfl⟩
      · exact ⟨rfl, rfl, Or.inl rfl⟩
  · exact ⟨rfl, rfl, Or.inl rfl⟩

theorem vAfterSwitch_fields (v : View) :
    (vAfterSwitch v).algorithm = v.algorithm ∧ (vAfterSwitch v).quantum = v.quantum := by
  unfold vAfterSwitch
  split <;> exact ⟨rfl, rfl⟩

theorem vDispatchSelected_fields {v v' : View} {sel : Nat} {now nowLog forkPid : Int}
    (h : vDispatchSelected v sel now nowLog forkPid = some v') :
    v'.algorithm = v.algorithm ∧ v'.quantum = v.quantum ∧
    v'.quantumCounter = v.quantumCounter := by
  unfold vDispatchSelected at h
  split at h
  · unfold vStartProcess at h
    split at h
    · cases h
    · split at h
      · simp only [Option.some.injEq] at h
        subst h
        exact ⟨rfl, rfl, rfl⟩
      · simp only [Option.some.injEq] at h
        subst h
        exact ⟨rfl, rfl, rfl⟩
  · simp only [Option.some.injEq] at h
    subst h
    exact ⟨rfl, rfl, rfl⟩

theorem vDispatchPhase_fields {v v' : View} {inp : TickInput}
    (h : vDispatchPhase v inp = some v') :
    v'.algorithm = v.algorithm ∧ v'.quantum = v.quantum := by
  unfold vDispatchPhase at h
  split at h
  · unfold vSelectNextProcess at h
    split at h
    · simp only [Option.some.injEq] at h
      subst h
      exact vAfterSwitch_fields v
    · obtain ⟨h1, h2, _⟩ := vDispatchSelected_fields h
      exact ⟨h1.trans (vAfterSwitch_fields v).1, h2.trans (vAfterSwitch_fields v).2⟩
  · simp only [Option.some.injEq] at h
    subst h
    exact ⟨rfl, rfl⟩

theorem vAccrue_end_fields (v : View) (inp : TickInput) :
    (vAccruePhase (vEndPhase v inp)).algorithm = v.algorithm ∧
    (vAccruePhase (vEndPhase v inp)).quantum = v.quantum ∧
    (vAccruePhase (vEndPhase v inp)).quantumCounter = v.quantumCounter ∧
    (vAccruePhase (vEndPhase v inp)).runningProcess = v.runningProcess ∧
    (vAccruePhase (vEndPhase v inp)).queue = v.queue ∧
    (vAccruePhase (vEndPhase v inp)).processes.length = v.processes.length := by
  unfold vAccruePhase vEndPhase
  split <;> exact ⟨rfl, rfl, rfl, rfl, rfl, length_accrueList _ _⟩

theorem vTick_fields {v v' : View} {inp : TickInput} (hv : VInv v)
    (h : vTick v inp = some v') : v'.algorithm = v.algorithm ∧ v'.quantum = v.quantum := by
  obtain ⟨v1, v4, h1, h4, rfl, _⟩ := vTick_phases hv h
  obtain ⟨a1, q1, _⟩ := vReceive_fields h1
  obtain ⟨a2, q2, _⟩ := vFinishPhase_fields v1 inp
  obtain ⟨a3, q3, _⟩ := vRRPhase_fields (vFinishPhase v1 inp) inp
  obtain ⟨a4, q4⟩ := vDispatchPhase_fields h4
  obtain ⟨a5, q5, _⟩ := vAccrue_end_fields v4 inp
  exact ⟨a5.trans (a4.trans (a3.trans (a2.trans a1))),
    q5.trans (q4.trans (q3.trans (q2.trans q1)))⟩

theorem vNotify_fields (v : View) :
    (vNotify v).algorithm = v.algorithm ∧ (vNotify v).quantum = v.quantum ∧
    (vNotify v).quantumCounter = v.quantumCounter ∧
    (vNotify v).runningProcess = v.runningProcess ∧ (vNotify v).queue = v.queue ∧
    (vNotify v).allProcessesArrived = v.allProcessesArrived := by
  unfold vNotify
  split <;> exact ⟨rfl, rfl, rfl, rfl, rfl, rfl⟩

theorem vStep_fields {v v' : View} {e : Event} (hv : VInv v) (h : vStep v e = some v') :
    v'.algorithm = v.algorithm ∧ v'.quantum = v.quantum := by
  cases e with
  | tick inp =>
    simp only [vStep] at h
    split at h
    · exact vTick_fields hv h
    · cases h
  | notify =>
    simp only [vStep, Option.some.injEq] at h
    subst h
    exact ⟨(vNotify_fields v).1, (vNotify_fields v).2.1⟩

theorem vRun_fields {v v' : View} {es : List Event} (hv : VInv v) (h : vRun v es = some v') :
    v'.algorithm = v.algorithm ∧ v'.quantum = v.quantum := by
  induction es generalizing v with
  | nil =>
    simp only [vRun, Option.some.injEq] at h
    subst h
    exact ⟨rfl, rfl⟩
  | cons e es ih =>
    simp only [vRun] at h
    split at h
    · cases h
    · rename_i v1 h1
      obtain ⟨a1, q1⟩ := vStep_fields hv h1
      obtain ⟨a2, q2⟩ := ih (vInv_step hv h1) h
      exact ⟨a2.trans a1, q2.trans q1⟩

theorem reachable_config {a q : Int} {σ : Sched} (h : Reachable a q σ) :
    σ.algorithm = a ∧ σ.quantum = q := by
  obtain ⟨es, hes⟩ := h
  obtain ⟨v, hv, hs, _⟩ := run_view hes
  obtain ⟨h1, h2⟩ := vRun_fields (vInv_init a q) hv
  rw [← hs.2] at h1 h2
  exact ⟨h1, h2⟩

theorem vFinishPhase_idle {v : View} {p : Nat} (inp : TickInput)
    (hr : v.runningProcess = some p) (hrem : 0 < (v.pcb p).remainingTime) :
    vFinishPhase v inp = v := by
  unfold vFinishPhase
  simp only [hr]
  rw [if_neg (by omega)]

theorem vRRPhase_count {v : View} {p : Nat} (inp : TickInput) (halg : v.algorithm = 3)
    (hr : v.runningProcess = some p) (hst : (v.pcb p).state = ProcessState.RUNNING)
    (hq : v.quantumCounter + 1 < v.quantum) :
    vRRPhase v inp = { v with quantumCounter := v.quantumCounter + 1 } := by
  unfold vRRPhase
  simp only [halg, hr, hst, if_true]
  rw [if_neg (by omega)]

theorem vRRPhase_preempt {v : View} {p : Nat} (inp : TickInput) (halg : v.algorithm = 3)
    (hr : v.runningProcess = some p) (hst : (v.pcb p).state = ProcessState.RUNNING)
    (hq : v.quantum ≤ v.quantumCounter + 1) (hrem : 0 < (v.pcb p).remainingTime) :
    vRRPhase v inp =
      { vStopProcess { v with quantumCounter := v.quantumCounter + 1 } p
          inp.clkStop inp.clkStopLog with
        queue := v.queue ++ [p]
        runningProcess := none
        quantumCounter := 0 } := by
  unfold vRRPhase
  simp only [halg, hr, hst, if_true]
  rw [if_pos ⟨hq, hrem⟩]

theorem vDispatchPhase_busy {v : View} {p : Nat} (inp : TickInput)
    (hr : v.runningProcess = some p) : vDispatchPhase v inp = some v := by
  unfold vDispatchPhase
  rw [if_neg (by simp [hr])]

theorem vTick_quiet {v : View} {p : Nat} {inp : TickInput} (hv : VInv v)
    (halg : v.algorithm = 3) (hr : v.runningProcess = some p)
    (hst : (v.pcb p).state = ProcessState.RUNNING) (hrem : 0 < (v.pcb p).remainingTime)
    (hq : v.quantumCounter + 1 < v.quantum)
    (hcap : v.processes.length + inp.arrivals.length ≤ MAX_PROCESSES) :
    ∃ v', vTick v inp = some v' ∧ v'.runningProcess = some p ∧
      (v'.pcb p).state = ProcessState.RUNNING ∧
      (v'.pcb p).remainingTime = (v.pcb p).remainingTime ∧
      v'.quantumCounter = v.quantumCounter + 1 ∧
      v'.processes.length = v.processes.length + inp.arrivals.length := by
  obtain ⟨v1, h1⟩ := vReceive_isSome (v := { v with currentTime := inp.clk }) hcap
  obtain ⟨a1, q1, c1, r1, l1⟩ := vReceive_fields h1
  have hp : p < v.processes.length := hv.running_lt p hr
  have hpcb : v1.pcb p = v.pcb p := vReceive_pcb h1 hp
  have hr1 : v1.runningProcess = some p := r1.trans hr
  have hfin : vFinishPhase v1 inp = v1 := vFinishPhase_idle inp hr1 (hpcb ▸ hrem)
  have hrr : vRRPhase v1 inp = { v1 with quantumCounter := v1.quantumCounter + 1 } :=
    vRRPhase_count inp (a1.trans halg) hr1 (hpcb ▸ hst) (by rw [c1, q1]; exact hq)
  have hd : vDispatchPhase { v1 with quantumCounter := v1.quantumCounter + 1 } inp =
      some { v1 with quantumCounter := v1.quantumCounter + 1 } :=
    vDispatchPhase_busy inp hr1
  have htick : vTick v inp = some (vAccruePhase
      (vEndPhase { v1 with quantumCounter := v1.quantumCounter + 1 } inp)) := by
    simp only [vTick, h1, hfin, hrr, hd]
  have hv0 : VInv { v with currentTime := inp.clk } := hv.congr rfl rfl rfl (fun _ => rfl)
  have hv1 := vInv_receive hv0 h1
  have hv3 : VInv { v1 with quantumCounter := v1.quantumCounter + 1 } :=
    hv1.congr rfl rfl rfl (fun _ => rfl)
  obtain ⟨_, _, c5, r5, _, l5⟩ :=
    vAccrue_end_fields { v1 with quantumCounter := v1.quantumCounter + 1 } inp
  have hpc := vAccrue_end_pcb inp hv3 p
  rw [if_neg (hv3.running_not_queued p hr1)] at hpc
  refine ⟨_, htick, r5.trans hr1, ?_, ?_, ?_, ?_⟩
  · rw [hpc]
    exact hpcb ▸ hst
  · rw [hpc]
    exact congrArg PCB.remainingTime hpcb
  · rw [c5]
    show v1.quantumCounter + 1 = _
    rw [c1]
  · rw [l5]
    exact l1

theorem vRun_quiet {p : Nat} (inps : List TickInput) :
    ∀ {v : View}, VInv v → v.algorithm = 3 → v.runningProcess = some p →
      (v.pcb p).state = ProcessState.RUNNING → 0 < (v.pcb p).remainingTime →
      v.quantumCounter + inps.length < v.quantum →
      v.processes.length + (inps.map (fun inp => inp.arrivals.length)).sum ≤ MAX_PROCESSES →
      ∃ v', vRun v (inps.map Event.tick) = some v' ∧ VInv v' ∧ v'.algorithm = 3 ∧
        v'.quantum = v.quantum ∧ v'.runningProcess = some p ∧
        (v'.pcb p).state = ProcessState.RUNNING ∧
        (v'.pcb p).remainingTime = (v.pcb p).remainingTime ∧
        v'.quantumCounter = v.quantumCounter + inps.length ∧
        v'.processes.length =
          v.processes.length + (inps.map (fun inp => inp.arrivals.length)).sum := by
  induction inps with
  | nil =>
    intro v hv halg hr hst _ _ _
    exact ⟨v, rfl, hv, halg, rfl, hr, hst, rfl, by simp, by simp⟩
  | cons inp inps ih =>
    intro v hv halg hr hst hrem hq hcap
    simp only [List.length_cons, Nat.cast_add, Nat.cast_one, List.map_cons,
      List.sum_cons] at hq hcap
    obtain ⟨v1, htick, hr1, hst1, hrem1, hc1, hl1⟩ :=
      @vTick_quiet v p inp hv halg hr hst hrem (by omega) (by omega)
    have hv1 := vInv_tick hv htick
    obtain ⟨a1, q1⟩ := vTick_fields hv htick
    obtain ⟨v', hrun, hv', a', q', r', st', rem', c', l'⟩ :=
      ih hv1 (a1.trans halg) hr1 hst1 (hrem1 ▸ hrem) (by rw [hc1, q1]; omega)
        (by rw [hl1]; omega)
    have hloop : vLoopCond v = true := by simp [vLoopCond, hr]
    refine ⟨v', ?_, hv', a', q'.trans q1, r', st', rem'.trans hrem1, ?_, ?_⟩
    · simp only [List.map_cons, vRun, vStep, hloop, if_true, htick]
      exact hrun
    · rw [c', hc1]
      simp only [List.length_cons, Nat.cast_add, Nat.cast_one]
      ring
    · rw [l', hl1]
      simp only [List.map_cons, List.sum_cons]
      ring

theorem vAccrue_end_state {v : View} (inp : TickInput) (hv : VInv v) (i : Nat) :
    ((vAccruePhase (vEndPhase v inp)).pcb i).state = (v.pcb i).state := by
  rw [vAccrue_end_pcb inp hv]
  split <;> rfl

theorem vStep_running_to_ready {v v' : View} {e : Event} {i : Nat} (hv : VInv v)
    (h : vStep v e = some v') (hi : i < v.processes.length)
    (h0 : (v.pcb i).state = ProcessState.RUNNING)
    (h1 : (v'.pcb i).state = ProcessState.READY) :
    v.algorithm = 3 ∧ (∃ inp, e = Event.tick inp) ∧ v.runningProcess = some i ∧
      v.quantum ≤ v.quantumCounter + 1 ∧ 0 < (v.pcb i).remainingTime := by
  cases e with
  | notify =>
    simp only [vStep, Option.some.injEq] at h
    subst h
    exfalso
    rcases vNotify_pcb v i with e | ⟨_, e⟩
    · rw [e, h0] at h1
      cases h1
    · rw [e] at h1
      have : (exhaustedPCB (v.pcb i)).state = (v.pcb i).state := rfl
      rw [this, h0] at h1
      cases h1
  | tick inp =>
    simp only [vStep] at h
    split at h
    · obtain ⟨v1, v4, hrecv, h4, rfl, hv1, hv2, hv3, hv4, hv'⟩ := vTick_phases hv h
      obtain ⟨a1, q1, c1, r1, _⟩ := vReceive_fields hrecv
      obtain ⟨a2, q2, c2, _, _⟩ := vFinishPhase_fields v1 inp
      have hp1 : v1.pcb i = v.pcb i := vReceive_pcb hrecv hi
      rw [vAccrue_end_state inp hv4] at h1
      have hp4 : v4.pcb i = (vRRPhase (vFinishPhase v1 inp) inp).pcb i := by
        rcases vDispatchPhase_pcb h4 i with ⟨e, _⟩ | ⟨_, _, _, hst | hres⟩
        · exact e
        · rw [hst.2] at h1
          cases h1
        · rw [hres.2, resumedPCB_state] at h1
          cases h1
      rw [hp4] at h1
      rcases vRRPhase_pcb (vFinishPhase v1 inp) inp i with
        e | ⟨halg, hr2, hst2, hq2, hrem2, _⟩
      · exfalso
        rw [e] at h1
        rcases vFinishPhase_pcb v1 inp i with e2 | ⟨_, _, _, e2⟩
        · rw [e2, hp1, h0] at h1
          cases h1
        · rw [e2] at h1
          cases h1
      · have hp2 : (vFinishPhase v1 inp).pcb i = v.pcb i := by
          rcases vFinishPhase_pcb v1 inp i with e2 | ⟨_, _, _, e2⟩
          · rw [e2, hp1]
          · rw [e2] at hst2
            cases hst2
        refine ⟨?_, ⟨inp, rfl⟩, hv.running_unique i hi h0, ?_, ?_⟩
        · rw [← halg, a2, a1]
        · have := hq2
          rw [c2, q2, c1, q1] at this
          exact this
        · rw [← hp2]
          exact hrem2
    · cases h

theorem vReceive_started {v v' : View} {ms : List Msg} (h : vReceive v ms = some v')
    (i : Nat) : (v'.pcb i).started = (v.pcb i).started := by
  rw [vReceive_eq h]
  simp only [View.pcb]
  by_cases h1 : i < v.processes.length
  · rw [pcbAt_append_lt _ h1]
  · rw [pcbAt_ge (Nat.le_of_not_lt h1)]
    by_cases h2 : i < (v.processes ++ ms.map newPCB).length
    · have hmem : pcbAt (v.processes ++ ms.map newPCB) i ∈ ms.map newPCB := by
        have hget := getElem?_pcbAt h2
        rw [List.getElem?_append_right (by omega)] at hget
        exact List.mem_iff_getElem?.2 ⟨_, hget⟩
      obtain ⟨m, _, hmeq⟩ := List.mem_map.1 hmem
      rw [← hmeq]
      rfl
    · rw [pcbAt_ge (by omega)]

theorem vDispatchSelected_sel {v v' : View} {sel : Nat} {now nowLog forkPid : Int}
    (h : vDispatchSelected v sel now nowLog forkPid = some v')
    (hlt : sel < v.processes.length)
    (hok : (v.pcb sel).started = true ∨ forkPid > 0) :
    (v'.pcb sel).state = ProcessState.RUNNING := by
  unfold vDispatchSelected at h
  split at h
  · rename_i hst
    have hpid : forkPid > 0 := by
      rcases hok with hs | hp
      · rw [hs] at hst
        cases hst
      · exact hp
    unfold vStartProcess at h
    have h0 : forkPid ≠ 0 := by omega
    simp only [h0, hpid, if_false, if_true, Option.some.injEq] at h
    subst h
    simp only [vWriteLog, View.pcb]
    rw [pcbAt_set_eq _ (by simpa using hlt)]
    rfl
  · simp only [Option.some.injEq] at h
    subst h
    simp only [vResumeProcess, vWriteLog, View.pcb]
    rw [pcbAt_set_eq _ (by simpa using hlt)]
    exact resumedPCB_state _ _

theorem vTick_dispatched {v v' : View} {inp : TickInput} {p : Nat} (hv : VInv v)
    (halg : v.algorithm = 3) (h : vTick v inp = some v')
    (hne : v.runningProcess ≠ some p) (hr : v'.runningProcess = some p) :
    v'.quantumCounter = 0 ∧
      ((v.pcb p).started = true ∨ inp.forkPid > 0 →
        (v'.pcb p).state = ProcessState.RUNNING) := by
  obtain ⟨v1, v4, hrecv, h4, rfl, hv1, hv2, hv3, hv4, hv'⟩ := vTick_phases hv h
  obtain ⟨a1, _, _, r1, _⟩ := vReceive_fields hrecv
  obtain ⟨a2, _, _, _, r2⟩ := vFinishPhase_fields v1 inp
  obtain ⟨a3, _, r3⟩ := vRRPhase_fields (vFinishPhase v1 inp) inp
  obtain ⟨_, _, c5, r5, _, _⟩ := vAccrue_end_fields v4 inp
  rw [r5] at hr
  rw [c5, vAccrue_end_state inp hv4]
  have hr3 : (vRRPhase (vFinishPhase v1 inp) inp).runningProcess ≠ some p := by
    intro hc
    rcases r3 with e | e
    · rw [e] at hc
      rcases r2 with e2 | e2
      · rw [e2, r1] at hc
        exact hne hc
      · rw [e2] at hc
        cases hc
    · rw [e] at hc
      cases hc
  have halg3 : (vRRPhase (vFinishPhase v1 inp) inp).algorithm = 3 := by
    rw [a3, a2, a1]
    exact halg
  have hst3 : ((vRRPhase (vFinishPhase v1 inp) inp).pcb p).started = (v.pcb p).started := by
    have e1 := vReceive_started hrecv p
    have e2 : ((vFinishPhase v1 inp).pcb p).started = (v1.pcb p).started := by
      rcases vFinishPhase_pcb v1 inp p with e | ⟨_, _, _, e⟩ <;> (rw [e]; try rfl)
    have e3 : ((vRRPhase (vFinishPhase v1 inp) inp).pcb p).started =
        ((vFinishPhase v1 inp).pcb p).started := by
      rcases vRRPhase_pcb (vFinishPhase v1 inp) inp p with
        e | ⟨_, _, _, _, _, _, _, _, e⟩ <;> (rw [e]; try rfl)
    rw [e3, e2, e1]
    rfl
  unfold vDispatchPhase at h4
  split at h4
  · unfold vSelectNextProcess at h4
    split at h4
    · simp only [Option.some.injEq] at h4
      subst h4
      rw [vAfterSwitch_running] at hr
      exact absurd hr hr3
    · rename_i sel hsel
      have hmem := vSelect_mem hsel
      obtain ⟨hrun, _, _⟩ := vDispatchSelected_pcb h4 0
      rw [hrun] at hr
      obtain rfl := Option.some.inj hr
      obtain ⟨_, _, hc⟩ := vDispatchSelected_fields h4
      refine ⟨?_, ?_⟩
      · rw [hc]
        unfold vAfterSwitch
        rw [if_pos halg3]
      · intro hok
        refine vDispatchSelected_sel h4 ?_ ?_
        · rw [vAfterSwitch_processes]
          exact hv3.queue_lt sel hmem
        · rw [vAfterSwitch_pcb, hst3]
          exact hok
  · simp only [Option.some.injEq] at h4
    subst h4
    exact absurd hr hr3

/-! ### C8 -/

theorem Sim.algorithm {σ : Sched} {v : View} (h : Sim σ v) : v.algorithm = σ.algorithm := by
  rw [← h.2]
  rfl

theorem Sim.quantum {σ : Sched} {v : View} (h : Sim σ v) : v.quantum = σ.quantum := by
  rw [← h.2]
  rfl

theorem Sim.quantumCounter {σ : Sched} {v : View} (h : Sim σ v) :
    v.quantumCounter = σ.quantumCounter := by
  rw [← h.2]
  rfl

theorem Sim.withClock {σ : Sched} {v : View} (h : Sim σ v) (c : Int) :
    Sim { σ with currentTime := c } { v with currentTime := c } := by
  obtain ⟨s, hq, rfl⟩ := h.elim
  exact Sim.intro hq rfl

theorem finishPhase_idle {σ : Sched} {p : Nat} (inp : TickInput)
    (hr : σ.runningProcess = some p) (hp : p < σ.processes.length)
    (hrem : 0 < (σ.pcb p).remainingTime) : finishPhase σ inp = some σ := by
  unfold finishPhase
  simp only [hr, getElem?_pcbAt hp]
  rw [if_neg (by simpa [Sched.pcb] using hrem)]

theorem tick_eq_of_phases {σ σ1 σ2 σ3 : Sched} {inp : TickInput}
    (h1 : receiveProcesses { σ with currentTime := inp.clk } inp.arrivals = some σ1)
    (h2 : finishPhase σ1 inp = some σ2) (h3 : rrPhase σ2 inp = some σ3) :
    tick σ inp = (dispatchPhase σ3 inp).bind (fun σ4 => accruePhase (endPhase σ4 inp)) := by
  unfold tick
  simp only [h1, h2, h3]
  cases dispatchPhase σ3 inp <;> rfl

/-- C8 as stated fails for a process that has no time left when it is
dispatched: under round robin with quantum 2, a process of runtime 0 is
dispatched (worker spawned, state RUNNING) in the first iteration; with no
completion notification the next iteration finishes it, so it does not remain
the running process through tick t+1 and is never preempted (its state goes to
FINISHED, never back to READY, and `lastStopTime` stays -1). -/
theorem rr_quantum_counterexample :
    ∃ σ1 σ2 σ3, run (initSched 3 2) [tickAt 0 [⟨1, 0, 0, 1⟩] false] = some σ1 ∧
      σ1.runningProcess = some 0 ∧ (σ1.pcb 0).state = ProcessState.RUNNING ∧
      σ1.quantumCounter = 0 ∧
      step σ1 (tickAt 1 [] false) = some σ2 ∧ σ2.runningProcess = none ∧
      (σ2.pcb 0).state = ProcessState.FINISHED ∧
      step σ2 (tickAt 2 [] false) = some σ3 ∧ (σ3.pcb 0).state = ProcessState.FINISHED ∧
      (σ3.pcb 0).lastStopTime = -1 := by
  refine ⟨(run (initSched 3 2) [tickAt 0 [⟨1, 0, 0, 1⟩] false]).getD (initSched 3 2),
    (run (initSched 3 2) [tickAt 0 [⟨1, 0, 0, 1⟩] false, tickAt 1 [] false]).getD
      (initSched 3 2),
    (run (initSched 3 2) [tickAt 0 [⟨1, 0, 0, 1⟩] false, tickAt 1 [] false,
      tickAt 2 [] false]).getD (initSched 3 2), ?_⟩
  refine ⟨by decide, by decide, by decide, by decide, by decide!, by decide!, by decide!,
    by decide!, by decide!, by decide!⟩

/-- C8, amended.  Under round robin (algorithm 3) with quantum `q ≥ 1`:
(1) an iteration that makes `p` the tracked running process (it was not
before) leaves `quantumCounter = 0`, and `p` in state RUNNING when its worker
was resumed or its spawn succeeded;
(2) from a reachable state in which `p` is the running process in state
RUNNING with `quantumCounter = 0` and remainingTime > 0, any `k < q`
iterations without completion notification (arrivals within the arena
capacity) keep `p` the running process in state RUNNING with
`quantumCounter = k`; and after `q - 1` such iterations the next one, once
arrivals are ingested, preempts `p`: state READY, `lastStopTime` the clock
value read by `stopProcess`, `p` appended behind all queued entries,
`runningProcess` cleared, `quantumCounter` reset to 0, before the dispatch
step of that iteration runs;
(3) for any algorithm, an event that takes an existing PCB from RUNNING to
READY is a loop iteration under algorithm 3 in which that PCB is the running
process, the quantum counter reaches the quantum and remainingTime > 0. -/
theorem rr_quantum :
    (∀ (q : Int) (σ0 σ : Sched) (inp : TickInput) (p : Nat), Reachable 3 q σ0 →
      tick σ0 inp = some σ → σ0.runningProcess ≠ some p → σ.runningProcess = some p →
      σ.quantumCounter = 0 ∧
        ((σ0.pcb p).started = true ∨ inp.forkPid > 0 →
          (σ.pcb p).state = ProcessState.RUNNING)) ∧
    (∀ (q : Int) (σ : Sched) (p : Nat), 1 ≤ q → Reachable 3 q σ →
      σ.runningProcess = some p → (σ.pcb p).state = ProcessState.RUNNING →
      σ.quantumCounter = 0 → 0 < (σ.pcb p).remainingTime →
      (∀ inps : List TickInput, (inps.length : Int) < q →
        σ.processCount + (inps.map (fun inp => inp.arrivals.length)).sum ≤ MAX_PROCESSES →
        ∃ σ', run σ (inps.map Event.tick) = some σ' ∧ σ'.runningProcess = some p ∧
          (σ'.pcb p).state = ProcessState.RUNNING ∧ σ'.quantumCounter = inps.length ∧
          (σ'.pcb p).remainingTime = (σ.pcb p).remainingTime) ∧
      (∀ (inps : List TickInput) (inp : TickInput), (inps.length : Int) + 1 = q →
        σ.processCount + (inps.map (fun inp => inp.arrivals.length)).sum +
          inp.arrivals.length ≤ MAX_PROCESSES →
        ∃ σ' σ1 σ3 s, run σ (inps.map Event.tick) = some σ' ∧
          receiveProcesses { σ' with currentTime := inp.clk } inp.arrivals = some σ1 ∧
          finishPhase σ1 inp = some σ1 ∧ IsQueue σ1.heap σ1.readyQueue s ∧
          rrPhase σ1 inp = some σ3 ∧
          (σ3.pcb p).state = ProcessState.READY ∧ (σ3.pcb p).lastStopTime = inp.clkStop ∧
          IsQueue σ3.heap σ3.readyQueue (s ++ [p]) ∧ σ3.runningProcess = none ∧
          σ3.quantumCounter = 0 ∧
          tick σ' inp =
            (dispatchPhase σ3 inp).bind (fun σ4 => accruePhase (endPhase σ4 inp)))) ∧
    (∀ (a q : Int) (σ σ' : Sched) (e : Event) (i : Nat), Reachable a q σ →
      step σ e = some σ' → i < σ.processCount →
      (σ.pcb i).state = ProcessState.RUNNING → (σ'.pcb i).state = ProcessState.READY →
      a = 3 ∧ (∃ inp, e = Event.tick inp) ∧ σ.runningProcess = some i ∧
        q ≤ σ.quantumCounter + 1 ∧ 0 < (σ.pcb i).remainingTime) := by
  refine ⟨?_, ?_, ?_⟩
  · intro q σ0 σ inp p hreach htick hne hr
    obtain ⟨v, hs, hv⟩ := reachable_view hreach
    obtain ⟨v', hv', hs', _⟩ := tick_view hs hv htick
    have halg : v.algorithm = 3 := hs.algorithm.trans (reachable_config hreach).1
    have := vTick_dispatched (p := p) hv halg hv' (by rw [hs.running]; exact hne)
      (by rw [hs'.running]; exact hr)
    rw [hs'.quantumCounter, hs.pcb, hs'.pcb] at this
    exact this
  · intro q σ p hq hreach hr hst hqc hrem
    obtain ⟨v, hs, hv⟩ := reachable_view hreach
    have halg : v.algorithm = 3 := hs.algorithm.trans (reachable_config hreach).1
    have hquant : v.quantum = q := hs.quantum.trans (reachable_config hreach).2
    have hvr : v.runningProcess = some p := hs.running.trans hr
    have hvst : (v.pcb p).state = ProcessState.RUNNING := (hs.pcb p).symm ▸ hst
    have hvrem : 0 < (v.pcb p).remainingTime := (hs.pcb p).symm ▸ hrem
    have hvqc : v.quantumCounter = 0 := hs.quantumCounter.trans hqc
    have hlen : v.processes.length = σ.processCount := by rw [hs.processes]; rfl
    have hquiet : ∀ inps : List TickInput, (inps.length : Int) < q →
        σ.processCount + (inps.map (fun inp => inp.arrivals.length)).sum ≤ MAX_PROCESSES →
        ∃ σ' v', run σ (inps.map Event.tick) = some σ' ∧ Sim σ' v' ∧ VInv v' ∧
          v'.algorithm = 3 ∧ v'.quantum = q ∧ v'.runningProcess = some p ∧
          (v'.pcb p).state = ProcessState.RUNNING ∧
          (v'.pcb p).remainingTime = (v.pcb p).remainingTime ∧
          v'.quantumCounter = inps.length ∧
          v'.processes.length =
            σ.processCount + (inps.map (fun inp => inp.arrivals.length)).sum := by
      intro inps hlt hcap
      obtain ⟨v', hrun, hv', a', q', r', st', rem', c', l'⟩ :=
        vRun_quiet inps hv halg hvr hvst hvrem (by rw [hvqc, hquant]; omega)
          (by rw [hlen]; exact hcap)
      obtain ⟨σ', hrun', hs'⟩ := (sim_run _ hs hv).of_view_some hrun
      exact ⟨σ', v', hrun', hs', hv', a', q'.trans hquant, r', st', rem',
        by rw [c', hvqc]; simp, by rw [l', hlen]⟩
    constructor
    · intro inps hlt hcap
      obtain ⟨σ', v', hrun, hs', _, _, _, r', st', rem', c', _⟩ := hquiet inps hlt hcap
      refine ⟨σ', hrun, ?_, ?_, ?_, ?_⟩
      · rw [← hs'.running]
        exact r'
      · rw [← hs'.pcb]
        exact st'
      · rw [← hs'.quantumCounter]
        exact c'
      · rw [← hs'.pcb, ← hs.pcb]
        exact rem'
    · intro inps inp hlast hcap
      obtain ⟨σ', v', hrun, hs', hv', a', q', r', st', rem', c', l'⟩ :=
        hquiet inps (by omega) (by omega)
      have hs0 := hs'.withClock inp.clk
      have hv0 : VInv { v' with currentTime := inp.clk } :=
        hv'.congr rfl rfl rfl (fun _ => rfl)
      obtain ⟨v1, hvrecv⟩ := @vReceive_isSome { v' with currentTime := inp.clk }
        inp.arrivals (by
          show v'.processes.length + _ ≤ _
          rw [l']
          exact hcap)
      obtain ⟨σ1, hrecv, hs1⟩ := (sim_receive inp.arrivals hs0).of_view_some hvrecv
      have hv1 := vInv_receive hv0 hvrecv
      obtain ⟨a1, q1, c1, r1, _⟩ := vReceive_fields hvrecv
      have hp' : p < v'.processes.length := hv'.running_lt p r'
      have hpcb1 : v1.pcb p = v'.pcb p := vReceive_pcb hvrecv hp'
      have hr1 : v1.runningProcess = some p := r1.trans r'
      have hp1 : p < v1.processes.length := hv1.running_lt p hr1
      have hrem1 : 0 < (v1.pcb p).remainingTime := by
        rw [hpcb1, rem']
        exact hvrem
      have hfin : finishPhase σ1 inp = some σ1 :=
        finishPhase_idle inp (hs1.running ▸ hr1) (hs1.processes ▸ hp1)
          (by rw [← hs1.pcb]; exact hrem1)
      obtain ⟨σ3, hrr, hs3⟩ := sim_rrPhase inp hs1 hv1.running_lt
      have hpre := vRRPhase_preempt inp (a1.trans a') hr1 (hpcb1 ▸ st')
        (by
          rw [c1, q1]
          show v'.quantum ≤ v'.quantumCounter + 1
          rw [q', c']
          omega) hrem1
      rw [hpre] at hs3
      refine ⟨σ', σ1, σ3, v1.queue, hrun, hrecv, hfin, hs1.1, hrr, ?_, ?_, hs3.1, ?_, ?_,
        tick_eq_of_phases hrecv hfin hrr⟩
      · rw [← hs3.pcb]
        simp only [View.pcb, vStopProcess, vWriteLog]
        rw [pcbAt_set_eq _ hp1]
        rfl
      · rw [← hs3.pcb]
        simp only [View.pcb, vStopProcess, vWriteLog]
        rw [pcbAt_set_eq _ hp1]
        rfl
      · rw [← hs3.running]
      · rw [← hs3.quantumCounter]
  · intro a q σ σ' e i hreach hstep hi h0 h1
    obtain ⟨v, hs, hv⟩ := reachable_view hreach
    obtain ⟨v', hv', hs'⟩ := (sim_step e hs hv).of_some hstep
    obtain ⟨halg, he, hr, hq, hrem⟩ := vStep_running_to_ready (i := i) hv hv'
      (by rw [hs.processes]; exact hi) (by rw [hs.pcb]; exact h0) (by rw [hs'.pcb]; exact h1)
    obtain ⟨ca, cq⟩ := reachable_config hreach
    refine ⟨?_, he, ?_, ?_, ?_⟩
    · rw [← ca, ← hs.algorithm]
      exact halg
    · rw [← hs.running]
      exact hr
    · rw [← cq, ← hs.quantum, ← hs.quantumCounter]
      exact hq
    · rw [← hs.pcb]
      exact hrem

/-- Witness for the amended C8: quantum 2, after the first iteration of the
round-robin example PCB 0 has just been dispatched; it survives one more
iteration and is preempted in the one after. -/
theorem rr_quantum_witness :
    ∃ σ, run (initSched 3 2) [tickAt 0 [⟨1, 0, 5, 1⟩, ⟨2, 0, 5, 1⟩] false] = some σ ∧
      σ.runningProcess = some 0 ∧
      (∃ σ', run σ [tickAt 1 [] false] = some σ' ∧ σ'.runningProcess = some 0) ∧
      ∃ σ' σ1 σ3, run σ [tickAt 1 [] false] = some σ' ∧
        receiveProcesses { σ' with currentTime := 2 } [] = some σ1 ∧
        rrPhase σ1 (TickInput.uniform 2 [] 100 false) = some σ3 ∧
        (σ3.pcb 0).state = ProcessState.READY ∧ σ3.runningProcess = none := by
  have hr : run (initSched 3 2) [tickAt 0 [⟨1, 0, 5, 1⟩, ⟨2, 0, 5, 1⟩] false] =
      some ((run (initSched 3 2) [tickAt 0 [⟨1, 0, 5, 1⟩, ⟨2, 0, 5, 1⟩] false]).getD
        (initSched 3 2)) := by decide
  have hq := rr_quantum.2.1 2 _ 0 (by decide) ⟨_, hr⟩ (by decide) (by decide) (by decide)
    (by decide)
  obtain ⟨σa, ha, hra, _⟩ := hq.1 [TickInput.uniform 1 [] 100 false] (by decide) (by decide)
  obtain ⟨σ', σ1, σ3, s, h1, h2, _, _, h5, h6, _, _, h9, _, _⟩ :=
    hq.2 [TickInput.uniform 1 [] 100 false] (TickInput.uniform 2 [] 100 false)
      (by decide) (by decide)
  exact ⟨_, hr, by decide, ⟨σa, ha, hra⟩, σ', σ1, σ3, h1, h2, h5, h6, h9⟩

/-! ### C10 -/

theorem vTick_running_state {v v' : View} {inp : TickInput} (hv : VInv v)
    (hrs : ∀ r, v.runningProcess = some r → (v.pcb r).state = ProcessState.RUNNING)
    (hfork : inp.forkPid > 0) (h : vTick v inp = some v') :
    ∀ r, v'.runningProcess = some r → (v'.pcb r).state = ProcessState.RUNNING := by
  intro r hr
  obtain ⟨v1, v4, hrecv, h4, rfl, hv1, hv2, hv3, hv4, hv'⟩ := vTick_phases hv h
  obtain ⟨_, _, _, r1, _⟩ := vReceive_fields hrecv
  rw [(vAccrue_end_fields v4 inp).2.2.2.1] at hr
  rw [vAccrue_end_state inp hv4]
  -- the running process before dispatch is in state RUNNING
  have h3 : ∀ r, (vRRPhase (vFinishPhase v1 inp) inp).runningProcess = some r →
      ((vRRPhase (vFinishPhase v1 inp) inp).pcb r).state = ProcessState.RUNNING := by
    intro r hr3
    have hr2 : (vFinishPhase v1 inp).runningProcess = some r := by
      rcases (vRRPhase_fields (vFinishPhase v1 inp) inp).2.2 with e | e
      · rw [← e]
        exact hr3
      · rw [e] at hr3
        cases hr3
    have hr1 : v1.runningProcess = some r := by
      rcases (vFinishPhase_fields v1 inp).2.2.2.2 with e | e
      · rw [← e]
        exact hr2
      · rw [e] at hr2
        cases hr2
    have hr0 : v.runningProcess = some r := by
      rw [← hr1, r1]
    have hs1 : (v1.pcb r).state = ProcessState.RUNNING := by
      rw [vReceive_pcb hrecv (hv.running_lt r hr0)]
      exact hrs r hr0
    have hs2 : ((vFinishPhase v1 inp).pcb r).state = ProcessState.RUNNING := by
      rcases vFinishPhase_pcb v1 inp r with e | ⟨_, _, e, _⟩
      · rw [e]
        exact hs1
      · rw [e] at hr2
        cases hr2
    rcases vRRPhase_pcb (vFinishPhase v1 inp) inp r with e | ⟨_, _, _, _, _, e, _⟩
    · rw [e]
      exact hs2
    · rw [e] at hr3
      cases hr3
  unfold vDispatchPhase at h4
  split at h4
  · unfold vSelectNextProcess at h4
    split at h4
    · simp only [Option.some.injEq] at h4
      subst h4
      rw [vAfterSwitch_running] at hr
      rw [vAfterSwitch_pcb]
      exact h3 r hr
    · rename_i sel hsel
      have hmem := vSelect_mem hsel
      obtain ⟨hrun, _, _⟩ := vDispatchSelected_pcb h4 0
      rw [hrun] at hr
      obtain rfl := Option.some.inj hr
      refine vDispatchSelected_sel h4 ?_ (Or.inr hfork)
      rw [vAfterSwitch_processes]
      exact hv3.queue_lt sel hmem
  · simp only [Option.some.injEq] at h4
    subst h4
    exact h3 r hr

theorem vRun_running_state {v v' : View} {es : List Event} (hv : VInv v)
    (hrs : ∀ r, v.runningProcess = some r → (v.pcb r).state = ProcessState.RUNNING)
    (hok : ∀ e ∈ es, e.spawnOk) (h : vRun v es = some v') :
    ∀ r, v'.runningProcess = some r → (v'.pcb r).state = ProcessState.RUNNING := by
  induction es generalizing v with
  | nil =>
    simp only [vRun, Option.some.injEq] at h
    exact h ▸ hrs
  | cons e es ih =>
    simp only [vRun] at h
    split at h
    · cases h
    · rename_i v1 h1
      refine ih (vInv_step hv h1) ?_ (fun e' he' => hok e' (List.mem_cons_of_mem _ he')) h
      have hoke := hok e (List.mem_cons_self _ _)
      cases e with
      | tick inp =>
        simp only [vStep] at h1
        split at h1
        · exact vTick_running_state hv hrs hoke h1
        · cases h1
      | notify =>
        simp only [vStep, Option.some.injEq] at h1
        subst h1
        intro r hr
        rw [(vNotify_fields v).2.2.2.1] at hr
        rcases vNotify_pcb v r with e | ⟨_, e⟩
        · rw [e]
          exact hrs r hr
        · rw [e]
          exact hrs r hr

theorem runningCount_eq_zero {σ : Sched} :
    runningCount σ = 0 ↔ ∀ i, i < σ.processCount → (σ.pcb i).state ≠ ProcessState.RUNNING := by
  unfold runningCount
  rw [List.countP_eq_zero]
  constructor
  · intro h i hi
    have hmem : pcbAt σ.processes i ∈ σ.processes :=
      List.mem_iff_getElem?.2 ⟨i, getElem?_pcbAt hi⟩
    simpa using h _ hmem
  · intro h p hp
    obtain ⟨j, hj, rfl⟩ := pcbAt_of_mem hp
    simpa using h j hj

theorem loopCond_false_iff {σ : Sched} {s : List Nat} (hq : IsQueue σ.heap σ.readyQueue s) :
    loopCond σ = false ↔
      σ.allProcessesArrived = true ∧ s = [] ∧ σ.runningProcess = none := by
  have hemp := isQueue_isEmpty hq
  unfold loopCond
  cases hr : σ.runningProcess with
  | some r => simp
  | none =>
    cases ha : σ.allProcessesArrived with
    | false => simp
    | true =>
      cases hb : isEmpty σ.readyQueue with
      | true => simp [hemp.1 hb]
      | false =>
        have : s ≠ [] := fun hs => by
          rw [hemp.2 hs] at hb
          cases hb
        simp [this]

/-- C10 as stated fails after a failed worker spawn: with one arrival, a
`fork()` that returns -1 and the end-of-stream message received in the same
iteration, the state reached has the flag set, an empty ready queue and no PCB
in state RUNNING (the selected PCB is still READY), yet the loop condition
holds because `runningProcess` is not `NULL`, and it still holds after any
number of further iterations. -/
theorem loop_exit_counterexample :
    ∃ σ, run (initSched 1 0)
        [Event.tick (TickInput.uniform 0 [⟨1, 0, 5, 3⟩] (-1) true)] = some σ ∧
      σ.allProcessesArrived = true ∧ IsQueue σ.heap σ.readyQueue [] ∧
      runningCount σ = 0 ∧ loopCond σ = true ∧
      ∃ σ', run σ [tickAt 1 [] false, tickAt 2 [] false, tickAt 3 [] false] = some σ' ∧
        loopCond σ' = true ∧ runningCount σ' = 0 := by
  refine ⟨(run (initSched 1 0)
      [Event.tick (TickInput.uniform 0 [⟨1, 0, 5, 3⟩] (-1) true)]).getD (initSched 1 0),
    by decide, by decide, ⟨[], by decide, rfl⟩, by decide, by decide, ?_⟩
  exact ⟨(run (initSched 1 0)
      [Event.tick (TickInput.uniform 0 [⟨1, 0, 5, 3⟩] (-1) true), tickAt 1 [] false,
        tickAt 2 [] false, tickAt 3 [] false]).getD (initSched 1 0),
    by decide, by decide, by decide⟩

/-- C10, amended.  In every reachable state, with `s` the entries of the ready
queue: the loop exits at the top of an iteration (the loop condition is
false, no further iteration is taken) iff the end-of-stream flag is set, the
queue is empty and `runningProcess` is `NULL`; otherwise it performs another
iteration.  An exit implies that no PCB is in state RUNNING; and on runs
without a failed worker spawn `runningProcess` is `NULL` exactly when no PCB is
in state RUNNING, so that there the loop exits iff the flag is set, the queue
is empty and no PCB is in state RUNNING. -/
theorem loop_exit (a q : Int) (es : List Event) (σ : Sched)
    (hrun : run (initSched a q) es = some σ) :
    ∃ s, IsQueue σ.heap σ.readyQueue s ∧
      (loopCond σ = false ↔
        σ.allProcessesArrived = true ∧ s = [] ∧ σ.runningProcess = none) ∧
      (loopCond σ = false → (∀ inp, step σ (Event.tick inp) = none) ∧ runningCount σ = 0) ∧
      (loopCond σ = true → ∀ inp, step σ (Event.tick inp) = tick σ inp) ∧
      ((∀ e ∈ es, e.spawnOk) →
        (loopCond σ = false ↔
          σ.allProcessesArrived = true ∧ s = [] ∧ runningCount σ = 0)) := by
  obtain ⟨v, hvrun, hs, hv⟩ := run_view hrun
  have hiff := loopCond_false_iff hs.1
  have hnone : σ.runningProcess = none → runningCount σ = 0 := by
    intro hr
    rw [runningCount_eq_zero]
    intro i hi hst
    have := hv.running_unique i (by rw [hs.processes]; exact hi) (by rw [hs.pcb]; exact hst)
    rw [hs.running, hr] at this
    cases this
  refine ⟨v.queue, hs.1, hiff, ?_, ?_, ?_⟩
  · intro hl
    refine ⟨fun inp => by simp [step, hl], hnone (hiff.1 hl).2.2⟩
  · intro hl inp
    simp [step, hl]
  · intro hok
    have hrs := vRun_running_state (vInv_init a q)
      (by intro r hr; simp [initView, Sched.view, initSched] at hr) hok hvrun
    rw [hiff]
    constructor
    · rintro ⟨h1, h2, h3⟩
      exact ⟨h1, h2, hnone h3⟩
    · rintro ⟨h1, h2, h3⟩
      refine ⟨h1, h2, ?_⟩
      cases hr : σ.runningProcess with
      | none => rfl
      | some r =>
        exfalso
        have hvr : v.runningProcess = some r := hs.running.trans hr
        have hst := hrs r hvr
        rw [runningCount_eq_zero] at h3
        have hlt : r < σ.processes.length := hs.processes ▸ hv.running_lt r hvr
        exact h3 r hlt (by rw [← hs.pcb]; exact hst)

/-- Witness for the amended C10: the state after the first iteration of the
round-robin example, where the loop goes on. -/
theorem loop_exit_witness :
    ∃ σ, run (initSched 3 2) rrExample = some σ ∧ loopCond σ = true ∧
      ∃ s, IsQueue σ.heap σ.readyQueue s ∧
        (loopCond σ = false ↔
          σ.allProcessesArrived = true ∧ s = [] ∧ σ.runningProcess = none) :=
  have hr : run (initSched 3 2) rrExample =
      some ((run (initSched 3 2) rrExample).getD (initSched 3 2)) := by decide
  have hl := loop_exit 3 2 rrExample _ hr
  ⟨_, hr, by decide, hl.choose, hl.choose_spec.1, hl.choose_spec.2.1⟩

/-! ### C9 -/

/-- C9 fails on process.c.  The worker charges the whole clock difference
since its last read, so ticks that pass while it is stopped count against its
remaining time: a worker asked for 5 ticks that reads the clock at 1 and 2, is
stopped, and next reads it at 5 leaves its loop and signals completion on
that third read, after 3 ticks of running.  In the round-robin scenario
(quantum 2, two processes of runtime 5 arriving at tick 0, one scheduler
iteration per clock tick): after tick 4 the first worker, just resumed, still
holds 3 ticks; at tick 5 it signals and its PCB is finished with finishTime 5;
after tick 7 both PCBs are FINISHED (finish times 5 and 7) and the main loop
has ended: the drain takes 7 ticks, not 10. -/
theorem worker_counts_paused_ticks :
    (workerInit 5 0).bind (fun w => workerLoop w [1, 2, 5] 0) = some 3 ∧
    (systemRun ⟨initSched 3 2, []⟩ (rrScenario 4)).map
      (fun sys => (sys.sched.runningProcess, sys.workers.lookup 0)) =
        some (some 0, some ⟨3, 2⟩) ∧
    (systemRun ⟨initSched 3 2, []⟩ (rrScenario 5)).map
      (fun sys => ((sys.sched.pcb 0).state, (sys.sched.pcb 0).finishTime,
        sys.sched.runningProcess)) = some (ProcessState.FINISHED, 5, some 1) ∧
    (systemRun ⟨initSched 3 2, []⟩ (rrScenario 7)).map
      (fun sys => (sys.sched.finishedCount, (sys.sched.pcb 0).state, (sys.sched.pcb 1).state,
        (sys.sched.pcb 1).finishTime, loopCond sys.sched)) =
        some (2, ProcessState.FINISHED, ProcessState.FINISHED, 7, false) := by
  refine ⟨by decide, by decide, by decide!, by decide!⟩

/-! ### C19 -/

/-- C19. In every reachable scheduler state, with `s` the entries of the ready
queue from head to tail: no PCB pointer occurs twice in `s`, every entry
points to a created PCB whose state is READY, the tracked running process (if
any) is not an entry, and no PCB in state RUNNING is an entry. -/
theorem ready_queue_discipline (algorithm quantum : Int) (σ : Sched)
    (h : Reachable algorithm quantum σ) :
    ∃ s, IsQueue σ.heap σ.readyQueue s ∧ s.Nodup ∧ (∀ p, s.count p ≤ 1) ∧
      (∀ p ∈ s, p < σ.processCount ∧ (σ.pcb p).state = ProcessState.READY) ∧
      (∀ r, σ.runningProcess = some r → r ∉ s) ∧
      (∀ i, (σ.pcb i).state = ProcessState.RUNNING → i ∉ s) := by
  obtain ⟨v, hs, hv⟩ := reachable_view h
  have hready : ∀ p ∈ v.queue, (σ.pcb p).state = ProcessState.READY := by
    intro p hp
    rw [← hs.pcb]
    exact hv.queue_ready p hp
  refine ⟨v.queue, hs.1, hv.nodup, fun p => List.nodup_iff_count_le_one.1 hv.nodup p,
    ?_, ?_, ?_⟩
  · intro p hp
    refine ⟨?_, hready p hp⟩
    have := hv.queue_lt p hp
    rw [hs.processes] at this
    exact this
  · intro r hr
    exact hv.running_not_queued r (hs.running.trans hr)
  · intro i hst hi
    rw [hready i hi] at hst
    cases hst

/-- Witness for C19: the state after three iterations of the round-robin
example, where PCB 0 is queued and PCB 1 is running. -/
theorem ready_queue_discipline_witness :
    ∃ σ, run (initSched 3 2) rrExample = some σ ∧
      ∃ s, IsQueue σ.heap σ.readyQueue s ∧ s.Nodup :=
  have hr : run (initSched 3 2) rrExample =
      some ((run (initSched 3 2) rrExample).getD (initSched 3 2)) := by decide
  have hd := ready_queue_discipline 3 2 _ ⟨rrExample, hr⟩
  ⟨_, hr, hd.choose, hd.choose_spec.1, hd.choose_spec.2.1⟩

/-! ### C18 -/

theorem Sim.log {σ : Sched} {v : View} (h : Sim σ v) : v.log = σ.log := by
  rw [← h.2]
  rfl

theorem rrPhase_other {σ : Sched} (inp : TickInput) (halg : σ.algorithm ≠ 3) :
    rrPhase σ inp = some σ := by
  unfold rrPhase
  rw [if_neg halg]

theorem dispatchPhase_busy {σ : Sched} {p : Nat} (inp : TickInput)
    (hr : σ.runningProcess = some p) : dispatchPhase σ inp = some σ := by
  unfold dispatchPhase
  rw [if_neg (by simp [hr])]

theorem vRRPhase_other {v : View} (inp : TickInput) (halg : v.algorithm ≠ 3) :
    vRRPhase v inp = v := by
  unfold vRRPhase
  rw [if_neg halg]

theorem loopCond_running {σ : Sched} {p : Nat} (hr : σ.runningProcess = some p) :
    loopCond σ = true := by
  simp [loopCond, hr]

/-- C18. Under the priority (1) and shortest-remaining-time (2) policies, in
every reachable state in which a PCB `p` is RUNNING with remainingTime > 0, a
loop iteration with any arrival messages (that fit the arena) and any clock
and spawn inputs has a result, and in it: after ingestion the completion check
and the round-robin block change nothing, the dispatch condition of line 154
is false because `runningProcess` still points to `p`, so `selectNextProcess`
is not called; at the end of the iteration `p` is still the running process,
in state RUNNING, with the same remainingTime, and nothing was logged. -/
theorem no_preemption (a q : Int) (σ : Sched) (inp : TickInput) (p : Nat)
    (ha : a = 1 ∨ a = 2) (h : Reachable a q σ) (hp : p < σ.processCount)
    (hst : (σ.pcb p).state = ProcessState.RUNNING) (hrem : 0 < (σ.pcb p).remainingTime)
    (hcap : σ.processCount + inp.arrivals.length ≤ MAX_PROCESSES) :
    ∃ σ1 σ', receiveProcesses { σ with currentTime := inp.clk } inp.arrivals = some σ1 ∧
      finishPhase σ1 inp = some σ1 ∧ rrPhase σ1 inp = some σ1 ∧
      σ1.runningProcess = some p ∧
      ¬ (σ1.runningProcess = none ∧ isEmpty σ1.readyQueue = false) ∧
      dispatchPhase σ1 inp = some σ1 ∧
      step σ (Event.tick inp) = some σ' ∧ accruePhase (endPhase σ1 inp) = some σ' ∧
      σ'.runningProcess = some p ∧ (σ'.pcb p).state = ProcessState.RUNNING ∧
      (σ'.pcb p).remainingTime = (σ.pcb p).remainingTime ∧ σ'.log = σ.log := by
  obtain ⟨v, hs, hv⟩ := reachable_view h
  obtain ⟨ca, _⟩ := reachable_config h
  have hvr : v.runningProcess = some p :=
    hv.running_unique p (by rw [hs.processes]; exact hp) (by rw [hs.pcb]; exact hst)
  have hr : σ.runningProcess = some p := hs.running ▸ hvr
  have hs0 := hs.withClock inp.clk
  have hv0 : VInv { v with currentTime := inp.clk } := hv.congr rfl rfl rfl (fun _ => rfl)
  obtain ⟨v1, hvrecv⟩ := @vReceive_isSome { v with currentTime := inp.clk } inp.arrivals (by
    show v.processes.length + _ ≤ _
    rw [hs.processes]
    exact hcap)
  obtain ⟨σ1, hrecv, hs1⟩ := (sim_receive inp.arrivals hs0).of_view_some hvrecv
  have hv1 := vInv_receive hv0 hvrecv
  obtain ⟨a1, _, _, r1, _⟩ := vReceive_fields hvrecv
  have hpv : p < v.processes.length := hv.running_lt p hvr
  have hpcb1 : v1.pcb p = v.pcb p := vReceive_pcb hvrecv hpv
  have hr1 : v1.runningProcess = some p := r1.trans hvr
  have hσr1 : σ1.runningProcess = some p := hs1.running ▸ hr1
  have hp1 : p < v1.processes.length := hv1.running_lt p hr1
  have hfin : finishPhase σ1 inp = some σ1 :=
    finishPhase_idle inp hσr1 (hs1.processes ▸ hp1)
      (by rw [← hs1.pcb, hpcb1, hs.pcb]; exact hrem)
  have halg1 : σ1.algorithm ≠ 3 := by
    rw [← hs1.algorithm, a1]
    show v.algorithm ≠ 3
    rw [hs.algorithm, ca]
    rcases ha with e | e <;> rw [e] <;> decide
  have hrr : rrPhase σ1 inp = some σ1 := rrPhase_other inp halg1
  have hd : dispatchPhase σ1 inp = some σ1 := dispatchPhase_busy inp hσr1
  have hs1e := sim_endPhase inp hs1
  have hv1e := vInv_endPhase inp hv1
  obtain ⟨σ', hacc, hs'⟩ := sim_accruePhase hs1e hv1e.queue_lt
  have htick : tick σ inp = some σ' := by
    rw [tick_eq_of_phases hrecv hfin hrr, hd]
    exact hacc
  obtain ⟨_, _, _, r5, _, _⟩ := vAccrue_end_fields v1 inp
  have hpc := vAccrue_end_pcb inp hv1 p
  rw [if_neg (hv1.running_not_queued p hr1)] at hpc
  refine ⟨σ1, σ', hrecv, hfin, hrr, hσr1, ?_, hd, ?_, hacc, ?_, ?_, ?_, ?_⟩
  · rw [hσr1]
    rintro ⟨hc, _⟩
    cases hc
  · simp only [step, loopCond_running hr, if_true]
    exact htick
  · rw [← hs'.running, r5]
    exact hr1
  · rw [← hs'.pcb, hpc, hpcb1, hs.pcb]
    exact hst
  · rw [← hs'.pcb, hpc, hpcb1, hs.pcb]
  · rw [← hs'.log, ← hs.log]
    have e1 : (vAccruePhase (vEndPhase v1 inp)).log = v1.log := by
      unfold vAccruePhase vEndPhase
      split <;> rfl
    rw [e1, vReceive_eq hvrecv]

/-- Witness for C18: under the priority policy PCB 0 (priority 3) is running
with 5 ticks left when a message with priority 1 arrives; PCB 0 keeps the
CPU. -/
theorem no_preemption_witness :
    ∃ σ σ', run (initSched 1 0) [tickAt 0 [⟨1, 0, 5, 3⟩] false] = some σ ∧
      step σ (Event.tick (TickInput.uniform 1 [⟨2, 1, 2, 1⟩] 100 false)) = some σ' ∧
      σ'.runningProcess = some 0 ∧ (σ'.pcb 0).state = ProcessState.RUNNING := by
  have hr : run (initSched 1 0) [tickAt 0 [⟨1, 0, 5, 3⟩] false] =
      some ((run (initSched 1 0) [tickAt 0 [⟨1, 0, 5, 3⟩] false]).getD (initSched 1 0)) := by
    decide
  obtain ⟨_, σ', _, _, _, _, _, _, hstep, _, hr', hst', _, _⟩ :=
    no_preemption 1 0 _ (TickInput.uniform 1 [⟨2, 1, 2, 1⟩] 100 false) 0 (Or.inl rfl)
      ⟨_, hr⟩ (by decide) (by decide) (by decide) (by decide)
  exact ⟨_, σ', hr, hstep, hr', hst'⟩

/-! ### C14 -/

theorem pcbAt_append_right (procs more : List PCB) {j : Nat} (hj : j < more.length) :
    pcbAt (procs ++ more) (procs.length + j) = more[j] := by
  unfold pcbAt
  rw [List.getD_eq_getElem?_getD, List.getElem?_append_right (by omega)]
  simp [hj]

/-- C14. For a scheduler state whose ready queue is well formed with entries
`s` and whose arena has room for the `k` pending messages `ms`,
`receiveProcesses` has a result in which: processCount has grown by `k`; every
PCB that existed is unchanged; slot `processCount + j` holds the PCB of the
`j`-th message, with id, arrivalTime, runtime and priority copied from it,
remainingTime = runtime, waitingTime = 0, state READY and started = false
(and executionTime 0, pid, startTime and lastStopTime -1); the ready queue is
well formed with entries `s` followed by the new slots in receipt order;
totalRuntime has grown by the runtimes of the messages and every other
variable is unchanged.  With no pending message the whole state is
unchanged. -/
theorem receiveProcesses_spec (σ : Sched) (s : List Nat) (ms : List Msg)
    (hq : IsQueue σ.heap σ.readyQueue s)
    (hcap : σ.processCount + ms.length ≤ MAX_PROCESSES) :
    ∃ σ', receiveProcesses σ ms = some σ' ∧
      σ'.processCount = σ.processCount + ms.length ∧
      (∀ i, i < σ.processCount → σ'.pcb i = σ.pcb i) ∧
      (∀ j (hj : j < ms.length),
        (σ'.pcb (σ.processCount + j)).id = ms[j].id ∧
        (σ'.pcb (σ.processCount + j)).arrivalTime = ms[j].arrivalTime ∧
        (σ'.pcb (σ.processCount + j)).runtime = ms[j].runtime ∧
        (σ'.pcb (σ.processCount + j)).priority = ms[j].priority ∧
        (σ'.pcb (σ.processCount + j)).remainingTime = ms[j].runtime ∧
        (σ'.pcb (σ.processCount + j)).waitingTime = 0 ∧
        (σ'.pcb (σ.processCount + j)).state = ProcessState.READY ∧
        (σ'.pcb (σ.processCount + j)).started = false ∧
        (σ'.pcb (σ.processCount + j)).executionTime = 0 ∧
        (σ'.pcb (σ.processCount + j)).pid = -1 ∧
        (σ'.pcb (σ.processCount + j)).startTime = -1 ∧
        (σ'.pcb (σ.processCount + j)).lastStopTime = -1) ∧
      IsQueue σ'.heap σ'.readyQueue (s ++ List.range' σ.processCount ms.length) ∧
      σ'.totalRuntime = σ.totalRuntime + (ms.map Msg.runtime).sum ∧
      (σ'.algorithm = σ.algorithm ∧ σ'.quantum = σ.quantum ∧
        σ'.runningProcess = σ.runningProcess ∧ σ'.currentTime = σ.currentTime ∧
        σ'.totalWaitingTime = σ.totalWaitingTime ∧ σ'.totalWTA = σ.totalWTA ∧
        σ'.totalWTASquared = σ.totalWTASquared ∧ σ'.finishedCount = σ.finishedCount ∧
        σ'.quantumCounter = σ.quantumCounter ∧
        σ'.allProcessesArrived = σ.allProcessesArrived ∧ σ'.log = σ.log) ∧
      (ms = [] → σ' = σ) := by
  have hsim : Sim σ (σ.view s) := Sim.intro hq rfl
  obtain ⟨v', hv'⟩ := @vReceive_isSome (σ.view s) ms hcap
  obtain ⟨σ', hrecv, hs'⟩ := (sim_receive ms hsim).of_view_some hv'
  have heq := vReceive_eq hv'
  have hprocs : σ'.processes = σ.processes ++ ms.map newPCB := by
    rw [← hs'.processes, heq]
    rfl
  have hpcb : ∀ j (hj : j < ms.length), σ'.pcb (σ.processCount + j) = newPCB ms[j] := by
    intro j hj
    unfold Sched.pcb Sched.processCount
    rw [hprocs, pcbAt_append_right _ _ (by simpa using hj)]
    simp
  have hfield : ∀ {α : Type} (f : View → α), f v' = f (σ'.view v'.queue) := by
    intro α f
    rw [hs'.2]
  refine ⟨σ', hrecv, ?_, ?_, ?_, ?_, ?_, ?_, ?_⟩
  · unfold Sched.processCount
    rw [hprocs, List.length_append, List.length_map]
  · intro i hi
    unfold Sched.pcb
    rw [hprocs]
    exact pcbAt_append_lt _ hi
  · intro j hj
    rw [hpcb j hj]
    exact ⟨rfl, rfl, rfl, rfl, rfl, rfl, rfl, rfl, rfl, rfl, rfl, rfl⟩
  · have := hs'.1
    rw [heq] at this
    exact this
  · have := hfield View.totalRuntime
    rw [heq] at this
    exact this.symm
  · have e := heq ▸ hs'.2
    refine ⟨?_, ?_, ?_, ?_, ?_, ?_, ?_, ?_, ?_, ?_, ?_⟩
    · exact congrArg View.algorithm e
    · exact congrArg View.quantum e
    · exact congrArg View.runningProcess e
    · exact congrArg View.currentTime e
    · exact congrArg View.totalWaitingTime e
    · exact congrArg View.totalWTA e
    · exact congrArg View.totalWTASquared e
    · exact congrArg View.finishedCount e
    · exact congrArg View.quantumCounter e
    · exact congrArg View.allProcessesArrived e
    · exact congrArg View.log e
  · intro hms
    subst hms
    simp only [receiveProcesses, Option.some.injEq] at hrecv
    exact hrecv.symm

/-- Witness for C14: the three messages of the priority example ingested into
the initial state. -/
theorem receiveProcesses_spec_witness :
    ∃ σ', receiveProcesses (initSched 1 0) hpfExample = some σ' ∧
      σ'.processCount = 3 ∧ IsQueue σ'.heap σ'.readyQueue [0, 1, 2] ∧
      (σ'.pcb 1).id = 2 :=
  have h := receiveProcesses_spec (initSched 1 0) [] hpfExample (isQueue_init _) (by decide)
  ⟨h.choose, h.choose_spec.1, h.choose_spec.2.1,
    h.choose_spec.2.2.2.2.1, (h.choose_spec.2.2.2.1 1 (by decide)).1⟩

/-! ### Rounding to double -/

theorem log2Fuel_spec : ∀ (fuel n : Nat), 0 < n → n ≤ fuel →
    2 ^ log2Fuel fuel n ≤ n ∧ n < 2 ^ (log2Fuel fuel n + 1) := by
  intro fuel
  induction fuel with
  | zero =>
    intro n h0 h1
    omega
  | succ f ih =>
    intro n h0 h1
    unfold log2Fuel
    by_cases h2 : n < 2
    · rw [if_pos h2]
      simp only [pow_zero, zero_add, pow_one]
      omega
    · rw [if_neg h2]
      obtain ⟨ha, hb⟩ := ih (n / 2) (by omega) (by omega)
      generalize log2Fuel f (n / 2) = k at ha hb
      have e1 : 2 ^ (k + 1) = 2 * 2 ^ k := by ring
      have e2 : 2 ^ (k + 1 + 1) = 4 * 2 ^ k := by ring
      rw [e1] at hb ⊢
      rw [e2]
      generalize 2 ^ k = x at ha hb
      omega

theorem log2_spec {n : Nat} (h : 0 < n) : 2 ^ log2 n ≤ n ∧ n < 2 ^ (log2 n + 1) :=
  log2Fuel_spec n n h (Nat.le_refl n)

/-- The scaled quotient `a / b` that `roundPos` rounds is at least `2 ^ 52`. -/
theorem roundPos_scale {p q : Nat} (hp : 0 < p) (hq : 0 < q) :
    2 ^ 52 * (q * 2 ^ log2 p) ≤
      p * 2 ^ (log2 q + 52 + (if q * 2 ^ log2 p ≤ p * 2 ^ log2 q then 0 else 1)) := by
  obtain ⟨hp1, _⟩ := log2_spec hp
  obtain ⟨_, hq2⟩ := log2_spec hq
  split
  · rename_i h
    calc 2 ^ 52 * (q * 2 ^ log2 p) ≤ 2 ^ 52 * (p * 2 ^ log2 q) := Nat.mul_le_mul_left _ h
      _ = p * 2 ^ (log2 q + 52 + 0) := by ring
  · calc 2 ^ 52 * (q * 2 ^ log2 p) ≤ 2 ^ 52 * (2 ^ (log2 q + 1) * 2 ^ log2 p) :=
        Nat.mul_le_mul_left _ (Nat.mul_le_mul_right _ (Nat.le_of_lt hq2))
      _ ≤ 2 ^ 52 * (2 ^ (log2 q + 1) * p) :=
        Nat.mul_le_mul_left _ (Nat.mul_le_mul_left _ hp1)
      _ = p * 2 ^ (log2 q + 52 + 1) := by ring

/-- Rounding a scaled quotient to the nearest integer, ties to even, as in
`roundPos`: the result is within one half of the quotient. -/
theorem nearest_spec (a b : Nat) (hb : 0 < b) :
    ∃ m : Nat, (if 2 * (a % b) < b then a / b
      else if b < 2 * (a % b) then a / b + 1
      else if a / b % 2 = 0 then a / b else a / b + 1) = m ∧
      a / b ≤ m ∧ 2 * (m * b) ≤ 2 * a + b ∧ 2 * a ≤ 2 * (m * b) + b := by
  have hdm := Nat.div_add_mod a b
  have hlt := Nat.mod_lt a hb
  have e1 : (a / b + 1) * b = b * (a / b) + b := by ring
  have e2 : a / b * b = b * (a / b) := by ring
  refine ⟨_, rfl, ?_, ?_, ?_⟩
  · split
    · exact Nat.le_refl _
    · split
      · omega
      · split <;> omega
  · split
    · rw [e2]
      omega
    · split
      · rw [e1]
        omega
      · split
        · rw [e2]
          omega
        · rw [e1]
          omega
  · split
    · rw [e2]
      omega
    · split
      · rw [e1]
        omega
      · split
        · rw [e2]
          omega
        · rw [e1]
          omega

/-- Shape of the result of `roundPos`: a significand `m` that is within one
half of the scaled quotient `a / b ≥ 2 ^ 52`, scaled back. -/
theorem roundPos_eq {p q : Nat} (hp : 0 < p) (hq : 0 < q) :
    ∃ m L S : Nat, roundPos p q = ((m * L : Nat) : Rat) / (S : Rat) ∧ 0 < L ∧ 0 < S ∧
      0 < m ∧ 2 ^ 52 * (q * L) ≤ p * S ∧
      2 * (m * (q * L)) ≤ 2 * (p * S) + q * L ∧ 2 * (p * S) ≤ 2 * (m * (q * L)) + q * L := by
  have hs := roundPos_scale hp hq
  unfold roundPos
  simp only
  generalize (if q * 2 ^ log2 p ≤ p * 2 ^ log2 q then 0 else 1) = c at hs ⊢
  have hb : 0 < q * 2 ^ log2 p := Nat.mul_pos hq (Nat.two_pow_pos _)
  obtain ⟨m, hm, hle, h1, h2⟩ := nearest_spec (p * 2 ^ (log2 q + 52 + c)) (q * 2 ^ log2 p) hb
  rw [hm]
  have hn : 1 ≤ p * 2 ^ (log2 q + 52 + c) / (q * 2 ^ log2 p) := by
    apply (Nat.one_le_div_iff hb).2
    calc q * 2 ^ log2 p ≤ 2 ^ 52 * (q * 2 ^ log2 p) := Nat.le_mul_of_pos_left _ (by decide)
      _ ≤ _ := hs
  refine ⟨m, 2 ^ log2 p, 2 ^ (log2 q + 52 + c), ?_, Nat.two_pow_pos _, Nat.two_pow_pos _,
    by omega, hs, h1, h2⟩
  rw [Rat.mkRat_eq_div]
  push_cast
  rfl

theorem roundPos_pos {p q : Nat} (hp : 0 < p) (hq : 0 < q) : 0 < roundPos p q := by
  obtain ⟨m, L, S, h, hL, hS, hm, _⟩ := roundPos_eq hp hq
  rw [h]
  apply div_pos
  · have : 0 < m * L := Nat.mul_pos hm hL
    exact_mod_cast this
  · exact_mod_cast hS

/-- The result of `roundPos` is within a relative error of `2 ^ -53` of the
quotient it rounds. -/
theorem roundPos_error {p q : Nat} (hp : 0 < p) (hq : 0 < q) :
    |roundPos p q - (p : Rat) / (q : Rat)| ≤ (p : Rat) / (q : Rat) / 2 ^ 53 := by
  obtain ⟨m, L, S, h, hL, hS, hm, hs, h1, h2⟩ := roundPos_eq hp hq
  rw [h]
  have hq' : (0 : Rat) < q := by exact_mod_cast hq
  have hS' : (0 : Rat) < S := by exact_mod_cast hS
  have hs' : (2 : Rat) ^ 52 * (q * L) ≤ p * S := by exact_mod_cast hs
  have h1' : (2 : Rat) * (m * (q * L)) ≤ 2 * (p * S) + q * L := by exact_mod_cast h1
  have h2' : (2 : Rat) * (p * S) ≤ 2 * (m * (q * L)) + q * L := by exact_mod_cast h2
  have e1 : ((m * L : Nat) : Rat) / (S : Rat) - (p : Rat) / (q : Rat) =
      ((m : Rat) * (q * L) - p * S) / (S * q) := by
    push_cast
    field_simp
    ring
  have e2 : (p : Rat) / (q : Rat) / 2 ^ 53 = ((p : Rat) * S / 2 ^ 53) / (S * q) := by
    field_simp
    ring
  rw [e1, e2, abs_div, abs_of_pos (mul_pos hS' hq')]
  apply div_le_div_of_nonneg_right _ (le_of_lt (mul_pos hS' hq'))
  rw [abs_le]
  have e3 : (p : Rat) * S / 2 ^ 53 = (p * S) / 2 ^ 52 / 2 := by
    field_simp
    ring
  have hq2 : (q : Rat) * L ≤ p * S / 2 ^ 52 := by
    rw [le_div_iff₀ (by positivity)]
    linarith
  rw [e3]
  constructor <;> linarith

/-- The scaled quotient `a / b` that `roundPos` rounds is below `2 ^ 53`. -/
theorem roundPos_scale_lt {p q : Nat} (hp : 0 < p) (hq : 0 < q) :
    p * 2 ^ (log2 q + 52 + (if q * 2 ^ log2 p ≤ p * 2 ^ log2 q then 0 else 1)) <
      2 ^ 53 * (q * 2 ^ log2 p) := by
  obtain ⟨_, hp2⟩ := log2_spec hp
  obtain ⟨hq1, _⟩ := log2_spec hq
  split
  · calc p * 2 ^ (log2 q + 52 + 0) = p * (2 ^ log2 q * 2 ^ 52) := by ring
      _ < 2 ^ (log2 p + 1) * (2 ^ log2 q * 2 ^ 52) :=
        Nat.mul_lt_mul_of_pos_right hp2 (Nat.mul_pos (Nat.two_pow_pos _) (by decide))
      _ ≤ 2 ^ (log2 p + 1) * (q * 2 ^ 52) :=
        Nat.mul_le_mul_left _ (Nat.mul_le_mul_right _ hq1)
      _ = 2 ^ 53 * (q * 2 ^ log2 p) := by ring
  · rename_i h
    have h' : p * 2 ^ log2 q < q * 2 ^ log2 p := Nat.lt_of_not_le h
    calc p * 2 ^ (log2 q + 52 + 1) = 2 ^ 53 * (p * 2 ^ log2 q) := by ring
      _ < 2 ^ 53 * (q * 2 ^ log2 p) := Nat.mul_lt_mul_of_pos_left h' (by decide)

/-- The result of `roundPos` is a number with a significand of 53 bits: an
integer `m` with `2 ^ 52 ≤ m ≤ 2 ^ 53`, times a power of 2. -/
theorem roundPos_significand {p q : Nat} (hp : 0 < p) (hq : 0 < q) :
    ∃ m k j : Nat, roundPos p q = ((m * 2 ^ k : Nat) : Rat) / ((2 ^ j : Nat) : Rat) ∧
      2 ^ 52 ≤ m ∧ m ≤ 2 ^ 53 := by
  have hs := roundPos_scale hp hq
  have hu := roundPos_scale_lt hp hq
  unfold roundPos
  simp only
  generalize (if q * 2 ^ log2 p ≤ p * 2 ^ log2 q then 0 else 1) = c at hs hu ⊢
  have hb : 0 < q * 2 ^ log2 p := Nat.mul_pos hq (Nat.two_pow_pos _)
  have hn1 : 2 ^ 52 ≤ p * 2 ^ (log2 q + 52 + c) / (q * 2 ^ log2 p) :=
    (Nat.le_div_iff_mul_le hb).2 hs
  have hn2 : p * 2 ^ (log2 q + 52 + c) / (q * 2 ^ log2 p) < 2 ^ 53 :=
    (Nat.div_lt_iff_lt_mul hb).2 hu
  generalize p * 2 ^ (log2 q + 52 + c) = a at hn1 hn2 ⊢
  generalize q * 2 ^ log2 p = b at hn1 hn2 ⊢
  obtain ⟨m, hm, hle, h1, h2⟩ := nearest_spec a b (by
    by_contra hc
    have : b = 0 := by omega
    rw [this, Nat.div_zero] at hn1
    exact absurd hn1 (by decide))
  rw [hm]
  have hm2 : m ≤ a / b + 1 := by
    rw [← hm]
    split
    · omega
    · split
      · omega
      · split <;> omega
  refine ⟨m, log2 p, log2 q + 52 + c, ?_, by omega, by omega⟩
  rw [Rat.mkRat_eq_div]
  push_cast
  rfl

theorem cast_natAbs_of_nonneg {i : Int} (h : 0 ≤ i) : ((i.natAbs : Nat) : Rat) = (i : Rat) := by
  rw [Nat.cast_natAbs, abs_of_nonneg h]

theorem cast_natAbs_of_neg {i : Int} (h : i < 0) : ((i.natAbs : Nat) : Rat) = -(i : Rat) := by
  rw [Nat.cast_natAbs, abs_of_neg h]
  push_cast
  rfl

/-- A positive integer below `2 ^ 53` is its own rounding. -/
theorem roundPos_nat {k : Nat} (hk : 0 < k) (hlt : k < 2 ^ 53) : roundPos k 1 = (k : Rat) := by
  obtain ⟨h1, _⟩ := log2_spec hk
  have hl : log2 k ≤ 52 := by
    by_contra hc
    have : 2 ^ 53 ≤ 2 ^ log2 k := Nat.pow_le_pow_right (by decide) (by omega)
    omega
  have h0 : log2 1 = 0 := rfl
  unfold roundPos
  simp only [h0, pow_zero, mul_one, one_mul, zero_add]
  rw [if_pos h1]
  have ea : k * 2 ^ (52 + 0) = k * 2 ^ (52 - log2 k) * 2 ^ log2 k := by
    rw [Nat.mul_assoc, ← Nat.pow_add]
    congr 2
    omega
  have hb : 0 < 2 ^ log2 k := Nat.two_pow_pos _
  rw [ea, Nat.mul_mod_left, Nat.mul_div_cancel _ hb]
  rw [if_pos (by omega), ← ea, Rat.mkRat_eq_div]
  push_cast
  field_simp

theorem round_eq (s : Bool) (x : Rat) :
    ∃ m, Dbl.round s x = Dbl.fin s m ∧ 0 ≤ m ∧ (m = 0 ↔ x = 0) := by
  unfold Dbl.round
  by_cases h0 : x.num = 0
  · rw [if_pos h0]
    exact ⟨0, rfl, le_refl _, by simp [Rat.zero_iff_num_zero.2 h0]⟩
  · rw [if_neg h0]
    have hpos : 0 < roundPos x.num.natAbs x.den :=
      roundPos_pos (Int.natAbs_pos.2 h0) x.den_pos
    refine ⟨_, rfl, le_of_lt hpos, ?_⟩
    constructor
    · intro h
      rw [h] at hpos
      exact absurd hpos (lt_irrefl _)
    · intro h
      exact absurd (Rat.zero_iff_num_zero.1 h) h0

/-- Rounding a magnitude `x ≥ 0`: the result is within a relative error of
`2 ^ -53` of `x`. -/
theorem round_error (s : Bool) {x : Rat} (hx : 0 ≤ x) :
    ∃ m, Dbl.round s x = Dbl.fin s m ∧ 0 ≤ m ∧ (m = 0 ↔ x = 0) ∧ |m - x| ≤ x / 2 ^ 53 := by
  obtain ⟨m, h1, h2, h3⟩ := round_eq s x
  refine ⟨m, h1, h2, h3, ?_⟩
  have hm : m = if x.num = 0 then 0 else roundPos x.num.natAbs x.den := by
    unfold Dbl.round at h1
    simp only [Dbl.fin.injEq, true_and] at h1
    exact h1.symm
  by_cases h0 : x.num = 0
  · have hx0 : x = 0 := Rat.zero_iff_num_zero.2 h0
    rw [h3.2 hx0, hx0]
    simp
  · rw [if_neg h0] at hm
    have hnum : 0 < x.num := by
      have := Rat.num_nonneg.2 hx
      omega
    have e : ((x.num.natAbs : Nat) : Rat) / ((x.den : Nat) : Rat) = x := by
      rw [cast_natAbs_of_nonneg (le_of_lt hnum)]
      exact Rat.num_div_den x
    have := roundPos_error (Int.natAbs_pos.2 h0) x.den_pos
    rw [e] at this
    rw [hm]
    exact this

theorem ofInt_eq (i : Int) :
    ∃ m, Dbl.ofInt i = Dbl.fin (decide (i < 0)) m ∧ 0 ≤ m ∧ (m = 0 ↔ i = 0) := by
  obtain ⟨m, h1, h2, h3⟩ := round_eq (decide (i < 0)) (i.natAbs : Rat)
  refine ⟨m, h1, h2, h3.trans ?_⟩
  constructor
  · intro h
    have : i.natAbs = 0 := by exact_mod_cast h
    exact Int.natAbs_eq_zero.1 this
  · intro h
    rw [h]
    rfl

/-- The conversion of an integer of magnitude below `2 ^ 53` (every `int`) is
exact. -/
theorem ofInt_exact {i : Int} (h : i.natAbs < 2 ^ 53) :
    Dbl.ofInt i = Dbl.fin (decide (i < 0)) (i.natAbs : Rat) := by
  unfold Dbl.ofInt Dbl.round
  by_cases h0 : i.natAbs = 0
  · rw [h0]
    rfl
  · have hn : ((i.natAbs : Nat) : Rat).num ≠ 0 := by
      rw [Rat.num_natCast]
      exact_mod_cast h0
    rw [if_neg hn, Rat.num_natCast, Rat.den_natCast, Int.natAbs_ofNat,
      roundPos_nat (Nat.pos_of_ne_zero h0) h]

theorem dbl_zero : (0 : Dbl) = Dbl.fin false 0 := by decide!

theorem dbl_one : (1 : Dbl) = Dbl.fin false 1 := by decide!

theorem dbl_hundred : (100 : Dbl) = Dbl.fin false 100 := by decide!

theorem round_one : Dbl.round false 1 = 1 := by decide!

/-- A quotient of an integer by itself is exactly 1. -/
theorem div_self_eq_one {i : Int} (h : i ≠ 0) : (i : Dbl) / (i : Dbl) = 1 := by
  obtain ⟨m, hm, _, hz⟩ := ofInt_eq i
  have hne : m ≠ 0 := fun hc => h (hz.1 hc)
  show Dbl.div (Dbl.ofInt i) (Dbl.ofInt i) = 1
  rw [hm]
  simp only [Dbl.div, if_neg hne, div_self hne, bne_self_eq_false]
  exact round_one

/-- The quotient `wtaOf` of a PCB with runtime > 0 is a finite double, and for
operands of magnitude below `2 ^ 53` it is within a relative error of
`2 ^ -53` of the rational quotient. -/
theorem wtaOf_finite (p : PCB) (T : Int) (hr : 0 < p.runtime) :
    ∃ w : Rat, (wtaOf p T).toRat = some w ∧ (w = 0 ↔ T = p.arrivalTime) ∧
      ((T - p.arrivalTime).natAbs < 2 ^ 53 → p.runtime < 2 ^ 53 →
        |w - ((T - p.arrivalTime : Int) : Rat) / (p.runtime : Rat)| ≤
          |((T - p.arrivalTime : Int) : Rat) / (p.runtime : Rat)| / 2 ^ 53) := by
  obtain ⟨a, ha, ha0, haz⟩ := ofInt_eq (T - p.arrivalTime)
  obtain ⟨b, hb, hb0, hbz⟩ := ofInt_eq p.runtime
  have hbne : b ≠ 0 := fun h => by
    have := hbz.1 h
    omega
  have hsb : decide (p.runtime < 0) = false := by
    simp only [decide_eq_false_iff_not]
    omega
  obtain ⟨m, hm, hm0, hmz, _⟩ := round_error (decide (T - p.arrivalTime < 0) != false)
    (div_nonneg ha0 hb0)
  have hw : wtaOf p T = Dbl.fin (decide (T - p.arrivalTime < 0) != false) m := by
    show Dbl.div (Dbl.ofInt (T - p.arrivalTime)) (Dbl.ofInt p.runtime) = _
    rw [ha, hb, hsb]
    simp only [Dbl.div, if_neg hbne, hm]
  have hrt : (0 : Rat) < (p.runtime : Rat) := by exact_mod_cast hr
  refine ⟨if (decide (T - p.arrivalTime < 0) != false) then -m else m, ?_, ?_, ?_⟩
  · rw [hw]
    rfl
  · have h1 : (if (decide (T - p.arrivalTime < 0) != false) = true then -m else m) = 0 ↔
        m = 0 := by
      split
      · exact neg_eq_zero
      · exact Iff.rfl
    rw [h1, hmz, div_eq_zero_iff]
    constructor
    · intro h
      have := haz.1 (h.resolve_right hbne)
      omega
    · intro h
      left
      apply haz.2
      omega
  · intro hta hrlt
    have hra : p.runtime.natAbs < 2 ^ 53 := by omega
    have ea := ofInt_exact hta
    have eb := ofInt_exact hra
    rw [ha] at ea
    rw [hb] at eb
    simp only [Dbl.fin.injEq, true_and] at ea eb
    have eb' : b = (p.runtime : Rat) := by
      rw [eb]
      exact cast_natAbs_of_nonneg (by omega)
    obtain ⟨m', hm', _, _, herr⟩ := round_error (decide (T - p.arrivalTime < 0) != false)
      (div_nonneg ha0 hb0)
    rw [hm] at hm'
    simp only [Dbl.fin.injEq, true_and] at hm'
    rw [← hm'] at herr
    by_cases hneg : T - p.arrivalTime < 0
    · have ea' : a = -((T - p.arrivalTime : Int) : Rat) := by
        rw [ea]
        exact cast_natAbs_of_neg hneg
      have hs : (decide (T - p.arrivalTime < 0) != false) = true := by simp [hneg]
      rw [if_pos hs]
      have hx : ((T - p.arrivalTime : Int) : Rat) / (p.runtime : Rat) = -(a / b) := by
        rw [ea', eb']
        ring
      rw [hx, abs_neg, abs_of_nonneg (div_nonneg ha0 hb0)]
      have : -m - -(a / b) = -(m - a / b) := by ring
      rw [this, abs_neg]
      exact herr
    · have ea' : a = ((T - p.arrivalTime : Int) : Rat) := by
        rw [ea]
        exact cast_natAbs_of_nonneg (by omega)
      have hs : ¬ (decide (T - p.arrivalTime < 0) != false) = true := by simp [hneg]
      rw [if_neg hs]
      have hx : ((T - p.arrivalTime : Int) : Rat) / (p.runtime : Rat) = a / b := by
        rw [ea', eb']
      rw [hx, abs_of_nonneg (div_nonneg ha0 hb0)]
      exact herr

/-- With runtime 0 the quotient `wtaOf` is NaN for turnaround 0 and an
infinity with the sign of the turnaround otherwise. -/
theorem wtaOf_runtime_zero (p : PCB) (T : Int) (hr : p.runtime = 0) :
    wtaOf p T = if T = p.arrivalTime then Dbl.nan
      else Dbl.inf (decide (T - p.arrivalTime < 0)) := by
  obtain ⟨a, ha, _, haz⟩ := ofInt_eq (T - p.arrivalTime)
  show Dbl.div (Dbl.ofInt (T - p.arrivalTime)) (Dbl.ofInt p.runtime) = _
  rw [ha, hr]
  have h0 : Dbl.ofInt 0 = Dbl.fin false 0 := by decide!
  rw [h0]
  simp only [Dbl.div, if_true]
  by_cases h : T = p.arrivalTime
  · rw [if_pos h, if_pos (haz.2 (by omega))]
  · rw [if_neg h, if_neg (fun hc => h (by have := haz.1 hc; omega))]
    simp

/-! ### C12 -/

theorem finishProcess_eq {σ : Sched} {pcb : Nat} (now nowLog : Int)
    (hp : pcb < σ.processes.length) :
    finishProcess σ pcb now nowLog = some { σ with
      currentTime := nowLog
      processes := σ.processes.set pcb (finishedPCB (σ.pcb pcb) now)
      totalWaitingTime := σ.totalWaitingTime + (σ.pcb pcb).waitingTime
      totalWTA := σ.totalWTA + wtaOf (σ.pcb pcb) now
      totalWTASquared := σ.totalWTASquared + wtaOf (σ.pcb pcb) now * wtaOf (σ.pcb pcb) now
      finishedCount := σ.finishedCount + 1
      log := σ.log ++ [logRecord nowLog LogEvent.finished (finishedPCB (σ.pcb pcb) now)] } := by
  unfold finishProcess
  simp only [getElem?_pcbAt hp]
  rw [writeLog_eq _ _ (by simpa using hp)]
  simp only [pcbAt_set_eq _ hp]
  rfl

/-- C12 as stated fails: `totalWTA` and `totalWTASquared` are `double`
variables and `finishProcess` advances them in double arithmetic, not by
exact rationals.  In the run of two processes with runtimes 7 and 10 arriving
at tick 0 (priority policy, one iteration per tick), the second process is
finished at tick 17 with turnaround 17 and runtime 10: its finish line carries
the double nearest to 17/10, which is not 17/10, and `finishProcess` takes
totalWTA from 1 to a double that is not 1 + 17/10 and totalWTASquared from 1
to a double that is not 1 + (17/10)².  After three finish events with
turnaround 17 and runtime 10, totalWTA is not 3 · 17/10, totalWTASquared is
not 3 · (17/10)², and the variance computed from them is negative
(-2⁻⁵¹), where exact rationals would give 0. -/
theorem finishProcess_exact_counterexample :
    (∃ σ σe, run (initSched 1 0) contendedExample.dropLast = some σ ∧
      step σ (tickAt 17 [] false) = some σe ∧
      run (initSched 1 0) contendedExample = some σe ∧ loopCond σe = false ∧
      σ.runningProcess = some 1 ∧ (σ.pcb 1).arrivalTime = 0 ∧ (σ.pcb 1).runtime = 10 ∧
      (σ.pcb 1).waitingTime = 7 ∧
      σ.totalWTA = 1 ∧ σ.totalWTASquared = 1 ∧
      (σe.pcb 1).state = ProcessState.FINISHED ∧ (σe.pcb 1).finishTime = 17 ∧
      σe.log.getLast? = some ⟨17, 2, LogEvent.finished, 0, 10, 0, 7,
        some (17, Dbl.fin false (7656119366529843 / 4503599627370496))⟩ ∧
      σe.totalWTA = Dbl.fin false (3039929748475085 / 1125899906842624) ∧
      σe.totalWTA.toRat ≠ some (1 + 17 / 10) ∧
      σe.totalWTASquared = Dbl.fin false (4379750637617807 / 1125899906842624) ∧
      σe.totalWTASquared.toRat ≠ some (1 + 17 / 10 * (17 / 10)) ∧
      ∃ σ', finishProcess σ 1 17 17 = some σ' ∧ σ'.totalWTA = σe.totalWTA ∧
        σ'.totalWTASquared = σe.totalWTASquared) ∧
    (∃ σ, equalRatios = some σ ∧ σ.finishedCount = 3 ∧
      σ.totalWTA = Dbl.fin false (2871044762448691 / 562949953421312) ∧
      σ.totalWTA.toRat ≠ some (3 * (17 / 10)) ∧
      σ.totalWTASquared = Dbl.fin false (2440388048081387 / 281474976710656) ∧
      σ.totalWTASquared.toRat ≠ some (3 * (17 / 10 * (17 / 10))) ∧
      variance σ = Dbl.fin true (1 / 2251799813685248)) := by
  constructor
  · refine ⟨(run (initSched 1 0) contendedExample.dropLast).getD (initSched 1 0),
      (run (initSched 1 0) contendedExample).getD (initSched 1 0),
      by decide!, by decide!, by decide!, by decide!, ?_⟩
    refine ⟨by decide!, by decide!, by decide!, by decide!, ?_⟩
    refine ⟨by decide!, by decide!, ?_⟩
    refine ⟨by decide!, by decide!, by decide!, ?_⟩
    refine ⟨by decide!, by decide!, by decide!, by decide!, ?_⟩
    exact ⟨(finishProcess ((run (initSched 1 0) contendedExample.dropLast).getD
      (initSched 1 0)) 1 17 17).getD (initSched 1 0), by decide!, by decide!, by decide!⟩
  · exact ⟨equalRatios.getD (initSched 1 0), by decide!, by decide!, by decide!, by decide!,
      by decide!, by decide!, by decide!⟩

/-- C12, amended.  (1) `finishProcess` applied at clock value `T` to a created
PCB has a result in which that PCB has state FINISHED and finishTime `T` and
is otherwise as before, every other PCB is unchanged, totalWaitingTime has
grown by the PCB's waitingTime and finishedCount by 1, and the two `double`
accumulators have been advanced in double arithmetic: totalWTA is
`totalWTA + wta` and totalWTASquared is `totalWTASquared + wta * wta`, each
operation rounded to the nearest double.  (2) `wta` is the double quotient
`(double)(T − arrivalTime) / runtime`; for runtime > 0 it is a finite double,
0 only for turnaround 0, within a relative error of 2⁻⁵³ of the rational
(T − arrivalTime) / runtime when both operands are below 2⁵³ in magnitude (as
every `int` is), and exactly 1 when T − arrivalTime = runtime.  (3) When
finishedCount > 0 the variance handed to `sqrt` is
`totalWTASquared / finishedCount − avgWTA * avgWTA` in double arithmetic.
(4) In the run of a single process with arrival 0 and runtime 5 that is
finished at tick 5, its waitingTime is 0, its finish line carries turnaround 5
and weighted turnaround 1, and the summary has CPU utilization 100, average
weighted turnaround 1, average waiting time 0, variance 0 and standard
deviation `sqrt 0`, which is 0 for a `sqrt` with `sqrt 0 = 0`.  (5) In the run
of two processes of runtime 2 finished at ticks 2 and 4 the ratios are 1 and
2, the average is 3/2 and the variance is 1/4. -/
theorem finishProcess_spec (sqrt : Dbl → Dbl) :
    (∀ (σ : Sched) (pcb : Nat) (T nowLog : Int), pcb < σ.processCount →
      ∃ σ', finishProcess σ pcb T nowLog = some σ' ∧
        (σ'.pcb pcb).state = ProcessState.FINISHED ∧ (σ'.pcb pcb).finishTime = T ∧
        σ'.pcb pcb = { σ.pcb pcb with state := ProcessState.FINISHED, finishTime := T } ∧
        (∀ i, i ≠ pcb → σ'.pcb i = σ.pcb i) ∧ σ'.processCount = σ.processCount ∧
        σ'.totalWaitingTime = σ.totalWaitingTime + (σ.pcb pcb).waitingTime ∧
        σ'.finishedCount = σ.finishedCount + 1 ∧
        σ'.totalWTA = σ.totalWTA + wtaOf (σ.pcb pcb) T ∧
        σ'.totalWTASquared =
          σ.totalWTASquared + wtaOf (σ.pcb pcb) T * wtaOf (σ.pcb pcb) T) ∧
    (∀ (p : PCB) (T : Int),
      wtaOf p T = ((T - p.arrivalTime : Int) : Dbl) / (p.runtime : Dbl) ∧
      (0 < p.runtime →
        (∃ w : Rat, (wtaOf p T).toRat = some w ∧ (w = 0 ↔ T = p.arrivalTime) ∧
          ((T - p.arrivalTime).natAbs < 2 ^ 53 → p.runtime < 2 ^ 53 →
            |w - ((T - p.arrivalTime : Int) : Rat) / (p.runtime : Rat)| ≤
              |((T - p.arrivalTime : Int) : Rat) / (p.runtime : Rat)| / 2 ^ 53)) ∧
        (T - p.arrivalTime = p.runtime → wtaOf p T = 1))) ∧
    (∀ σ : Sched, 0 < σ.finishedCount →
      variance σ = σ.totalWTASquared / (σ.finishedCount : Dbl) - avgWTA σ * avgWTA σ ∧
      writePerformanceMetrics sqrt true σ =
        some ⟨cpuUtilization σ, avgWTA σ, avgWaiting σ, sqrt (variance σ)⟩) ∧
    (∃ σ, run (initSched 1 0) singleExample = some σ ∧ loopCond σ = false ∧
      (σ.pcb 0).state = ProcessState.FINISHED ∧ (σ.pcb 0).finishTime = 5 ∧
      (σ.pcb 0).waitingTime = 0 ∧ σ.log.getLast? = some ⟨5, 1, LogEvent.finished, 0, 5, 0, 0,
        some (5, 1)⟩ ∧
      σ.totalWTA = 1 ∧ σ.totalWTASquared = 1 ∧ σ.finishedCount = 1 ∧
      variance σ = 0 ∧
      writePerformanceMetrics sqrt true σ = some ⟨100, 1, 0, sqrt 0⟩ ∧
      (sqrt 0 = 0 → writePerformanceMetrics sqrt true σ = some ⟨100, 1, 0, 0⟩)) ∧
    (∃ σ, run (initSched 1 0) twoExample = some σ ∧ loopCond σ = false ∧
      σ.totalWTA = 3 ∧ σ.totalWTASquared = 5 ∧ σ.finishedCount = 2 ∧
      avgWTA σ = Dbl.fin false (3 / 2) ∧ variance σ = Dbl.fin false (1 / 4) ∧
      writePerformanceMetrics sqrt true σ =
        some ⟨100, Dbl.fin false (3 / 2), 1, sqrt (Dbl.fin false (1 / 4))⟩) := by
  refine ⟨?_, ?_, ?_, ?_, ?_⟩
  · intro σ pcb T nowLog hp
    refine ⟨_, finishProcess_eq T nowLog hp, ?_, ?_, ?_, ?_, ?_, rfl, rfl, rfl, rfl⟩
    · show (pcbAt (σ.processes.set pcb _) pcb).state = _
      rw [pcbAt_set_eq _ hp]
      rfl
    · show (pcbAt (σ.processes.set pcb _) pcb).finishTime = _
      rw [pcbAt_set_eq _ hp]
      rfl
    · show pcbAt (σ.processes.set pcb _) pcb = _
      rw [pcbAt_set_eq _ hp]
      rfl
    · intro i hi
      show pcbAt (σ.processes.set pcb _) i = _
      rw [pcbAt_set_ne _ (Ne.symm hi)]
      rfl
    · show (σ.processes.set pcb _).length = _
      rw [List.length_set]
      rfl
  · intro p T
    refine ⟨rfl, fun hr => ⟨wtaOf_finite p T hr, fun h => ?_⟩⟩
    show ((T - p.arrivalTime : Int) : Dbl) / (p.runtime : Dbl) = 1
    rw [h]
    exact div_self_eq_one (by omega)
  · intro σ hpos
    have h1 : variance σ =
        σ.totalWTASquared / (σ.finishedCount : Dbl) - avgWTA σ * avgWTA σ := by
      unfold variance
      rw [if_pos hpos]
    exact ⟨h1, by simp only [writePerformanceMetrics, if_true]⟩
  · have hr : run (initSched 1 0) singleExample =
        some ((run (initSched 1 0) singleExample).getD (initSched 1 0)) := by decide!
    have hw : writePerformanceMetrics sqrt true
        ((run (initSched 1 0) singleExample).getD (initSched 1 0)) =
          some ⟨100, 1, 0, sqrt 0⟩ := by
      have h1 : cpuUtilization ((run (initSched 1 0) singleExample).getD (initSched 1 0)) =
          100 := by decide!
      have h2 : avgWTA ((run (initSched 1 0) singleExample).getD (initSched 1 0)) = 1 := by
        decide!
      have h3 : avgWaiting ((run (initSched 1 0) singleExample).getD (initSched 1 0)) = 0 := by
        decide!
      have h4 : variance ((run (initSched 1 0) singleExample).getD (initSched 1 0)) = 0 := by
        decide!
      simp only [writePerformanceMetrics, if_true, h1, h2, h3, h4]
    refine ⟨_, hr, by decide!, by decide!, by decide!, by decide!, by decide!, by decide!,
      by decide!, by decide!, by decide!, hw, ?_⟩
    intro h0
    rw [hw, h0]
  · have hr : run (initSched 1 0) twoExample =
        some ((run (initSched 1 0) twoExample).getD (initSched 1 0)) := by decide!
    have h1 : cpuUtilization ((run (initSched 1 0) twoExample).getD (initSched 1 0)) =
        100 := by decide!
    have h2 : avgWTA ((run (initSched 1 0) twoExample).getD (initSched 1 0)) =
        Dbl.fin false (3 / 2) := by decide!
    have h3 : avgWaiting ((run (initSched 1 0) twoExample).getD (initSched 1 0)) = 1 := by
      decide!
    have h4 : variance ((run (initSched 1 0) twoExample).getD (initSched 1 0)) =
        Dbl.fin false (1 / 4) := by decide!
    refine ⟨_, hr, by decide!, by decide!, by decide!, by decide!, h2, h4, ?_⟩
    simp only [writePerformanceMetrics, if_true, h1, h2, h3, h4]

/-- Witness for the amended C12: `finishProcess` at clock value 5 on the
running PCB of the single-process run just before its last iteration, whose
turnaround 5 equals its runtime, and the summary at the end of that run for a
`sqrt` with `sqrt 0 = 0`. -/
theorem finishProcess_spec_witness :
    ∃ σ σ' σe, run (initSched 1 0) (singleExample.take 6) = some σ ∧
      finishProcess σ 0 5 5 = some σ' ∧ (σ'.pcb 0).state = ProcessState.FINISHED ∧
      σ'.finishedCount = σ.finishedCount + 1 ∧
      σ'.totalWTA = σ.totalWTA + wtaOf (σ.pcb 0) 5 ∧ wtaOf (σ.pcb 0) 5 = 1 ∧
      (∃ w : Rat, (wtaOf (σ.pcb 0) 5).toRat = some w ∧
        |w - ((5 - (σ.pcb 0).arrivalTime : Int) : Rat) / ((σ.pcb 0).runtime : Rat)| ≤
          |((5 - (σ.pcb 0).arrivalTime : Int) : Rat) / ((σ.pcb 0).runtime : Rat)| / 2 ^ 53) ∧
      run (initSched 1 0) singleExample = some σe ∧
      variance σe = σe.totalWTASquared / (σe.finishedCount : Dbl) - avgWTA σe * avgWTA σe ∧
      writePerformanceMetrics sqrtQ true σe = some ⟨100, 1, 0, 0⟩ := by
  have hr : run (initSched 1 0) (singleExample.take 6) =
      some ((run (initSched 1 0) (singleExample.take 6)).getD (initSched 1 0)) := by decide
  obtain ⟨hgen, hwta, hvar, ⟨σe, hre, _, _, _, _, _, _, _, hcnt, _, _, hsq⟩, _⟩ :=
    finishProcess_spec sqrtQ
  obtain ⟨σ', hfin, hst, _, _, _, _, _, hcount, htw, _⟩ :=
    hgen _ 0 5 5 (by decide : 0 < Sched.processCount
      ((run (initSched 1 0) (singleExample.take 6)).getD (initSched 1 0)))
  obtain ⟨_, hw⟩ := hwta (Sched.pcb
    ((run (initSched 1 0) (singleExample.take 6)).getD (initSched 1 0)) 0) 5
  obtain ⟨⟨w, hw1, _, hw2⟩, hone⟩ := hw (by decide)
  refine ⟨_, σ', σe, hr, hfin, hst, hcount, htw, hone (by decide),
    ⟨w, hw1, hw2 (by decide) (by decide)⟩, hre, (hvar σe (by rw [hcnt]; decide)).1,
    hsq (by decide!)⟩

/-! ### Counting over the arena -/

theorem pcbAt_cons_zero (x : PCB) (xs : List PCB) : pcbAt (x :: xs) 0 = x := rfl

theorem map_congr_pcbAt {α : Type} (g : PCB → α) :
    ∀ {l l' : List PCB}, l'.length = l.length →
      (∀ i, i < l.length → g (pcbAt l' i) = g (pcbAt l i)) → l'.map g = l.map g
  | [], [], _, _ => rfl
  | [], _ :: _, hlen, _ => by simp at hlen
  | _ :: _, [], hlen, _ => by simp at hlen
  | x :: xs, y :: ys, hlen, h => by
    have h0 := h 0 (by simp)
    rw [pcbAt_cons_zero, pcbAt_cons_zero] at h0
    have ht : ys.map g = xs.map g :=
      map_congr_pcbAt g (by simpa using hlen) (fun i hi => by
        have := h (i + 1) (by simpa using hi)
        rwa [pcbAt_cons_succ, pcbAt_cons_succ] at this)
    rw [List.map_cons, List.map_cons, h0, ht]

theorem countP_congr_pcbAt (f : PCB → Bool) {l l' : List PCB} (hlen : l'.length = l.length)
    (h : ∀ i, i < l.length → f (pcbAt l' i) = f (pcbAt l i)) :
    l'.countP f = l.countP f := by
  have hm := map_congr_pcbAt f hlen h
  have e : ∀ l : List PCB, l.countP f = (l.map f).countP (fun b => b) := by
    intro l
    rw [List.countP_map]
    rfl
  rw [e l', e l, hm]

theorem countP_flip_pcbAt (f : PCB → Bool) :
    ∀ {l l' : List PCB} {k : Nat}, l'.length = l.length → k < l.length →
      (∀ i, i < l.length → i ≠ k → f (pcbAt l' i) = f (pcbAt l i)) →
      f (pcbAt l k) = false → f (pcbAt l' k) = true → l'.countP f = l.countP f + 1
  | [], _, _, _, hk, _, _, _ => by simp at hk
  | _ :: _, [], _, hlen, _, _, _, _ => by simp at hlen
  | x :: xs, y :: ys, 0, hlen, _, h, h0, h1 => by
    rw [pcbAt_cons_zero] at h0 h1
    have ht : ys.countP f = xs.countP f :=
      countP_congr_pcbAt f (by simpa using hlen) (fun i hi => by
        have := h (i + 1) (by simpa using hi) (by omega)
        rwa [pcbAt_cons_succ, pcbAt_cons_succ] at this)
    rw [List.countP_cons, List.countP_cons, h0, h1, ht]
    simp
  | x :: xs, y :: ys, k + 1, hlen, hk, h, h0, h1 => by
    rw [pcbAt_cons_succ] at h0 h1
    have hh := h 0 (by simp) (by omega)
    rw [pcbAt_cons_zero, pcbAt_cons_zero] at hh
    have ht : ys.countP f = xs.countP f + 1 :=
      countP_flip_pcbAt f (by simpa using hlen) (by simpa using hk) (fun i hi hne => by
        have := h (i + 1) (by simpa using hi) (by omega)
        rwa [pcbAt_cons_succ, pcbAt_cons_succ] at this) h0 h1
    rw [List.countP_cons, List.countP_cons, hh, ht]
    omega

theorem finishedWith_congr (P : Int → Bool) {l l' : List PCB} (hlen : l'.length = l.length)
    (h : ∀ i, i < l.length → (pcbAt l' i).state = (pcbAt l i).state ∧
      (pcbAt l' i).id = (pcbAt l i).id) :
    finishedWith P l' = finishedWith P l := by
  unfold finishedWith
  refine countP_congr_pcbAt _ hlen ?_
  intro i hi
  rw [(h i hi).1, (h i hi).2]

theorem finishedWith_same_state (P : Int → Bool) {l l' : List PCB}
    (hlen : l'.length = l.length)
    (h : ∀ i, i < l.length → (pcbAt l' i).state = (pcbAt l i).state ∧
      ((pcbAt l i).state = ProcessState.FINISHED → (pcbAt l' i).id = (pcbAt l i).id)) :
    finishedWith P l' = finishedWith P l := by
  unfold finishedWith
  refine countP_congr_pcbAt _ hlen ?_
  intro i hi
  rw [(h i hi).1]
  by_cases hf : (pcbAt l i).state = ProcessState.FINISHED
  · rw [(h i hi).2 hf]
  · simp [hf]

theorem runtime_sum_congr {l l' : List PCB} (hlen : l'.length = l.length)
    (h : ∀ i, i < l.length → (pcbAt l' i).runtime = (pcbAt l i).runtime) :
    (l'.map PCB.runtime).sum = (l.map PCB.runtime).sum := by
  rw [map_congr_pcbAt PCB.runtime hlen h]

theorem finishLinesWith_append (P : Int → Bool) (log : List LogRecord) (r : LogRecord) :
    finishLinesWith P (log ++ [r]) =
      finishLinesWith P log +
        (if r.event = LogEvent.finished ∧ P r.id = true then 1 else 0) := by
  unfold finishLinesWith
  rw [List.countP_append, List.countP_cons, List.countP_nil]
  by_cases h1 : r.event = LogEvent.finished <;> by_cases h2 : P r.id = true <;>
    simp [h1, h2]

theorem logRecord_event (now : Int) (e : LogEvent) (p : PCB) :
    (logRecord now e p).event = e := rfl

theorem logRecord_id (now : Int) (e : LogEvent) (p : PCB) : (logRecord now e p).id = p.id := rfl

/-! ### The accounting discipline is preserved -/

theorem finishedWith_new (P : Int → Bool) (ms : List Msg) :
    finishedWith P (ms.map newPCB) = 0 := by
  unfold finishedWith
  rw [List.countP_eq_zero]
  intro p hp
  obtain ⟨m, _, rfl⟩ := List.mem_map.1 hp
  simp [newPCB]

theorem vAcc_init (a q : Int) : VAcc (initView a q) where
  covered := by simp [initView, Sched.view, initSched]
  running_live := by simp [initView, Sched.view, initSched]
  count := by simp [initView, Sched.view, initSched, finishedWith]
  lines := by simp [initView, Sched.view, initSched, finishedWith, finishLinesWith]
  runtime := by simp [initView, Sched.view, initSched]

theorem vAcc_clock {v : View} (c : Int) (ha : VAcc v) : VAcc { v with currentTime := c } where
  covered := ha.covered
  running_live := ha.running_live
  count := ha.count
  lines := ha.lines
  runtime := ha.runtime

theorem vAcc_receive {v v' : View} {ms : List Msg} (hv : VInv v) (ha : VAcc v)
    (h : vReceive v ms = some v') : VAcc v' := by
  have heq := vReceive_eq h
  subst heq
  constructor
  · intro i hi
    dsimp only [View.pcb] at hi ⊢
    by_cases h1 : i < v.processes.length
    · rcases ha.covered i h1 with hq | hr | hf
      · exact Or.inl (List.mem_append_left _ hq)
      · exact Or.inr (Or.inl hr)
      · refine Or.inr (Or.inr ?_)
        rw [pcbAt_append_lt _ h1]
        exact hf
    · refine Or.inl (List.mem_append_right _ ?_)
      rw [List.mem_range'_1]
      rw [List.length_append, List.length_map] at hi
      omega
  · intro r hr
    dsimp only [View.pcb] at hr ⊢
    rw [pcbAt_append_lt _ (hv.running_lt r hr)]
    exact ha.running_live r hr
  · dsimp only
    rw [ha.count]
    unfold finishedWith
    rw [List.countP_append]
    have := finishedWith_new (fun _ => true) ms
    unfold finishedWith at this
    rw [this, Nat.add_zero]
  · intro P
    dsimp only
    rw [ha.lines P]
    unfold finishedWith
    rw [List.countP_append]
    have := finishedWith_new P ms
    unfold finishedWith at this
    rw [this, Nat.add_zero]
  · dsimp only
    rw [ha.runtime, List.map_append, List.sum_append, List.map_map]
    rfl

theorem finishedPCB_state (p : PCB) (now : Int) :
    (finishedPCB p now).state = ProcessState.FINISHED := rfl

theorem vFinishPhase_eq {v : View} {r : Nat} (inp : TickInput)
    (hr : v.runningProcess = some r) (hrem : (v.pcb r).remainingTime ≤ 0)
    (hlt : r < v.processes.length) :
    vFinishPhase v inp = { v with
      currentTime := inp.clkFinishLog
      processes := v.processes.set r (finishedPCB (v.pcb r) inp.clkFinish)
      totalWaitingTime := v.totalWaitingTime + (v.pcb r).waitingTime
      totalWTA := v.totalWTA + wtaOf (v.pcb r) inp.clkFinish
      totalWTASquared := v.totalWTASquared +
        wtaOf (v.pcb r) inp.clkFinish * wtaOf (v.pcb r) inp.clkFinish
      finishedCount := v.finishedCount + 1
      runningProcess := none
      log := v.log ++
        [logRecord inp.clkFinishLog LogEvent.finished (finishedPCB (v.pcb r) inp.clkFinish)] } := by
  unfold vFinishPhase
  simp only [hr, vFinishProcess, vWriteLog, View.pcb]
  rw [if_pos (by simpa [View.pcb] using hrem), pcbAt_set_eq _ hlt]

theorem vFinishPhase_keep {v : View} (inp : TickInput)
    (h : ∀ r, v.runningProcess = some r → 0 < (v.pcb r).remainingTime) :
    vFinishPhase v inp = v := by
  unfold vFinishPhase
  cases hr : v.runningProcess with
  | none => rfl
  | some r =>
    have := h r hr
    simp only
    rw [if_neg (by omega)]

theorem vAcc_finishPhase {v : View} (inp : TickInput) (hv : VInv v) (ha : VAcc v) :
    VAcc (vFinishPhase v inp) := by
  by_cases hk : ∀ r, v.runningProcess = some r → 0 < (v.pcb r).remainingTime
  · rw [vFinishPhase_keep inp hk]
    exact ha
  · push_neg at hk
    obtain ⟨r, hr, hrem⟩ := hk
    have hlt := hv.running_lt r hr
    have hlive := ha.running_live r hr
    rw [vFinishPhase_eq inp hr hrem hlt]
    have hlen : (v.processes.set r (finishedPCB (v.pcb r) inp.clkFinish)).length =
        v.processes.length := List.length_set _ _ _
    constructor
    · intro i hi
      dsimp only [View.pcb] at hi ⊢
      rw [List.length_set] at hi
      by_cases hir : i = r
      · subst hir
        refine Or.inr (Or.inr ?_)
        rw [pcbAt_set_eq _ hlt]
        rfl
      · rcases ha.covered i hi with hq | hr' | hf
        · exact Or.inl hq
        · rw [hr] at hr'
          exact absurd (Option.some.inj hr').symm hir
        · refine Or.inr (Or.inr ?_)
          rw [pcbAt_set_ne _ (Ne.symm hir)]
          exact hf
    · intro r' hr'
      cases hr'
    · dsimp only
      rw [ha.count]
      have := countP_flip_pcbAt
        (fun p => decide (p.state = ProcessState.FINISHED) && (fun _ => true) p.id)
        hlen hlt (fun i _ hne => by rw [pcbAt_set_ne _ (Ne.symm hne)])
        (by
          have : (pcbAt v.processes r).state ≠ ProcessState.FINISHED := hlive
          simp [this])
        (by rw [pcbAt_set_eq _ hlt]; rfl)
      unfold finishedWith
      rw [this]
      push_cast
      rfl
    · intro P
      dsimp only
      rw [finishLinesWith_append, logRecord_event, logRecord_id, ha.lines P]
      have hid : (finishedPCB (v.pcb r) inp.clkFinish).id = (v.pcb r).id := rfl
      rw [hid]
      by_cases hP : P (v.pcb r).id = true
      · rw [if_pos ⟨rfl, hP⟩]
        unfold finishedWith
        refine (countP_flip_pcbAt _ hlen hlt
          (fun i _ hne => by rw [pcbAt_set_ne _ (Ne.symm hne)]) ?_ ?_).symm
        · have : (pcbAt v.processes r).state ≠ ProcessState.FINISHED := hlive
          simp [this]
        · rw [pcbAt_set_eq _ hlt]
          simp [finishedPCB, hP]
      · rw [if_neg (fun hc => hP hc.2), Nat.add_zero]
        unfold finishedWith
        refine (countP_congr_pcbAt _ hlen ?_).symm
        intro i _
        by_cases hir : r = i
        · subst hir
          rw [pcbAt_set_eq _ hlt]
          have h1 : P (pcbAt v.processes r).id = false := by
            simpa [View.pcb] using hP
          have h2 : (finishedPCB (v.pcb r) inp.clkFinish).id = (pcbAt v.processes r).id := rfl
          rw [h2, h1, Bool.and_false, Bool.and_false]
        · rw [pcbAt_set_ne _ hir]
    · dsimp only
      rw [ha.runtime]
      refine (runtime_sum_congr hlen ?_).symm
      intro i _
      by_cases hir : r = i
      · subst hir
        rw [pcbAt_set_eq _ hlt]
        rfl
      · rw [pcbAt_set_ne _ hir]

theorem VAcc.of_same {v v' : View} (ha : VAcc v)
    (hlen : v'.processes.length = v.processes.length)
    (hpcb : ∀ i, i < v.processes.length →
      ((v'.pcb i).state = ProcessState.FINISHED ↔ (v.pcb i).state = ProcessState.FINISHED) ∧
      (v'.pcb i).id = (v.pcb i).id ∧ (v'.pcb i).runtime = (v.pcb i).runtime)
    (hcount : v'.finishedCount = v.finishedCount) (hrt : v'.totalRuntime = v.totalRuntime)
    (hlog : ∀ P, finishLinesWith P v'.log = finishLinesWith P v.log)
    (hcov : ∀ i, i ∈ v.queue ∨ v.runningProcess = some i →
      i ∈ v'.queue ∨ v'.runningProcess = some i)
    (hrun : ∀ r, v'.runningProcess = some r → (v.pcb r).state ≠ ProcessState.FINISHED ∧
      r < v.processes.length) : VAcc v' := by
  have hfw : ∀ P, finishedWith P v'.processes = finishedWith P v.processes := by
    intro P
    unfold finishedWith
    refine countP_congr_pcbAt _ hlen ?_
    intro i hi
    have h := hpcb i hi
    simp only [View.pcb] at h
    rw [h.2.1, decide_eq_decide.2 h.1]
  constructor
  · intro i hi
    rw [hlen] at hi
    rcases ha.covered i hi with hq | hr | hf
    · rcases hcov i (Or.inl hq) with h | h
      · exact Or.inl h
      · exact Or.inr (Or.inl h)
    · rcases hcov i (Or.inr hr) with h | h
      · exact Or.inl h
      · exact Or.inr (Or.inl h)
    · exact Or.inr (Or.inr ((hpcb i hi).1.2 hf))
  · intro r hr hf
    obtain ⟨hne, hlt⟩ := hrun r hr
    exact hne ((hpcb r hlt).1.1 hf)
  · rw [hcount, ha.count, hfw]
  · intro P
    rw [hlog P, ha.lines P, hfw]
  · rw [hrt, ha.runtime]
    refine (runtime_sum_congr hlen ?_).symm
    intro i hi
    exact (hpcb i hi).2.2

theorem finishLinesWith_append_other (P : Int → Bool) (log : List LogRecord) (now : Int)
    {e : LogEvent} (p : PCB) (he : e ≠ LogEvent.finished) :
    finishLinesWith P (log ++ [logRecord now e p]) = finishLinesWith P log := by
  rw [finishLinesWith_append, logRecord_event, if_neg (fun hc => he hc.1), Nat.add_zero]

theorem vRRPhase_cases (v : View) (inp : TickInput) :
    vRRPhase v inp = v ∨ vRRPhase v inp = { v with quantumCounter := v.quantumCounter + 1 } ∨
      ∃ r, v.runningProcess = some r ∧ (v.pcb r).state = ProcessState.RUNNING ∧
        vRRPhase v inp =
          { vStopProcess { v with quantumCounter := v.quantumCounter + 1 } r
              inp.clkStop inp.clkStopLog with
            queue := v.queue ++ [r]
            runningProcess := none
            quantumCounter := 0 } := by
  unfold vRRPhase
  split
  · cases hr : v.runningProcess with
    | none => exact Or.inl rfl
    | some r =>
      simp only
      split
      · rename_i hst
        split
        · exact Or.inr (Or.inr ⟨r, rfl, hst, rfl⟩)
        · exact Or.inr (Or.inl rfl)
      · exact Or.inl rfl
  · exact Or.inl rfl

theorem vAcc_counter {v : View} (c : Int) (ha : VAcc v) :
    VAcc { v with quantumCounter := c } where
  covered := ha.covered
  running_live := ha.running_live
  count := ha.count
  lines := ha.lines
  runtime := ha.runtime

theorem vAcc_rrPhase {v : View} (inp : TickInput) (hv : VInv v) (ha : VAcc v) :
    VAcc (vRRPhase v inp) := by
  rcases vRRPhase_cases v inp with e | e | ⟨r, hr, hst, e⟩
  · rw [e]
    exact ha
  · rw [e]
    exact vAcc_counter _ ha
  · rw [e]
    have hlt := hv.running_lt r hr
    refine ha.of_same ?_ ?_ rfl rfl ?_ ?_ ?_
    · exact List.length_set _ _ _
    · intro i _
      simp only [vStopProcess, vWriteLog, View.pcb]
      by_cases hir : r = i
      · subst hir
        rw [pcbAt_set_eq _ hlt]
        have h1 : (pcbAt v.processes r).state = ProcessState.RUNNING := hst
        simp [stoppedPCB, h1]
      · rw [pcbAt_set_ne _ hir]
        exact ⟨Iff.rfl, rfl, rfl⟩
    · intro P
      exact finishLinesWith_append_other P _ _ _ (by decide)
    · intro i hi
      rcases hi with hq | hr'
      · exact Or.inl (List.mem_append_left _ hq)
      · rw [hr] at hr'
        obtain rfl := Option.some.inj hr'
        exact Or.inl (List.mem_append_right _ (List.mem_singleton.2 rfl))
    · intro r' hr'
      cases hr'

theorem vAcc_afterSwitch {v : View} (ha : VAcc v) : VAcc (vAfterSwitch v) := by
  unfold vAfterSwitch
  split
  · exact vAcc_counter _ ha
  · exact ha

theorem resumedPCB_id (p : PCB) (now : Int) : (resumedPCB p now).id = p.id := by
  unfold resumedPCB
  split <;> rfl

theorem resumedPCB_runtime (p : PCB) (now : Int) : (resumedPCB p now).runtime = p.runtime := by
  unfold resumedPCB
  split <;> rfl

theorem vAcc_dispatch_shape {v v' : View} {sel : Nat} (hv : VInv v) (ha : VAcc v)
    (hnone : v.runningProcess = none) (hmem : sel ∈ v.queue)
    (hq : v'.queue = v.queue.erase sel) (hr : v'.runningProcess = some sel)
    (hlen : v'.processes.length = v.processes.length)
    (hother : ∀ i, i ≠ sel → v'.pcb i = v.pcb i)
    (hsel : (v'.pcb sel).state ≠ ProcessState.FINISHED ∧ (v'.pcb sel).id = (v.pcb sel).id ∧
      (v'.pcb sel).runtime = (v.pcb sel).runtime)
    (hcount : v'.finishedCount = v.finishedCount) (hrt : v'.totalRuntime = v.totalRuntime)
    (hlog : ∀ P, finishLinesWith P v'.log = finishLinesWith P v.log) : VAcc v' := by
  have hlt := hv.queue_lt sel hmem
  have hready := hv.queue_ready sel hmem
  refine ha.of_same hlen ?_ hcount hrt hlog ?_ ?_
  · intro i _
    by_cases hi : i = sel
    · subst hi
      refine ⟨⟨fun h => absurd h hsel.1, fun h => ?_⟩, hsel.2.1, hsel.2.2⟩
      rw [hready] at h
      cases h
    · rw [hother i hi]
      exact ⟨Iff.rfl, rfl, rfl⟩
  · intro i hi
    by_cases hne : i = sel
    · exact Or.inr (hne ▸ hr)
    · rcases hi with h | h
      · exact Or.inl (hq ▸ (List.mem_erase_of_ne hne).2 h)
      · rw [hnone] at h
        cases h
  · intro r hr'
    rw [hr] at hr'
    obtain rfl := Option.some.inj hr'
    refine ⟨?_, hlt⟩
    rw [hready]
    decide

theorem vAcc_dispatchSelected {v v' : View} {sel : Nat} {now nowLog forkPid : Int}
    (hv : VInv v) (ha : VAcc v) (hnone : v.runningProcess = none) (hmem : sel ∈ v.queue)
    (h : vDispatchSelected v sel now nowLog forkPid = some v') : VAcc v' := by
  have hlt := hv.queue_lt sel hmem
  unfold vDispatchSelected at h
  split at h
  · unfold vStartProcess at h
    split at h
    · cases h
    · split at h
      · simp only [Option.some.injEq] at h
        subst h
        refine vAcc_dispatch_shape hv ha hnone hmem rfl rfl (by simp [vWriteLog]) ?_ ?_ rfl rfl ?_
        · intro i hi
          simp only [vWriteLog, View.pcb]
          rw [pcbAt_set_ne _ (Ne.symm hi)]
        · simp only [vWriteLog, View.pcb]
          rw [pcbAt_set_eq _ hlt]
          exact ⟨by simp [startedPCB], rfl, rfl⟩
        · intro P
          exact finishLinesWith_append_other P _ _ _ (by decide)
      · simp only [Option.some.injEq] at h
        subst h
        refine vAcc_dispatch_shape hv ha hnone hmem rfl rfl rfl (fun _ _ => rfl) ?_ rfl rfl
          (fun _ => rfl)
        have hready := hv.queue_ready sel hmem
        refine ⟨?_, rfl, rfl⟩
        show (v.pcb sel).state ≠ _
        rw [hready]
        decide
  · simp only [Option.some.injEq] at h
    subst h
    refine vAcc_dispatch_shape hv ha hnone hmem rfl rfl (by simp [vResumeProcess, vWriteLog])
      ?_ ?_ rfl rfl ?_
    · intro i hi
      simp only [vResumeProcess, vWriteLog, View.pcb]
      rw [pcbAt_set_ne _ (Ne.symm hi)]
    · simp only [vResumeProcess, vWriteLog, View.pcb]
      rw [pcbAt_set_eq _ hlt]
      refine ⟨?_, resumedPCB_id _ _, resumedPCB_runtime _ _⟩
      rw [resumedPCB_state]
      decide
    · intro P
      exact finishLinesWith_append_other P _ _ _ (by decide)

theorem vAcc_dispatchPhase {v v' : View} {inp : TickInput} (hv : VInv v) (ha : VAcc v)
    (h : vDispatchPhase v inp = some v') : VAcc v' := by
  unfold vDispatchPhase at h
  split at h
  · rename_i hc
    unfold vSelectNextProcess at h
    split at h
    · simp only [Option.some.injEq] at h
      subst h
      exact vAcc_afterSwitch ha
    · rename_i sel hsel
      have hmem := vSelect_mem hsel
      refine vAcc_dispatchSelected (vInv_afterSwitch hv) (vAcc_afterSwitch ha) ?_ ?_ h
      · rw [vAfterSwitch_running]
        exact hc.1
      · rw [vAfterSwitch_queue]
        exact hmem
  · simp only [Option.some.injEq] at h
    subst h
    exact ha

theorem vAcc_accrue_end {v : View} (inp : TickInput) (hv : VInv v) (ha : VAcc v) :
    VAcc (vAccruePhase (vEndPhase v inp)) := by
  obtain ⟨_, _, _, r5, q5, l5⟩ := vAccrue_end_fields v inp
  have hp := vAccrue_end_pcb inp hv
  refine ha.of_same l5 ?_ ?_ ?_ ?_ ?_ ?_
  · intro i _
    rw [hp i]
    split
    · exact ⟨Iff.rfl, rfl, rfl⟩
    · exact ⟨Iff.rfl, rfl, rfl⟩
  · unfold vAccruePhase vEndPhase
    split <;> rfl
  · unfold vAccruePhase vEndPhase
    split <;> rfl
  · intro P
    unfold vAccruePhase vEndPhase
    split <;> rfl
  · intro i hi
    rw [q5, r5]
    exact hi
  · intro r hr
    rw [r5] at hr
    exact ⟨ha.running_live r hr, hv.running_lt r hr⟩

theorem vAcc_tick {v v' : View} {inp : TickInput} (hv : VInv v) (ha : VAcc v)
    (h : vTick v inp = some v') : VAcc v' := by
  obtain ⟨v1, v4, h1, h4, rfl, hv1, hv2, hv3, hv4, _⟩ := vTick_phases hv h
  have hv0 : VInv { v with currentTime := inp.clk } := hv.congr rfl rfl rfl (fun _ => rfl)
  have ha1 := vAcc_receive hv0 (vAcc_clock inp.clk ha) h1
  have ha2 := vAcc_finishPhase inp hv1 ha1
  have ha3 := vAcc_rrPhase inp hv2 ha2
  have ha4 := vAcc_dispatchPhase hv3 ha3 h4
  exact vAcc_accrue_end inp hv4 ha4

theorem vAcc_notify {v : View} (hv : VInv v) (ha : VAcc v) : VAcc (vNotify v) := by
  cases hr : v.runningProcess with
  | none =>
    have e : vNotify v = v := by
      unfold vNotify
      rw [hr]
    rw [e]
    exact ha
  | some r =>
    have e : vNotify v = { v with processes := v.processes.set r (exhaustedPCB (v.pcb r)) } := by
      unfold vNotify
      rw [hr]
    rw [e]
    have hlt := hv.running_lt r hr
    refine ha.of_same (List.length_set _ _ _) ?_ rfl rfl (fun _ => rfl) ?_ ?_
    · intro i _
      simp only [View.pcb]
      by_cases hir : r = i
      · subst hir
        rw [pcbAt_set_eq _ hlt]
        exact ⟨Iff.rfl, rfl, rfl⟩
      · rw [pcbAt_set_ne _ hir]
        exact ⟨Iff.rfl, rfl, rfl⟩
    · intro i hi
      exact hi
    · intro r' hr'
      have e' : v.runningProcess = some r' := hr'
      exact ⟨ha.running_live r' e', hv.running_lt r' e'⟩

theorem vAcc_step {v v' : View} {e : Event} (hv : VInv v) (ha : VAcc v)
    (h : vStep v e = some v') : VAcc v' := by
  cases e with
  | tick inp =>
    simp only [vStep] at h
    split at h
    · exact vAcc_tick hv ha h
    · cases h
  | notify =>
    simp only [vStep, Option.some.injEq] at h
    subst h
    exact vAcc_notify hv ha

theorem vAcc_run {v v' : View} {es : List Event} (hv : VInv v) (ha : VAcc v)
    (h : vRun v es = some v') : VAcc v' := by
  induction es generalizing v with
  | nil =>
    simp only [vRun, Option.some.injEq] at h
    exact h ▸ ha
  | cons e es ih =>
    simp only [vRun] at h
    split at h
    · cases h
    · rename_i v1 h1
      exact ih (vInv_step hv h1) (vAcc_step hv ha h1) h

theorem reachable_acc {a q : Int} {σ : Sched} (h : Reachable a q σ) :
    ∃ v, Sim σ v ∧ VInv v ∧ VAcc v := by
  obtain ⟨es, hes⟩ := h
  obtain ⟨v, hvrun, hs, hv⟩ := run_view hes
  exact ⟨v, hs, hv, vAcc_run (vInv_init a q) (vAcc_init a q) hvrun⟩

/-! ### Finish events (view) -/

theorem vFinishPhase_state (v : View) (inp : TickInput) (hv : VInv v) (i : Nat) :
    ((vFinishPhase v inp).pcb i).state = ProcessState.FINISHED ↔
      (v.pcb i).state = ProcessState.FINISHED ∨
        (v.runningProcess = some i ∧ (v.pcb i).remainingTime ≤ 0) := by
  by_cases hc : v.runningProcess = some i ∧ (v.pcb i).remainingTime ≤ 0
  · have hlt := hv.running_lt i hc.1
    rw [vFinishPhase_eq inp hc.1 hc.2 hlt]
    simp only [View.pcb]
    rw [pcbAt_set_eq _ hlt]
    exact ⟨fun _ => Or.inr hc, fun _ => rfl⟩
  · rcases vFinishPhase_pcb v inp i with e | ⟨h1, h2, _⟩
    · rw [e]
      exact ⟨Or.inl, fun h => h.elim id (fun h' => absurd h' hc)⟩
    · exact absurd ⟨h1, h2⟩ hc

theorem finished_iff_of_ne {a b : ProcessState} (ha : a ≠ ProcessState.FINISHED)
    (hb : b ≠ ProcessState.FINISHED) :
    a = ProcessState.FINISHED ↔ b = ProcessState.FINISHED :=
  ⟨fun h => absurd h ha, fun h => absurd h hb⟩

theorem vDispatchSelected_length {v v' : View} {sel : Nat} {now nowLog forkPid : Int}
    (h : vDispatchSelected v sel now nowLog forkPid = some v') :
    v'.processes.length = v.processes.length := by
  unfold vDispatchSelected at h
  split at h
  · unfold vStartProcess at h
    split at h
    · cases h
    · split at h
      · simp only [Option.some.injEq] at h
        subst h
        simp [vWriteLog]
      · simp only [Option.some.injEq] at h
        subst h
        rfl
  · simp only [Option.some.injEq] at h
    subst h
    simp [vResumeProcess, vWriteLog]

theorem vDispatchPhase_length {v v' : View} {inp : TickInput}
    (h : vDispatchPhase v inp = some v') : v'.processes.length = v.processes.length := by
  unfold vDispatchPhase at h
  split at h
  · unfold vSelectNextProcess at h
    split at h
    · simp only [Option.some.injEq] at h
      subst h
      rw [vAfterSwitch_processes]
    · rw [vDispatchSelected_length h, vAfterSwitch_processes]
  · simp only [Option.some.injEq] at h
    subst h
    rfl

theorem vTick_finished {v v' : View} {inp : TickInput} (hv : VInv v)
    (h : vTick v inp = some v') {i : Nat} (hi : i < v.processes.length) :
    (v'.pcb i).state = ProcessState.FINISHED ↔
      (v.pcb i).state = ProcessState.FINISHED ∨
        (v.runningProcess = some i ∧ (v.pcb i).remainingTime ≤ 0) := by
  obtain ⟨v1, v4, hrecv, h4, rfl, hv1, hv2, hv3, hv4, _⟩ := vTick_phases hv h
  obtain ⟨_, _, _, r1, _⟩ := vReceive_fields hrecv
  have hp1 : v1.pcb i = v.pcb i := vReceive_pcb hrecv hi
  have h2 := vFinishPhase_state v1 inp hv1 i
  rw [hp1, r1] at h2
  have h3 : ((vRRPhase (vFinishPhase v1 inp) inp).pcb i).state = ProcessState.FINISHED ↔
      ((vFinishPhase v1 inp).pcb i).state = ProcessState.FINISHED := by
    rcases vRRPhase_pcb (vFinishPhase v1 inp) inp i with e | ⟨_, _, hst, _, _, _, _, _, e⟩
    · rw [e]
    · rw [e, hst]
      exact finished_iff_of_ne (by simp [stoppedPCB]) (by decide)
  have h4' : (v4.pcb i).state = ProcessState.FINISHED ↔
      ((vRRPhase (vFinishPhase v1 inp) inp).pcb i).state = ProcessState.FINISHED := by
    rcases vDispatchPhase_pcb h4 i with ⟨e, _⟩ | ⟨_, hmem, _, hst | hres⟩
    · rw [e]
    · rw [hst.2, hv3.queue_ready i hmem]
      exact finished_iff_of_ne (by simp [startedPCB]) (by decide)
    · rw [hres.2, resumedPCB_state, hv3.queue_ready i hmem]
      exact finished_iff_of_ne (by decide) (by decide)
  rw [vAccrue_end_state inp hv4, h4', h3, h2]

theorem vNotify_state (v : View) (i : Nat) : ((vNotify v).pcb i).state = (v.pcb i).state := by
  rcases vNotify_pcb v i with e | ⟨_, e⟩ <;> rw [e]
  rfl

theorem vTick_frozen {v v' : View} {inp : TickInput} (hv : VInv v) (ha : VAcc v)
    (h : vTick v inp = some v') {i : Nat} (hi : i < v.processes.length)
    (hf : (v.pcb i).state = ProcessState.FINISHED) : v'.pcb i = v.pcb i := by
  obtain ⟨v1, v4, hrecv, h4, rfl, hv1, hv2, hv3, hv4, _⟩ := vTick_phases hv h
  obtain ⟨_, _, _, r1, _⟩ := vReceive_fields hrecv
  have hp1 : v1.pcb i = v.pcb i := vReceive_pcb hrecv hi
  have hp2 : (vFinishPhase v1 inp).pcb i = v.pcb i := by
    rcases vFinishPhase_pcb v1 inp i with e | ⟨hr, _⟩
    · rw [e, hp1]
    · rw [r1] at hr
      exact absurd hf (ha.running_live i hr)
  have hp3 : (vRRPhase (vFinishPhase v1 inp) inp).pcb i = v.pcb i := by
    rcases vRRPhase_pcb (vFinishPhase v1 inp) inp i with e | ⟨_, _, hst, _⟩
    · rw [e, hp2]
    · rw [hp2, hf] at hst
      cases hst
  have hnq : i ∉ (vRRPhase (vFinishPhase v1 inp) inp).queue := by
    intro hmem
    have := hv3.queue_ready i hmem
    rw [hp3, hf] at this
    cases this
  have hp4 : v4.pcb i = v.pcb i := by
    rcases vDispatchPhase_pcb h4 i with ⟨e, _⟩ | ⟨_, hmem, _⟩
    · rw [e, hp3]
    · exact absurd hmem hnq
  have hnq4 : i ∉ v4.queue := by
    intro hmem
    have := hv4.queue_ready i hmem
    rw [hp4, hf] at this
    cases this
  rw [vAccrue_end_pcb inp hv4, if_neg hnq4, hp4]

theorem vStep_frozen {v v' : View} {e : Event} (hv : VInv v) (ha : VAcc v)
    (h : vStep v e = some v') {i : Nat} (hi : i < v.processes.length)
    (hf : (v.pcb i).state = ProcessState.FINISHED) : v'.pcb i = v.pcb i := by
  cases e with
  | tick inp =>
    simp only [vStep] at h
    split at h
    · exact vTick_frozen hv ha h hi hf
    · cases h
  | notify =>
    simp only [vStep, Option.some.injEq] at h
    subst h
    rcases vNotify_pcb v i with e | ⟨hr, _⟩
    · exact e
    · exact absurd hf (ha.running_live i hr)

theorem vStep_length {v v' : View} {e : Event} (hv : VInv v) (h : vStep v e = some v') :
    v.processes.length ≤ v'.processes.length := by
  cases e with
  | tick inp =>
    simp only [vStep] at h
    split at h
    · obtain ⟨v1, v4, hrecv, h4, rfl, _, _, _, _, _⟩ := vTick_phases hv h
      obtain ⟨_, _, _, _, l1⟩ := vReceive_fields hrecv
      obtain ⟨_, _, _, _, _, l5⟩ := vAccrue_end_fields v4 inp
      have l4 : v4.processes.length = v1.processes.length := by
        have e2 : (vFinishPhase v1 inp).processes.length = v1.processes.length := by
          unfold vFinishPhase
          split
          · rfl
          · split
            · simp [vFinishProcess, vWriteLog]
            · rfl
        have e3 : (vRRPhase (vFinishPhase v1 inp) inp).processes.length =
            (vFinishPhase v1 inp).processes.length := by
          rcases vRRPhase_cases (vFinishPhase v1 inp) inp with e | e | ⟨r, _, _, e⟩ <;> rw [e]
          simp [vStopProcess, vWriteLog]
        rw [vDispatchPhase_length h4, e3, e2]
      rw [l5, l4, l1]
      exact Nat.le_add_right _ _
    · cases h
  | notify =>
    simp only [vStep, Option.some.injEq] at h
    subst h
    unfold vNotify
    split
    · exact le_refl _
    · simp

theorem vRun_frozen {v v' : View} {es : List Event} (hv : VInv v) (ha : VAcc v)
    (h : vRun v es = some v') {i : Nat} (hi : i < v.processes.length)
    (hf : (v.pcb i).state = ProcessState.FINISHED) : v'.pcb i = v.pcb i := by
  induction es generalizing v with
  | nil =>
    simp only [vRun, Option.some.injEq] at h
    rw [h]
  | cons e es ih =>
    simp only [vRun] at h
    split at h
    · cases h
    · rename_i v1 h1
      have e1 := vStep_frozen hv ha h1 hi hf
      have hi1 : i < v1.processes.length := lt_of_lt_of_le hi (vStep_length hv h1)
      rw [ih (vInv_step hv h1) (vAcc_step hv ha h1) h hi1 (by rw [e1]; exact hf), e1]

/-! ### Effect of each function on the accumulator -/

theorem writeLog_accumulator {σ σ' : Sched} {now : Int} {e : LogEvent} {pcb : Nat}
    (h : writeLog σ now e pcb = some σ') : σ'.accumulator = σ.accumulator := by
  unfold writeLog at h
  split at h
  · cases h
  · simp only [Option.some.injEq] at h
    subst h
    rfl

theorem startProcess_accumulator {σ σ' : Sched} {pcb : Nat} {now nowLog forkPid : Int}
    (h : startProcess σ pcb now nowLog forkPid = some σ') :
    σ'.accumulator = σ.accumulator := by
  unfold startProcess at h
  simp only at h
  split at h
  · cases h
  · split at h
    · split at h
      · cases h
      · rw [writeLog_accumulator h]
        rfl
    · simp only [Option.some.injEq] at h
      subst h
      rfl

theorem stopProcess_accumulator {σ σ' : Sched} {pcb : Nat} {now nowLog : Int}
    (h : stopProcess σ pcb now nowLog = some σ') : σ'.accumulator = σ.accumulator := by
  unfold stopProcess at h
  simp only at h
  split at h
  · cases h
  · rw [writeLog_accumulator h]
    rfl

theorem resumeProcess_accumulator {σ σ' : Sched} {pcb : Nat} {now nowLog : Int}
    (h : resumeProcess σ pcb now nowLog = some σ') : σ'.accumulator = σ.accumulator := by
  unfold resumeProcess at h
  simp only at h
  split at h
  · cases h
  · rw [writeLog_accumulator h]
    rfl

theorem handleProcessFinish_accumulator {σ σ' : Sched} (h : handleProcessFinish σ = some σ') :
    σ'.accumulator = σ.accumulator := by
  unfold handleProcessFinish at h
  split at h
  · simp only [Option.some.injEq] at h
    subst h
    rfl
  · split at h
    · cases h
    · simp only [Option.some.injEq] at h
      subst h
      rfl

theorem finishProcess_accumulator {σ σ' : Sched} {pcb : Nat} {now nowLog : Int}
    (h : finishProcess σ pcb now nowLog = some σ') :
    σ'.accumulator =
      (σ.totalWaitingTime + (σ.pcb pcb).waitingTime, σ.totalRuntime,
        σ.totalWTA + wtaOf (σ.pcb pcb) now,
        σ.totalWTASquared + wtaOf (σ.pcb pcb) now * wtaOf (σ.pcb pcb) now,
        σ.finishedCount + 1) := by
  unfold finishProcess at h
  simp only at h
  cases hp : σ.processes[pcb]? with
  | none =>
    rw [hp] at h
    cases h
  | some p =>
    rw [hp] at h
    simp only at h
    rw [writeLog_accumulator h]
    have e : σ.pcb pcb = p := pcbAt_of_getElem? hp
    rw [e]
    rfl

theorem receiveProcesses_accumulator :
    ∀ (ms : List Msg) {σ σ' : Sched}, receiveProcesses σ ms = some σ' →
      σ'.accumulator =
        (σ.totalWaitingTime, σ.totalRuntime + (ms.map Msg.runtime).sum, σ.totalWTA,
          σ.totalWTASquared, σ.finishedCount)
  | [], σ, σ', h => by
    simp only [receiveProcesses, Option.some.injEq] at h
    subst h
    simp [Sched.accumulator]
  | m :: ms, σ, σ', h => by
    unfold receiveProcesses at h
    split at h
    · simp only at h
      split at h
      · cases h
      · rw [receiveProcesses_accumulator ms h]
        simp only [List.map_cons, List.sum_cons, newPCB]
        rw [add_assoc]
    · cases h

theorem selectSwitch_accumulator {σ σ1 : Sched} {r : Option Nat}
    (h : selectSwitch σ = some (r, σ1)) : σ1.accumulator = σ.accumulator := by
  unfold selectSwitch at h
  split at h
  · cases hs : selectHPF σ with
    | none => rw [hs] at h; cases h
    | some x =>
      rw [hs] at h
      simp only [Option.map_some', Option.some.injEq, Prod.mk.injEq] at h
      rw [← h.2]
  · split at h
    · cases hs : selectSJN σ with
      | none => rw [hs] at h; cases h
      | some x =>
        rw [hs] at h
        simp only [Option.map_some', Option.some.injEq, Prod.mk.injEq] at h
        rw [← h.2]
    · split at h
      · cases hs : selectRR σ with
        | none => rw [hs] at h; cases h
        | some x =>
          rw [hs] at h
          simp only [Option.map_some', Option.some.injEq, Prod.mk.injEq] at h
          rw [← h.2]
          rfl
      · simp only [Option.some.injEq, Prod.mk.injEq] at h
        rw [← h.2]

theorem dispatchSelected_accumulator {σ σ' : Sched} {sel : Nat} {now nowLog forkPid : Int}
    (h : dispatchSelected σ sel now nowLog forkPid = some σ') :
    σ'.accumulator = σ.accumulator := by
  unfold dispatchSelected at h
  simp only at h
  split at h
  · cases h
  · split at h
    · cases h
    · split at h
      · rw [startProcess_accumulator h]
        rfl
      · rw [resumeProcess_accumulator h]
        rfl

theorem selectNextProcess_accumulator {σ σ' : Sched} {now nowLog forkPid : Int}
    (h : selectNextProcess σ now nowLog forkPid = some σ') :
    σ'.accumulator = σ.accumulator := by
  unfold selectNextProcess at h
  split at h
  · cases h
  · rename_i σ1 hs
    simp only [Option.some.injEq] at h
    subst h
    exact selectSwitch_accumulator hs
  · rename_i sel σ1 hs
    rw [dispatchSelected_accumulator h, selectSwitch_accumulator hs]

theorem dispatchPhase_accumulator {σ σ' : Sched} {inp : TickInput}
    (h : dispatchPhase σ inp = some σ') : σ'.accumulator = σ.accumulator := by
  unfold dispatchPhase at h
  split at h
  · exact selectNextProcess_accumulator h
  · simp only [Option.some.injEq] at h
    subst h
    rfl

theorem rrPhase_accumulator {σ σ' : Sched} {inp : TickInput}
    (h : rrPhase σ inp = some σ') : σ'.accumulator = σ.accumulator := by
  unfold rrPhase at h
  split at h
  · split at h
    · simp only [Option.some.injEq] at h
      subst h
      rfl
    · split at h
      · cases h
      · split at h
        · simp only at h
          split at h
          · split at h
            · cases h
            · rename_i σ2 hstop
              split at h
              · cases h
              · simp only [Option.some.injEq] at h
                subst h
                have := stopProcess_accumulator hstop
                exact this
          · simp only [Option.some.injEq] at h
            subst h
            rfl
        · simp only [Option.some.injEq] at h
          subst h
          rfl
  · simp only [Option.some.injEq] at h
    subst h
    rfl

theorem accruePhase_accumulator {σ σ' : Sched} (h : accruePhase σ = some σ') :
    σ'.accumulator = σ.accumulator := by
  unfold accruePhase at h
  split at h
  · cases h
  · simp only [Option.some.injEq] at h
    subst h
    rfl

theorem endPhase_accumulator (σ : Sched) (inp : TickInput) :
    (endPhase σ inp).accumulator = σ.accumulator := by
  unfold endPhase
  split <;> rfl

theorem finishPhase_cases {σ σ' : Sched} {inp : TickInput} (h : finishPhase σ inp = some σ') :
    (σ' = σ ∧ ∀ r, σ.runningProcess = some r → 0 < (σ.pcb r).remainingTime) ∨
      ∃ r σ1, σ.runningProcess = some r ∧ r < σ.processCount ∧
        (σ.pcb r).remainingTime ≤ 0 ∧
        finishProcess σ r inp.clkFinish inp.clkFinishLog = some σ1 ∧
        σ' = { σ1 with runningProcess := none } := by
  unfold finishPhase at h
  cases hr : σ.runningProcess with
  | none =>
    rw [hr] at h
    simp only [Option.some.injEq] at h
    exact Or.inl ⟨h.symm, fun r hc => by cases hc⟩
  | some r =>
    rw [hr] at h
    simp only at h
    cases hp : σ.processes[r]? with
    | none =>
      rw [hp] at h
      cases h
    | some p =>
      rw [hp] at h
      simp only at h
      have e : σ.pcb r = p := pcbAt_of_getElem? hp
      have hlt : r < σ.processCount := by
        have := List.getElem?_eq_some_iff.1 hp
        exact this.1
      split at h
      · rename_i hrem
        split at h
        · cases h
        · rename_i σ1 hfin
          simp only [Option.some.injEq] at h
          exact Or.inr ⟨r, σ1, rfl, hlt, e ▸ hrem, hfin, h.symm⟩
      · rename_i hrem
        simp only [Option.some.injEq] at h
        refine Or.inl ⟨h.symm, ?_⟩
        intro r' hr'
        obtain rfl := Option.some.inj hr'
        rw [e]
        omega

theorem tick_phases {σ σ' : Sched} {inp : TickInput} (h : tick σ inp = some σ') :
    ∃ σ1 σ2 σ3 σ4, receiveProcesses { σ with currentTime := inp.clk } inp.arrivals = some σ1 ∧
      finishPhase σ1 inp = some σ2 ∧ rrPhase σ2 inp = some σ3 ∧
      dispatchPhase σ3 inp = some σ4 ∧ accruePhase (endPhase σ4 inp) = some σ' := by
  unfold tick at h
  split at h
  · cases h
  · rename_i σ1 h1
    split at h
    · cases h
    · rename_i σ2 h2
      split at h
      · cases h
      · rename_i σ3 h3
        split at h
        · cases h
        · rename_i σ4 h4
          exact ⟨σ1, σ2, σ3, σ4, h1, h2, h3, h4, h⟩

theorem Sim.finishedCount {σ : Sched} {v : View} (h : Sim σ v) :
    v.finishedCount = σ.finishedCount := by
  rw [← h.2]
  rfl

theorem Sim.totalRuntime {σ : Sched} {v : View} (h : Sim σ v) :
    v.totalRuntime = σ.totalRuntime := by
  rw [← h.2]
  rfl

theorem finishedWith_le (P : Int → Bool) (procs : List PCB) :
    finishedWith P procs ≤ procs.length := List.countP_le_length _

theorem finishedWith_all {procs : List PCB}
    (h : ∀ i, i < procs.length → (pcbAt procs i).state = ProcessState.FINISHED) :
    finishedWith (fun _ => true) procs = procs.length := by
  unfold finishedWith
  rw [List.countP_eq_length]
  intro p hp
  obtain ⟨j, hj, rfl⟩ := pcbAt_of_mem hp
  simp [h j hj]

theorem run_append (es0 es : List Event) :
    ∀ σ0 : Sched, run σ0 (es0 ++ es) = (run σ0 es0).bind (fun σ => run σ es) := by
  induction es0 with
  | nil => intro σ0; rfl
  | cons e es0 ih =>
    intro σ0
    simp only [run, List.cons_append]
    cases step σ0 e with
    | none => rfl
    | some σ1 => exact ih σ1

theorem reachable_run {a q : Int} {σ σ' : Sched} {es : List Event} (h : Reachable a q σ)
    (hrun : run σ es = some σ') : Reachable a q σ' := by
  obtain ⟨es0, h0⟩ := h
  refine ⟨es0 ++ es, ?_⟩
  rw [run_append, h0]
  exact hrun

/-! ### C20 -/

theorem reachable_frozen {a q : Int} {σ σ' : Sched} {i : Nat} {es : List Event}
    (h : Reachable a q σ) (hi : i < σ.processCount)
    (hf : (σ.pcb i).state = ProcessState.FINISHED) (hrun : run σ es = some σ') :
    σ'.pcb i = σ.pcb i := by
  obtain ⟨v, hs, hv, ha⟩ := reachable_acc h
  obtain ⟨v', hvrun, hs'⟩ := (sim_run es hs hv).of_some hrun
  have hfro := vRun_frozen hv ha hvrun (i := i) (by rw [hs.processes]; exact hi)
    (by rw [hs.pcb]; exact hf)
  rw [hs'.pcb, hs.pcb] at hfro
  exact hfro

theorem reachable_finished_idle {a q : Int} {σ : Sched} {i : Nat} (h : Reachable a q σ)
    (hf : (σ.pcb i).state = ProcessState.FINISHED) :
    σ.runningProcess ≠ some i ∧ ∃ s, IsQueue σ.heap σ.readyQueue s ∧ i ∉ s := by
  obtain ⟨v, hs, hv, ha⟩ := reachable_acc h
  refine ⟨?_, v.queue, hs.1, ?_⟩
  · intro hr
    exact ha.running_live i (hs.running.trans hr) (by rw [hs.pcb]; exact hf)
  · intro hmem
    have := hv.queue_ready i hmem
    rw [hs.pcb, hf] at this
    cases this

/-- C20. FINISHED is terminal.  If in a reachable state the created PCB `i`
has state FINISHED, then after any further sequence of loop iterations and
completion notifications that PCB is exactly as it was (its state and every
other field), it is not the tracked running process, and it is not an entry of
the ready queue. -/
theorem finished_terminal (a q : Int) (σ : Sched) (i : Nat) (h : Reachable a q σ)
    (hi : i < σ.processCount) (hf : (σ.pcb i).state = ProcessState.FINISHED) :
    ∀ (es : List Event) (σ' : Sched), run σ es = some σ' →
      σ'.pcb i = σ.pcb i ∧ (σ'.pcb i).state = ProcessState.FINISHED ∧
      σ'.runningProcess ≠ some i ∧
      ∃ s', IsQueue σ'.heap σ'.readyQueue s' ∧ i ∉ s' := by
  intro es σ' hrun
  have hfro := reachable_frozen h hi hf hrun
  have hf' : (σ'.pcb i).state = ProcessState.FINISHED := by
    rw [hfro]
    exact hf
  obtain ⟨hidle, hq⟩ := reachable_finished_idle (reachable_run h hrun) hf'
  exact ⟨hfro, hf', hidle, hq⟩

/-- Witness for C20: in the two-process example PCB 0 is FINISHED after the
iteration of tick 1; two more iterations and a notification leave it as it
is. -/
theorem finished_terminal_witness :
    ∃ σ σ', run (initSched 1 0) pairExample = some σ ∧
      run σ [tickAt 2 [] false, Event.notify, tickAt 3 [] false] = some σ' ∧
      (σ.pcb 0).state = ProcessState.FINISHED ∧ σ'.pcb 0 = σ.pcb 0 ∧
      σ'.runningProcess ≠ some 0 := by
  have hr : run (initSched 1 0) pairExample =
      some ((run (initSched 1 0) pairExample).getD (initSched 1 0)) := by decide!
  have hr' : run ((run (initSched 1 0) pairExample).getD (initSched 1 0))
      [tickAt 2 [] false, Event.notify, tickAt 3 [] false] =
      some ((run ((run (initSched 1 0) pairExample).getD (initSched 1 0))
        [tickAt 2 [] false, Event.notify, tickAt 3 [] false]).getD (initSched 1 0)) := by
    decide!
  have hst : (Sched.pcb ((run (initSched 1 0) pairExample).getD (initSched 1 0)) 0).state =
      ProcessState.FINISHED := by decide!
  have ht := finished_terminal 1 0 _ 0 ⟨pairExample, hr⟩ (by decide!) hst _ _ hr'
  exact ⟨_, _, hr, hr', hst, ht.1, ht.2.2.1⟩

/-! ### The accumulator across one loop iteration -/

theorem tick_accumulator {a q : Int} {σ σ' : Sched} {inp : TickInput} (hreach : Reachable a q σ)
    (h : tick σ inp = some σ') :
    ((∀ r, σ.runningProcess = some r → 0 < (σ.pcb r).remainingTime) →
      σ'.accumulator =
        (σ.totalWaitingTime, σ.totalRuntime + (inp.arrivals.map Msg.runtime).sum, σ.totalWTA,
          σ.totalWTASquared, σ.finishedCount)) ∧
    (∀ r, σ.runningProcess = some r → (σ.pcb r).remainingTime ≤ 0 →
      σ'.accumulator =
        (σ.totalWaitingTime + (σ.pcb r).waitingTime,
          σ.totalRuntime + (inp.arrivals.map Msg.runtime).sum,
          σ.totalWTA + wtaOf (σ.pcb r) inp.clkFinish,
          σ.totalWTASquared + wtaOf (σ.pcb r) inp.clkFinish * wtaOf (σ.pcb r) inp.clkFinish,
          σ.finishedCount + 1)) := by
  obtain ⟨v, hs, hv⟩ := reachable_view hreach
  obtain ⟨σ1, σ2, σ3, σ4, h1, h2, h3, h4, h5⟩ := tick_phases h
  obtain ⟨v1, hv1, hs1⟩ := (sim_receive inp.arrivals (hs.withClock inp.clk)).of_some h1
  obtain ⟨_, _, _, r1, _⟩ := vReceive_fields hv1
  have hrun1 : σ1.runningProcess = σ.runningProcess := by
    rw [← hs1.running, r1]
    exact hs.running
  have hpcb1 : ∀ r, σ.runningProcess = some r → σ1.pcb r = σ.pcb r := by
    intro r hr
    have hlt : r < v.processes.length := hv.running_lt r (hs.running.trans hr)
    rw [← hs1.pcb, vReceive_pcb hv1 hlt]
    exact hs.pcb r
  have e1 := receiveProcesses_accumulator inp.arrivals h1
  have e5 : σ'.accumulator = σ2.accumulator := by
    rw [accruePhase_accumulator h5, endPhase_accumulator, dispatchPhase_accumulator h4,
      rrPhase_accumulator h3]
  simp only [Sched.accumulator, Prod.mk.injEq] at e1
  obtain ⟨a1, a2, a3, a4, a5⟩ := e1
  rcases finishPhase_cases h2 with ⟨e2, hpos⟩ | ⟨r, σf, hr, _, hrem, hfin, e2⟩
  · subst e2
    constructor
    · intro _
      rw [e5]
      simp only [Sched.accumulator, Prod.mk.injEq]
      exact ⟨a1, a2, a3, a4, a5⟩
    · intro r hr hrem
      have := hpos r (hrun1.trans hr)
      rw [hpcb1 r hr] at this
      omega
  · have hr0 : σ.runningProcess = some r := hrun1 ▸ hr
    have hp := hpcb1 r hr0
    constructor
    · intro hpos
      have := hpos r hr0
      rw [hp] at hrem
      omega
    · intro r' hr' _
      rw [hr0] at hr'
      obtain rfl := Option.some.inj hr'
      rw [e5, e2]
      have ef := finishProcess_accumulator hfin
      simp only [Sched.accumulator, Prod.mk.injEq] at ef ⊢
      obtain ⟨f1, f2, f3, f4, f5⟩ := ef
      rw [hp] at f1 f3 f4
      refine ⟨?_, ?_, ?_, ?_, ?_⟩
      · rw [f1, a1]
      · rw [f2, a2]
      · rw [f3, a3]
      · rw [f4, a4]
      · rw [f5, a5]

/-! ### C17 -/

/-- C17 as stated fails: `totalRuntime` is advanced by arrival ingestion and
not by the finish event.  Ingesting one message with runtime 5 into the
initial state raises `totalRuntime` from 0 to 5; and in the single-process run
`finishProcess` on that PCB (runtime 5) leaves `totalRuntime` at 5 while it
advances `finishedCount`. -/
theorem accumulator_counterexample :
    (∃ σ, receiveProcesses (initSched 1 0) [⟨1, 0, 5, 1⟩] = some σ ∧
      (initSched 1 0).totalRuntime = 0 ∧ σ.totalRuntime = 5 ∧
      σ.accumulator ≠ (initSched 1 0).accumulator) ∧
    (∃ σ σ', run (initSched 1 0) (singleExample.take 6) = some σ ∧
      finishProcess σ 0 5 5 = some σ' ∧ (σ.pcb 0).runtime = 5 ∧
      σ.totalRuntime = 5 ∧ σ'.totalRuntime = 5 ∧ σ'.finishedCount = σ.finishedCount + 1) := by
  refine ⟨⟨(receiveProcesses (initSched 1 0) [⟨1, 0, 5, 1⟩]).getD (initSched 1 0),
    by decide, by decide, by decide, by decide⟩, ?_⟩
  exact ⟨(run (initSched 1 0) (singleExample.take 6)).getD (initSched 1 0),
    (finishProcess ((run (initSched 1 0) (singleExample.take 6)).getD (initSched 1 0))
      0 5 5).getD (initSched 1 0),
    by decide, by decide!, by decide, by decide, by decide!, by decide!⟩

/-- C17, amended.  With the accumulator listed as (totalWaitingTime,
totalRuntime, totalWTA, totalWTASquared, finishedCount):
`receiveProcesses` adds the runtimes of the ingested messages to totalRuntime
and leaves the other four fields unchanged; `finishProcess` adds the PCB's
waitingTime, its weighted turnaround, the square of that and 1 to
totalWaitingTime, totalWTA, totalWTASquared and finishedCount and leaves
totalRuntime unchanged; starting, stopping, resuming, the dispatch block and
`selectNextProcess`, the round-robin block, the accrual loop and the
completion notification leave all five unchanged.  Across a loop iteration
from a reachable state totalRuntime grows by the runtimes of the arrivals, and
the other four fields change exactly when the tracked running process has no
remaining time, by the one finish event of that process.  In every reachable
state totalRuntime is the sum of the runtimes of all created PCBs and
finishedCount is the number of FINISHED PCBs.  The weighted turnaround and
the two sums that take it are `double` values: the quotient
`(double)(now − arrivalTime) / runtime`, added and squared in double
arithmetic; for a PCB of runtime 0 it is NaN when the turnaround is 0 and
otherwise an infinity with the sign of the turnaround. -/
theorem accumulator_frame :
    (∀ (σ σ' : Sched) (ms : List Msg), receiveProcesses σ ms = some σ' →
      σ'.accumulator =
        (σ.totalWaitingTime, σ.totalRuntime + (ms.map Msg.runtime).sum, σ.totalWTA,
          σ.totalWTASquared, σ.finishedCount)) ∧
    (∀ (σ σ' : Sched) (pcb : Nat) (now nowLog : Int),
      finishProcess σ pcb now nowLog = some σ' →
      σ'.accumulator =
        (σ.totalWaitingTime + (σ.pcb pcb).waitingTime, σ.totalRuntime,
          σ.totalWTA + wtaOf (σ.pcb pcb) now,
          σ.totalWTASquared + wtaOf (σ.pcb pcb) now * wtaOf (σ.pcb pcb) now,
          σ.finishedCount + 1)) ∧
    (∀ (σ σ' : Sched) (pcb : Nat) (now nowLog forkPid : Int) (inp : TickInput),
      (startProcess σ pcb now nowLog forkPid = some σ' ∨
        stopProcess σ pcb now nowLog = some σ' ∨
        resumeProcess σ pcb now nowLog = some σ' ∨
        selectNextProcess σ now nowLog forkPid = some σ' ∨
        dispatchPhase σ inp = some σ' ∨ rrPhase σ inp = some σ' ∨
        accruePhase σ = some σ' ∨ handleProcessFinish σ = some σ') →
      σ'.accumulator = σ.accumulator) ∧
    (∀ (a q : Int) (σ σ' : Sched) (inp : TickInput), Reachable a q σ →
      tick σ inp = some σ' →
      σ'.totalRuntime = σ.totalRuntime + (inp.arrivals.map Msg.runtime).sum ∧
      ((∀ r, σ.runningProcess = some r → 0 < (σ.pcb r).remainingTime) →
        σ'.totalWaitingTime = σ.totalWaitingTime ∧ σ'.totalWTA = σ.totalWTA ∧
        σ'.totalWTASquared = σ.totalWTASquared ∧ σ'.finishedCount = σ.finishedCount) ∧
      (∀ r, σ.runningProcess = some r → (σ.pcb r).remainingTime ≤ 0 →
        σ'.totalWaitingTime = σ.totalWaitingTime + (σ.pcb r).waitingTime ∧
        σ'.totalWTA = σ.totalWTA + wtaOf (σ.pcb r) inp.clkFinish ∧
        σ'.totalWTASquared = σ.totalWTASquared +
          wtaOf (σ.pcb r) inp.clkFinish * wtaOf (σ.pcb r) inp.clkFinish ∧
        σ'.finishedCount = σ.finishedCount + 1)) ∧
    (∀ (a q : Int) (σ : Sched), Reachable a q σ →
      σ.totalRuntime = (σ.processes.map PCB.runtime).sum ∧
      σ.finishedCount = (finishedPCBs σ : Int)) ∧
    (∀ (p : PCB) (now : Int),
      wtaOf p now = ((now - p.arrivalTime : Int) : Dbl) / (p.runtime : Dbl) ∧
      (p.runtime = 0 → wtaOf p now =
        if now = p.arrivalTime then Dbl.nan
        else Dbl.inf (decide (now - p.arrivalTime < 0)))) := by
  refine ⟨fun σ σ' ms h => receiveProcesses_accumulator ms h,
    fun σ σ' pcb now nowLog h => finishProcess_accumulator h, ?_, ?_, ?_,
    fun p now => ⟨rfl, wtaOf_runtime_zero p now⟩⟩
  · intro σ σ' pcb now nowLog forkPid inp h
    rcases h with h | h | h | h | h | h | h | h
    · exact startProcess_accumulator h
    · exact stopProcess_accumulator h
    · exact resumeProcess_accumulator h
    · exact selectNextProcess_accumulator h
    · exact dispatchPhase_accumulator h
    · exact rrPhase_accumulator h
    · exact accruePhase_accumulator h
    · exact handleProcessFinish_accumulator h
  · intro a q σ σ' inp hreach h
    obtain ⟨hkeep, hfin⟩ := tick_accumulator hreach h
    refine ⟨?_, ?_, ?_⟩
    · by_cases hc : ∀ r, σ.runningProcess = some r → 0 < (σ.pcb r).remainingTime
      · have := hkeep hc
        simp only [Sched.accumulator, Prod.mk.injEq] at this
        exact this.2.1
      · push_neg at hc
        obtain ⟨r, hr, hrem⟩ := hc
        have := hfin r hr hrem
        simp only [Sched.accumulator, Prod.mk.injEq] at this
        exact this.2.1
    · intro hc
      have := hkeep hc
      simp only [Sched.accumulator, Prod.mk.injEq] at this
      exact ⟨this.1, this.2.2.1, this.2.2.2.1, this.2.2.2.2⟩
    · intro r hr hrem
      have := hfin r hr hrem
      simp only [Sched.accumulator, Prod.mk.injEq] at this
      exact ⟨this.1, this.2.2.1, this.2.2.2.1, this.2.2.2.2⟩
  · intro a q σ hreach
    obtain ⟨v, hs, _, ha⟩ := reachable_acc hreach
    constructor
    · rw [← hs.totalRuntime, ha.runtime, hs.processes]
    · rw [← hs.finishedCount, ha.count, hs.processes]
      rfl

/-- Witness for the amended C17: the finishing iteration of the single-process
run, and the iteration that finishes a process of runtime 0 one tick after its
arrival, which takes totalWTA from 0 to +∞. -/
theorem accumulator_frame_witness :
    (∃ σ σ', run (initSched 1 0) (singleExample.take 6) = some σ ∧
      tick σ (TickInput.uniform 5 [] 100 false) = some σ' ∧
      σ'.totalRuntime = σ.totalRuntime + 0 ∧ σ'.finishedCount = σ.finishedCount + 1 ∧
      σ'.totalWTA = σ.totalWTA + wtaOf (σ.pcb 0) 5) ∧
    (∃ σ σ', run (initSched 3 2) [tickAt 0 [⟨1, 0, 0, 1⟩] false] = some σ ∧
      tick σ (TickInput.uniform 1 [] 100 false) = some σ' ∧ (σ.pcb 0).runtime = 0 ∧
      wtaOf (σ.pcb 0) 1 = Dbl.inf false ∧ σ.totalWTA = 0 ∧
      σ'.totalWTA = σ.totalWTA + wtaOf (σ.pcb 0) 1 ∧ σ'.totalWTA = Dbl.inf false ∧
      σ'.finishedCount = σ.finishedCount + 1) := by
  have hr : run (initSched 1 0) (singleExample.take 6) =
      some ((run (initSched 1 0) (singleExample.take 6)).getD (initSched 1 0)) := by decide
  have ht : tick ((run (initSched 1 0) (singleExample.take 6)).getD (initSched 1 0))
      (TickInput.uniform 5 [] 100 false) =
      some ((tick ((run (initSched 1 0) (singleExample.take 6)).getD (initSched 1 0))
        (TickInput.uniform 5 [] 100 false)).getD (initSched 1 0)) := by decide!
  have hr0 : run (initSched 3 2) [tickAt 0 [⟨1, 0, 0, 1⟩] false] =
      some ((run (initSched 3 2) [tickAt 0 [⟨1, 0, 0, 1⟩] false]).getD (initSched 3 2)) := by
    decide
  have ht0 : tick ((run (initSched 3 2) [tickAt 0 [⟨1, 0, 0, 1⟩] false]).getD (initSched 3 2))
      (TickInput.uniform 1 [] 100 false) =
      some ((tick ((run (initSched 3 2) [tickAt 0 [⟨1, 0, 0, 1⟩] false]).getD (initSched 3 2))
        (TickInput.uniform 1 [] 100 false)).getD (initSched 3 2)) := by decide!
  obtain ⟨_, _, _, htick, _, hwta⟩ := accumulator_frame
  obtain ⟨hrt, _, hfin⟩ := htick 1 0 _ _ _ ⟨_, hr⟩ ht
  obtain ⟨_, _, hfin0⟩ := htick 3 2 _ _ _ ⟨_, hr0⟩ ht0
  have h0 := hfin0 0 (by decide) (by decide)
  have hinf := (hwta (Sched.pcb
    ((run (initSched 3 2) [tickAt 0 [⟨1, 0, 0, 1⟩] false]).getD (initSched 3 2)) 0) 1).2
    (by decide)
  refine ⟨⟨_, _, hr, ht, hrt, (hfin 0 (by decide) (by decide)).2.2.2,
    (hfin 0 (by decide) (by decide)).2.1⟩,
    ⟨_, _, hr0, ht0, by decide, ?_, by decide, h0.2.1, by decide!, h0.2.2.2⟩⟩
  rw [hinf]
  decide

/-! ### C15 -/

theorem Sim.allProcessesArrived {σ : Sched} {v : View} (h : Sim σ v) :
    v.allProcessesArrived = σ.allProcessesArrived := by
  rw [← h.2]
  rfl

theorem step_finishes {a q : Int} {σ σ' : Sched} {e : Event} {i : Nat}
    (h : Reachable a q σ) (hstep : step σ e = some σ') (hi : i < σ.processCount) :
    (σ'.pcb i).state = ProcessState.FINISHED ↔
      (σ.pcb i).state = ProcessState.FINISHED ∨
        ((∃ inp, e = Event.tick inp) ∧ σ.runningProcess = some i ∧
          (σ.pcb i).remainingTime ≤ 0) := by
  obtain ⟨v, hs, hv⟩ := reachable_view h
  obtain ⟨v', hv', hs'⟩ := (sim_step e hs hv).of_some hstep
  have hiv : i < v.processes.length := by rw [hs.processes]; exact hi
  rw [← hs'.pcb, ← hs.pcb, ← hs.running]
  cases e with
  | tick inp =>
    simp only [vStep] at hv'
    split at hv'
    · rw [vTick_finished hv hv' hiv]
      constructor
      · rintro (h1 | h1)
        · exact Or.inl h1
        · exact Or.inr ⟨⟨inp, rfl⟩, h1⟩
      · rintro (h1 | ⟨_, h1⟩)
        · exact Or.inl h1
        · exact Or.inr h1
    · cases hv'
  | notify =>
    simp only [vStep, Option.some.injEq] at hv'
    subst hv'
    rw [vNotify_state]
    constructor
    · exact Or.inl
    · rintro (h1 | ⟨⟨inp, hc⟩, _⟩)
      · exact h1
      · cases hc

/-- C15. In every reachable scheduler state: finishedCount is the number of
PCBs in state FINISHED, which is at most processCount; the finish lines of the
log are as many as the FINISHED PCBs, also when only the lines and PCBs whose
id has a given property are counted (one finish line per finished process);
and the tracked running process, the only PCB `finishProcess` is ever applied
to, is not FINISHED.  A step makes a PCB FINISHED only as the completion check
of a loop iteration applied to the tracked running process with no remaining
time; such an iteration makes that PCB, which was not FINISHED, FINISHED and
advances finishedCount by 1, and in no later state is that PCB the tracked
running process again, so `finishProcess` is applied to it exactly that once.
When the main loop terminates every created PCB is FINISHED, and
finishedCount and the number of finish lines both equal processCount. -/
theorem finished_count (a q : Int) (σ : Sched) (h : Reachable a q σ) :
    σ.finishedCount = (finishedPCBs σ : Int) ∧ finishedPCBs σ ≤ σ.processCount ∧
    σ.finishedCount ≤ (σ.processCount : Int) ∧
    finishLines σ = finishedPCBs σ ∧
    (∀ P : Int → Bool, finishLinesWith P σ.log = finishedWith P σ.processes) ∧
    (∀ r, σ.runningProcess = some r → (σ.pcb r).state ≠ ProcessState.FINISHED) ∧
    (∀ (e : Event) (σ' : Sched) (i : Nat), step σ e = some σ' → i < σ.processCount →
      (σ.pcb i).state ≠ ProcessState.FINISHED → (σ'.pcb i).state = ProcessState.FINISHED →
      (∃ inp, e = Event.tick inp) ∧ σ.runningProcess = some i ∧
        (σ.pcb i).remainingTime ≤ 0) ∧
    (∀ (inp : TickInput) (σ' : Sched) (r : Nat), step σ (Event.tick inp) = some σ' →
      σ.runningProcess = some r → (σ.pcb r).remainingTime ≤ 0 →
      (σ.pcb r).state ≠ ProcessState.FINISHED ∧ (σ'.pcb r).state = ProcessState.FINISHED ∧
      σ'.finishedCount = σ.finishedCount + 1 ∧
      ∀ (es : List Event) (σ'' : Sched), run σ' es = some σ'' →
        σ''.runningProcess ≠ some r ∧ (σ''.pcb r).state = ProcessState.FINISHED) ∧
    (loopCond σ = false →
      (∀ i, i < σ.processCount → (σ.pcb i).state = ProcessState.FINISHED) ∧
      σ.finishedCount = (σ.processCount : Int) ∧ finishLines σ = σ.processCount) := by
  obtain ⟨v, hs, hv, ha⟩ := reachable_acc h
  have hcount : σ.finishedCount = (finishedPCBs σ : Int) := by
    rw [← hs.finishedCount, ha.count, hs.processes]
    rfl
  have hle : finishedPCBs σ ≤ σ.processCount := finishedWith_le _ _
  have hlines : ∀ P : Int → Bool, finishLinesWith P σ.log = finishedWith P σ.processes := by
    intro P
    rw [← hs.log, ← hs.processes]
    exact ha.lines P
  have hlive : ∀ r, σ.runningProcess = some r → (σ.pcb r).state ≠ ProcessState.FINISHED := by
    intro r hr
    rw [← hs.pcb]
    exact ha.running_live r (hs.running.trans hr)
  refine ⟨hcount, hle, ?_, hlines _, hlines, hlive, ?_, ?_, ?_⟩
  · rw [hcount]
    exact_mod_cast hle
  · intro e σ' i hstep hi hnf hf'
    rcases (step_finishes h hstep hi).1 hf' with h1 | h1
    · exact absurd h1 hnf
    · exact h1
  · intro inp σ' r hstep hr hrem
    have hlt : r < σ.processCount := by
      have := hv.running_lt r (hs.running.trans hr)
      rw [hs.processes] at this
      exact this
    have hf' : (σ'.pcb r).state = ProcessState.FINISHED :=
      (step_finishes h hstep hlt).2 (Or.inr ⟨⟨inp, rfl⟩, hr, hrem⟩)
    have htick : tick σ inp = some σ' := by
      simp only [step] at hstep
      split at hstep
      · exact hstep
      · cases hstep
    have hacc := (tick_accumulator h htick).2 r hr hrem
    simp only [Sched.accumulator, Prod.mk.injEq] at hacc
    have hrun1 : run σ [Event.tick inp] = some σ' := by
      simp only [run, hstep]
    have hreach' : Reachable a q σ' := reachable_run h hrun1
    refine ⟨hlive r hr, hf', hacc.2.2.2.2, ?_⟩
    intro es σ'' hrun
    have hlt' : r < σ'.processCount := by
      obtain ⟨v', hsv', hs'⟩ := (sim_step (Event.tick inp) hs hv).of_some hstep
      have := vStep_length hv hsv'
      rw [hs.processes, hs'.processes] at this
      exact lt_of_lt_of_le hlt this
    have hfro := reachable_frozen hreach' hlt' hf' hrun
    have hf'' : (σ''.pcb r).state = ProcessState.FINISHED := by
      rw [hfro]
      exact hf'
    exact ⟨(reachable_finished_idle (reachable_run hreach' hrun) hf'').1, hf''⟩
  · intro hexit
    obtain ⟨_, hempty, hnone⟩ := (loopCond_false_iff hs.1).1 hexit
    have hall : ∀ i, i < σ.processCount → (σ.pcb i).state = ProcessState.FINISHED := by
      intro i hi
      rcases ha.covered i (by rw [hs.processes]; exact hi) with hq | hr | hf
      · rw [hempty] at hq
        cases hq
      · rw [hs.running, hnone] at hr
        cases hr
      · rw [← hs.pcb]
        exact hf
    have hfull : finishedPCBs σ = σ.processCount := finishedWith_all hall
    refine ⟨hall, ?_, ?_⟩
    · rw [hcount, hfull]
    · show finishLinesWith _ σ.log = _
      rw [hlines, ← hfull]
      rfl

/-- Witness for C15: the end of the single-process run, where the loop has
terminated with one PCB, finishedCount 1 and one finish line. -/
theorem finished_count_witness :
    ∃ σ, run (initSched 1 0) singleExample = some σ ∧ loopCond σ = false ∧
      σ.finishedCount = (finishedPCBs σ : Int) ∧ σ.finishedCount = (σ.processCount : Int) ∧
      finishLines σ = σ.processCount := by
  have hr : run (initSched 1 0) singleExample =
      some ((run (initSched 1 0) singleExample).getD (initSched 1 0)) := by decide!
  have hl : loopCond ((run (initSched 1 0) singleExample).getD (initSched 1 0)) = false := by
    decide!
  have hc := finished_count 1 0 _ ⟨singleExample, hr⟩
  exact ⟨_, hr, hl, hc.1, (hc.2.2.2.2.2.2.2.2 hl).2.1, (hc.2.2.2.2.2.2.2.2 hl).2.2⟩

/-! ### C13 -/

theorem cpuUtilization_eq_zero (σ : Sched) :
    cpuUtilization σ = 0 ↔ σ.totalRuntime = 0 ∨ σ.currentTime ≤ 0 := by
  unfold cpuUtilization
  by_cases hc : σ.currentTime > 0
  · rw [if_pos hc]
    obtain ⟨a, ha, _, haz⟩ := ofInt_eq σ.totalRuntime
    obtain ⟨b, hb, _, hbz⟩ := ofInt_eq σ.currentTime
    have hbne : b ≠ 0 := fun h => by
      have := hbz.1 h
      omega
    have hsb : decide (σ.currentTime < 0) = false := by
      simp only [decide_eq_false_iff_not]
      omega
    obtain ⟨d, hd, _, hdz⟩ := round_eq (decide (σ.totalRuntime < 0) != false) (a / b)
    obtain ⟨e, he, _, hez⟩ := round_eq ((decide (σ.totalRuntime < 0) != false) != false)
      (d * 100)
    have hq : ((σ.totalRuntime : Dbl) / (σ.currentTime : Dbl)) * 100 =
        Dbl.fin ((decide (σ.totalRuntime < 0) != false) != false) e := by
      show Dbl.mul (Dbl.div (Dbl.ofInt σ.totalRuntime) (Dbl.ofInt σ.currentTime)) 100 = _
      rw [ha, hb, hsb, dbl_hundred]
      simp only [Dbl.div, if_neg hbne, hd, Dbl.mul, he]
    rw [hq, dbl_zero]
    have hiff : e = 0 ↔ σ.totalRuntime = 0 := by
      rw [hez, ← haz, ← (show a / b = 0 ↔ a = 0 by
        rw [div_eq_zero_iff]
        exact ⟨fun h => h.resolve_right hbne, Or.inl⟩), ← hdz]
      constructor
      · intro h
        rcases mul_eq_zero.1 h with h1 | h1
        · exact h1
        · norm_num at h1
      · intro h
        rw [h, zero_mul]
    constructor
    · intro h
      left
      simp only [Dbl.fin.injEq] at h
      exact hiff.1 h.2
    · rintro (h | h)
      · have he0 := hiff.2 h
        rw [he0, h]
        rfl
      · omega
  · rw [if_neg hc]
    exact ⟨fun _ => Or.inr (by omega), fun _ => rfl⟩

theorem exit_totalRuntime {a q : Int} {σ : Sched} (h : Reachable a q σ)
    (hexit : loopCond σ = false) (h0 : σ.finishedCount = 0) :
    σ.processCount = 0 ∧ σ.totalRuntime = 0 := by
  obtain ⟨v, hs, _, ha⟩ := reachable_acc h
  obtain ⟨_, hempty, hnone⟩ := (loopCond_false_iff hs.1).1 hexit
  have hall : ∀ i, i < v.processes.length → (pcbAt v.processes i).state =
      ProcessState.FINISHED := by
    intro i hi
    rcases ha.covered i hi with hq | hr | hf
    · rw [hempty] at hq
      cases hq
    · rw [hs.running, hnone] at hr
      cases hr
    · exact hf
  have hc := ha.count
  rw [finishedWith_all hall, hs.finishedCount, h0] at hc
  have hlen : v.processes.length = 0 := by exact_mod_cast hc.symm
  have hnil : v.processes = [] := List.length_eq_zero.1 hlen
  refine ⟨by rw [Sched.processCount, ← hs.processes]; exact hlen, ?_⟩
  rw [← hs.totalRuntime, ha.runtime, hnil]
  rfl

/-- C13 as stated fails for CPU utilization, which does not depend on
finishedCount: in the state after one iteration at clock value 1 that
ingested a process of runtime 5, finishedCount is 0, totalRuntime is 5 and the
elapsed time is 1, and the summary has CPU utilization 500. -/
theorem metrics_zero_counterexample :
    ∃ σ, run (initSched 1 0) [tickAt 1 [⟨1, 1, 5, 1⟩] false] = some σ ∧
      σ.finishedCount = 0 ∧ σ.totalRuntime = 5 ∧ σ.currentTime = 1 ∧
      writePerformanceMetrics sqrtQ true σ = some ⟨500, 0, 0, 0⟩ :=
  ⟨(run (initSched 1 0) [tickAt 1 [⟨1, 1, 5, 1⟩] false]).getD (initSched 1 0),
    by decide, by decide, by decide, by decide, by decide!⟩

/-- C13, amended.  For every scheduler state with finishedCount = 0 the
summary of `writePerformanceMetrics` has average weighted turnaround 0,
average waiting time 0 and standard deviation `sqrt 0` (0 for a `sqrt` with
`sqrt 0 = 0`), the variance handed to `sqrt` being 0; its CPU utilization is
(totalRuntime / currentTime) × 100 when currentTime > 0 and 0 otherwise,
whatever finishedCount is, so it is 0 exactly when totalRuntime = 0 or
currentTime ≤ 0.  That is the case in every state in which the main loop
terminates with finishedCount = 0 (no PCB was created), where all four
metrics are 0.  Whenever finishedCount > 0 the two averages are
totalWTA / finishedCount and totalWaitingTime / finishedCount. -/
theorem metrics_zero_case (sqrt : Dbl → Dbl) (σ : Sched) :
    (σ.finishedCount = 0 →
      avgWTA σ = 0 ∧ avgWaiting σ = 0 ∧ variance σ = 0 ∧
      writePerformanceMetrics sqrt true σ = some ⟨cpuUtilization σ, 0, 0, sqrt 0⟩ ∧
      (sqrt 0 = 0 → (σ.totalRuntime = 0 ∨ σ.currentTime ≤ 0) →
        writePerformanceMetrics sqrt true σ = some ⟨0, 0, 0, 0⟩)) ∧
    (cpuUtilization σ = 0 ↔ σ.totalRuntime = 0 ∨ σ.currentTime ≤ 0) ∧
    (0 < σ.currentTime →
      cpuUtilization σ = (σ.totalRuntime : Dbl) / (σ.currentTime : Dbl) * 100) ∧
    (∀ a q : Int, Reachable a q σ → loopCond σ = false → σ.finishedCount = 0 →
      sqrt 0 = 0 → writePerformanceMetrics sqrt true σ = some ⟨0, 0, 0, 0⟩) ∧
    (0 < σ.finishedCount →
      avgWTA σ = σ.totalWTA / (σ.finishedCount : Dbl) ∧
      avgWaiting σ = (σ.totalWaitingTime : Dbl) / (σ.finishedCount : Dbl) ∧
      (writePerformanceMetrics sqrt true σ).map Summary.avgWTA =
        some (σ.totalWTA / (σ.finishedCount : Dbl)) ∧
      (writePerformanceMetrics sqrt true σ).map Summary.avgWaiting =
        some ((σ.totalWaitingTime : Dbl) / (σ.finishedCount : Dbl))) := by
  have hzero : σ.finishedCount = 0 →
      avgWTA σ = 0 ∧ avgWaiting σ = 0 ∧ variance σ = 0 ∧
      writePerformanceMetrics sqrt true σ = some ⟨cpuUtilization σ, 0, 0, sqrt 0⟩ := by
    intro h0
    have h1 : avgWTA σ = 0 := by
      unfold avgWTA
      rw [if_neg (by omega)]
    have h2 : avgWaiting σ = 0 := by
      unfold avgWaiting
      rw [if_neg (by omega)]
    have h3 : variance σ = 0 := by
      unfold variance
      rw [if_neg (by omega)]
    refine ⟨h1, h2, h3, ?_⟩
    simp only [writePerformanceMetrics, if_true, h1, h2, h3]
  have hall : σ.finishedCount = 0 → sqrt 0 = 0 → (σ.totalRuntime = 0 ∨ σ.currentTime ≤ 0) →
      writePerformanceMetrics sqrt true σ = some ⟨0, 0, 0, 0⟩ := by
    intro h0 hs hc
    rw [(hzero h0).2.2.2, hs, (cpuUtilization_eq_zero σ).2 hc]
  refine ⟨?_, cpuUtilization_eq_zero σ, ?_, ?_, ?_⟩
  · intro h0
    obtain ⟨h1, h2, h3, h4⟩ := hzero h0
    exact ⟨h1, h2, h3, h4, hall h0⟩
  · intro hc
    unfold cpuUtilization
    rw [if_pos hc]
  · intro a q hreach hexit h0 hs
    exact hall h0 hs (Or.inl (exit_totalRuntime hreach hexit h0).2)
  · intro hpos
    have h1 : avgWTA σ = σ.totalWTA / (σ.finishedCount : Dbl) := by
      unfold avgWTA
      rw [if_pos hpos]
    have h2 : avgWaiting σ = (σ.totalWaitingTime : Dbl) / (σ.finishedCount : Dbl) := by
      unfold avgWaiting
      rw [if_pos hpos]
    refine ⟨h1, h2, ?_, ?_⟩
    · simp only [writePerformanceMetrics, if_true, Option.map_some', h1]
    · simp only [writePerformanceMetrics, if_true, Option.map_some', h2]

/-- Witness for the amended C13: the initial state, in which the loop has not
run and nothing was finished, and the end of the single-process run, where
finishedCount is 1. -/
theorem metrics_zero_case_witness :
    writePerformanceMetrics sqrtQ true (initSched 1 0) = some ⟨0, 0, 0, 0⟩ ∧
    ∃ σ, run (initSched 1 0) singleExample = some σ ∧
      avgWTA σ = σ.totalWTA / (σ.finishedCount : Dbl) := by
  have hr : run (initSched 1 0) singleExample =
      some ((run (initSched 1 0) singleExample).getD (initSched 1 0)) := by decide!
  refine ⟨((metrics_zero_case sqrtQ (initSched 1 0)).1 rfl).2.2.2.2 (by decide!)
    (Or.inl rfl), _, hr, ?_⟩
  exact ((metrics_zero_case sqrtQ _).2.2.2.2 (by decide!)).1

/-! ### C16 -/

/-- C16 as stated fails: `main` of scheduler.c checks neither the algorithm
code nor the quantum.  Launched with algorithm 7, or with round robin and
quantum 0 or -2, and an openable log file, it reaches its main loop, whose
condition holds, and executes an iteration; under algorithm 7 an arrived
process is queued and never dispatched. -/
theorem startup_counterexample :
    schedulerStartup [7, 0, 5] true = Startup.loop (initSched 7 0) ∧
    loopCond (initSched 7 0) = true ∧
    (∃ σ, run (initSched 7 0) [tickAt 0 [⟨1, 0, 5, 1⟩] false, tickAt 1 [] false] = some σ ∧
      σ.runningProcess = none ∧ IsQueue σ.heap σ.readyQueue [0] ∧ σ.log = []) ∧
    schedulerStartup [3, 0, 5] true = Startup.loop (initSched 3 0) ∧
    schedulerStartup [3, -2, 5] true = Startup.loop (initSched 3 (-2)) ∧
    loopCond (initSched 3 0) = true ∧
    (∃ σ, step (initSched 3 0) (tickAt 0 [⟨1, 0, 5, 1⟩] false) = some σ ∧
      σ.runningProcess = some 0) := by
  refine ⟨by decide, by decide, ?_, by decide, by decide, by decide, ?_⟩
  · exact ⟨(run (initSched 7 0)
      [tickAt 0 [⟨1, 0, 5, 1⟩] false, tickAt 1 [] false]).getD (initSched 7 0),
      by decide, by decide, ⟨[(0, 0)], by decide, rfl⟩, by decide⟩
  · exact ⟨(step (initSched 3 0) (tickAt 0 [⟨1, 0, 5, 1⟩] false)).getD (initSched 3 0),
      by decide, by decide⟩

theorem tick_init_idle (a q : Int) (inp : TickInput) (h : inp.arrivals = []) :
    step (initSched a q) (Event.tick inp) =
      some (endPhase { initSched a q with currentTime := inp.clk } inp) := by
  have h1 : loopCond (initSched a q) = true := rfl
  have h2 : ∀ σ : Sched, σ.runningProcess = none → rrPhase σ inp = some σ := by
    intro σ hr
    unfold rrPhase
    split
    · rw [hr]
    · rfl
  simp only [step, h1, if_true, tick, h, receiveProcesses]
  have h3 : finishPhase { initSched a q with currentTime := inp.clk } inp =
      some { initSched a q with currentTime := inp.clk } := rfl
  rw [h3]
  simp only
  rw [h2 _ rfl]
  have h4 : dispatchPhase { initSched a q with currentTime := inp.clk } inp =
      some { initSched a q with currentTime := inp.clk } := rfl
  simp only [h4]
  unfold endPhase
  split <;> rfl

/-- C16, amended.  A configuration whose algorithm code is not 1, 2 or 3, or
which selects round robin with a quantum ≤ 0, is rejected by the process
generator: its `main` returns -1 before it creates the message queue, the
clock or the scheduler, so every configuration it passes to the scheduler has
an algorithm code in 1..3 and, under round robin, a quantum > 0.  The
scheduler itself checks neither value: it leaves its startup code with status
-1 exactly when it has fewer than three arguments or cannot open its log file,
and otherwise reaches the main loop with the algorithm and quantum given,
whatever they are, with the loop condition true, and executes an
iteration. -/
theorem startup_validation :
    (∀ processCount algorithm quantum : Int,
      algorithm < 1 ∨ 3 < algorithm ∨ (algorithm = 3 ∧ quantum ≤ 0) →
      generatorConfig processCount algorithm quantum = none) ∧
    (∀ (processCount algorithm quantum : Int) (cfg : Int × Int),
      generatorConfig processCount algorithm quantum = some cfg →
      cfg.1 = algorithm ∧ (cfg.1 = 1 ∨ cfg.1 = 2 ∨ cfg.1 = 3) ∧ (cfg.1 = 3 → 0 < cfg.2)) ∧
    (∀ (args : List Int) (logOpens : Bool),
      schedulerStartup args logOpens = Startup.exit (-1) ↔
        args.length < 3 ∨ logOpens = false) ∧
    (∀ (algorithm quantum msgqid : Int) (rest : List Int),
      schedulerStartup (algorithm :: quantum :: msgqid :: rest) true =
        Startup.loop (initSched algorithm quantum) ∧
      loopCond (initSched algorithm quantum) = true ∧
      ∀ inp : TickInput, inp.arrivals = [] →
        ∃ σ, step (initSched algorithm quantum) (Event.tick inp) = some σ) := by
  refine ⟨?_, ?_, ?_, ?_⟩
  · intro pc a qi h
    unfold generatorConfig
    split
    · rfl
    · split
      · rfl
      · rename_i hr
        split
        · rename_i h3
          rw [if_pos (by omega)]
        · omega
  · intro pc a qi cfg h
    unfold generatorConfig at h
    split at h
    · cases h
    · split at h
      · cases h
      · rename_i hr
        split at h
        · split at h
          · cases h
          · simp only [Option.some.injEq] at h
            subst h
            exact ⟨rfl, by simp only; omega, fun _ => by simp only; omega⟩
        · simp only [Option.some.injEq] at h
          subst h
          refine ⟨rfl, by simp only; omega, fun h3 => ?_⟩
          simp only at h3
          omega
  · intro args logOpens
    unfold schedulerStartup
    split
    · rename_i a q m rest
      cases logOpens <;> simp
    · rename_i hne
      constructor
      · intro _
        left
        match args, hne with
        | [], _ => simp
        | [_], _ => simp
        | [_, _], _ => simp
        | a :: b :: c :: r, hne => exact absurd rfl (hne a b c r)
      · intro _
        rfl
  · intro a q m rest
    refine ⟨rfl, rfl, fun inp h => ⟨_, tick_init_idle a q inp h⟩⟩

/-- Witness for the amended C16: the generator rejects algorithm 7 and round
robin with quantum 0, accepts round robin with quantum 2, and the scheduler
launched with that configuration reaches its loop. -/
theorem startup_validation_witness :
    generatorConfig 2 7 0 = none ∧ generatorConfig 2 3 0 = none ∧
    generatorConfig 2 3 2 = some (3, 2) ∧
    schedulerStartup [3, 2, 5] true = Startup.loop (initSched 3 2) ∧
    ∃ σ, step (initSched 3 2) (Event.tick (TickInput.uniform 0 [] 100 false)) = some σ :=
  ⟨startup_validation.1 2 7 0 (Or.inr (Or.inl (by decide))),
    startup_validation.1 2 3 0 (Or.inr (Or.inr ⟨rfl, by decide⟩)),
    by decide, (startup_validation.2.2.2 3 2 5 []).1,
    (startup_validation.2.2.2 3 2 5 []).2.2 _ rfl⟩

/-! ### C11 -/

theorem vRRPhase_not_running {v : View} {p : Nat} (inp : TickInput)
    (hr : v.runningProcess = some p) (hst : (v.pcb p).state ≠ ProcessState.RUNNING) :
    vRRPhase v inp = v := by
  unfold vRRPhase
  split
  · simp only [hr]
    rw [if_neg hst]
  · rfl

theorem vTick_stuck {v : View} {p : Nat} {inp : TickInput} (hv : VInv v)
    (hr : v.runningProcess = some p) (hst : (v.pcb p).state = ProcessState.READY)
    (hrem : 0 < (v.pcb p).remainingTime)
    (hcap : v.processes.length + inp.arrivals.length ≤ MAX_PROCESSES) :
    ∃ v', vTick v inp = some v' ∧ v'.runningProcess = some p ∧ v'.pcb p = v.pcb p ∧
      v'.log = v.log ∧
      v'.processes.length = v.processes.length + inp.arrivals.length := by
  obtain ⟨v1, h1⟩ := vReceive_isSome (v := { v with currentTime := inp.clk }) hcap
  obtain ⟨_, _, _, r1, l1⟩ := vReceive_fields h1
  have hp : p < v.processes.length := hv.running_lt p hr
  have hpcb : v1.pcb p = v.pcb p := vReceive_pcb h1 hp
  have hr1 : v1.runningProcess = some p := r1.trans hr
  have hfin : vFinishPhase v1 inp = v1 := vFinishPhase_idle inp hr1 (hpcb ▸ hrem)
  have hrr : vRRPhase v1 inp = v1 :=
    vRRPhase_not_running inp hr1 (by rw [hpcb, hst]; decide)
  have hd : vDispatchPhase v1 inp = some v1 := vDispatchPhase_busy inp hr1
  have htick : vTick v inp = some (vAccruePhase (vEndPhase v1 inp)) := by
    simp only [vTick, h1, hfin, hrr, hd]
  have hv0 : VInv { v with currentTime := inp.clk } := hv.congr rfl rfl rfl (fun _ => rfl)
  have hv1 := vInv_receive hv0 h1
  obtain ⟨_, _, _, r5, _, l5⟩ := vAccrue_end_fields v1 inp
  have hpc := vAccrue_end_pcb inp hv1 p
  rw [if_neg (hv1.running_not_queued p hr1)] at hpc
  refine ⟨_, htick, r5.trans hr1, hpc.trans hpcb, ?_, ?_⟩
  · have e1 : (vAccruePhase (vEndPhase v1 inp)).log = v1.log := by
      unfold vAccruePhase vEndPhase
      split <;> rfl
    rw [e1, vReceive_eq h1]
  · rw [l5]
    exact l1

theorem vRun_stuck {p : Nat} (cs : List (Int × Int × Bool)) :
    ∀ {v : View}, VInv v → v.runningProcess = some p →
      (v.pcb p).state = ProcessState.READY → 0 < (v.pcb p).remainingTime →
      ∃ v', vRun v (cs.map quietTick) = some v' ∧ v'.runningProcess = some p ∧
        v'.pcb p = v.pcb p ∧ v'.log = v.log ∧ v'.processes.length = v.processes.length := by
  induction cs with
  | nil =>
    intro v _ hr _ _
    exact ⟨v, rfl, hr, rfl, rfl, rfl⟩
  | cons c cs ih =>
    intro v hv hr hst hrem
    obtain ⟨v1, htick, hr1, hp1, hl1, hn1⟩ :=
      @vTick_stuck v p (TickInput.uniform c.1 [] c.2.1 c.2.2) hv hr hst hrem (by
        show v.processes.length + 0 ≤ _
        exact hv.capacity)
    have hv1 := vInv_tick hv htick
    obtain ⟨v', hrun, hr', hp', hl', hn'⟩ :=
      ih hv1 hr1 (by rw [hp1]; exact hst) (by rw [hp1]; exact hrem)
    have hloop : vLoopCond v = true := by simp [vLoopCond, hr]
    refine ⟨v', ?_, hr', hp'.trans hp1, hl'.trans hl1, hn'.trans hn1⟩
    simp only [List.map_cons, vRun, quietTick, vStep, hloop, if_true, htick]
    exact hrun

/-- C11 fails on the code.  Under the priority policy one process (runtime 5)
arrives at tick 0 and `fork()` returns -1 when `startProcess` tries to spawn
its worker.  After that iteration the CPU is not idle: `runningProcess`
points to the PCB, which was removed from the ready queue (now empty) and is
still READY, never started, without a worker (pid -1); nothing was logged.
From then on, whatever the clock values, whatever `fork()` would return and
whether or not the end-of-stream message comes, every further iteration
without arrivals leaves all of this as it is: the dispatch condition of line
154 is false, so the spawn is never retried, no line is ever logged, and the
loop condition stays true, so the run never completes. -/
theorem spawn_failure_stuck :
    ∃ σ, run (initSched 1 0)
        [Event.tick (TickInput.uniform 0 [⟨1, 0, 5, 1⟩] (-1) false)] = some σ ∧
      σ.runningProcess = some 0 ∧ IsQueue σ.heap σ.readyQueue [] ∧
      (σ.pcb 0).state = ProcessState.READY ∧ (σ.pcb 0).started = false ∧
      (σ.pcb 0).pid = -1 ∧ (σ.pcb 0).remainingTime = 5 ∧ σ.log = [] ∧
      ∀ cs : List (Int × Int × Bool), ∃ σ', run σ (cs.map quietTick) = some σ' ∧
        σ'.runningProcess = some 0 ∧
        ¬ (σ'.runningProcess = none ∧ isEmpty σ'.readyQueue = false) ∧
        σ'.pcb 0 = σ.pcb 0 ∧ σ'.log = [] ∧ σ'.processCount = 1 ∧ loopCond σ' = true := by
  have hr : run (initSched 1 0)
      [Event.tick (TickInput.uniform 0 [⟨1, 0, 5, 1⟩] (-1) false)] =
      some ((run (initSched 1 0)
        [Event.tick (TickInput.uniform 0 [⟨1, 0, 5, 1⟩] (-1) false)]).getD (initSched 1 0)) := by
    decide
  refine ⟨_, hr, by decide, ⟨[], by decide, rfl⟩, by decide, by decide, by decide, by decide,
    by decide, ?_⟩
  intro cs
  obtain ⟨v, hvrun, hs, hv⟩ := run_view hr
  have hvr : v.runningProcess = some 0 := by rw [hs.running]; decide
  have hvst : (v.pcb 0).state = ProcessState.READY := by rw [hs.pcb]; decide
  have hvrem : 0 < (v.pcb 0).remainingTime := by rw [hs.pcb]; decide
  obtain ⟨v', hrun', hr', hp', hl', hn'⟩ := vRun_stuck cs hv hvr hvst hvrem
  obtain ⟨σ', hσrun, hs'⟩ := (sim_run _ hs hv).of_view_some hrun'
  have hσr : σ'.runningProcess = some 0 := hs'.running ▸ hr'
  refine ⟨σ', hσrun, hσr, ?_, ?_, ?_, ?_, loopCond_running hσr⟩
  · rw [hσr]
    rintro ⟨hc, _⟩
    cases hc
  · rw [← hs'.pcb, hp', hs.pcb]
  · rw [← hs'.log, hl', hs.log]
    decide
  · rw [Sched.processCount, ← hs'.processes, hn', hs.processes]
    decide

/-! ### C21 -/

theorem applyOp_wf {h : Heap} {q : Queue} {l : List (Nat × Nat)} (hw : WF h q l)
    (op : QueueOp) :
    ∃ h' q' l', applyOp h q op = some (h', q') ∧ WF h' q' l' ∧
      l'.map Prod.snd = opEntries (l.map Prod.snd) op := by
  cases op with
  | enqueue pcb =>
    obtain ⟨h', q', he, hw', _⟩ := enqueue_wf hw pcb
    refine ⟨h', q', _, he, hw', ?_⟩
    simp [opEntries]
  | dequeue =>
    cases l with
    | nil =>
      refine ⟨h, q, [], ?_, hw, rfl⟩
      simp only [applyOp, dequeue_wf_nil hw, Option.map_some']
    | cons n rest =>
      obtain ⟨a, x⟩ := n
      obtain ⟨q', hd, hw', _⟩ := dequeue_wf_cons hw
      refine ⟨h.free a, q', rest, ?_, hw', ?_⟩
      · simp only [applyOp, hd, Option.map_some']
      · simp [opEntries]
  | removeFromQueue pcb =>
    obtain ⟨h', q', hr, hw', _⟩ := removeFromQueue_wf hw pcb
    exact ⟨h', q', _, hr, hw', eraseNode_map pcb l⟩

theorem applyOps_wf (ops : List QueueOp) :
    ∀ {h : Heap} {q : Queue} {l : List (Nat × Nat)}, WF h q l →
      ∃ h' q' l', applyOps h q ops = some (h', q') ∧ WF h' q' l' ∧
        l'.map Prod.snd = ops.foldl opEntries (l.map Prod.snd) := by
  induction ops with
  | nil =>
    intro h q l hw
    exact ⟨h, q, l, rfl, hw, rfl⟩
  | cons op ops ih =>
    intro h q l hw
    obtain ⟨h1, q1, l1, h1eq, hw1, hl1⟩ := applyOp_wf hw op
    obtain ⟨h', q', l', heq, hw', hl'⟩ := ih hw1
    refine ⟨h', q', l', ?_, hw', ?_⟩
    · simp only [applyOps, h1eq]
      exact heq
    · rw [hl', hl1]
      rfl

theorem wf_head_none {h : Heap} {q : Queue} {l : List (Nat × Nat)} (hw : WF h q l) :
    q.head = none ↔ l = [] := by
  cases l with
  | nil => exact ⟨fun _ => rfl, fun _ => hw.1⟩
  | cons n rest =>
    have := hw.1.1
    constructor
    · intro h0
      rw [h0] at this
      cases this
    · intro h0
      cases h0

theorem wf_tail_none {h : Heap} {q : Queue} {l : List (Nat × Nat)} (hw : WF h q l) :
    q.tail = none ↔ l = [] := by
  rw [hw.2.1]
  cases hl : l.getLast? with
  | none =>
    simp only [Option.map_none', true_iff]
    exact List.getLast?_eq_none_iff.1 hl
  | some x =>
    simp only [Option.map_some']
    constructor
    · intro h0
      cases h0
    · intro h0
      rw [h0] at hl
      cases hl

theorem wf_size_zero {h : Heap} {q : Queue} {l : List (Nat × Nat)} (hw : WF h q l) :
    q.size = 0 ↔ l = [] := by
  rw [hw.2.2]
  constructor
  · intro h0
    exact List.length_eq_zero.1 (by exact_mod_cast h0)
  · intro h0
    rw [h0]
    rfl

theorem wf_tail_last {h : Heap} {q : Queue} {l : List (Nat × Nat)} (hw : WF h q l)
    {t : Nat} (ht : q.tail = some t) :
    ∃ pre x node, l = pre ++ [(t, x)] ∧ h.read t = some node ∧ node.pcb = x ∧
      node.next = none := by
  rw [hw.2.1] at ht
  cases hl : l.getLast? with
  | none =>
    rw [hl] at ht
    cases ht
  | some n =>
    rw [hl] at ht
    simp only [Option.map_some', Option.some.injEq] at ht
    obtain ⟨pre, hpre⟩ : ∃ pre, l = pre ++ [n] := by
      rcases List.eq_nil_or_concat l with h0 | ⟨pre, b, h0⟩
      · rw [h0] at hl
        cases hl
      · refine ⟨pre, ?_⟩
        rw [h0, List.concat_eq_append] at hl ⊢
        have e : (pre ++ [b]).getLast? = some b := by simp
        rw [e] at hl
        rw [Option.some.inj hl]
    have hc := hw.1
    rw [hpre] at hc
    obtain ⟨_, hx, hnext⟩ := chain_suffix hc
    have hn : n = (t, n.2) := Prod.ext ht rfl
    cases hr : h.read n.1 with
    | none =>
      rw [hr] at hx
      cases hx
    | some node =>
      rw [hr] at hx hnext
      simp only [Option.map_some', Option.some.injEq] at hx
      refine ⟨pre, n.2, node, by rw [hpre, ← hn], ?_, hx, hnext⟩
      rw [← ht]
      exact hr

/-- C21. Starting from `initQueue`, in any heap, every sequence of `enqueue`,
`dequeue` and `removeFromQueue` calls has a result, a heap and a queue header
that are well formed: the nodes linked from `head` up to `NULL` form a list
`l` whose PCB pointers are the entries the calls produce on a sequence
(append, drop the first, erase the first occurrence); `head` is `NULL` iff
`tail` is `NULL` iff `size` is 0 iff there is no node; `tail`, when not
`NULL`, is the last node of `l` and its `next` is `NULL`; `size` is the number
of nodes; `isEmpty` holds iff `head` is `NULL`.  From such a queue with
entries `s` followed by a last entry `x` that does not occur in `s`,
removing `x` leaves a well-formed queue with entries `s`, and enqueueing `y`
afterwards gives the entries `s` followed by `y`. -/
theorem queue_representation (h0 : Heap) (ops : List QueueOp) :
    ∃ h q l, applyOps h0 initQueue ops = some (h, q) ∧ WF h q l ∧
      Chain h q.head l ∧ l.map Prod.snd = ops.foldl opEntries [] ∧
      IsQueue h q (ops.foldl opEntries []) ∧
      (q.head = none ↔ q.tail = none) ∧ (q.tail = none ↔ q.size = 0) ∧
      (q.size = 0 ↔ l = []) ∧ q.size = l.length ∧
      (∀ t, q.tail = some t → ∃ pre x node, l = pre ++ [(t, x)] ∧
        h.read t = some node ∧ node.pcb = x ∧ node.next = none) ∧
      (isEmpty q = true ↔ q.head = none) ∧
      (∀ (s : List Nat) (x y : Nat), ops.foldl opEntries [] = s ++ [x] → x ∉ s →
        ∃ h1 q1 h2 q2, removeFromQueue h q x = some (h1, q1) ∧ IsQueue h1 q1 s ∧
          enqueue h1 q1 y = some (h2, q2) ∧ IsQueue h2 q2 (s ++ [y])) := by
  obtain ⟨h, q, l, hrun, hw, hl⟩ := applyOps_wf ops ((wf_nil_iff (h := h0)).2 rfl)
  have hq : IsQueue h q (ops.foldl opEntries []) := ⟨l, hw, hl⟩
  refine ⟨h, q, l, hrun, hw, hw.1, hl, hq, ?_, ?_, wf_size_zero hw, hw.2.2,
    fun t ht => wf_tail_last hw ht, ?_, ?_⟩
  · rw [wf_head_none hw, wf_tail_none hw]
  · rw [wf_tail_none hw, wf_size_zero hw]
  · rw [wf_isEmpty hw, wf_head_none hw]
  · intro s x y hs hx
    rw [hs] at hq
    obtain ⟨h1, q1, hrem, hq1, _⟩ := isQueue_remove hq x
    have he : (s ++ [x]).erase x = s := by
      rw [List.erase_append_right _ hx]
      simp
    rw [he] at hq1
    obtain ⟨h2, q2, henq, hq2⟩ := isQueue_enqueue hq1 y
    exact ⟨h1, q1, h2, q2, hrem, hq1, henq, hq2⟩

/-- Witness for C21: from the empty heap, enqueue 7, 8 and 9; the queue has
size 3, and removing the tail entry 9 and then enqueueing 5 gives the entries
7, 8, 5. -/
theorem queue_representation_witness :
    ∃ h q, applyOps ⟨[]⟩ initQueue
        [QueueOp.enqueue 7, QueueOp.enqueue 8, QueueOp.enqueue 9] = some (h, q) ∧
      IsQueue h q [7, 8, 9] ∧ q.size = 3 ∧
      ∃ h1 q1 h2 q2, removeFromQueue h q 9 = some (h1, q1) ∧ IsQueue h1 q1 [7, 8] ∧
        enqueue h1 q1 5 = some (h2, q2) ∧ IsQueue h2 q2 [7, 8, 5] := by
  obtain ⟨h, q, l, hrun, hw, _, hl, hq, _, _, _, hsize, _, _, hre⟩ :=
    queue_representation ⟨[]⟩ [QueueOp.enqueue 7, QueueOp.enqueue 8, QueueOp.enqueue 9]
  have hlen : l.length = 3 := by
    have := congrArg List.length hl
    rw [List.length_map] at this
    exact this
  refine ⟨h, q, hrun, hq, ?_, hre [7, 8] 9 5 rfl (by decide)⟩
  rw [hsize, hlen]
  rfl

end OSProject
